import Mathlib

/-!
# FIFO lot matching of `analysis/pnl.go`

A shallow embedding of `computeFIFOPnL` and `computeCostBasisFromTrades`
(package `analysis`) together with the part of `flex.Trade` they read.

* `float64` amounts are exact rationals (`ℚ`) in `stepFIFO`, `runFIFO` and
  `computeFIFOPnL`: every statement about them is about the arithmetic "taken
  exactly".  `stepFIFO64`, `runFIFO64` and `computeFIFOPnL64` are the same pass
  with every operation rounded to binary64 (`round64`); what the exact reading
  misses is shown on them.
* A Go `map[string]V` is an association list with unique keys; a read of a
  missing key yields the zero value, a write replaces or appends the entry.
* A Go string is a sequence of bytes: it is the `String` with one character
  per byte (`goBytes`).
* `sort.Slice` belongs to the Go standard library.  Namespace `sort` embeds it
  (`zsortfunc.go`, pattern-defeating quicksort), and `sortByDateTime` is the
  call of the two entry points.  The entry points take the sort as a parameter
  `sortSlice`; theorems that need of it only its contract `SortsByDateTime` (a
  permutation ordered by the `less` function) hold for `sortByDateTime` by
  `sortByDateTime_sorts`.  `insertionSortByDateTime` is the stable sort, and
  `sortByDateTime` is equal to it on at most 12 trades
  (`sortByDateTime_eq_insertionSort`).
-/

namespace flex

/-- The fields of `flex.Trade` read by package `analysis`. -/
structure Trade where
  Symbol : String
  TradeDate : String
  DateTime : String
  Quantity : ℚ
  Proceeds : ℚ
  Commission : ℚ
  OpenCloseInd : String
  TransactionType : String
deriving DecidableEq

/-- The field of `flex.FlexStatement` read by `computeCostBasisFromTrades`. -/
structure FlexStatement where
  Trades : List Trade

end flex

namespace analysis

open flex

/-- One open batch of a position (`fifoLot`). -/
structure fifoLot where
  qty : ℚ
  unitCost : ℚ
  isShort : Bool
deriving DecidableEq

/-- The quantity tolerance `1e-9` used by every comparison of the matching loops. -/
def eps : ℚ := 1 / 1000000000

/-- A Go `map[string]V`: association list, first entry of a key wins. -/
abbrev GoMap (V : Type) := List (String × V)

/-- Map read `m[k]` with the comma-ok result. -/
def mapGet? {V : Type} (m : GoMap V) (k : String) : Option V :=
  match m with
  | [] => none
  | (k', v) :: rest => if k' = k then some v else mapGet? rest k

/-- Map write `m[k] = v`. -/
def mapSet {V : Type} (m : GoMap V) (k : String) (v : V) : GoMap V :=
  match m with
  | [] => [(k, v)]
  | (k', v') :: rest => if k' = k then (k, v) :: rest else (k', v') :: mapSet rest k v

/-- The read `openLots[sym]`: a missing key reads as the empty slice. -/
def lotsOf (openLots : GoMap (List fifoLot)) (sym : String) : List fifoLot :=
  (mapGet? openLots sym).getD []

/-- The read `pnl[sym]`: a missing key reads as `0`. -/
def pnlOf (pnl : GoMap ℚ) (sym : String) : ℚ :=
  (mapGet? pnl sym).getD 0

/-- The write `pnl[sym] = v` performed only when the loop body ran (`acc` is
`none` while the key has not been written by the loop and was absent before). -/
def writeBack (pnl : GoMap ℚ) (sym : String) (acc : Option ℚ) : GoMap ℚ :=
  match acc with
  | none => pnl
  | some v => mapSet pnl sym v

/-- The expiration loop of `computeFIFOPnL` (lines 63-76) on the slice
`openLots[sym]`, the counter `remaining` and the accumulator `pnl[sym]`.
Returns the slice, the counter and the accumulator at loop exit. -/
def expireLoop (lots : List fifoLot) (remaining : ℚ) (acc : Option ℚ) :
    List fifoLot × ℚ × Option ℚ :=
  match lots with
  | [] => ([], remaining, acc)
  | l :: rest =>
    if hr : remaining > eps then
      let m := min l.qty remaining
      let acc' : Option ℚ :=
        if l.isShort then some (acc.getD 0 + m * l.unitCost)
        else some (acc.getD 0 - m * l.unitCost)
      if hq : l.qty - m < eps then
        expireLoop rest (remaining - m) acc'
      else
        expireLoop ({ l with qty := l.qty - m } :: rest) (remaining - m) acc'
    else (l :: rest, remaining, acc)
termination_by 2 * lots.length + (if remaining > eps then 1 else 0)
decreasing_by
  · simp only [List.length_cons]
    split_ifs <;> omega
  · have hq' : ¬ (l.qty - min l.qty remaining < eps) := hq
    have hm : min l.qty remaining = remaining := by
      rcases le_total l.qty remaining with h | h
      · rw [min_eq_left h] at hq'
        exact absurd (by simp [eps]) hq'
      · exact min_eq_right h
    have h0 : ¬ (remaining - min l.qty remaining > eps) := by
      rw [hm]; simp [eps]
    simp only [List.length_cons, if_neg h0, if_pos hr]
    omega

/-- The buy loop of `computeFIFOPnL` (lines 80-90): closes short lots at the
front.  `costToClosePerUnit` is `(-netCash) / qty`. -/
def buyLoop (netCash qty : ℚ) (lots : List fifoLot) (remaining : ℚ) (acc : Option ℚ) :
    List fifoLot × ℚ × Option ℚ :=
  match lots with
  | [] => ([], remaining, acc)
  | l :: rest =>
    if hr : remaining > eps ∧ l.isShort = true then
      let m := min l.qty remaining
      let costToClosePerUnit := (-netCash) / qty
      let acc' : Option ℚ := some (acc.getD 0 + (m * l.unitCost - m * costToClosePerUnit))
      if hq : l.qty - m < eps then
        buyLoop netCash qty rest (remaining - m) acc'
      else
        buyLoop netCash qty ({ l with qty := l.qty - m } :: rest) (remaining - m) acc'
    else (l :: rest, remaining, acc)
termination_by 2 * lots.length + (if remaining > eps then 1 else 0)
decreasing_by
  · simp only [List.length_cons]
    split_ifs <;> omega
  · have hq' : ¬ (l.qty - min l.qty remaining < eps) := hq
    have hm : min l.qty remaining = remaining := by
      rcases le_total l.qty remaining with h | h
      · rw [min_eq_left h] at hq'
        exact absurd (by simp [eps]) hq'
      · exact min_eq_right h
    have h0 : ¬ (remaining - min l.qty remaining > eps) := by
      rw [hm]; simp [eps]
    simp only [List.length_cons, if_neg h0, if_pos hr.1]
    omega

/-- The sell loop of `computeFIFOPnL` (lines 99-109): closes long lots at the
front.  `proceedsPerUnit` is `netCash / sellQty`. -/
def sellLoop (netCash sellQty : ℚ) (lots : List fifoLot) (remaining : ℚ) (acc : Option ℚ) :
    List fifoLot × ℚ × Option ℚ :=
  match lots with
  | [] => ([], remaining, acc)
  | l :: rest =>
    if hr : remaining > eps ∧ l.isShort = false then
      let m := min l.qty remaining
      let proceedsPerUnit := netCash / sellQty
      let acc' : Option ℚ := some (acc.getD 0 + (m * proceedsPerUnit - m * l.unitCost))
      if hq : l.qty - m < eps then
        sellLoop netCash sellQty rest (remaining - m) acc'
      else
        sellLoop netCash sellQty ({ l with qty := l.qty - m } :: rest) (remaining - m) acc'
    else (l :: rest, remaining, acc)
termination_by 2 * lots.length + (if remaining > eps then 1 else 0)
decreasing_by
  · simp only [List.length_cons]
    split_ifs <;> omega
  · have hq' : ¬ (l.qty - min l.qty remaining < eps) := hq
    have hm : min l.qty remaining = remaining := by
      rcases le_total l.qty remaining with h | h
      · rw [min_eq_left h] at hq'
        exact absurd (by simp [eps]) hq'
      · exact min_eq_right h
    have h0 : ¬ (remaining - min l.qty remaining > eps) := by
      rw [hm]; simp [eps]
    simp only [List.length_cons, if_neg h0, if_pos hr.1]
    omega

/-- The two maps of `computeFIFOPnL`. -/
structure State where
  openLots : GoMap (List fifoLot)
  pnl : GoMap ℚ

/-- The state before the first trade: two empty maps. -/
def State.init : State := ⟨[], []⟩

/-- One iteration of `for _, t := range sorted` in `computeFIFOPnL`.  The
slice `openLots[sym]` is written back at the end of each branch; a key that
holds the empty slice and an absent key read the same everywhere.  The entry
`pnl[sym]` is written only when a loop body ran, as `+=` does in the source. -/
def stepFIFO (s : State) (t : Trade) : State :=
  let sym := t.Symbol
  let qty := t.Quantity
  let netCash := t.Proceeds + t.Commission
  if t.TransactionType = "BookTrade" then
    let closeQty := |qty|
    let r := expireLoop (lotsOf s.openLots sym) closeQty (mapGet? s.pnl sym)
    ⟨mapSet s.openLots sym r.1, writeBack s.pnl sym r.2.2⟩
  else if qty > 0 then
    let r := buyLoop netCash qty (lotsOf s.openLots sym) qty (mapGet? s.pnl sym)
    let lots :=
      if r.2.1 > eps then r.1 ++ [⟨r.2.1, (-netCash) / qty, false⟩] else r.1
    ⟨mapSet s.openLots sym lots, writeBack s.pnl sym r.2.2⟩
  else if qty < 0 then
    let sellQty := -qty
    let r := sellLoop netCash sellQty (lotsOf s.openLots sym) sellQty (mapGet? s.pnl sym)
    let lots :=
      if r.2.1 > eps then r.1 ++ [⟨r.2.1, netCash / sellQty, true⟩] else r.1
    ⟨mapSet s.openLots sym lots, writeBack s.pnl sym r.2.2⟩
  else s

/-- The whole `for` loop of `computeFIFOPnL` over an already ordered slice. -/
def runFIFO (sorted : List Trade) : State :=
  sorted.foldl stepFIFO State.init

/-- The function `computeFIFOPnL`: copy, sort by `DateTime`, match, return `pnl`. -/
def computeFIFOPnL (sortSlice : List Trade → List Trade) (trades : List Trade) : GoMap ℚ :=
  (runFIFO (sortSlice trades)).pnl

/-- The contract of `sort.Slice(sorted, func(i, j) bool { return sorted[i].DateTime <
sorted[j].DateTime })`: the result is a rearrangement of the input in which no
element is `less` than an earlier one. -/
def SortsByDateTime (sortSlice : List Trade → List Trade) : Prop :=
  ∀ l, (sortSlice l).Perm l ∧ (sortSlice l).Pairwise (fun a b => ¬ b.DateTime < a.DateTime)

/-- The stable sort by `DateTime`, as an insertion sort.  It meets
`SortsByDateTime`, and `sort.Slice` returns what it returns on at most 12
trades. -/
def insertionSortByDateTime (l : List Trade) : List Trade :=
  l.insertionSort (fun a b => ¬ b.DateTime < a.DateTime)

/-- The expiration loop of `computeCostBasisFromTrades` (lines 143-151). -/
def cbExpireLoop (lots : List fifoLot) (remaining : ℚ) : List fifoLot × ℚ :=
  match lots with
  | [] => ([], remaining)
  | l :: rest =>
    if hr : remaining > eps then
      let m := min l.qty remaining
      if hq : l.qty - m < eps then
        cbExpireLoop rest (remaining - m)
      else
        cbExpireLoop ({ l with qty := l.qty - m } :: rest) (remaining - m)
    else (l :: rest, remaining)
termination_by 2 * lots.length + (if remaining > eps then 1 else 0)
decreasing_by
  · simp only [List.length_cons]
    split_ifs <;> omega
  · have hq' : ¬ (l.qty - min l.qty remaining < eps) := hq
    have hm : min l.qty remaining = remaining := by
      rcases le_total l.qty remaining with h | h
      · rw [min_eq_left h] at hq'
        exact absurd (by simp [eps]) hq'
      · exact min_eq_right h
    have h0 : ¬ (remaining - min l.qty remaining > eps) := by
      rw [hm]; simp [eps]
    simp only [List.length_cons, if_neg h0, if_pos hr]
    omega

/-- The loops of `computeCostBasisFromTrades` that close lots of one side at
the front: the buy loop (lines 154-162) with `side = true` closes short lots,
the sell loop (lines 170-178) with `side = false` closes long lots. -/
def cbCloseLoop (side : Bool) (lots : List fifoLot) (remaining : ℚ) : List fifoLot × ℚ :=
  match lots with
  | [] => ([], remaining)
  | l :: rest =>
    if hr : remaining > eps ∧ l.isShort = side then
      let m := min l.qty remaining
      if hq : l.qty - m < eps then
        cbCloseLoop side rest (remaining - m)
      else
        cbCloseLoop side ({ l with qty := l.qty - m } :: rest) (remaining - m)
    else (l :: rest, remaining)
termination_by 2 * lots.length + (if remaining > eps then 1 else 0)
decreasing_by
  · simp only [List.length_cons]
    split_ifs <;> omega
  · have hq' : ¬ (l.qty - min l.qty remaining < eps) := hq
    have hm : min l.qty remaining = remaining := by
      rcases le_total l.qty remaining with h | h
      · rw [min_eq_left h] at hq'
        exact absurd (by simp [eps]) hq'
      · exact min_eq_right h
    have h0 : ¬ (remaining - min l.qty remaining > eps) := by
      rw [hm]; simp [eps]
    simp only [List.length_cons, if_neg h0, if_pos hr.1]
    omega

/-- One iteration of `for _, t := range sorted` in `computeCostBasisFromTrades`,
with the same write-back of `openLots[sym]` as in `stepFIFO`. -/
def stepCostBasis (openLots : GoMap (List fifoLot)) (t : Trade) : GoMap (List fifoLot) :=
  let sym := t.Symbol
  let qty := t.Quantity
  let netCash := t.Proceeds + t.Commission
  if t.TransactionType = "BookTrade" then
    let closeQty := |qty|
    let r := cbExpireLoop (lotsOf openLots sym) closeQty
    mapSet openLots sym r.1
  else if qty > 0 then
    let r := cbCloseLoop true (lotsOf openLots sym) qty
    let lots :=
      if r.2 > eps then r.1 ++ [⟨r.2, (-netCash) / qty, false⟩] else r.1
    mapSet openLots sym lots
  else if qty < 0 then
    let sellQty := -qty
    let r := cbCloseLoop false (lotsOf openLots sym) sellQty
    let lots :=
      if r.2 > eps then r.1 ++ [⟨r.2, netCash / sellQty, true⟩] else r.1
    mapSet openLots sym lots
  else openLots

/-- The matching pass of `computeCostBasisFromTrades` over an ordered slice. -/
def runCostBasis (sorted : List Trade) : GoMap (List fifoLot) :=
  sorted.foldl stepCostBasis []

/-- The inner loop of lines 188-193: `totalCost` of one ledger. -/
def totalCost (lots : List fifoLot) : ℚ :=
  lots.foldl (fun acc l => if l.isShort = false then acc + l.qty * l.unitCost else acc) 0

/-- The result loop of lines 186-197 over the entries of `openLots`. -/
def costBasisResult (openLots : GoMap (List fifoLot)) : GoMap ℚ :=
  openLots.foldl
    (fun result e => if totalCost e.2 > 0 then mapSet result e.1 (totalCost e.2) else result) []

/-- The concatenation `allTrades` of lines 122-125. -/
def allTrades (statements : List FlexStatement) : List Trade :=
  statements.foldl (fun acc stmt => acc ++ stmt.Trades) []

/-- The function `computeCostBasisFromTrades`. -/
def computeCostBasisFromTrades (sortSlice : List Trade → List Trade)
    (statements : List FlexStatement) : GoMap ℚ :=
  costBasisResult (runCostBasis (sortSlice (allTrades statements)))

/-! ## Auxiliary definitions used to state and prove the properties -/

/-- The common shape of the six matching loops: while more than `eps` remains
and the front lot may be closed (`canClose`), match `min l.qty remaining`,
credit `gain l match` to the accumulator, and drop the front lot once its
quantity is below `eps`.  Each loop above is shown equal to an instance. -/
def closeLoop (canClose : fifoLot → Bool) (gain : fifoLot → ℚ → ℚ)
    (lots : List fifoLot) (remaining : ℚ) (acc : Option ℚ) : List fifoLot × ℚ × Option ℚ :=
  match lots with
  | [] => ([], remaining, acc)
  | l :: rest =>
    if hr : remaining > eps ∧ canClose l = true then
      let m := min l.qty remaining
      let acc' : Option ℚ := some (acc.getD 0 + gain l m)
      if hq : l.qty - m < eps then
        closeLoop canClose gain rest (remaining - m) acc'
      else
        closeLoop canClose gain ({ l with qty := l.qty - m } :: rest) (remaining - m) acc'
    else (l :: rest, remaining, acc)
termination_by 2 * lots.length + (if remaining > eps then 1 else 0)
decreasing_by
  · simp only [List.length_cons]
    split_ifs <;> omega
  · have hq' : ¬ (l.qty - min l.qty remaining < eps) := hq
    have hm : min l.qty remaining = remaining := by
      rcases le_total l.qty remaining with h | h
      · rw [min_eq_left h] at hq'
        exact absurd (by simp [eps]) hq'
      · exact min_eq_right h
    have h0 : ¬ (remaining - min l.qty remaining > eps) := by
      rw [hm]; simp [eps]
    simp only [List.length_cons, if_neg h0, if_pos hr.1]
    omega

/-- The local variable `netCash := t.Proceeds + t.Commission`. -/
def netCash (t : Trade) : ℚ := t.Proceeds + t.Commission

/-- Unit price of a lot counted positive for a long lot and negative for a short one. -/
def signedUnit (l : fifoLot) : ℚ := if l.isShort then -l.unitCost else l.unitCost

/-- Book value of a ledger: cost of its long lots minus premium of its short lots. -/
def bookValue (lots : List fifoLot) : ℚ := (lots.map (fun l => l.qty * signedUnit l)).sum

/-- Sum of `f` over the values of a map. -/
def mapSum {V : Type} (f : V → ℚ) (m : GoMap V) : ℚ := (m.map (fun e => f e.2)).sum

/-- The keys of a map. -/
def mapKeys {V : Type} (m : GoMap V) : List String := m.map Prod.fst

/-- The number `x` is a whole multiple of the lot size `g`. -/
def OnGrid (g x : ℚ) : Prop := ∃ n : ℤ, x = n * g

/-- Every lot of the ledger holds a positive whole multiple of `g`. -/
def GridLots (g : ℚ) (lots : List fifoLot) : Prop := ∀ l ∈ lots, 0 < l.qty ∧ OnGrid g l.qty

/-- Well-formed state on a grid: unique ledger keys, every lot a positive multiple of `g`. -/
def GridState (g : ℚ) (s : State) : Prop :=
  (mapKeys s.openLots).Nodup ∧ ∀ e ∈ s.openLots, GridLots g e.2

/-- Realized P&L summed over all symbols minus the book value of all open lots. -/
def ledgerBalance (s : State) : ℚ := mapSum id s.pnl - mapSum bookValue s.openLots

/-- Example trade: buy 100 units, proceeds -1000, commission -1. -/
def exLongBuy : Trade :=
  ⟨"ACME", "20240102", "20240102;093000", 100, -1000, -1, "O", "ExchTrade"⟩

/-- Example trade: sell 100 units, proceeds 1200, commission -1, one day later. -/
def exLongSell : Trade :=
  ⟨"ACME", "20240103", "20240103;093000", -100, 1200, -1, "C", "ExchTrade"⟩

/-- Example trade: sell 50 units to open, proceeds 1000, commission -1. -/
def exShortSell : Trade :=
  ⟨"ACME", "20240102", "20240102;093000", -50, 1000, -1, "O", "ExchTrade"⟩

/-- Example trade: buy 50 units to close, proceeds -750, commission -1, one day later. -/
def exShortBuy : Trade :=
  ⟨"ACME", "20240103", "20240103;093000", 50, -750, -1, "C", "ExchTrade"⟩

/-- Example trade: buy 10 units at 10, no commission. -/
def exFifoBuy1 : Trade :=
  ⟨"ACME", "20240102", "20240102;093000", 10, -100, 0, "O", "ExchTrade"⟩

/-- Example trade: buy 10 units at 12, no commission, one day later. -/
def exFifoBuy2 : Trade :=
  ⟨"ACME", "20240103", "20240103;093000", 10, -120, 0, "O", "ExchTrade"⟩

/-- Example trade: sell 4 units at 15, no commission, another day later. -/
def exFifoSell : Trade :=
  ⟨"ACME", "20240104", "20240104;093000", -4, 60, 0, "C", "ExchTrade"⟩

/-- Example history: buy 10 at 10, buy half of `1e-9` units at 12, sell 4 at 15. -/
def exFifoDust : List Trade :=
  [⟨"ACME", "20240102", "20240102;093000", 10, -100, 0, "O", "ExchTrade"⟩,
   ⟨"ACME", "20240103", "20240103;093000", 1 / 2000000000, -12 / 2000000000, 0, "O",
     "ExchTrade"⟩,
   ⟨"ACME", "20240104", "20240104;093000", -4, 60, 0, "C", "ExchTrade"⟩]

/-- Example state: one long lot of 5 units at unit cost 2, no P&L yet. -/
def exExpireState : State := ⟨[("OPT", [⟨5, 2, false⟩])], []⟩

/-- Example expiration of 5 units that carries proceeds 3 and commission -1. -/
def exExpireTrade : Trade :=
  ⟨"OPT", "20240119", "20240119;162000", -5, 3, -1, "C", "BookTrade"⟩

/-- Total remaining quantity of a ledger. -/
def totalQty (lots : List fifoLot) : ℚ := (lots.map (fun l => l.qty)).sum

/-- Reachable shape of a state: unique keys in both maps and no lot below `eps`. -/
def WellFormed (s : State) : Prop :=
  (mapKeys s.openLots).Nodup ∧ (mapKeys s.pnl).Nodup ∧
    ∀ e ∈ s.openLots, ∀ l ∈ e.2, eps ≤ l.qty

/-- Example state: two short lots of one symbol, one long lot of another,
and some P&L already realized on both. -/
def exOverState : State :=
  ⟨[("OPT", [⟨3, 2, true⟩, ⟨2, 5, true⟩]), ("ACME", [⟨7, 1, false⟩])],
   [("OPT", 1), ("ACME", 4)]⟩

/-- Example expiration of 10 units against a ledger that holds 5. -/
def exOverTrade : Trade :=
  ⟨"OPT", "20240119", "20240119;162000", 10, 0, 0, "C", "BookTrade"⟩

/-- Example history: two short sales, 3 units at 10 and 2 units at 15. -/
def exFlipPre : List Trade :=
  [⟨"ACME", "20240102", "20240102;093000", -3, 30, 0, "O", "ExchTrade"⟩,
   ⟨"ACME", "20240103", "20240103;093000", -2, 30, 0, "O", "ExchTrade"⟩]

/-- Example trade: buy 10 units at 10, more than the 5 units held short. -/
def exFlipBuy : Trade :=
  ⟨"ACME", "20240104", "20240104;093000", 10, -100, 0, "C;O", "ExchTrade"⟩

/-- Example history: an option bought for 100 expires; the expiration event
carries a commission of -1. -/
def exExpiryFee : List Trade :=
  [⟨"OPT", "20240102", "20240102;093000", 1, -100, 0, "O", "ExchTrade"⟩,
   ⟨"OPT", "20240119", "20240119;162000", -1, 0, -1, "C", "BookTrade"⟩]

/-- Example history: buy 1 unit for 10, sell all but `1e-10` of it for 10. -/
def exResidue : List Trade :=
  [⟨"ACME", "20240102", "20240102;093000", 1, -10, 0, "O", "ExchTrade"⟩,
   ⟨"ACME", "20240103", "20240103;093000", -(1 - 1 / 10000000000), 10, 0, "C", "ExchTrade"⟩]

/-- Example history: one record of quantity zero that carries a fee of -1. -/
def exZeroQty : List Trade :=
  [⟨"ACME", "20240102", "20240102;093000", 0, 0, -1, "", "ExchTrade"⟩]

/-- Matched quantities read off the disposal rule as written: oldest lot
first, each lot up to what it holds, until the quantity `r` is covered. -/
def matchedOldestFirst : List fifoLot → ℚ → List ℚ
  | [], _ => []
  | l :: rest, r => min l.qty r :: matchedOldestFirst rest (r - min l.qty r)

/-- Matched quantities oldest lot first, for as long as more than `eps` of the
quantity `r` is still unmatched. -/
def matchedAboveEps : List fifoLot → ℚ → List ℚ
  | [], _ => []
  | l :: rest, r =>
    if r > eps then min l.qty r :: matchedAboveEps rest (r - min l.qty r) else []

/-- Example history: two buys of 1 unit, at 10 and at 12. -/
def exSellPre : List Trade :=
  [⟨"ACME", "20240102", "20240102;093000", 1, -10, 0, "O", "ExchTrade"⟩,
   ⟨"ACME", "20240103", "20240103;093000", 1, -12, 0, "O", "ExchTrade"⟩]

/-- Example trade: sell 1 unit and half of `1e-9` more, at 15 per unit. -/
def exSellDust : Trade :=
  ⟨"ACME", "20240104", "20240104;093000", -(1 + 1 / 2000000000),
    15 * (1 + 1 / 2000000000), 0, "C", "ExchTrade"⟩

/-- Example trade: sell 5 units at 15 per unit, 3 more than are held. -/
def exSellFlip : Trade :=
  ⟨"ACME", "20240104", "20240104;093000", -5, 75, 0, "C;O", "ExchTrade"⟩

/-- Cost of the long lots of a ledger: the sum of `qty * unitCost` over the
lots that are not short. -/
def longCost (lots : List fifoLot) : ℚ :=
  ((lots.filter (fun l => !l.isShort)).map (fun l => l.qty * l.unitCost)).sum

/-- Example statements: 10 units bought at 10 in one statement, 4 of them sold
in the next. -/
def exStatements : List FlexStatement :=
  [⟨[⟨"ACME", "20240102", "20240102;093000", 10, -100, 0, "O", "ExchTrade"⟩]⟩,
   ⟨[⟨"ACME", "20240103", "20240103;093000", -4, 60, 0, "C", "ExchTrade"⟩]⟩]

/-- Example statements: 10 units received at no cost. -/
def exFreeShares : List FlexStatement :=
  [⟨[⟨"ACME", "20240102", "20240102;093000", 10, 0, 0, "O", "ExchTrade"⟩]⟩]

/-- Example history: buy 1 unit for 10, sell all but exactly `1e-9` of it. -/
def exBoundary : List Trade :=
  [⟨"ACME", "20240102", "20240102;093000", 1, -10, 0, "O", "ExchTrade"⟩,
   ⟨"ACME", "20240103", "20240103;093000", -(1 - 1 / 1000000000), 10, 0, "C", "ExchTrade"⟩]

/-- All lots of a ledger are on the same side. -/
def Homogeneous (lots : List fifoLot) : Prop :=
  ∀ l₁ ∈ lots, ∀ l₂ ∈ lots, l₁.isShort = l₂.isShort

/-- Example history of buys only, in two symbols. -/
def exBuysOnly : List Trade :=
  [⟨"ACME", "20240102", "20240102;093000", 10, -100, -1, "O", "ExchTrade"⟩,
   ⟨"BETA", "20240103", "20240103;093000", 5, -50, -1, "O", "ExchTrade"⟩]

/-- Signed open quantity of a ledger: long lots count positive, short lots negative. -/
def signedOpen (lots : List fifoLot) : ℚ :=
  (lots.map (fun l => if l.isShort then -l.qty else l.qty)).sum

/-- Net traded quantity of a symbol: the sum of its signed trade quantities. -/
def netQty (sym : String) (trades : List Trade) : ℚ :=
  ((trades.filter (fun t => t.Symbol = sym)).map (fun t => t.Quantity)).sum

/-- Gross traded quantity of a symbol: the sum of its absolute trade quantities. -/
def grossQty (sym : String) (trades : List Trade) : ℚ :=
  ((trades.filter (fun t => t.Symbol = sym)).map (fun t => |t.Quantity|)).sum

/-- The sum of the values taken by the local variable `match` while trade `t`
is processed from state `s`: the loop of the branch that `t` selects, run with
`match` itself as the credit and an accumulator that starts at zero. -/
def matchedBy (s : State) (t : Trade) : ℚ :=
  if t.TransactionType = "BookTrade" then
    ((closeLoop (fun _ => true) (fun _ m => m)
      (lotsOf s.openLots t.Symbol) |t.Quantity| none).2.2).getD 0
  else if t.Quantity > 0 then
    ((closeLoop (fun l => l.isShort) (fun _ m => m)
      (lotsOf s.openLots t.Symbol) t.Quantity none).2.2).getD 0
  else if t.Quantity < 0 then
    ((closeLoop (fun l => !l.isShort) (fun _ m => m)
      (lotsOf s.openLots t.Symbol) (-t.Quantity) none).2.2).getD 0
  else 0

/-- Total quantity matched against the lots of `sym` while the trades are
processed in order from state `s`. -/
def matchedRun (sym : String) : State → List Trade → ℚ
  | _, [] => 0
  | s, t :: rest =>
    (if t.Symbol = sym then matchedBy s t else 0) + matchedRun sym (stepFIFO s t) rest

/-- Example history: one contract sold to open for proceeds 1 with commission
-1.05, so that the net cash of the sale is negative. -/
def exCheapShort : List Trade :=
  [⟨"OPT", "20240102", "20240102;093000", -1, 1, -21 / 20, "O", "ExchTrade"⟩]

/-- A division that fails on a zero divisor. -/
def divChecked (a b : ℚ) : Option ℚ := if b = 0 then none else some (a / b)

/-- A matching loop with every step that could abort made explicit: `none`
when the `fuel` is used up before the loop condition fails, and `none` when
the front lot of an empty ledger is read.  The condition evaluates left to
right and reads the front lot only when the ledger is not empty. -/
def closeLoopChecked (canClose : fifoLot → Bool) (gain : fifoLot → ℚ → ℚ) :
    Nat → List fifoLot → ℚ → Option ℚ → Option (List fifoLot × ℚ × Option ℚ)
  | 0, _, _, _ => none
  | fuel + 1, lots, remaining, acc =>
    if decide (remaining > eps) && decide (lots.length > 0) &&
        (match lots.head? with
          | some l => canClose l
          | none => false) then
      match lots with
      | [] => none
      | l :: rest =>
        let m := min l.qty remaining
        let acc' : Option ℚ := some (acc.getD 0 + gain l m)
        if l.qty - m < eps then
          closeLoopChecked canClose gain fuel rest (remaining - m) acc'
        else
          closeLoopChecked canClose gain fuel ({ l with qty := l.qty - m } :: rest)
            (remaining - m) acc'
    else some (lots, remaining, acc)

/-- One iteration of the trade loop of `computeFIFOPnL` with the steps that
could abort made explicit: each matching loop has `len(openLots[sym]) + 1`
evaluations of its condition at its disposal, and each unit price is a checked
division. -/
def stepFIFOChecked (s : State) (t : Trade) : Option State :=
  let sym := t.Symbol
  let qty := t.Quantity
  let netCash := t.Proceeds + t.Commission
  if t.TransactionType = "BookTrade" then
    let closeQty := |qty|
    (closeLoopChecked (fun _ => true)
        (fun l m => if l.isShort then m * l.unitCost else -(m * l.unitCost))
        ((lotsOf s.openLots sym).length + 1) (lotsOf s.openLots sym) closeQty
        (mapGet? s.pnl sym)).map
      (fun r => ⟨mapSet s.openLots sym r.1, writeBack s.pnl sym r.2.2⟩)
  else if qty > 0 then
    (divChecked (-netCash) qty).bind (fun unitCost =>
      (closeLoopChecked (fun l => l.isShort) (fun l m => m * l.unitCost - m * unitCost)
          ((lotsOf s.openLots sym).length + 1) (lotsOf s.openLots sym) qty
          (mapGet? s.pnl sym)).map
        (fun r =>
          ⟨mapSet s.openLots sym
              (if r.2.1 > eps then r.1 ++ [⟨r.2.1, unitCost, false⟩] else r.1),
            writeBack s.pnl sym r.2.2⟩))
  else if qty < 0 then
    let sellQty := -qty
    (divChecked netCash sellQty).bind (fun unitPremium =>
      (closeLoopChecked (fun l => !l.isShort) (fun l m => m * unitPremium - m * l.unitCost)
          ((lotsOf s.openLots sym).length + 1) (lotsOf s.openLots sym) sellQty
          (mapGet? s.pnl sym)).map
        (fun r =>
          ⟨mapSet s.openLots sym
              (if r.2.1 > eps then r.1 ++ [⟨r.2.1, unitPremium, true⟩] else r.1),
            writeBack s.pnl sym r.2.2⟩))
  else some s

/-- The trade loop with the checked step: `none` as soon as one step aborts. -/
def runFIFOChecked : State → List Trade → Option State
  | s, [] => some s
  | s, t :: rest => (stepFIFOChecked s t).bind (fun s' => runFIFOChecked s' rest)

/-- The function `computeFIFOPnL` with the checked trade loop. -/
def computeFIFOPnLChecked (sortSlice : List Trade → List Trade) (trades : List Trade) :
    Option (GoMap ℚ) :=
  (runFIFOChecked State.init (sortSlice trades)).map (fun s => s.pnl)

/-- Example trade: buy 10 units at 10. -/
def exTieBuyA : Trade :=
  ⟨"ACME", "20240102", "20240102;093000", 10, -100, 0, "O", "ExchTrade"⟩

/-- Example trade: buy 10 units at 12, at the same `DateTime` as `exTieBuyA`. -/
def exTieBuyB : Trade :=
  ⟨"ACME", "20240102", "20240102;093000", 10, -120, 0, "O", "ExchTrade"⟩

/-- Example trade of another symbol, at the same `DateTime` again. -/
def exTieOther : Trade :=
  ⟨"BETA", "20240102", "20240102;093000", 1, -5, 0, "O", "ExchTrade"⟩

/-- Example trade: sell 10 units at 15, one day later. -/
def exTieSell : Trade :=
  ⟨"ACME", "20240103", "20240103;093000", -10, 150, 0, "C", "ExchTrade"⟩

/-- The function `normalizeDate` of `helpers.go`: `YYYY-MM-DD` becomes
`YYYYMMDD`, anything else is returned as it is.  A Go string is a sequence of
bytes and is represented by the `String` with one character per byte (see
`goBytes`), so `length` is `len(date)`, `data[4]?` is `date[4]` and `take`,
`drop` are the slices `date[:4]`, `date[5:7]`, `date[8:10]` of the source. -/
def normalizeDate (date : String) : String :=
  if date.length = 10 ∧ date.data[4]? = some '-' ∧ date.data[7]? = some '-' then
    String.mk (date.data.take 4 ++ (date.data.drop 5).take 2 ++ (date.data.drop 8).take 2)
  else date

/-- The function `inDateRange` of `helpers.go`. -/
def inDateRange (date fromDate toDate : String) : Bool :=
  let d := normalizeDate date
  if fromDate ≠ "" ∧ d < normalizeDate fromDate then false
  else if toDate ≠ "" ∧ d > normalizeDate toDate then false
  else true

/-- The record `SymbolPnL`. -/
structure SymbolPnL where
  Symbol : String
  RealizedPnL : ℚ
  Trades : ℤ
  Wins : ℤ
  Commission : ℚ

/-- The record `PeriodPnL`. -/
structure PeriodPnL where
  Period : String
  RealizedPnL : ℚ
  Trades : ℤ
  Commission : ℚ

/-- The record `PnLReport`. -/
structure PnLReport where
  BySymbol : List SymbolPnL
  ByMonth : List PeriodPnL
  TotalPnL : ℚ
  TotalTrades : ℤ
  WinRate : ℚ
  TotalComm : ℚ

/-- The trades of all statements that pass the date filter, in statement order
(lines 203-211 of `AnalyzePnL`). -/
def filteredTrades (statements : List FlexStatement) (fromDate toDate : String) : List Trade :=
  statements.foldl
    (fun acc stmt =>
      stmt.Trades.foldl
        (fun acc t =>
          if inDateRange (normalizeDate t.TradeDate) fromDate toDate = false then acc
          else acc ++ [t])
        acc)
    []

/-- The month of a trade as lines 233-237 and 277-281 compute it: the first six
bytes `nd[:6]` of the normalized `TradeDate`, or the empty string when
`len(nd) < 6` (one character of the representation per byte of the Go string,
as in `normalizeDate`). -/
def monthKey (tradeDate : String) : String :=
  if (normalizeDate tradeDate).length ≥ 6 then String.mk ((normalizeDate tradeDate).data.take 6)
  else ""

/-- The variables of the first loop of `AnalyzePnL` (lines 217-245). -/
structure TradeLoopState where
  symbolMap : GoMap SymbolPnL
  monthMap : GoMap PeriodPnL
  totalComm : ℚ

/-- One iteration of the first loop of `AnalyzePnL` (lines 221-245). -/
def tradeLoopStep (a : TradeLoopState) (t : Trade) : TradeLoopState :=
  let sp := (mapGet? a.symbolMap t.Symbol).getD ⟨t.Symbol, 0, 0, 0, 0⟩
  let symbolMap :=
    mapSet a.symbolMap t.Symbol { sp with Commission := sp.Commission + t.Commission }
  let monthMap :=
    if t.TransactionType ≠ "BookTrade" ∧
        (t.Quantity < 0 ∨ t.OpenCloseInd = "C" ∨ t.OpenCloseInd = "C;") then
      let month := monthKey t.TradeDate
      let mp := (mapGet? a.monthMap month).getD ⟨month, 0, 0, 0⟩
      mapSet a.monthMap month { mp with Trades := mp.Trades + 1 }
    else a.monthMap
  ⟨symbolMap, monthMap, a.totalComm + t.Commission⟩

/-- The inner loop of lines 270-290: the month of the first trade of `sym` that
is a sell or a close, `none` when the loop ends without `break`. -/
def firstClosingMonth (filtered : List Trade) (sym : String) : Option String :=
  match filtered with
  | [] => none
  | t :: rest =>
    if t.Symbol ≠ sym then firstClosingMonth rest sym
    else if t.Quantity < 0 ∨
        (t.TransactionType = "BookTrade" ∨ t.OpenCloseInd = "C" ∨ t.OpenCloseInd = "C;") then
      some (monthKey t.TradeDate)
    else firstClosingMonth rest sym

/-- The variables of the second loop of `AnalyzePnL` (lines 248-291). -/
structure PnLLoopState where
  symbolMap : GoMap SymbolPnL
  monthMap : GoMap PeriodPnL
  totalPnL : ℚ
  totalTrades : ℤ
  totalWins : ℤ

/-- One iteration of the second loop of `AnalyzePnL` (lines 251-291) for the
entry `e` of `fifoResult`. -/
def pnlLoopStep (filtered : List Trade) (a : PnLLoopState) (e : String × ℚ) : PnLLoopState :=
  if |e.2| < 1 / 1000000 then a
  else
    let sp := (mapGet? a.symbolMap e.1).getD ⟨e.1, 0, 0, 0, 0⟩
    let symbolMap :=
      mapSet a.symbolMap e.1
        { sp with RealizedPnL := e.2, Trades := 1, Wins := if e.2 > 0 then 1 else sp.Wins }
    let monthMap :=
      match firstClosingMonth filtered e.1 with
      | none => a.monthMap
      | some month =>
        let mp := (mapGet? a.monthMap month).getD ⟨month, 0, 0, 0⟩
        mapSet a.monthMap month { mp with RealizedPnL := mp.RealizedPnL + e.2 }
    ⟨symbolMap, monthMap, a.totalPnL + e.2, a.totalTrades + 1,
      if e.2 > 0 then a.totalWins + 1 else a.totalWins⟩

/-- The variables of `AnalyzePnL` after its two loops.  The order in which
`for sym, symPnL := range fifoResult` visits the entries is not fixed by the
language; it is the parameter `rangeOrder`. -/
def analyzeLoops (sortSlice : List Trade → List Trade) (rangeOrder : GoMap ℚ → GoMap ℚ)
    (statements : List FlexStatement) (fromDate toDate : String) : PnLLoopState × ℚ :=
  let filtered := filteredTrades statements fromDate toDate
  let fifoResult := computeFIFOPnL sortSlice filtered
  let a := filtered.foldl tradeLoopStep ⟨[], [], 0⟩
  ((rangeOrder fifoResult).foldl (pnlLoopStep filtered) ⟨a.symbolMap, a.monthMap, 0, 0, 0⟩,
    a.totalComm)

/-- The function `AnalyzePnL`.  The two calls of `sort.Slice` on the report
(lines 305-314), together with the order of the two `range` loops that feed
them, are the parameters `sortSymbols` and `sortMonths`. -/
def AnalyzePnL (sortSlice : List Trade → List Trade) (rangeOrder : GoMap ℚ → GoMap ℚ)
    (sortSymbols : List SymbolPnL → List SymbolPnL)
    (sortMonths : List PeriodPnL → List PeriodPnL)
    (statements : List FlexStatement) (fromDate toDate : String) : PnLReport :=
  let b := analyzeLoops sortSlice rangeOrder statements fromDate toDate
  { BySymbol := sortSymbols (b.1.symbolMap.map Prod.snd)
    ByMonth := sortMonths (b.1.monthMap.map Prod.snd)
    TotalPnL := b.1.totalPnL
    TotalTrades := b.1.totalTrades
    WinRate := if b.1.totalTrades > 0 then (b.1.totalWins : ℚ) / (b.1.totalTrades : ℚ) * 100 else 0
    TotalComm := b.2 }

/-- The realized P&L that the report shows for the month `period`: the sum over
the entries of `ByMonth` with that `Period`. -/
def bucketPnL (byMonth : List PeriodPnL) (period : String) : ℚ :=
  ((byMonth.filter (fun mp => mp.Period = period)).map (fun mp => mp.RealizedPnL)).sum

/-- The first trade of `sym` in the list that is a disposal, an expiration or
assignment, or marked as a close. -/
def firstQualifying (filtered : List Trade) (sym : String) : Option Trade :=
  (filtered.filter (fun t => t.Symbol = sym ∧
    (t.Quantity < 0 ∨ t.TransactionType = "BookTrade" ∨
      t.OpenCloseInd = "C" ∨ t.OpenCloseInd = "C;"))).head?

/-- The realized P&L of the reported symbols (absolute value at least `1e-6`)
whose first qualifying trade falls in the month `period`. -/
def reportedInMonth (filtered : List Trade) (fifoResult : GoMap ℚ) (period : String) : ℚ :=
  ((fifoResult.filter (fun e => ¬ (|e.2| < 1 / 1000000) ∧
    (firstQualifying filtered e.1).map (fun t => monthKey t.TradeDate) = some period)).map
      (fun e => e.2)).sum

/-- The realized P&L stored under the key `period` of `monthMap` (`0` when the
key is absent). -/
def monthPnL (monthMap : GoMap PeriodPnL) (period : String) : ℚ :=
  ((mapGet? monthMap period).map (fun mp => mp.RealizedPnL)).getD 0

/-- Every key of `monthMap` occurs once and is the `Period` of its record. -/
def PeriodKeyed (monthMap : GoMap PeriodPnL) : Prop :=
  (mapKeys monthMap).Nodup ∧ ∀ e ∈ monthMap, e.2.Period = e.1

/-- Example statement: 1 unit bought for 10 and sold for 15; the trade date of
both records holds the year only. -/
def exShortDate : List FlexStatement :=
  [⟨[⟨"ACME", "2024", "20240102;093000", 1, -10, 0, "O", "ExchTrade"⟩,
     ⟨"ACME", "2024", "20240103;093000", -1, 15, 0, "C", "ExchTrade"⟩]⟩]

/-- Example statement: the long round trip of the specification, bought in
January and sold in February. -/
def exTwoMonths : List FlexStatement :=
  [⟨[⟨"ACME", "2024-01-15", "20240115;093000", 100, -1000, -1, "O", "ExchTrade"⟩,
     ⟨"ACME", "2024-02-20", "20240220;093000", -100, 1200, -1, "C", "ExchTrade"⟩]⟩]

/-! ## The same pass in `float64` arithmetic

The definitions above read every `float64` operation as the exact operation on
rationals.  The definitions of this section round the result of every
operation to the nearest `float64` (ties to even), as the hardware does; a
finite `float64` is the rational it denotes.  Infinities, NaN and the sign of
zero are not modelled: the statements about this section are evaluations at
inputs that stay far inside the finite range. -/

/-- The number of halvings that take `n` below `2`: `⌊log₂ n⌋` for `n ≥ 1`
(`fuel` bounds the recursion, `n` itself is enough). -/
def log2Nat : ℕ → ℕ → ℕ
  | 0, _ => 0
  | fuel + 1, n => if n < 2 then 0 else log2Nat fuel (n / 2) + 1

/-- The exponent `k` with `2 ^ k ≤ |x| < 2 ^ (k + 1)`, for `x ≠ 0`. -/
def floorLog2 (x : ℚ) : ℤ :=
  let k0 : ℤ := (log2Nat x.num.natAbs x.num.natAbs : ℤ) - (log2Nat x.den x.den : ℤ)
  if (2 : ℚ) ^ k0 ≤ |x| then k0 else k0 - 1

/-- Rounding to the nearest integer, a tie going to the even one. -/
def roundHalfEven (y : ℚ) : ℤ :=
  let f := ⌊y⌋
  if y - f < 1 / 2 then f
  else if 1 / 2 < y - f then f + 1
  else if f % 2 = 0 then f else f + 1

/-- Rounding of a real result to `float64` (IEEE 754 binary64, round to
nearest, ties to even): 53 significant bits, and a spacing of `2 ^ (-1074)` in
the subnormal range. -/
def round64 (x : ℚ) : ℚ :=
  if x = 0 then 0
  else
    let e : ℤ := max (floorLog2 x - 52) (-1074)
    (roundHalfEven (x / (2 : ℚ) ^ e) : ℚ) * (2 : ℚ) ^ e

/-- The `float64` sum `a + b`. -/
def add64 (a b : ℚ) : ℚ := round64 (a + b)

/-- The `float64` difference `a - b`. -/
def sub64 (a b : ℚ) : ℚ := round64 (a - b)

/-- The `float64` product `a * b`. -/
def mul64 (a b : ℚ) : ℚ := round64 (a * b)

/-- The `float64` quotient `a / b` (the divisors of the source are never zero). -/
def div64 (a b : ℚ) : ℚ := round64 (a / b)

/-- The constant `1e-9` as the `float64` that the comparisons of the source use. -/
def eps64 : ℚ := round64 (1 / 1000000000)

/-- The shape of the three matching loops of `computeFIFOPnL` in `float64`
arithmetic: while `remaining > 1e-9` and the front lot may be closed,
`match := math.Min(l.qty, remaining)`, the statement on `pnl[sym]` is `upd`,
then `l.qty -= match`, `remaining -= match`, and the front lot is dropped when
`l.qty < 1e-9`. -/
def closeLoop64 (canClose : fifoLot → Bool) (upd : ℚ → fifoLot → ℚ → ℚ)
    (lots : List fifoLot) (remaining : ℚ) (acc : Option ℚ) : List fifoLot × ℚ × Option ℚ :=
  match lots with
  | [] => ([], remaining, acc)
  | l :: rest =>
    if hr : remaining > eps64 ∧ canClose l = true then
      let m := min l.qty remaining
      let acc' : Option ℚ := some (upd (acc.getD 0) l m)
      if hq : sub64 l.qty m < eps64 then
        closeLoop64 canClose upd rest (sub64 remaining m) acc'
      else
        closeLoop64 canClose upd ({ l with qty := sub64 l.qty m } :: rest)
          (sub64 remaining m) acc'
    else (l :: rest, remaining, acc)
termination_by 2 * lots.length + (if remaining > eps64 then 1 else 0)
decreasing_by
  · simp only [List.length_cons]
    split_ifs <;> omega
  · have hq' : ¬ (sub64 l.qty (min l.qty remaining) < eps64) := hq
    have h00 : (0 : ℚ) < eps64 := by decide!
    have hm : min l.qty remaining = remaining := by
      rcases le_total l.qty remaining with h | h
      · rw [min_eq_left h] at hq'
        exact absurd (by simpa [sub64, round64] using h00) hq'
      · exact min_eq_right h
    have h0 : ¬ (sub64 remaining (min l.qty remaining) > eps64) := by
      rw [hm]
      simpa [sub64, round64] using h00.le
    simp only [List.length_cons, if_neg h0, if_pos hr.1]
    omega

/-- One iteration of `for _, t := range sorted` in `computeFIFOPnL`, every
arithmetic operation rounded to `float64` (lines 55-114). -/
def stepFIFO64 (s : State) (t : Trade) : State :=
  let sym := t.Symbol
  let qty := t.Quantity
  let netCash := add64 t.Proceeds t.Commission
  if t.TransactionType = "BookTrade" then
    let closeQty := |qty|
    let r := closeLoop64 (fun _ => true)
      (fun p l m => if l.isShort then add64 p (mul64 m l.unitCost)
        else sub64 p (mul64 m l.unitCost))
      (lotsOf s.openLots sym) closeQty (mapGet? s.pnl sym)
    ⟨mapSet s.openLots sym r.1, writeBack s.pnl sym r.2.2⟩
  else if qty > 0 then
    let r := closeLoop64 (fun l => l.isShort)
      (fun p l m => add64 p (sub64 (mul64 m l.unitCost) (mul64 m (div64 (-netCash) qty))))
      (lotsOf s.openLots sym) qty (mapGet? s.pnl sym)
    let lots :=
      if r.2.1 > eps64 then r.1 ++ [⟨r.2.1, div64 (-netCash) qty, false⟩] else r.1
    ⟨mapSet s.openLots sym lots, writeBack s.pnl sym r.2.2⟩
  else if qty < 0 then
    let sellQty := -qty
    let r := closeLoop64 (fun l => !l.isShort)
      (fun p l m => add64 p (sub64 (mul64 m (div64 netCash sellQty)) (mul64 m l.unitCost)))
      (lotsOf s.openLots sym) sellQty (mapGet? s.pnl sym)
    let lots :=
      if r.2.1 > eps64 then r.1 ++ [⟨r.2.1, div64 netCash sellQty, true⟩] else r.1
    ⟨mapSet s.openLots sym lots, writeBack s.pnl sym r.2.2⟩
  else s

/-- The whole `for` loop of `computeFIFOPnL` in `float64` arithmetic. -/
def runFIFO64 (sorted : List Trade) : State :=
  sorted.foldl stepFIFO64 State.init

/-- The function `computeFIFOPnL` in `float64` arithmetic. -/
def computeFIFOPnL64 (sortSlice : List Trade → List Trade) (trades : List Trade) : GoMap ℚ :=
  (runFIFO64 (sortSlice trades)).pnl

/-- Example trade: buy 49 units for 2 in all. -/
def exBuy49 : Trade :=
  ⟨"ACME", "20240102", "20240102;093000", 49, -2, 0, "O", "ExchTrade"⟩

/-- Example trade: sell 49 units for 1 in all, one day later. -/
def exSell49 : Trade :=
  ⟨"ACME", "20240103", "20240103;093000", -49, 1, 0, "C", "ExchTrade"⟩

/-- Example trade: sell 49 units short for 1 in all. -/
def exShort49 : Trade :=
  ⟨"ACME", "20240102", "20240102;093000", -49, 1, 0, "O", "ExchTrade"⟩

/-- Example trade: buy the 49 units back for 2 in all, one day later. -/
def exCover49 : Trade :=
  ⟨"ACME", "20240103", "20240103;093000", 49, -2, 0, "C", "ExchTrade"⟩

/-- Example history in `float64`: buy 10 for 101.5, buy 10 for 120, sell 3 for
33.3 (the `float64` nearest to 33.3), zero commissions. -/
def exFifoRound : List Trade :=
  [⟨"ACME", "20240102", "20240102;093000", 10, -(203 / 2), 0, "O", "ExchTrade"⟩,
   ⟨"ACME", "20240103", "20240103;093000", 10, -120, 0, "O", "ExchTrade"⟩,
   ⟨"ACME", "20240104", "20240104;093000", -3, round64 (333 / 10), 0, "C", "ExchTrade"⟩]

/-- Example history in `float64`: three buys at unit cost 1 of `2^23 + 2^-29`,
`2^24` and `1 + 2^-29` units, then an expiration of their exact total
`2^24 + 2^23 + 1 + 2^-28`. -/
def exOverRound : List Trade :=
  [⟨"OPT", "20240102", "20240102;093000", 8388608 + 1 / 536870912,
      -(8388608 + 1 / 536870912), 0, "O", "ExchTrade"⟩,
   ⟨"OPT", "20240103", "20240103;093000", 16777216, -16777216, 0, "O", "ExchTrade"⟩,
   ⟨"OPT", "20240104", "20240104;093000", 1 + 1 / 536870912, -(1 + 1 / 536870912), 0, "O",
      "ExchTrade"⟩,
   ⟨"OPT", "20240105", "20240105;093000", 25165825 + 1 / 268435456, 0, 0, "C", "BookTrade"⟩]

/-- Example history in `float64`: two sales that open short lots of
`2^23 + 2^-29` and `2^24` units at unit premium 1. -/
def exFlipRoundPre : List Trade :=
  [⟨"ACME", "20240102", "20240102;093000", -(8388608 + 1 / 536870912),
      8388608 + 1 / 536870912, 0, "O", "ExchTrade"⟩,
   ⟨"ACME", "20240103", "20240103;093000", -16777216, 16777216, 0, "O", "ExchTrade"⟩]

/-- Example trade in `float64`: a buy of `2^24 + 2^23 + 2^-28` units, which is
`2^-29` more than the two short lots of `exFlipRoundPre` hold. -/
def exFlipRoundBuy : Trade :=
  ⟨"ACME", "20240104", "20240104;093000", 25165824 + 1 / 268435456, -1, 0, "C", "ExchTrade"⟩

/-- Example history in `float64`: two buys that open long lots of
`2^23 + 2^-29` and `2^24` units at unit cost 1. -/
def exSellRoundPre : List Trade :=
  [⟨"ACME", "20240102", "20240102;093000", 8388608 + 1 / 536870912,
      -(8388608 + 1 / 536870912), 0, "O", "ExchTrade"⟩,
   ⟨"ACME", "20240103", "20240103;093000", 16777216, -16777216, 0, "O", "ExchTrade"⟩]

/-- Example trade in `float64`: a sale of `2^24 + 2^23 + 2^-28` units, which is
`2^-29` more than the two long lots of `exSellRoundPre` hold. -/
def exSellRoundSell : Trade :=
  ⟨"ACME", "20240104", "20240104;093000", -(25165824 + 1 / 268435456), 1, 0, "C", "ExchTrade"⟩

/-- Example history in `float64`: buy `2.5e-9` units, sell `1.5e-9` units (the
`float64` values nearest to these decimals). -/
def exLotAtEps : List Trade :=
  [⟨"ACME", "20240102", "20240102;093000", round64 (25 / 10000000000), -1, 0, "O", "ExchTrade"⟩,
   ⟨"ACME", "20240103", "20240103;093000", -round64 (15 / 10000000000), 1, 0, "C",
      "ExchTrade"⟩]

/-- Example history of integer quantities: buy `2^53 + 2` units at unit cost 1,
then sell 1 unit twice. -/
def exBigPosition : List Trade :=
  [⟨"ACME", "20240102", "20240102;093000", 9007199254740994, -9007199254740994, 0, "O",
      "ExchTrade"⟩,
   ⟨"ACME", "20240103", "20240103;093000", -1, 1, 0, "C", "ExchTrade"⟩,
   ⟨"ACME", "20240104", "20240104;093000", -1, 1, 0, "C", "ExchTrade"⟩]

/-- The UTF-8 encoding of one character, as the list of its byte values. -/
def utf8Bytes (c : Char) : List ℕ :=
  let v := c.toNat
  if v < 128 then [v]
  else if v < 2048 then [192 + v / 64, 128 + v % 64]
  else if v < 65536 then [224 + v / 4096, 128 + v / 64 % 64, 128 + v % 64]
  else [240 + v / 262144, 128 + v / 4096 % 64, 128 + v / 64 % 64, 128 + v % 64]

/-- The Go string with the text `s`.  A Go string is a sequence of bytes, and
it is represented throughout this file by the `String` that has one character
per byte (the character whose code point is the value of the byte), so that
`length`, indexing, `take` and `<` on the representation are `len`, `s[i]`,
`s[:n]` and `<` of the source.  ASCII text represents itself. -/
def goBytes (s : String) : String :=
  String.mk (s.data.flatMap (fun c => (utf8Bytes c).map Char.ofNat))

/-- Example statement: 1 unit bought for 10 and sold for 15; the trade date of
both records is the text `20240é1`, eight bytes long (`é` is the two bytes
`C3 A9`). -/
def exByteDate : List FlexStatement :=
  [⟨[⟨"ACME", "20240\xC3\xA91", "20240102;093000", 1, -10, 0, "O", "ExchTrade"⟩,
     ⟨"ACME", "20240\xC3\xA91", "20240103;093000", -1, 15, 0, "C", "ExchTrade"⟩]⟩]

/-! ## `sort.Slice`

`computeFIFOPnL` and `computeCostBasisFromTrades` order the trades with
`sort.Slice` of the Go standard library (package `sort`, pattern-defeating
quicksort, Go 1.19 and later).  The slice under the pair `lessSwap` is the
list of its elements; the functions below follow `zsortfunc.go` statement by
statement.  Loops run on a step budget that the callers set
to a bound on the number of iterations. -/

namespace sort

variable {α : Type} [Inhabited α]

/-- The read `data[i]` (the indices that the functions below use are in range). -/
def elem (data : List α) (i : ℕ) : α := data.getD i default

/-- The call `data.Swap(i, j)`. -/
def Swap (data : List α) (i j : ℕ) : List α :=
  (data.set i (elem data j)).set j (elem data i)

/-- The inner loop of `insertionSort_func`:
`for j := i; j > a && data.Less(j, j-1); j-- { data.Swap(j, j-1) }`. -/
def insertionInner (less : α → α → Bool) (a : ℕ) : ℕ → List α → List α
  | 0, data => data
  | j + 1, data =>
    if j + 1 > a ∧ less (elem data (j + 1)) (elem data j) = true then
      insertionInner less a j (Swap data (j + 1) j)
    else data

/-- The function `insertionSort_func`: insertion sort of `data[a:b]`. -/
def insertionSort_func (less : α → α → Bool) (data : List α) (a b : ℕ) : List α :=
  (List.range' (a + 1) (b - (a + 1))).foldl (fun d i => insertionInner less a i d) data

/-- The function `siftDown_func` on `data[lo:hi]` with offset `first`; `root`
starts at `lo`. -/
def siftDown_func (less : α → α → Bool) (hi first : ℕ) : ℕ → ℕ → List α → List α
  | 0, _, data => data
  | steps + 1, root, data =>
    if 2 * root + 1 ≥ hi then data
    else
      let child :=
        if 2 * root + 1 + 1 < hi ∧
            less (elem data (first + (2 * root + 1))) (elem data (first + (2 * root + 1) + 1)) = true
        then 2 * root + 1 + 1 else 2 * root + 1
      if less (elem data (first + root)) (elem data (first + child)) = true then
        siftDown_func less hi first steps child (Swap data (first + root) (first + child))
      else data

/-- The function `heapSort_func`: builds the heap with
`for i := (hi - 1) / 2; i >= 0; i--` and pops with `for i := hi - 1; i >= 0; i--`. -/
def heapSort_func (less : α → α → Bool) (data : List α) (a b : ℕ) : List α :=
  let first := a
  let lo := 0
  let hi := b - a
  let heap := (List.range ((hi - 1) / 2 + 1)).reverse.foldl
    (fun d i => siftDown_func less hi first hi i d) data
  (List.range hi).reverse.foldl
    (fun d i => siftDown_func less i first hi lo (Swap d first (first + i))) heap

/-- The loop `for i <= j && p(i) { i++ }`; returns `i`. -/
def scanUp (p : ℕ → Bool) (j : ℕ) : ℕ → ℕ → ℕ
  | 0, i => i
  | steps + 1, i => if i ≤ j ∧ p i = true then scanUp p j steps (i + 1) else i

/-- The loop `for i <= j && p(j) { j-- }`; returns `j`. -/
def scanDown (p : ℕ → Bool) (i : ℕ) : ℕ → ℕ
  | 0 => 0
  | j + 1 => if i ≤ j + 1 ∧ p (j + 1) = true then scanDown p i j else j + 1

/-- The endless `for` loop of `partition_func`; returns the slice and `j`. -/
def partitionLoop (less : α → α → Bool) (a : ℕ) : ℕ → List α → ℕ → ℕ → List α × ℕ
  | 0, data, _, j => (data, j)
  | steps + 1, data, i, j =>
    let i' := scanUp (fun i => less (elem data i) (elem data a)) j (j + 1) i
    let j' := scanDown (fun j => !less (elem data j) (elem data a)) i' j
    if i' > j' then (data, j')
    else partitionLoop less a steps (Swap data i' j') (i' + 1) (j' - 1)

/-- The function `partition_func`: one quicksort partition of `data[a:b]`
around `data[pivot]`; returns the slice, `newpivot` and `alreadyPartitioned`. -/
def partition_func (less : α → α → Bool) (data : List α) (a b pivot : ℕ) :
    List α × ℕ × Bool :=
  let data := Swap data a pivot
  let i := scanUp (fun i => less (elem data i) (elem data a)) (b - 1) b (a + 1)
  let j := scanDown (fun j => !less (elem data j) (elem data a)) i (b - 1)
  if i > j then (Swap data j a, j, true)
  else
    let r := partitionLoop less a (b - a) (Swap data i j) (i + 1) (j - 1)
    (Swap r.1 r.2 a, r.2, false)

/-- The endless `for` loop of `partitionEqual_func`; returns the slice and `i`. -/
def partitionEqualLoop (less : α → α → Bool) (a : ℕ) : ℕ → List α → ℕ → ℕ → List α × ℕ
  | 0, data, i, _ => (data, i)
  | steps + 1, data, i, j =>
    let i' := scanUp (fun i => !less (elem data a) (elem data i)) j (j + 1) i
    let j' := scanDown (fun j => less (elem data a) (elem data j)) i' j
    if i' > j' then (data, i')
    else partitionEqualLoop less a steps (Swap data i' j') (i' + 1) (j' - 1)

/-- The function `partitionEqual_func`: partitions `data[a:b]` into the
elements equal to `data[pivot]` and the elements greater than it. -/
def partitionEqual_func (less : α → α → Bool) (data : List α) (a b pivot : ℕ) :
    List α × ℕ :=
  partitionEqualLoop less a (b - a + 1) (Swap data a pivot) (a + 1) (b - 1)

/-- The loop `for j := i - 1; j >= 1; j-- { if !data.Less(j, j-1) { break };
data.Swap(j, j-1) }` of `partialInsertionSort_func`. -/
def shiftLeft (less : α → α → Bool) : ℕ → List α → List α
  | 0, data => data
  | j + 1, data =>
    if less (elem data (j + 1)) (elem data j) = true then shiftLeft less j (Swap data (j + 1) j)
    else data

/-- The loop `for j := i + 1; j < b; j++ { if !data.Less(j, j-1) { break };
data.Swap(j, j-1) }` of `partialInsertionSort_func`. -/
def shiftRight (less : α → α → Bool) (b : ℕ) : ℕ → ℕ → List α → List α
  | 0, _, data => data
  | steps + 1, j, data =>
    if j < b ∧ less (elem data j) (elem data (j - 1)) = true then
      shiftRight less b steps (j + 1) (Swap data j (j - 1))
    else data

/-- The loop `for j := 0; j < maxSteps; j++` of `partialInsertionSort_func`
with `steps` iterations left; returns the slice and the result. -/
def partialInsertionLoop (less : α → α → Bool) (a b : ℕ) :
    ℕ → ℕ → List α → List α × Bool
  | 0, _, data => (data, false)
  | steps + 1, i, data =>
    let i' := scanUp (fun i => !less (elem data i) (elem data (i - 1))) (b - 1) b i
    if i' = b then (data, true)
    else if b - a < 50 then (data, false)
    else
      let d1 := Swap data i' (i' - 1)
      let d2 := if i' - a ≥ 2 then shiftLeft less (i' - 1) d1 else d1
      let d3 := if b - i' ≥ 2 then shiftRight less b b (i' + 1) d2 else d2
      partialInsertionLoop less a b steps i' d3

/-- The function `partialInsertionSort_func` (`maxSteps = 5`,
`shortestShifting = 50`). -/
def partialInsertionSort_func (less : α → α → Bool) (data : List α) (a b : ℕ) :
    List α × Bool :=
  partialInsertionLoop less a b 5 (a + 1) data

/-- The function `bits.Len`: the number of bits needed to write `n`. -/
def bitsLen (n : ℕ) : ℕ := if n = 0 then 0 else analysis.log2Nat n n + 1

/-- The function `breakPatterns_func`.  `random i` is the value that the
`i`-th call of `random.Next()` returns for the generator `xorshift(length)`;
the generator is not modelled. -/
def breakPatterns_func (random : ℕ → ℕ → ℕ) (data : List α) (a b : ℕ) : List α :=
  let length := b - a
  if length ≥ 8 then
    let modulus := 2 ^ bitsLen length
    let idx := a + (length / 4) * 2 - 1
    (List.range 3).foldl
      (fun d i =>
        let other := random length i % modulus
        let other := if other ≥ length then other - length else other
        Swap d (idx - 1 + i) (a + other))
      data
  else data

/-- The type `sortedHint`. -/
inductive sortedHint
  | unknownHint
  | increasingHint
  | decreasingHint
deriving DecidableEq

/-- The function `order2_func`. -/
def order2_func (less : α → α → Bool) (data : List α) (a b swaps : ℕ) : ℕ × ℕ × ℕ :=
  if less (elem data b) (elem data a) = true then (b, a, swaps + 1) else (a, b, swaps)

/-- The function `median_func`; returns the index of the median and `swaps`. -/
def median_func (less : α → α → Bool) (data : List α) (a b c swaps : ℕ) : ℕ × ℕ :=
  let r1 := order2_func less data a b swaps
  let r2 := order2_func less data r1.2.1 c r1.2.2
  let r3 := order2_func less data r1.1 r2.1 r2.2.2
  (r3.2.1, r3.2.2)

/-- The function `medianAdjacent_func`. -/
def medianAdjacent_func (less : α → α → Bool) (data : List α) (a swaps : ℕ) : ℕ × ℕ :=
  median_func less data (a - 1) a (a + 1) swaps

/-- The function `choosePivot_func` (`shortestNinther = 50`, `maxSwaps = 12`). -/
def choosePivot_func (less : α → α → Bool) (data : List α) (a b : ℕ) : ℕ × sortedHint :=
  let l := b - a
  let i := a + l / 4 * 1
  let j := a + l / 4 * 2
  let k := a + l / 4 * 3
  let r :=
    if l ≥ 8 then
      if l ≥ 50 then
        let ri := medianAdjacent_func less data i 0
        let rj := medianAdjacent_func less data j ri.2
        let rk := medianAdjacent_func less data k rj.2
        median_func less data ri.1 rj.1 rk.1 rk.2
      else median_func less data i j k 0
    else (j, 0)
  if r.2 = 0 then (r.1, sortedHint.increasingHint)
  else if r.2 = 12 then (r.1, sortedHint.decreasingHint)
  else (r.1, sortedHint.unknownHint)

/-- The function `reverseRange_func`: `i` from `a` up, `j` from `b - 1` down. -/
def reverseRange_func : ℕ → List α → ℕ → ℕ → List α
  | 0, data, _, _ => data
  | steps + 1, data, i, j =>
    if i < j then reverseRange_func steps (Swap data i j) (i + 1) (j - 1) else data

/-- The function `pdqsort_func` (`maxInsertion = 12`).  One unit of `steps`
is spent per iteration of its `for` loop, so `b - a + 1` units are enough; a
recursive call starts with `wasBalanced = wasPartitioned = true`. -/
def pdqsort_func (less : α → α → Bool) (random : ℕ → ℕ → ℕ) :
    ℕ → List α → ℕ → ℕ → ℕ → Bool → Bool → List α
  | 0, data, _, _, _, _, _ => data
  | steps + 1, data, a, b, limit, wasBalanced, wasPartitioned =>
    let length := b - a
    if length ≤ 12 then insertionSort_func less data a b
    else if limit = 0 then heapSort_func less data a b
    else
      let d1 := if wasBalanced = false then breakPatterns_func random data a b else data
      let limit1 := if wasBalanced = false then limit - 1 else limit
      let c := choosePivot_func less d1 a b
      let d2 :=
        if c.2 = sortedHint.decreasingHint then reverseRange_func (b - a) d1 a (b - 1) else d1
      let pivot := if c.2 = sortedHint.decreasingHint then (b - 1) - (c.1 - a) else c.1
      let hint :=
        if c.2 = sortedHint.decreasingHint then sortedHint.increasingHint else c.2
      let tryInsertion :=
        wasBalanced = true ∧ wasPartitioned = true ∧ hint = sortedHint.increasingHint
      let p := partialInsertionSort_func less d2 a b
      if tryInsertion ∧ p.2 = true then p.1
      else
        let d3 := if tryInsertion then p.1 else d2
        if a > 0 ∧ less (elem d3 (a - 1)) (elem d3 pivot) = false then
          let e := partitionEqual_func less d3 a b pivot
          pdqsort_func less random steps e.1 e.2 b limit1 wasBalanced wasPartitioned
        else
          let q := partition_func less d3 a b pivot
          let mid := q.2.1
          let leftLen := mid - a
          let rightLen := b - mid
          let balanceThreshold := length / 8
          if leftLen < rightLen then
            pdqsort_func less random steps
              (pdqsort_func less random steps q.1 a mid limit1 true true)
              (mid + 1) b limit1 (decide (leftLen ≥ balanceThreshold)) q.2.2
          else
            pdqsort_func less random steps
              (pdqsort_func less random steps q.1 (mid + 1) b limit1 true true)
              a mid limit1 (decide (rightLen ≥ balanceThreshold)) q.2.2

/-- The function `sort.Slice(x, less)`, with `less(i, j)` given by a relation
on the elements at `i` and `j`: `limit := bits.Len(uint(length))`, then
`pdqsort_func(lessSwap{less, swap}, 0, length, limit)`. -/
def Slice (less : α → α → Bool) (random : ℕ → ℕ → ℕ) (x : List α) : List α :=
  let length := x.length
  pdqsort_func less random (length + 1) x 0 length (bitsLen length) true true

/-! ### What the sort is proved to establish -/

/-- The slice `d'` holds the elements of `d`, rearranged inside `[a, b)` only. -/
def PermOn (a b : ℕ) (d d' : List α) : Prop :=
  d'.length = d.length ∧
    ∃ σ : Equiv.Perm ℕ, (∀ k, k < a ∨ b ≤ k → σ k = k) ∧ ∀ k, elem d' k = elem d (σ k)

/-- What the sort needs of `less`: a strict weak order. -/
structure StrictWeak (less : α → α → Bool) : Prop where
  irrefl : ∀ a, less a a = false
  trans : ∀ a b c, less a b = true → less b c = true → less a c = true
  negTrans : ∀ a b c, less a b = false → less b c = false → less a c = false

/-- The slice is in order on `[a, b)`: no element is `less` than an earlier one. -/
def SortedOn (less : α → α → Bool) (a b : ℕ) (d : List α) : Prop :=
  ∀ i j, a ≤ i → i < j → j < b → less (elem d j) (elem d i) = false

/-- Every element of `[a, b)` is at least the element just before the range. -/
def LeftBound (less : α → α → Bool) (a b : ℕ) (d : List α) : Prop :=
  a = 0 ∨ ∀ k, a ≤ k → k < b → less (elem d k) (elem d (a - 1)) = false

/-- The heap order on the `hi` elements from `first` on, for the parents from
`lo` on other than `r`: no parent is `less` than a child of it. -/
def HeapExcept (less : α → α → Bool) (first lo hi r : ℕ) (d : List α) : Prop :=
  ∀ c, 1 ≤ c → c < hi → lo ≤ (c - 1) / 2 → (c - 1) / 2 ≠ r →
    less (elem d (first + (c - 1) / 2)) (elem d (first + c)) = false

end sort

/-- The zero value of `flex.Trade`.  `sort.elem` returns it for an index out
of range, which the sort never reads. -/
instance : Inhabited Trade := ⟨⟨"", "", "", 0, 0, 0, "", ""⟩⟩

/-- The closure `func(i, j int) bool { return sorted[i].DateTime <
sorted[j].DateTime }` of both entry points (lines 47-49 and 129-131), as a
relation on the elements at `i` and `j`. -/
def lessByDateTime (x y : Trade) : Bool := decide (x.DateTime < y.DateTime)

/-- The statement `sort.Slice(sorted, func(i, j int) bool { return
sorted[i].DateTime < sorted[j].DateTime })` of both entry points. -/
def sortByDateTime (random : ℕ → ℕ → ℕ) (sorted : List Trade) : List Trade :=
  sort.Slice lessByDateTime random sorted

/-- Example input of thirteen trades: the sale of `exTieSell` first, then
twelve purchases at one earlier `DateTime`, `exTieBuyA` second and `exTieBuyB`
seventh in the slice, the others of another symbol. -/
def exTieThirteen : List Trade :=
  [exTieSell, exTieBuyA, exTieOther, exTieOther, exTieOther, exTieOther, exTieBuyB,
    exTieOther, exTieOther, exTieOther, exTieOther, exTieOther, exTieOther]

/-! ## The loops as instances of `closeLoop` -/

theorem eps_pos : (0 : ℚ) < eps := by norm_num [eps]

theorem closeLoop_nil (canClose gain r acc) : closeLoop canClose gain [] r acc = ([], r, acc) := by
  rw [closeLoop]

theorem closeLoop_stop (canClose gain l rest r acc) (h : ¬ (r > eps ∧ canClose l = true)) :
    closeLoop canClose gain (l :: rest) r acc = (l :: rest, r, acc) := by
  rw [closeLoop, dif_neg h]

theorem closeLoop_zero (canClose gain lots r acc) (h : r ≤ eps) :
    closeLoop canClose gain lots r acc = (lots, r, acc) := by
  cases lots with
  | nil => exact closeLoop_nil _ _ _ _
  | cons l rest => exact closeLoop_stop _ _ _ _ _ _ (fun h' => absurd h'.1 (not_lt.mpr h))

theorem closeLoop_full (canClose gain l rest r acc) (hr : r > eps) (hc : canClose l = true)
    (hq : l.qty ≤ r) :
    closeLoop canClose gain (l :: rest) r acc =
      closeLoop canClose gain rest (r - l.qty) (some (acc.getD 0 + gain l l.qty)) := by
  rw [closeLoop, dif_pos ⟨hr, hc⟩]
  simp only [min_eq_left hq, sub_self, eps_pos, dite_true]

theorem closeLoop_part (canClose gain l rest r acc) (hr : r > eps) (hc : canClose l = true)
    (hq : r < l.qty) :
    closeLoop canClose gain (l :: rest) r acc =
      (if l.qty - r < eps then rest else { l with qty := l.qty - r } :: rest, 0,
        some (acc.getD 0 + gain l r)) := by
  rw [closeLoop, dif_pos ⟨hr, hc⟩]
  simp only [min_eq_right hq.le, sub_self]
  split_ifs with h
  · exact closeLoop_zero _ _ _ _ _ eps_pos.le
  · exact closeLoop_zero _ _ _ _ _ eps_pos.le

theorem expireLoop_eq (lots r acc) :
    expireLoop lots r acc =
      closeLoop (fun _ => true) (fun l m => if l.isShort then m * l.unitCost else -(m * l.unitCost))
        lots r acc := by
  induction lots, r, acc using expireLoop.induct with
  | case1 r acc => rw [expireLoop, closeLoop]
  | case2 r acc l rest hr m acc' hq ih =>
    rw [expireLoop, closeLoop, dif_pos hr, dif_pos (And.intro hr rfl)]
    simp only [dif_pos hq]
    refine Eq.trans ih ?_
    congr 1
    cases hS : l.isShort <;> simp [acc', m, hS, sub_eq_add_neg]
  | case3 r acc l rest hr m acc' hq ih =>
    rw [expireLoop, closeLoop, dif_pos hr, dif_pos (And.intro hr rfl)]
    simp only [dif_neg hq]
    refine Eq.trans ih ?_
    congr 1
    cases hS : l.isShort <;> simp [acc', m, hS, sub_eq_add_neg]
  | case4 r acc l rest hr =>
    rw [expireLoop, closeLoop, dif_neg hr, dif_neg (fun h => hr h.1)]

theorem buyLoop_eq (netCash qty lots r acc) :
    buyLoop netCash qty lots r acc =
      closeLoop (fun l => l.isShort) (fun l m => m * l.unitCost - m * ((-netCash) / qty))
        lots r acc := by
  induction lots, r, acc using buyLoop.induct netCash qty with
  | case1 r acc => rw [buyLoop, closeLoop]
  | case2 r acc l rest hr m c acc' hq ih =>
    rw [buyLoop, closeLoop, dif_pos hr, dif_pos hr]
    simp only [dif_pos hq]
    rw [ih]
  | case3 r acc l rest hr m c acc' hq ih =>
    rw [buyLoop, closeLoop, dif_pos hr, dif_pos hr]
    simp only [dif_neg hq]
    rw [ih]
  | case4 r acc l rest hr =>
    rw [buyLoop, closeLoop, dif_neg hr, dif_neg hr]

theorem sellLoop_eq (netCash sellQty lots r acc) :
    sellLoop netCash sellQty lots r acc =
      closeLoop (fun l => !l.isShort) (fun l m => m * (netCash / sellQty) - m * l.unitCost)
        lots r acc := by
  induction lots, r, acc using sellLoop.induct netCash sellQty with
  | case1 r acc => rw [sellLoop, closeLoop]
  | case2 r acc l rest hr m c acc' hq ih =>
    have hr' : r > eps ∧ (fun l : fifoLot => !l.isShort) l = true := by simpa using hr
    rw [sellLoop, closeLoop, dif_pos hr, dif_pos hr']
    simp only [dif_pos hq]
    rw [ih]
  | case3 r acc l rest hr m c acc' hq ih =>
    have hr' : r > eps ∧ (fun l : fifoLot => !l.isShort) l = true := by simpa using hr
    rw [sellLoop, closeLoop, dif_pos hr, dif_pos hr']
    simp only [dif_neg hq]
    rw [ih]
  | case4 r acc l rest hr =>
    have hr' : ¬ (r > eps ∧ (fun l : fifoLot => !l.isShort) l = true) := by simpa using hr
    rw [sellLoop, closeLoop, dif_neg hr, dif_neg hr']

theorem cbExpireLoop_eq (gain lots r acc) :
    cbExpireLoop lots r =
      ((closeLoop (fun _ => true) gain lots r acc).1, (closeLoop (fun _ => true) gain lots r acc).2.1) := by
  induction lots, r, acc using closeLoop.induct (fun _ => true) gain with
  | case1 r acc => rw [cbExpireLoop, closeLoop]
  | case2 r acc l rest hr m acc' hq ih =>
    rw [cbExpireLoop, closeLoop, dif_pos hr, dif_pos hr.1]
    simp only [dif_pos hq]
    rw [ih]
  | case3 r acc l rest hr m acc' hq ih =>
    rw [cbExpireLoop, closeLoop, dif_pos hr, dif_pos hr.1]
    simp only [dif_neg hq]
    rw [ih]
  | case4 r acc l rest hr =>
    rw [cbExpireLoop, closeLoop, dif_neg hr, dif_neg (fun h => hr (And.intro h rfl))]

theorem cbCloseLoop_eq (side : Bool) (gain lots r acc) :
    cbCloseLoop side lots r =
      ((closeLoop (fun l => l.isShort == side) gain lots r acc).1,
       (closeLoop (fun l => l.isShort == side) gain lots r acc).2.1) := by
  induction lots, r, acc using closeLoop.induct (fun l => l.isShort == side) gain with
  | case1 r acc => rw [cbCloseLoop, closeLoop]
  | case2 r acc l rest hr m acc' hq ih =>
    have hr' : r > eps ∧ l.isShort = side := by simpa using hr
    rw [cbCloseLoop, closeLoop, dif_pos hr, dif_pos hr']
    simp only [dif_pos hq]
    rw [ih]
  | case3 r acc l rest hr m acc' hq ih =>
    have hr' : r > eps ∧ l.isShort = side := by simpa using hr
    rw [cbCloseLoop, closeLoop, dif_pos hr, dif_pos hr']
    simp only [dif_neg hq]
    rw [ih]
  | case4 r acc l rest hr =>
    have hr' : ¬ (r > eps ∧ l.isShort = side) := by simpa using hr
    rw [cbCloseLoop, closeLoop, dif_neg hr, dif_neg hr']

/-! ## Maps -/

theorem mapGet?_mapSet_same {V : Type} (m : GoMap V) (k : String) (v : V) :
    mapGet? (mapSet m k v) k = some v := by
  induction m with
  | nil => simp [mapSet, mapGet?]
  | cons e rest ih =>
    obtain ⟨k', v'⟩ := e
    by_cases h : k' = k
    · simp [mapSet, mapGet?, h]
    · simp [mapSet, mapGet?, h, ih]

theorem mapGet?_mapSet_other {V : Type} (m : GoMap V) (k k' : String) (v : V) (hk : k' ≠ k) :
    mapGet? (mapSet m k v) k' = mapGet? m k' := by
  induction m with
  | nil => simp [mapSet, mapGet?, Ne.symm hk]
  | cons e rest ih =>
    obtain ⟨k₀, v₀⟩ := e
    by_cases h : k₀ = k
    · subst h
      simp [mapSet, mapGet?, Ne.symm hk]
    · by_cases h' : k₀ = k'
      · subst h'
        simp [mapSet, mapGet?, h]
      · simp [mapSet, mapGet?, h, h', ih]

theorem mem_mapSet {V : Type} (m : GoMap V) (k : String) (v : V) (e : String × V)
    (he : e ∈ mapSet m k v) : e = (k, v) ∨ e ∈ m := by
  induction m with
  | nil => simp [mapSet] at he; exact Or.inl he
  | cons e₀ rest ih =>
    obtain ⟨k₀, v₀⟩ := e₀
    by_cases h : k₀ = k
    · simp only [mapSet, h, if_true, List.mem_cons] at he
      rcases he with he | he
      · exact Or.inl he
      · exact Or.inr (List.mem_cons_of_mem _ he)
    · simp only [mapSet, h, if_false, List.mem_cons] at he
      rcases he with he | he
      · exact Or.inr (by simp [he])
      · rcases ih he with h1 | h1
        · exact Or.inl h1
        · exact Or.inr (List.mem_cons_of_mem _ h1)

theorem mapKeys_mapSet {V : Type} (m : GoMap V) (k : String) (v : V) :
    mapKeys (mapSet m k v) = if k ∈ mapKeys m then mapKeys m else mapKeys m ++ [k] := by
  induction m with
  | nil => simp [mapSet, mapKeys]
  | cons e rest ih =>
    obtain ⟨k₀, v₀⟩ := e
    by_cases h : k₀ = k
    · subst h
      simp [mapSet, mapKeys]
    · have h' : ¬ k = k₀ := fun hh => h hh.symm
      simp only [mapKeys] at ih
      simp only [mapSet, mapKeys, h, if_false, List.map_cons, List.mem_cons, h', false_or, ih]
      split_ifs <;> simp

theorem mapKeys_mapSet_nodup {V : Type} (m : GoMap V) (k : String) (v : V)
    (h : (mapKeys m).Nodup) : (mapKeys (mapSet m k v)).Nodup := by
  rw [mapKeys_mapSet]
  split_ifs with hk
  · exact h
  · exact List.Nodup.append h (List.nodup_singleton k) (by simpa using hk)

theorem mapGet?_of_mem {V : Type} (m : GoMap V) (e : String × V)
    (h : (mapKeys m).Nodup) (he : e ∈ m) : mapGet? m e.1 = some e.2 := by
  induction m with
  | nil => simp at he
  | cons e₀ rest ih =>
    obtain ⟨k₀, v₀⟩ := e₀
    simp only [mapKeys, List.map_cons, List.nodup_cons] at h
    rcases List.mem_cons.mp he with he | he
    · subst he
      simp [mapGet?]
    · have hne : k₀ ≠ e.1 := fun hh => h.1 (hh ▸ List.mem_map_of_mem Prod.fst he)
      simp only [mapGet?, hne, if_false]
      exact ih h.2 he

theorem mem_of_mapGet? {V : Type} (m : GoMap V) (k : String) (v : V)
    (h : mapGet? m k = some v) : (k, v) ∈ m := by
  induction m with
  | nil => simp [mapGet?] at h
  | cons e₀ rest ih =>
    obtain ⟨k₀, v₀⟩ := e₀
    by_cases hk : k₀ = k
    · simp only [mapGet?, hk, if_true, Option.some.injEq] at h
      simp [hk, h]
    · simp only [mapGet?, hk, if_false] at h
      exact List.mem_cons_of_mem _ (ih h)

theorem mapSum_mapSet {V : Type} (f : V → ℚ) (m : GoMap V) (k : String) (v : V) :
    mapSum f (mapSet m k v) = mapSum f m - ((mapGet? m k).map f).getD 0 + f v := by
  induction m with
  | nil => simp [mapSet, mapSum, mapGet?]
  | cons e rest ih =>
    obtain ⟨k₀, v₀⟩ := e
    by_cases h : k₀ = k
    · simp [mapSet, mapSum, mapGet?, h]
      ring
    · simp only [mapSum] at ih
      simp only [mapSet, mapSum, mapGet?, h, if_false, List.map_cons, List.sum_cons, ih]
      ring

/-! ## Quantities on a grid -/

theorem OnGrid.sub {g x y : ℚ} (hx : OnGrid g x) (hy : OnGrid g y) : OnGrid g (x - y) := by
  obtain ⟨n, rfl⟩ := hx
  obtain ⟨k, rfl⟩ := hy
  exact ⟨n - k, by push_cast; ring⟩

theorem OnGrid.neg {g x : ℚ} (hx : OnGrid g x) : OnGrid g (-x) := by
  obtain ⟨n, rfl⟩ := hx
  exact ⟨-n, by push_cast; ring⟩

theorem OnGrid.abs {g x : ℚ} (hx : OnGrid g x) : OnGrid g |x| := by
  rcases abs_choice x with h | h <;> rw [h]
  · exact hx
  · exact hx.neg

theorem OnGrid.zero (g : ℚ) : OnGrid g 0 := ⟨0, by simp⟩

theorem OnGrid.le_of_pos {g x : ℚ} (hx : OnGrid g x) (hg : 0 < g) (h : 0 < x) : g ≤ x := by
  obtain ⟨n, rfl⟩ := hx
  have hn : (0 : ℚ) < n := by
    by_contra hcon
    have : (n : ℚ) * g ≤ 0 := mul_nonpos_of_nonpos_of_nonneg (not_lt.mp hcon) hg.le
    linarith
  have hn1 : (1 : ℚ) ≤ n := by exact_mod_cast (Int.cast_pos.mp hn)
  nlinarith

theorem OnGrid.eq_zero_of_le_eps {g x : ℚ} (hx : OnGrid g x) (hg : eps < g) (h0 : 0 ≤ x)
    (h : x ≤ eps) : x = 0 := by
  rcases h0.lt_or_eq with hpos | hz
  · have := hx.le_of_pos (lt_trans eps_pos hg) hpos
    linarith
  · exact hz.symm

theorem bookValue_cons (l : fifoLot) (rest : List fifoLot) :
    bookValue (l :: rest) = l.qty * signedUnit l + bookValue rest := by
  simp [bookValue]

theorem bookValue_append (a b : List fifoLot) :
    bookValue (a ++ b) = bookValue a + bookValue b := by
  simp [bookValue]

/-- Accounting of one matching loop on a grid of quantities: the accumulator
grows by the book value removed from the ledger plus `κ` per matched unit. -/
theorem closeLoop_account (canClose : fifoLot → Bool) (gain : fifoLot → ℚ → ℚ) (g κ : ℚ)
    (hg : eps < g)
    (hgain : ∀ l m, canClose l = true → gain l m = m * κ - m * signedUnit l) :
    ∀ (lots : List fifoLot) (r : ℚ) (acc : Option ℚ),
      GridLots g lots → 0 ≤ r → OnGrid g r →
      GridLots g (closeLoop canClose gain lots r acc).1 ∧
      0 ≤ (closeLoop canClose gain lots r acc).2.1 ∧
      OnGrid g (closeLoop canClose gain lots r acc).2.1 ∧
      (closeLoop canClose gain lots r acc).2.2.getD 0
          - bookValue (closeLoop canClose gain lots r acc).1 =
        acc.getD 0 - bookValue lots + κ * (r - (closeLoop canClose gain lots r acc).2.1) := by
  intro lots
  induction lots with
  | nil =>
    intro r acc hl h0 hr
    rw [closeLoop_nil]
    exact ⟨hl, h0, hr, by simp⟩
  | cons l rest ih =>
    intro r acc hl h0 hr
    have hlq := hl l (List.mem_cons_self _ _)
    have hrest : GridLots g rest := fun x hx => hl x (List.mem_cons_of_mem _ hx)
    by_cases hc : r > eps ∧ canClose l = true
    · by_cases hq : l.qty ≤ r
      · rw [closeLoop_full _ _ _ _ _ _ hc.1 hc.2 hq]
        obtain ⟨h1, h2, h3, h4⟩ := ih (r - l.qty) (some (acc.getD 0 + gain l l.qty)) hrest
          (by linarith) (hr.sub hlq.2)
        refine ⟨h1, h2, h3, ?_⟩
        rw [h4, bookValue_cons, hgain l l.qty hc.2]
        simp only [Option.getD_some]
        ring
      · have hlt : r < l.qty := not_le.mp hq
        rw [closeLoop_part _ _ _ _ _ _ hc.1 hc.2 hlt]
        have hge : g ≤ l.qty - r := (hlq.2.sub hr).le_of_pos (lt_trans eps_pos hg) (by linarith)
        have hnot : ¬ (l.qty - r < eps) := by linarith
        simp only [if_neg hnot]
        refine ⟨?_, le_refl 0, OnGrid.zero g, ?_⟩
        · intro x hx
          rcases List.mem_cons.mp hx with hx | hx
          · subst hx
            exact ⟨by show 0 < l.qty - r; linarith, hlq.2.sub hr⟩
          · exact hrest x hx
        · rw [bookValue_cons, bookValue_cons, hgain l r hc.2]
          simp only [Option.getD_some, signedUnit]
          ring
    · rw [closeLoop_stop _ _ _ _ _ _ hc]
      exact ⟨hl, h0, hr, by simp⟩

/-- The accumulator leaving a loop is the one entering it, or has been written. -/
theorem closeLoop_acc (canClose : fifoLot → Bool) (gain : fifoLot → ℚ → ℚ) :
    ∀ (lots : List fifoLot) (r : ℚ) (acc : Option ℚ),
      (closeLoop canClose gain lots r acc).2.2 = acc ∨
        ∃ v, (closeLoop canClose gain lots r acc).2.2 = some v := by
  intro lots
  induction lots with
  | nil => intro r acc; rw [closeLoop_nil]; exact Or.inl rfl
  | cons l rest ih =>
    intro r acc
    by_cases hc : r > eps ∧ canClose l = true
    · by_cases hq : l.qty ≤ r
      · rw [closeLoop_full _ _ _ _ _ _ hc.1 hc.2 hq]
        rcases ih (r - l.qty) (some (acc.getD 0 + gain l l.qty)) with h | h
        · exact Or.inr ⟨_, h⟩
        · exact Or.inr h
      · rw [closeLoop_part _ _ _ _ _ _ hc.1 hc.2 (not_le.mp hq)]
        exact Or.inr ⟨_, rfl⟩
    · rw [closeLoop_stop _ _ _ _ _ _ hc]
      exact Or.inl rfl

theorem bookValue_nil : bookValue [] = 0 := rfl

theorem mapSum_writeBack (pnl : GoMap ℚ) (sym : String) (acc : Option ℚ)
    (h : acc = mapGet? pnl sym ∨ ∃ v, acc = some v) :
    mapSum id (writeBack pnl sym acc) = mapSum id pnl - pnlOf pnl sym + acc.getD 0 := by
  cases acc with
  | none =>
    rcases h with h | ⟨v, h⟩
    · simp [writeBack, pnlOf, ← h]
    · simp at h
  | some v =>
    simp only [writeBack, mapSum_mapSet, pnlOf, Option.getD_some, id]
    cases mapGet? pnl sym <;> simp

theorem mapSum_bookValue_mapSet (openLots : GoMap (List fifoLot)) (sym : String)
    (lots : List fifoLot) :
    mapSum bookValue (mapSet openLots sym lots) =
      mapSum bookValue openLots - bookValue (lotsOf openLots sym) + bookValue lots := by
  rw [mapSum_mapSet, lotsOf]
  cases mapGet? openLots sym <;> simp [bookValue_nil]

theorem GridLots_lotsOf (g : ℚ) (openLots : GoMap (List fifoLot)) (sym : String)
    (h : ∀ e ∈ openLots, GridLots g e.2) : GridLots g (lotsOf openLots sym) := by
  unfold lotsOf
  cases hm : mapGet? openLots sym with
  | none => intro l hl; simp at hl
  | some lots => exact h _ (mem_of_mapGet? _ _ _ hm)

theorem GridState_mapSet (g : ℚ) (s : State) (sym : String) (lots : List fifoLot) (pnl : GoMap ℚ)
    (hs : GridState g s) (hl : GridLots g lots) :
    GridState g ⟨mapSet s.openLots sym lots, pnl⟩ := by
  refine ⟨mapKeys_mapSet_nodup _ _ _ hs.1, ?_⟩
  intro e he
  rcases mem_mapSet _ _ _ _ he with h | h
  · subst h; exact hl
  · exact hs.2 e h

/-- One trade on a grid keeps the state well-formed and moves the balance by
the trade's net cash. -/
theorem stepFIFO_balance (g : ℚ) (hg : eps < g) (s : State) (t : Trade)
    (hs : GridState g s) (hq : OnGrid g t.Quantity)
    (hz : (t.TransactionType = "BookTrade" ∨ t.Quantity = 0) → netCash t = 0) :
    GridState g (stepFIFO s t) ∧ ledgerBalance (stepFIFO s t) = ledgerBalance s + netCash t := by
  have hlots := GridLots_lotsOf g s.openLots t.Symbol hs.2
  unfold stepFIFO
  by_cases hb : t.TransactionType = "BookTrade"
  · simp only [hb, if_true, expireLoop_eq]
    obtain ⟨h1, h2, h3, h4⟩ := closeLoop_account (fun _ => true)
      (fun l m => if l.isShort then m * l.unitCost else -(m * l.unitCost)) g 0 hg
      (by intro l m _; cases hS : l.isShort <;> simp [signedUnit, hS])
      (lotsOf s.openLots t.Symbol) |t.Quantity| (mapGet? s.pnl t.Symbol) hlots (abs_nonneg _) hq.abs
    have hacc := closeLoop_acc (fun _ => true)
      (fun l m => if l.isShort then m * l.unitCost else -(m * l.unitCost))
      (lotsOf s.openLots t.Symbol) |t.Quantity| (mapGet? s.pnl t.Symbol)
    refine ⟨GridState_mapSet g s _ _ _ hs h1, ?_⟩
    simp only [ledgerBalance, mapSum_bookValue_mapSet, mapSum_writeBack _ _ _ hacc]
    rw [hz (Or.inl hb)]
    simp only [pnlOf] at h4 ⊢
    linarith
  · simp only [hb, if_false]
    by_cases hpos : t.Quantity > 0
    · simp only [hpos, if_true, buyLoop_eq]
      obtain ⟨h1, h2, h3, h4⟩ := closeLoop_account (fun l => l.isShort)
        (fun l m => m * l.unitCost - m * ((-(t.Proceeds + t.Commission)) / t.Quantity)) g
        (-((-(t.Proceeds + t.Commission)) / t.Quantity)) hg
        (by intro l m hS; simp only [signedUnit, hS, if_true]; ring)
        (lotsOf s.openLots t.Symbol) t.Quantity (mapGet? s.pnl t.Symbol) hlots hpos.le hq
      have hacc := closeLoop_acc (fun l => l.isShort)
        (fun l m => m * l.unitCost - m * ((-(t.Proceeds + t.Commission)) / t.Quantity))
        (lotsOf s.openLots t.Symbol) t.Quantity (mapGet? s.pnl t.Symbol)
      have hne : t.Quantity ≠ 0 := ne_of_gt hpos
      have hcq : (-(t.Proceeds + t.Commission)) / t.Quantity * t.Quantity
          = -(t.Proceeds + t.Commission) := div_mul_cancel₀ _ hne
      split_ifs with hrem
      · refine ⟨GridState_mapSet g s _ _ _ hs ?_, ?_⟩
        · intro x hx
          rcases List.mem_append.mp hx with hx | hx
          · exact h1 x hx
          · simp only [List.mem_singleton] at hx
            subst hx
            exact ⟨lt_trans eps_pos hrem, h3⟩
        · simp only [ledgerBalance, mapSum_bookValue_mapSet, mapSum_writeBack _ _ _ hacc,
            bookValue_append, bookValue_cons, bookValue_nil, signedUnit, netCash, pnlOf]
          simp only [Bool.false_eq_true, if_false]
          linear_combination h4 - hcq
      · have hr0 := h3.eq_zero_of_le_eps hg h2 (not_lt.mp hrem)
        refine ⟨GridState_mapSet g s _ _ _ hs h1, ?_⟩
        simp only [ledgerBalance, mapSum_bookValue_mapSet, mapSum_writeBack _ _ _ hacc,
          netCash, pnlOf]
        rw [hr0] at h4
        linear_combination h4 - hcq
    · simp only [hpos, if_false]
      by_cases hneg : t.Quantity < 0
      · simp only [hneg, if_true, sellLoop_eq]
        obtain ⟨h1, h2, h3, h4⟩ := closeLoop_account (fun l => !l.isShort)
          (fun l m => m * ((t.Proceeds + t.Commission) / (-t.Quantity)) - m * l.unitCost) g
          ((t.Proceeds + t.Commission) / (-t.Quantity)) hg
          (by
            intro l m hS
            have hS' : l.isShort = false := by simpa using hS
            simp only [signedUnit, hS', Bool.false_eq_true, if_false])
          (lotsOf s.openLots t.Symbol) (-t.Quantity) (mapGet? s.pnl t.Symbol) hlots
          (by linarith) hq.neg
        have hacc := closeLoop_acc (fun l => !l.isShort)
          (fun l m => m * ((t.Proceeds + t.Commission) / (-t.Quantity)) - m * l.unitCost)
          (lotsOf s.openLots t.Symbol) (-t.Quantity) (mapGet? s.pnl t.Symbol)
        have hne : -t.Quantity ≠ 0 := by
          intro h; linarith
        have hcq : (t.Proceeds + t.Commission) / (-t.Quantity) * (-t.Quantity)
            = t.Proceeds + t.Commission := div_mul_cancel₀ _ hne
        split_ifs with hrem
        · refine ⟨GridState_mapSet g s _ _ _ hs ?_, ?_⟩
          · intro x hx
            rcases List.mem_append.mp hx with hx | hx
            · exact h1 x hx
            · simp only [List.mem_singleton] at hx
              subst hx
              exact ⟨lt_trans eps_pos hrem, h3⟩
          · simp only [ledgerBalance, mapSum_bookValue_mapSet, mapSum_writeBack _ _ _ hacc,
              bookValue_append, bookValue_cons, bookValue_nil, signedUnit, netCash, pnlOf]
            simp only [if_true]
            linear_combination h4 + hcq
        · have hr0 := h3.eq_zero_of_le_eps hg h2 (not_lt.mp hrem)
          refine ⟨GridState_mapSet g s _ _ _ hs h1, ?_⟩
          simp only [ledgerBalance, mapSum_bookValue_mapSet, mapSum_writeBack _ _ _ hacc,
            netCash, pnlOf]
          rw [hr0] at h4
          linear_combination h4 + hcq
      · simp only [hneg, if_false]
        have h0 : t.Quantity = 0 := le_antisymm (not_lt.mp hpos) (not_lt.mp hneg)
        exact ⟨hs, by rw [hz (Or.inr h0)]; simp⟩

theorem foldl_stepFIFO_balance (g : ℚ) (hg : eps < g) (trades : List Trade) :
    ∀ s : State, GridState g s → (∀ t ∈ trades, OnGrid g t.Quantity) →
      (∀ t ∈ trades, (t.TransactionType = "BookTrade" ∨ t.Quantity = 0) → netCash t = 0) →
      GridState g (trades.foldl stepFIFO s) ∧
      ledgerBalance (trades.foldl stepFIFO s) = ledgerBalance s + (trades.map netCash).sum := by
  induction trades with
  | nil => intro s hs _ _; exact ⟨hs, by simp⟩
  | cons t rest ih =>
    intro s hs hq hz
    obtain ⟨h1, h2⟩ := stepFIFO_balance g hg s t hs (hq t (List.mem_cons_self _ _))
      (hz t (List.mem_cons_self _ _))
    obtain ⟨h3, h4⟩ := ih (stepFIFO s t) h1 (fun x hx => hq x (List.mem_cons_of_mem _ hx))
      (fun x hx => hz x (List.mem_cons_of_mem _ hx))
    refine ⟨h3, ?_⟩
    simp only [List.foldl_cons, List.map_cons, List.sum_cons, h4, h2]
    ring

theorem GridState_init (g : ℚ) : GridState g State.init := by
  refine ⟨by simp [State.init, mapKeys], ?_⟩
  intro e he
  simp [State.init] at he

theorem mapSum_bookValue_of_closed (openLots : GoMap (List fifoLot))
    (hk : (mapKeys openLots).Nodup) (h : ∀ sym, lotsOf openLots sym = []) :
    mapSum bookValue openLots = 0 := by
  have hall : ∀ e ∈ openLots, bookValue e.2 = 0 := by
    intro e he
    have h1 := mapGet?_of_mem openLots e hk he
    have h2 := h e.1
    simp only [lotsOf, h1, Option.getD_some] at h2
    rw [h2]; rfl
  unfold mapSum
  apply List.sum_eq_zero
  intro x hx
  obtain ⟨e, he, rfl⟩ := List.mem_map.mp hx
  exact hall e he

/-- C1 (as amended): for trades whose quantities are whole multiples of a lot
size `g > 1e-9`, whose expiration events and zero-quantity trades carry no net
cash, and after which no symbol has an open lot, the realized P&L summed over
all symbols equals the sum of `Proceeds + Commission` over all trades. -/
theorem fifo_full_reconciliation (sortSlice : List Trade → List Trade)
    (hsort : SortsByDateTime sortSlice) (g : ℚ) (hg : eps < g) (trades : List Trade)
    (hgrid : ∀ t ∈ trades, OnGrid g t.Quantity)
    (hcash : ∀ t ∈ trades, (t.TransactionType = "BookTrade" ∨ t.Quantity = 0) →
      t.Proceeds + t.Commission = 0)
    (hclosed : ∀ sym, lotsOf (runFIFO (sortSlice trades)).openLots sym = []) :
    mapSum id (computeFIFOPnL sortSlice trades) =
      (trades.map (fun t => t.Proceeds + t.Commission)).sum := by
  have hperm := (hsort trades).1
  obtain ⟨h1, h2⟩ := foldl_stepFIFO_balance g hg (sortSlice trades) State.init (GridState_init g)
    (fun t ht => hgrid t (hperm.mem_iff.mp ht))
    (fun t ht => hcash t (hperm.mem_iff.mp ht))
  have h3 : mapSum bookValue (runFIFO (sortSlice trades)).openLots = 0 :=
    mapSum_bookValue_of_closed _ h1.1 hclosed
  have h4 : ledgerBalance State.init = 0 := by simp [ledgerBalance, State.init, mapSum]
  have h5 : ((sortSlice trades).map netCash).sum = (trades.map netCash).sum :=
    (hperm.map netCash).sum_eq
  have h6 : ledgerBalance (runFIFO (sortSlice trades)) = (trades.map netCash).sum := by
    rw [← h5, ← zero_add ((sortSlice trades).map netCash).sum, ← h4]
    exact h2
  unfold ledgerBalance at h6
  rw [h3, sub_zero] at h6
  exact h6

/-! ## Sorting -/

theorem insertionSortByDateTime_sorts : SortsByDateTime insertionSortByDateTime := by
  intro l
  refine ⟨List.perm_insertionSort _ l, ?_⟩
  have htot : IsTotal Trade (fun a b => ¬ b.DateTime < a.DateTime) :=
    ⟨fun a b => by
      by_cases h : b.DateTime < a.DateTime
      · exact Or.inr (lt_asymm h)
      · exact Or.inl h⟩
  have htr : IsTrans Trade (fun a b => ¬ b.DateTime < a.DateTime) :=
    ⟨fun a b c h1 h2 => not_lt.mpr (le_trans (not_lt.mp h1) (not_lt.mp h2))⟩
  exact List.sorted_insertionSort (fun a b : Trade => ¬ b.DateTime < a.DateTime) l

theorem eq_of_map_eq_of_injOn {α β : Type} (f : α → β) :
    ∀ (l₁ l₂ : List α), (∀ x ∈ l₁, ∀ y ∈ l₂, f x = f y → x = y) → l₁.map f = l₂.map f →
      l₁ = l₂ := by
  intro l₁
  induction l₁ with
  | nil => intro l₂ _ h; cases l₂ with
    | nil => rfl
    | cons b t => simp at h
  | cons a t ih =>
    intro l₂ hinj h
    cases l₂ with
    | nil => simp at h
    | cons b t₂ =>
      simp only [List.map_cons, List.cons.injEq] at h
      have hab : a = b := hinj a (List.mem_cons_self _ _) b (List.mem_cons_self _ _) h.1
      have ht : t = t₂ := ih t₂
        (fun x hx y hy => hinj x (List.mem_cons_of_mem _ hx) y (List.mem_cons_of_mem _ hy)) h.2
      rw [hab, ht]

/-- A history with pairwise distinct, increasing timestamps is processed in
exactly that order, whatever the order of the input slice. -/
theorem sortSlice_eq_of_increasing (sortSlice : List Trade → List Trade)
    (hsort : SortsByDateTime sortSlice) (l trades : List Trade)
    (hinc : l.Pairwise (fun a b => a.DateTime < b.DateTime)) (hperm : trades.Perm l) :
    sortSlice trades = l := by
  obtain ⟨hp, hs⟩ := hsort trades
  have hp' : (sortSlice trades).Perm l := hp.trans hperm
  have hs1 : ((sortSlice trades).map Trade.DateTime).Sorted (· ≤ ·) := by
    rw [List.Sorted, List.pairwise_map]
    exact hs.imp (fun h => not_lt.mp h)
  have hs2 : (l.map Trade.DateTime).Sorted (· ≤ ·) := by
    rw [List.Sorted, List.pairwise_map]
    exact hinc.imp (fun h => le_of_lt h)
  have hmap : (sortSlice trades).map Trade.DateTime = l.map Trade.DateTime :=
    List.eq_of_perm_of_sorted (hp'.map _) hs1 hs2
  have hnd : (l.map Trade.DateTime).Nodup := by
    rw [List.Nodup, List.pairwise_map]
    exact hinc.imp (fun h => ne_of_lt h)
  refine eq_of_map_eq_of_injOn Trade.DateTime _ _ ?_ hmap
  intro x hx y hy hxy
  exact List.inj_on_of_nodup_map hnd (hp'.mem_iff.mp hx) hy hxy

/-! ## Reading the maps after one trade -/

theorem lotsOf_mapSet_same (m : GoMap (List fifoLot)) (k : String) (v : List fifoLot) :
    lotsOf (mapSet m k v) k = v := by
  simp [lotsOf, mapGet?_mapSet_same]

theorem lotsOf_mapSet_other (m : GoMap (List fifoLot)) (k k' : String) (v : List fifoLot)
    (h : k' ≠ k) : lotsOf (mapSet m k v) k' = lotsOf m k' := by
  simp [lotsOf, mapGet?_mapSet_other _ _ _ _ h]

theorem mapGet?_writeBack_other (pnl : GoMap ℚ) (sym sym' : String) (acc : Option ℚ)
    (h : sym' ≠ sym) : mapGet? (writeBack pnl sym acc) sym' = mapGet? pnl sym' := by
  cases acc with
  | none => rfl
  | some v => exact mapGet?_mapSet_other _ _ _ _ h

theorem pnlOf_writeBack_same (pnl : GoMap ℚ) (sym : String) (acc : Option ℚ)
    (h : acc = mapGet? pnl sym ∨ ∃ v, acc = some v) :
    pnlOf (writeBack pnl sym acc) sym = acc.getD 0 := by
  cases acc with
  | none =>
    rcases h with h | ⟨v, h⟩
    · simp [writeBack, pnlOf, ← h]
    · simp at h
  | some v => simp [writeBack, pnlOf, mapGet?_mapSet_same]

theorem stepFIFO_book (s : State) (t : Trade) (hb : t.TransactionType = "BookTrade") :
    stepFIFO s t =
      ⟨mapSet s.openLots t.Symbol
          (closeLoop (fun _ => true)
            (fun l m => if l.isShort then m * l.unitCost else -(m * l.unitCost))
            (lotsOf s.openLots t.Symbol) |t.Quantity| (mapGet? s.pnl t.Symbol)).1,
        writeBack s.pnl t.Symbol
          (closeLoop (fun _ => true)
            (fun l m => if l.isShort then m * l.unitCost else -(m * l.unitCost))
            (lotsOf s.openLots t.Symbol) |t.Quantity| (mapGet? s.pnl t.Symbol)).2.2⟩ := by
  simp only [stepFIFO, hb, if_true, expireLoop_eq]

theorem stepFIFO_buy (s : State) (t : Trade) (hb : t.TransactionType ≠ "BookTrade")
    (hq : t.Quantity > 0) :
    stepFIFO s t =
      ⟨mapSet s.openLots t.Symbol
          (if (closeLoop (fun l => l.isShort)
                (fun l m => m * l.unitCost - m * ((-netCash t) / t.Quantity))
                (lotsOf s.openLots t.Symbol) t.Quantity (mapGet? s.pnl t.Symbol)).2.1 > eps then
            (closeLoop (fun l => l.isShort)
                (fun l m => m * l.unitCost - m * ((-netCash t) / t.Quantity))
                (lotsOf s.openLots t.Symbol) t.Quantity (mapGet? s.pnl t.Symbol)).1 ++
              [⟨(closeLoop (fun l => l.isShort)
                (fun l m => m * l.unitCost - m * ((-netCash t) / t.Quantity))
                (lotsOf s.openLots t.Symbol) t.Quantity (mapGet? s.pnl t.Symbol)).2.1,
                (-netCash t) / t.Quantity, false⟩]
          else
            (closeLoop (fun l => l.isShort)
                (fun l m => m * l.unitCost - m * ((-netCash t) / t.Quantity))
                (lotsOf s.openLots t.Symbol) t.Quantity (mapGet? s.pnl t.Symbol)).1),
        writeBack s.pnl t.Symbol
          (closeLoop (fun l => l.isShort)
            (fun l m => m * l.unitCost - m * ((-netCash t) / t.Quantity))
            (lotsOf s.openLots t.Symbol) t.Quantity (mapGet? s.pnl t.Symbol)).2.2⟩ := by
  simp only [stepFIFO, hb, if_false, hq, if_true, buyLoop_eq, netCash]

theorem stepFIFO_sell (s : State) (t : Trade) (hb : t.TransactionType ≠ "BookTrade")
    (hq : t.Quantity < 0) :
    stepFIFO s t =
      ⟨mapSet s.openLots t.Symbol
          (if (closeLoop (fun l => !l.isShort)
                (fun l m => m * (netCash t / (-t.Quantity)) - m * l.unitCost)
                (lotsOf s.openLots t.Symbol) (-t.Quantity) (mapGet? s.pnl t.Symbol)).2.1 > eps then
            (closeLoop (fun l => !l.isShort)
                (fun l m => m * (netCash t / (-t.Quantity)) - m * l.unitCost)
                (lotsOf s.openLots t.Symbol) (-t.Quantity) (mapGet? s.pnl t.Symbol)).1 ++
              [⟨(closeLoop (fun l => !l.isShort)
                (fun l m => m * (netCash t / (-t.Quantity)) - m * l.unitCost)
                (lotsOf s.openLots t.Symbol) (-t.Quantity) (mapGet? s.pnl t.Symbol)).2.1,
                netCash t / (-t.Quantity), true⟩]
          else
            (closeLoop (fun l => !l.isShort)
                (fun l m => m * (netCash t / (-t.Quantity)) - m * l.unitCost)
                (lotsOf s.openLots t.Symbol) (-t.Quantity) (mapGet? s.pnl t.Symbol)).1),
        writeBack s.pnl t.Symbol
          (closeLoop (fun l => !l.isShort)
            (fun l m => m * (netCash t / (-t.Quantity)) - m * l.unitCost)
            (lotsOf s.openLots t.Symbol) (-t.Quantity) (mapGet? s.pnl t.Symbol)).2.2⟩ := by
  have hq' : ¬ t.Quantity > 0 := by
    intro h; linarith
  simp only [stepFIFO, hb, if_false, hq, hq', if_true, sellLoop_eq, netCash]

theorem mapSet_self {V : Type} (m : GoMap V) (k : String) (v : V) (h : mapGet? m k = some v) :
    mapSet m k v = m := by
  induction m with
  | nil => simp [mapGet?] at h
  | cons e rest ih =>
    obtain ⟨k₀, v₀⟩ := e
    by_cases hk : k₀ = k
    · simp only [mapGet?, hk, if_true, Option.some.injEq] at h
      simp [mapSet, hk, h]
    · simp only [mapGet?, hk, if_false] at h
      simp [mapSet, hk, ih h]

theorem writeBack_unchanged (pnl : GoMap ℚ) (sym : String) :
    writeBack pnl sym (mapGet? pnl sym) = pnl := by
  cases h : mapGet? pnl sym with
  | none => rfl
  | some v => exact mapSet_self pnl sym v h

/-- A buy of more than `eps` units on a ledger whose front is not a short lot
only appends a long lot. -/
theorem stepFIFO_open_long (s : State) (t : Trade) (hb : t.TransactionType ≠ "BookTrade")
    (hq : t.Quantity > eps)
    (hfront : ∀ l rest, lotsOf s.openLots t.Symbol = l :: rest → l.isShort = false) :
    stepFIFO s t =
      ⟨mapSet s.openLots t.Symbol
          (lotsOf s.openLots t.Symbol ++ [⟨t.Quantity, (-netCash t) / t.Quantity, false⟩]),
        s.pnl⟩ := by
  have h0 : t.Quantity > 0 := lt_trans eps_pos hq
  have hloop : closeLoop (fun l => l.isShort)
      (fun l m => m * l.unitCost - m * ((-netCash t) / t.Quantity))
      (lotsOf s.openLots t.Symbol) t.Quantity (mapGet? s.pnl t.Symbol) =
      (lotsOf s.openLots t.Symbol, t.Quantity, mapGet? s.pnl t.Symbol) := by
    cases hl : lotsOf s.openLots t.Symbol with
    | nil => exact closeLoop_nil _ _ _ _
    | cons l rest =>
      apply closeLoop_stop
      simp [hfront l rest hl]
  rw [stepFIFO_buy s t hb h0, hloop]
  simp only [hq, if_true, writeBack_unchanged]

/-- A sell of more than `eps` units on a ledger whose front is not a long lot
only appends a short lot. -/
theorem stepFIFO_open_short (s : State) (t : Trade) (hb : t.TransactionType ≠ "BookTrade")
    (hq : -t.Quantity > eps)
    (hfront : ∀ l rest, lotsOf s.openLots t.Symbol = l :: rest → l.isShort = true) :
    stepFIFO s t =
      ⟨mapSet s.openLots t.Symbol
          (lotsOf s.openLots t.Symbol ++ [⟨-t.Quantity, netCash t / (-t.Quantity), true⟩]),
        s.pnl⟩ := by
  have h0 : t.Quantity < 0 := by
    have := eps_pos; linarith
  have hloop : closeLoop (fun l => !l.isShort)
      (fun l m => m * (netCash t / (-t.Quantity)) - m * l.unitCost)
      (lotsOf s.openLots t.Symbol) (-t.Quantity) (mapGet? s.pnl t.Symbol) =
      (lotsOf s.openLots t.Symbol, -t.Quantity, mapGet? s.pnl t.Symbol) := by
    cases hl : lotsOf s.openLots t.Symbol with
    | nil => exact closeLoop_nil _ _ _ _
    | cons l rest =>
      apply closeLoop_stop
      simp [hfront l rest hl]
  rw [stepFIFO_sell s t hb h0, hloop]
  simp only [hq, if_true, writeBack_unchanged]

theorem lotsOf_nil (sym : String) : lotsOf [] sym = [] := rfl

/-- Buy `q`, then sell `q` of the same symbol: the lot is closed and the P&L is
the sum of the two net cash amounts. -/
theorem runFIFO_long_round_trip (buy sell : Trade) (q : ℚ) (hq : q > eps)
    (hsym : sell.Symbol = buy.Symbol)
    (hb1 : buy.TransactionType ≠ "BookTrade") (hb2 : sell.TransactionType ≠ "BookTrade")
    (hqb : buy.Quantity = q) (hqs : sell.Quantity = -q) :
    runFIFO [buy, sell] = ⟨[(buy.Symbol, [])], [(buy.Symbol, netCash sell + netCash buy)]⟩ := by
  have hq0 : q ≠ 0 := ne_of_gt (lt_trans eps_pos hq)
  have h1 : stepFIFO State.init buy =
      ⟨[(buy.Symbol, [⟨q, (-netCash buy) / q, false⟩])], []⟩ := by
    rw [stepFIFO_open_long State.init buy hb1 (by rw [hqb]; exact hq)
      (by intro l rest h; simp [State.init, lotsOf_nil] at h)]
    simp [State.init, lotsOf_nil, mapSet, hqb]
  have h2 : stepFIFO ⟨[(buy.Symbol, [⟨q, (-netCash buy) / q, false⟩])], []⟩ sell =
      ⟨[(buy.Symbol, [])], [(buy.Symbol, netCash sell + netCash buy)]⟩ := by
    rw [stepFIFO_sell _ sell hb2 (by rw [hqs]; have := eps_pos; linarith)]
    simp only [hsym, hqs, neg_neg, lotsOf, mapGet?, if_true, Option.getD_some]
    rw [closeLoop_full _ _ _ _ _ _ hq (by simp) (le_refl _)]
    simp only [closeLoop_nil, sub_self, Option.getD_none, zero_add, writeBack, mapSet, if_true]
    have he : ¬ ((0 : ℚ) > eps) := not_lt.mpr eps_pos.le
    simp only [he, if_false]
    congr 3
    field_simp
    ring
  simp only [runFIFO, List.foldl_cons, List.foldl_nil, h1, h2]

/-- Sell `q` short, then buy `q` of the same symbol: the short lot is closed and
the P&L is the sum of the two net cash amounts. -/
theorem runFIFO_short_round_trip (sell buy : Trade) (q : ℚ) (hq : q > eps)
    (hsym : buy.Symbol = sell.Symbol)
    (hb1 : sell.TransactionType ≠ "BookTrade") (hb2 : buy.TransactionType ≠ "BookTrade")
    (hqs : sell.Quantity = -q) (hqb : buy.Quantity = q) :
    runFIFO [sell, buy] = ⟨[(sell.Symbol, [])], [(sell.Symbol, netCash sell + netCash buy)]⟩ := by
  have hq0 : q ≠ 0 := ne_of_gt (lt_trans eps_pos hq)
  have h1 : stepFIFO State.init sell =
      ⟨[(sell.Symbol, [⟨q, netCash sell / q, true⟩])], []⟩ := by
    rw [stepFIFO_open_short State.init sell hb1 (by rw [hqs, neg_neg]; exact hq)
      (by intro l rest h; simp [State.init, lotsOf_nil] at h)]
    simp [State.init, lotsOf_nil, mapSet, hqs]
  have h2 : stepFIFO ⟨[(sell.Symbol, [⟨q, netCash sell / q, true⟩])], []⟩ buy =
      ⟨[(sell.Symbol, [])], [(sell.Symbol, netCash sell + netCash buy)]⟩ := by
    rw [stepFIFO_buy _ buy hb2 (by rw [hqb]; exact lt_trans eps_pos hq)]
    simp only [hsym, hqb, lotsOf, mapGet?, if_true, Option.getD_some]
    rw [closeLoop_full _ _ _ _ _ _ hq (by simp) (le_refl _)]
    simp only [closeLoop_nil, sub_self, Option.getD_none, zero_add, writeBack, mapSet, if_true]
    have he : ¬ ((0 : ℚ) > eps) := not_lt.mpr eps_pos.le
    simp only [he, if_false]
    congr 3
    field_simp
    ring
  simp only [runFIFO, List.foldl_cons, List.foldl_nil, h1, h2]

theorem lotsOf_singleton_nil (k sym : String) : lotsOf [(k, [])] sym = [] := by
  by_cases h : k = sym <;> simp [lotsOf, mapGet?, h]

/-! ## Round trips (C2, C3) -/

/-- C2: a normal buy of `q > 1e-9` units followed, at a strictly later
`DateTime`, by a normal sell of `q` units of the same symbol yields realized
P&L exactly `ns + nb` (the two net cash amounts) for that symbol and leaves no
open lot, whatever the order of the two trades in the input slice. -/
theorem long_round_trip (sortSlice : List Trade → List Trade)
    (hsort : SortsByDateTime sortSlice) (trades : List Trade) (buy sell : Trade) (q : ℚ)
    (hq : q > eps) (hsym : sell.Symbol = buy.Symbol)
    (hb1 : buy.TransactionType ≠ "BookTrade") (hb2 : sell.TransactionType ≠ "BookTrade")
    (hqb : buy.Quantity = q) (hqs : sell.Quantity = -q)
    (hlater : buy.DateTime < sell.DateTime) (hhist : trades.Perm [buy, sell]) :
    computeFIFOPnL sortSlice trades =
        [(buy.Symbol, (sell.Proceeds + sell.Commission) + (buy.Proceeds + buy.Commission))] ∧
      ∀ sym, lotsOf (runFIFO (sortSlice trades)).openLots sym = [] := by
  have hs : sortSlice trades = [buy, sell] :=
    sortSlice_eq_of_increasing sortSlice hsort [buy, sell] trades (by simpa using hlater) hhist
  have hr := runFIFO_long_round_trip buy sell q hq hsym hb1 hb2 hqb hqs
  unfold computeFIFOPnL
  rw [hs, hr]
  exact ⟨rfl, fun sym => lotsOf_singleton_nil _ _⟩

/-- C2 at the example of the specification: buy 100 (proceeds -1000, commission
-1), then sell 100 (proceeds 1200, commission -1), realizes 198. -/
theorem long_round_trip_witness :
    SortsByDateTime insertionSortByDateTime ∧ (100 : ℚ) > eps ∧
      exLongSell.Symbol = exLongBuy.Symbol ∧
      exLongBuy.TransactionType ≠ "BookTrade" ∧ exLongSell.TransactionType ≠ "BookTrade" ∧
      exLongBuy.Quantity = 100 ∧ exLongSell.Quantity = -100 ∧
      exLongBuy.DateTime < exLongSell.DateTime ∧
      [exLongSell, exLongBuy].Perm [exLongBuy, exLongSell] ∧
      computeFIFOPnL insertionSortByDateTime [exLongSell, exLongBuy] = [("ACME", 198)] ∧
      ∀ sym, lotsOf (runFIFO (insertionSortByDateTime [exLongSell, exLongBuy])).openLots sym
        = [] := by
  have h1 : (100 : ℚ) > eps := by norm_num [eps]
  have h2 : exLongBuy.TransactionType ≠ "BookTrade" := by decide
  have h3 : exLongSell.TransactionType ≠ "BookTrade" := by decide
  have h4 : exLongBuy.DateTime < exLongSell.DateTime := by
    rw [String.lt_iff_toList_lt]; decide
  have h5 : exLongSell.Quantity = -100 := rfl
  have h6 : [exLongSell, exLongBuy].Perm [exLongBuy, exLongSell] := List.Perm.swap _ _ _
  have h := long_round_trip insertionSortByDateTime insertionSortByDateTime_sorts
    [exLongSell, exLongBuy] exLongBuy exLongSell 100 h1 rfl h2 h3 rfl h5 h4 h6
  refine ⟨insertionSortByDateTime_sorts, h1, rfl, h2, h3, rfl, h5, h4, h6, ?_, h.2⟩
  rw [h.1]
  norm_num [exLongBuy, exLongSell]

/-- C3: a normal sell of `q > 1e-9` units (opening a short lot) followed, at a
strictly later `DateTime`, by a normal buy of `q` units of the same symbol
yields realized P&L exactly `ns + nb` for that symbol and leaves no open lot. -/
theorem short_round_trip (sortSlice : List Trade → List Trade)
    (hsort : SortsByDateTime sortSlice) (trades : List Trade) (sell buy : Trade) (q : ℚ)
    (hq : q > eps) (hsym : buy.Symbol = sell.Symbol)
    (hb1 : sell.TransactionType ≠ "BookTrade") (hb2 : buy.TransactionType ≠ "BookTrade")
    (hqs : sell.Quantity = -q) (hqb : buy.Quantity = q)
    (hlater : sell.DateTime < buy.DateTime) (hhist : trades.Perm [sell, buy]) :
    computeFIFOPnL sortSlice trades =
        [(sell.Symbol, (sell.Proceeds + sell.Commission) + (buy.Proceeds + buy.Commission))] ∧
      ∀ sym, lotsOf (runFIFO (sortSlice trades)).openLots sym = [] := by
  have hs : sortSlice trades = [sell, buy] :=
    sortSlice_eq_of_increasing sortSlice hsort [sell, buy] trades (by simpa using hlater) hhist
  have hr := runFIFO_short_round_trip sell buy q hq hsym hb1 hb2 hqs hqb
  unfold computeFIFOPnL
  rw [hs, hr]
  exact ⟨rfl, fun sym => lotsOf_singleton_nil _ _⟩

/-- C3 at the example of the specification: sell 50 (proceeds 1000, commission
-1), then buy 50 (proceeds -750, commission -1), realizes 248. -/
theorem short_round_trip_witness :
    SortsByDateTime insertionSortByDateTime ∧ (50 : ℚ) > eps ∧
      exShortBuy.Symbol = exShortSell.Symbol ∧
      exShortSell.TransactionType ≠ "BookTrade" ∧ exShortBuy.TransactionType ≠ "BookTrade" ∧
      exShortSell.Quantity = -50 ∧ exShortBuy.Quantity = 50 ∧
      exShortSell.DateTime < exShortBuy.DateTime ∧
      [exShortSell, exShortBuy].Perm [exShortSell, exShortBuy] ∧
      computeFIFOPnL insertionSortByDateTime [exShortSell, exShortBuy] = [("ACME", 248)] ∧
      ∀ sym, lotsOf (runFIFO (insertionSortByDateTime [exShortSell, exShortBuy])).openLots sym
        = [] := by
  have h1 : (50 : ℚ) > eps := by norm_num [eps]
  have h2 : exShortSell.TransactionType ≠ "BookTrade" := by decide
  have h3 : exShortBuy.TransactionType ≠ "BookTrade" := by decide
  have h4 : exShortSell.DateTime < exShortBuy.DateTime := by
    rw [String.lt_iff_toList_lt]; decide
  have h5 : exShortSell.Quantity = -50 := rfl
  have h6 : [exShortSell, exShortBuy].Perm [exShortSell, exShortBuy] := List.Perm.refl _
  have h := short_round_trip insertionSortByDateTime insertionSortByDateTime_sorts
    [exShortSell, exShortBuy] exShortSell exShortBuy 50 h1 rfl h2 h3 h5 rfl h4 h6
  refine ⟨insertionSortByDateTime_sorts, h1, rfl, h2, h3, h5, rfl, h4, h6, ?_, h.2⟩
  rw [h.1]
  norm_num [exShortBuy, exShortSell]

/-! ## Matching against a front lot that is large enough -/

theorem closeLoop_front (canClose : fifoLot → Bool) (gain : fifoLot → ℚ → ℚ) (l : fifoLot)
    (rest : List fifoLot) (r : ℚ) (acc : Option ℚ) (hr : r > eps) (hc : canClose l = true)
    (hq : r ≤ l.qty) :
    closeLoop canClose gain (l :: rest) r acc =
      (if l.qty - r < eps then rest else { l with qty := l.qty - r } :: rest, 0,
        some (acc.getD 0 + gain l r)) := by
  rcases hq.lt_or_eq with hlt | heq
  · exact closeLoop_part _ _ _ _ _ _ hr hc hlt
  · rw [closeLoop_full _ _ _ _ _ _ hr hc (le_of_eq heq.symm), ← heq, sub_self,
      closeLoop_zero _ _ _ _ _ eps_pos.le, if_pos eps_pos]

theorem not_zero_gt_eps : ¬ ((0 : ℚ) > eps) := not_lt.mpr eps_pos.le

/-- A sell that fits into the long lot at the front of the ledger. -/
theorem stepFIFO_sell_front (s : State) (t : Trade) (l : fifoLot) (rest : List fifoLot)
    (hb : t.TransactionType ≠ "BookTrade") (hq : -t.Quantity > eps)
    (hl : lotsOf s.openLots t.Symbol = l :: rest) (hlong : l.isShort = false)
    (hle : -t.Quantity ≤ l.qty) :
    stepFIFO s t =
      ⟨mapSet s.openLots t.Symbol
          (if l.qty - (-t.Quantity) < eps then rest
            else { l with qty := l.qty - (-t.Quantity) } :: rest),
        mapSet s.pnl t.Symbol
          (pnlOf s.pnl t.Symbol +
            ((-t.Quantity) * (netCash t / (-t.Quantity)) - (-t.Quantity) * l.unitCost))⟩ := by
  have h0 : t.Quantity < 0 := by
    have := eps_pos; linarith
  rw [stepFIFO_sell s t hb h0, hl, closeLoop_front _ _ _ _ _ _ hq (by simp [hlong]) hle]
  simp only [not_zero_gt_eps, if_false, writeBack, pnlOf]

/-- A buy that fits into the short lot at the front of the ledger. -/
theorem stepFIFO_buy_front (s : State) (t : Trade) (l : fifoLot) (rest : List fifoLot)
    (hb : t.TransactionType ≠ "BookTrade") (hq : t.Quantity > eps)
    (hl : lotsOf s.openLots t.Symbol = l :: rest) (hshort : l.isShort = true)
    (hle : t.Quantity ≤ l.qty) :
    stepFIFO s t =
      ⟨mapSet s.openLots t.Symbol
          (if l.qty - t.Quantity < eps then rest
            else { l with qty := l.qty - t.Quantity } :: rest),
        mapSet s.pnl t.Symbol
          (pnlOf s.pnl t.Symbol +
            (t.Quantity * l.unitCost - t.Quantity * ((-netCash t) / t.Quantity)))⟩ := by
  have h0 : t.Quantity > 0 := lt_trans eps_pos hq
  rw [stepFIFO_buy s t hb h0, hl, closeLoop_front _ _ _ _ _ _ hq hshort hle]
  simp only [not_zero_gt_eps, if_false, writeBack, pnlOf]

/-- An expiration that fits into the lot at the front of the ledger. -/
theorem stepFIFO_book_front (s : State) (t : Trade) (l : fifoLot) (rest : List fifoLot)
    (hb : t.TransactionType = "BookTrade") (hq : |t.Quantity| > eps)
    (hl : lotsOf s.openLots t.Symbol = l :: rest) (hle : |t.Quantity| ≤ l.qty) :
    stepFIFO s t =
      ⟨mapSet s.openLots t.Symbol
          (if l.qty - |t.Quantity| < eps then rest
            else { l with qty := l.qty - |t.Quantity| } :: rest),
        mapSet s.pnl t.Symbol
          (pnlOf s.pnl t.Symbol +
            (if l.isShort then |t.Quantity| * l.unitCost
              else -(|t.Quantity| * l.unitCost)))⟩ := by
  rw [stepFIFO_book s t hb, hl, closeLoop_front _ _ _ _ _ _ hq rfl hle]
  simp only [writeBack, pnlOf]

/-- A buy of at most `eps` units changes neither the ledger nor the P&L. -/
theorem stepFIFO_buy_dust (s : State) (t : Trade) (hb : t.TransactionType ≠ "BookTrade")
    (h0 : t.Quantity > 0) (hq : t.Quantity ≤ eps) :
    stepFIFO s t = ⟨mapSet s.openLots t.Symbol (lotsOf s.openLots t.Symbol), s.pnl⟩ := by
  rw [stepFIFO_buy s t hb h0, closeLoop_zero _ _ _ _ _ hq]
  simp only [not_lt.mpr hq, if_false, writeBack_unchanged]

/-- Two buys and a sell that fits into the first lot. -/
theorem runFIFO_two_buys_sell (b1 b2 sl : Trade) (q1 q2 s : ℚ)
    (hs : eps < s) (hsq : s ≤ q1) (hq2 : eps < q2)
    (hsym2 : b2.Symbol = b1.Symbol) (hsym3 : sl.Symbol = b1.Symbol)
    (hb1 : b1.TransactionType ≠ "BookTrade") (hb2 : b2.TransactionType ≠ "BookTrade")
    (hb3 : sl.TransactionType ≠ "BookTrade")
    (h1 : b1.Quantity = q1) (h2 : b2.Quantity = q2) (h3 : sl.Quantity = -s) :
    runFIFO [b1, b2, sl] =
      ⟨[(b1.Symbol,
          (if q1 - s < eps then [] else [⟨q1 - s, (-netCash b1) / q1, false⟩]) ++
            [⟨q2, (-netCash b2) / q2, false⟩])],
        [(b1.Symbol, s * (netCash sl / s - (-netCash b1) / q1))]⟩ := by
  have e1 : stepFIFO State.init b1 =
      ⟨[(b1.Symbol, [⟨q1, (-netCash b1) / q1, false⟩])], []⟩ := by
    rw [stepFIFO_open_long State.init b1 hb1 (by rw [h1]; linarith)
      (by intro l rest h; simp [State.init, lotsOf_nil] at h)]
    simp [State.init, lotsOf_nil, mapSet, h1]
  have e2 : stepFIFO ⟨[(b1.Symbol, [⟨q1, (-netCash b1) / q1, false⟩])], []⟩ b2 =
      ⟨[(b1.Symbol, [⟨q1, (-netCash b1) / q1, false⟩, ⟨q2, (-netCash b2) / q2, false⟩])],
        []⟩ := by
    rw [stepFIFO_open_long _ b2 hb2 (by rw [h2]; exact hq2)
      (by
        intro l rest h
        simp only [hsym2, lotsOf, mapGet?, if_true, Option.getD_some, List.cons.injEq] at h
        rw [← h.1])]
    simp [lotsOf, mapGet?, mapSet, hsym2, h2]
  have e3 : stepFIFO
      ⟨[(b1.Symbol, [⟨q1, (-netCash b1) / q1, false⟩, ⟨q2, (-netCash b2) / q2, false⟩])],
        []⟩ sl =
      ⟨[(b1.Symbol,
          (if q1 - s < eps then [] else [⟨q1 - s, (-netCash b1) / q1, false⟩]) ++
            [⟨q2, (-netCash b2) / q2, false⟩])],
        [(b1.Symbol, s * (netCash sl / s - (-netCash b1) / q1))]⟩ := by
    rw [stepFIFO_sell_front _ sl ⟨q1, (-netCash b1) / q1, false⟩
      [⟨q2, (-netCash b2) / q2, false⟩] hb3 (by rw [h3, neg_neg]; exact hs)
      (by simp [lotsOf, mapGet?, hsym3]) rfl (by rw [h3, neg_neg]; exact hsq)]
    simp only [hsym3, h3, neg_neg, mapSet, if_true, pnlOf, mapGet?, Option.getD_none, zero_add]
    congr 3
    · split_ifs <;> rfl
    · ring
  simp only [runFIFO, List.foldl_cons, List.foldl_nil, e1, e2, e3]

/-! ## FIFO ordering (C4) -/

theorem lotsOf_singleton_same (k : String) (v : List fifoLot) : lotsOf [(k, v)] k = v := by
  simp [lotsOf, mapGet?]

theorem insertionSortByDateTime_eq_of_increasing (l : List Trade)
    (hinc : l.Pairwise (fun a b => a.DateTime < b.DateTime)) :
    insertionSortByDateTime l = l :=
  sortSlice_eq_of_increasing _ insertionSortByDateTime_sorts l l hinc (List.Perm.refl _)

/-- With a second buy of half of `1e-9` units the ledger after buy 10 at 10,
buy, sell 4 at 15 holds the rest of the first lot only; no second lot with the
quantity of the second buy is left. -/
theorem runFIFO_exFifoDust_no_second_lot :
    lotsOf (runFIFO (insertionSortByDateTime exFifoDust)).openLots "ACME"
        = [⟨6, 10, false⟩] ∧
      ¬ (∃ l ∈ lotsOf (runFIFO (insertionSortByDateTime exFifoDust)).openLots "ACME",
          l.qty = 1 / 2000000000) := by
  have hsort : insertionSortByDateTime exFifoDust = exFifoDust := by
    apply insertionSortByDateTime_eq_of_increasing
    simp [exFifoDust, String.lt_iff_toList_lt]
    decide
  have e1 : stepFIFO State.init
      ⟨"ACME", "20240102", "20240102;093000", 10, -100, 0, "O", "ExchTrade"⟩ =
      ⟨[("ACME", [⟨10, 10, false⟩])], []⟩ := by
    rw [stepFIFO_open_long _ _ (by decide) (by norm_num [eps])
      (by intro l rest h; simp [State.init, lotsOf_nil] at h)]
    norm_num [State.init, lotsOf_nil, mapSet, netCash]
  have e2 : stepFIFO ⟨[("ACME", [⟨10, 10, false⟩])], []⟩
      ⟨"ACME", "20240103", "20240103;093000", 1 / 2000000000, -12 / 2000000000, 0, "O",
        "ExchTrade"⟩ = ⟨[("ACME", [⟨10, 10, false⟩])], []⟩ := by
    rw [stepFIFO_buy_dust _ _ (by decide) (by norm_num) (by norm_num [eps])]
    simp [lotsOf, mapGet?, mapSet]
  have e3 : stepFIFO ⟨[("ACME", [⟨10, 10, false⟩])], []⟩
      ⟨"ACME", "20240104", "20240104;093000", -4, 60, 0, "C", "ExchTrade"⟩ =
      ⟨[("ACME", [⟨6, 10, false⟩])], [("ACME", 20)]⟩ := by
    rw [stepFIFO_sell_front _ _ ⟨10, 10, false⟩ [] (by decide) (by norm_num [eps])
      (by simp [lotsOf, mapGet?]) rfl (by norm_num)]
    norm_num [mapSet, pnlOf, mapGet?, netCash, eps]
  have hrun : runFIFO exFifoDust = ⟨[("ACME", [⟨6, 10, false⟩])], [("ACME", 20)]⟩ := by
    simp only [runFIFO, exFifoDust, List.foldl_cons, List.foldl_nil, e1, e2, e3]
  rw [hsort, hrun]
  refine ⟨by simp [lotsOf, mapGet?], ?_⟩
  simp only [lotsOf, mapGet?, if_true, Option.getD_some, List.mem_singleton]
  rintro ⟨l, rfl, h⟩
  norm_num at h

/-- C4 (as amended): after two normal buys of one symbol (`q1` units at unit
cost `c1`, then `q2 > 1e-9` units at unit cost `c2`, at increasing `DateTime`s)
and a later normal sell of `s` units with `1e-9 < s ≤ q1` at unit net proceeds
`p`, the realized P&L of the symbol is exactly `s * (p - c1)`, independent of
`c2`, and the ledger is the rest of the first lot (if at least `1e-9` is left
of it) followed by the second lot, untouched, with quantity `q2`. -/
theorem fifo_ordering (sortSlice : List Trade → List Trade)
    (hsort : SortsByDateTime sortSlice) (trades : List Trade) (b1 b2 sl : Trade)
    (q1 q2 s : ℚ) (hs : eps < s) (hsq : s ≤ q1) (hq2 : eps < q2)
    (hsym2 : b2.Symbol = b1.Symbol) (hsym3 : sl.Symbol = b1.Symbol)
    (hb1 : b1.TransactionType ≠ "BookTrade") (hb2 : b2.TransactionType ≠ "BookTrade")
    (hb3 : sl.TransactionType ≠ "BookTrade")
    (h1 : b1.Quantity = q1) (h2 : b2.Quantity = q2) (h3 : sl.Quantity = -s)
    (ht12 : b1.DateTime < b2.DateTime) (ht23 : b2.DateTime < sl.DateTime)
    (hhist : trades.Perm [b1, b2, sl]) :
    computeFIFOPnL sortSlice trades =
        [(b1.Symbol, s * ((sl.Proceeds + sl.Commission) / s
            - (-(b1.Proceeds + b1.Commission)) / q1))] ∧
      lotsOf (runFIFO (sortSlice trades)).openLots b1.Symbol =
        (if q1 - s < eps then [] else [⟨q1 - s, (-(b1.Proceeds + b1.Commission)) / q1, false⟩])
          ++ [⟨q2, (-(b2.Proceeds + b2.Commission)) / q2, false⟩] := by
  have hsrt : sortSlice trades = [b1, b2, sl] := by
    apply sortSlice_eq_of_increasing sortSlice hsort [b1, b2, sl] trades _ hhist
    simp only [List.pairwise_cons, List.mem_cons, List.mem_singleton, List.not_mem_nil,
      forall_eq_or_imp, forall_eq]
    exact ⟨⟨ht12, lt_trans ht12 ht23, by simp⟩, ⟨ht23, by simp⟩, by simp, List.Pairwise.nil⟩
  have hr := runFIFO_two_buys_sell b1 b2 sl q1 q2 s hs hsq hq2 hsym2 hsym3 hb1 hb2 hb3 h1 h2 h3
  unfold computeFIFOPnL
  rw [hsrt, hr]
  exact ⟨rfl, lotsOf_singleton_same _ _⟩

/-- C4 at the example of the specification: buy 10 at 10, buy 10 at 12, sell 4
at 15 (zero commissions) realizes 20 and leaves 6 units of the first lot in
front of the untouched second lot. -/
theorem fifo_ordering_witness :
    SortsByDateTime insertionSortByDateTime ∧ eps < (4 : ℚ) ∧ (4 : ℚ) ≤ 10 ∧ eps < (10 : ℚ) ∧
      exFifoBuy2.Symbol = exFifoBuy1.Symbol ∧ exFifoSell.Symbol = exFifoBuy1.Symbol ∧
      exFifoBuy1.TransactionType ≠ "BookTrade" ∧ exFifoBuy2.TransactionType ≠ "BookTrade" ∧
      exFifoSell.TransactionType ≠ "BookTrade" ∧
      exFifoBuy1.Quantity = 10 ∧ exFifoBuy2.Quantity = 10 ∧ exFifoSell.Quantity = -4 ∧
      exFifoBuy1.DateTime < exFifoBuy2.DateTime ∧ exFifoBuy2.DateTime < exFifoSell.DateTime ∧
      [exFifoBuy1, exFifoBuy2, exFifoSell].Perm [exFifoBuy1, exFifoBuy2, exFifoSell] ∧
      computeFIFOPnL insertionSortByDateTime [exFifoBuy1, exFifoBuy2, exFifoSell]
        = [("ACME", 20)] ∧
      lotsOf (runFIFO (insertionSortByDateTime [exFifoBuy1, exFifoBuy2, exFifoSell])).openLots
        "ACME" = [⟨6, 10, false⟩, ⟨10, 12, false⟩] := by
  have h1 : eps < (4 : ℚ) := by norm_num [eps]
  have h2 : (4 : ℚ) ≤ 10 := by norm_num
  have h3 : eps < (10 : ℚ) := by norm_num [eps]
  have h4 : exFifoBuy1.TransactionType ≠ "BookTrade" := by decide
  have h5 : exFifoBuy2.TransactionType ≠ "BookTrade" := by decide
  have h6 : exFifoSell.TransactionType ≠ "BookTrade" := by decide
  have h7 : exFifoBuy1.DateTime < exFifoBuy2.DateTime := by
    rw [String.lt_iff_toList_lt]; decide
  have h8 : exFifoBuy2.DateTime < exFifoSell.DateTime := by
    rw [String.lt_iff_toList_lt]; decide
  have h9 : exFifoSell.Quantity = -4 := rfl
  have h := fifo_ordering insertionSortByDateTime insertionSortByDateTime_sorts
    [exFifoBuy1, exFifoBuy2, exFifoSell] exFifoBuy1 exFifoBuy2 exFifoSell 10 10 4
    h1 h2 h3 rfl rfl h4 h5 h6 rfl rfl h9 h7 h8 (List.Perm.refl _)
  refine ⟨insertionSortByDateTime_sorts, h1, h2, h3, rfl, rfl, h4, h5, h6, rfl, rfl, h9, h7, h8,
    List.Perm.refl _, ?_, ?_⟩
  · rw [h.1]
    norm_num [exFifoBuy1, exFifoSell]
  · have h' := h.2
    simp only [show exFifoBuy1.Symbol = "ACME" from rfl] at h'
    rw [h']
    norm_num [exFifoBuy1, exFifoBuy2, eps]

/-! ## Expiration (C5) -/

/-- C5: an expiration/assignment event (`"BookTrade"`) with `k = |Quantity| >
1e-9`, processed against a ledger whose front lot holds at least `k` at unit
price `u`, changes the realized P&L of the symbol by exactly `+k*u` when the
lot is short and `-k*u` when it is long, whatever the event's own `Proceeds`
and `Commission` and the sign of its `Quantity`. -/
theorem expiration_pnl (s : State) (t : Trade) (l : fifoLot) (rest : List fifoLot)
    (hb : t.TransactionType = "BookTrade") (hk : |t.Quantity| > eps)
    (hl : lotsOf s.openLots t.Symbol = l :: rest) (hle : |t.Quantity| ≤ l.qty) :
    pnlOf (stepFIFO s t).pnl t.Symbol =
      pnlOf s.pnl t.Symbol +
        (if l.isShort then |t.Quantity| * l.unitCost else -(|t.Quantity| * l.unitCost)) := by
  rw [stepFIFO_book_front s t l rest hb hk hl hle]
  simp only [pnlOf, mapGet?_mapSet_same, Option.getD_some]

/-- C5 at the example of the specification: a long lot of 5 units at unit cost
2 expiring in full contributes -10, also when the event carries cash. -/
theorem expiration_pnl_witness :
    exExpireTrade.TransactionType = "BookTrade" ∧ |exExpireTrade.Quantity| > eps ∧
      lotsOf exExpireState.openLots exExpireTrade.Symbol = [⟨5, 2, false⟩] ∧
      |exExpireTrade.Quantity| ≤ (5 : ℚ) ∧
      pnlOf (stepFIFO exExpireState exExpireTrade).pnl "OPT" = -10 := by
  have h1 : exExpireTrade.TransactionType = "BookTrade" := rfl
  have h2 : |exExpireTrade.Quantity| > eps := by norm_num [exExpireTrade, eps, abs_of_neg]
  have h3 : lotsOf exExpireState.openLots exExpireTrade.Symbol = [⟨5, 2, false⟩] := by
    simp [exExpireState, exExpireTrade, lotsOf, mapGet?]
  have h4 : |exExpireTrade.Quantity| ≤ (5 : ℚ) := by norm_num [exExpireTrade, abs_of_neg]
  have h := expiration_pnl exExpireState exExpireTrade ⟨5, 2, false⟩ [] h1 h2 h3 h4
  refine ⟨h1, h2, h3, h4, ?_⟩
  have ht : exExpireTrade.Symbol = "OPT" := rfl
  rw [ht] at h
  rw [h]
  norm_num [exExpireState, exExpireTrade, pnlOf, mapGet?, abs_of_neg]

/-! ## Reachable states are well formed -/

theorem closeLoop_lots_ge (canClose : fifoLot → Bool) (gain : fifoLot → ℚ → ℚ) :
    ∀ (lots : List fifoLot) (r : ℚ) (acc : Option ℚ), (∀ l ∈ lots, eps ≤ l.qty) →
      ∀ l ∈ (closeLoop canClose gain lots r acc).1, eps ≤ l.qty := by
  intro lots
  induction lots with
  | nil => intro r acc h; rw [closeLoop_nil]; exact h
  | cons l rest ih =>
    intro r acc h
    have hrest : ∀ x ∈ rest, eps ≤ x.qty := fun x hx => h x (List.mem_cons_of_mem _ hx)
    by_cases hc : r > eps ∧ canClose l = true
    · by_cases hq : l.qty ≤ r
      · rw [closeLoop_full _ _ _ _ _ _ hc.1 hc.2 hq]
        exact ih _ _ hrest
      · rw [closeLoop_part _ _ _ _ _ _ hc.1 hc.2 (not_le.mp hq)]
        split_ifs with hd
        · exact hrest
        · intro x hx
          rcases List.mem_cons.mp hx with hx | hx
          · subst hx; exact not_lt.mp hd
          · exact hrest x hx
    · rw [closeLoop_stop _ _ _ _ _ _ hc]
      exact h

theorem lotsOf_ge (openLots : GoMap (List fifoLot)) (sym : String)
    (h : ∀ e ∈ openLots, ∀ l ∈ e.2, eps ≤ l.qty) : ∀ l ∈ lotsOf openLots sym, eps ≤ l.qty := by
  unfold lotsOf
  cases hm : mapGet? openLots sym with
  | none => intro l hl; simp at hl
  | some lots => exact h _ (mem_of_mapGet? _ _ _ hm)

theorem writeBack_nodup (pnl : GoMap ℚ) (sym : String) (acc : Option ℚ)
    (h : (mapKeys pnl).Nodup) : (mapKeys (writeBack pnl sym acc)).Nodup := by
  cases acc with
  | none => exact h
  | some v => exact mapKeys_mapSet_nodup _ _ _ h

theorem WellFormed_mk (s : State) (sym : String) (lots : List fifoLot) (acc : Option ℚ)
    (hs : WellFormed s) (hl : ∀ l ∈ lots, eps ≤ l.qty) :
    WellFormed ⟨mapSet s.openLots sym lots, writeBack s.pnl sym acc⟩ := by
  refine ⟨mapKeys_mapSet_nodup _ _ _ hs.1, writeBack_nodup _ _ _ hs.2.1, ?_⟩
  intro e he
  rcases mem_mapSet _ _ _ _ he with h | h
  · subst h; exact hl
  · exact hs.2.2 e h

theorem append_lot_ge (lots : List fifoLot) (r u : ℚ) (b : Bool)
    (h : ∀ l ∈ lots, eps ≤ l.qty) :
    ∀ l ∈ (if r > eps then lots ++ [⟨r, u, b⟩] else lots), eps ≤ l.qty := by
  split_ifs with hr
  · intro l hl
    rcases List.mem_append.mp hl with hl | hl
    · exact h l hl
    · simp only [List.mem_singleton] at hl
      subst hl
      exact le_of_lt hr
  · exact h

theorem stepFIFO_wellFormed (s : State) (t : Trade) (hs : WellFormed s) :
    WellFormed (stepFIFO s t) := by
  have hlots := lotsOf_ge s.openLots t.Symbol hs.2.2
  by_cases hb : t.TransactionType = "BookTrade"
  · rw [stepFIFO_book s t hb]
    exact WellFormed_mk s _ _ _ hs (closeLoop_lots_ge _ _ _ _ _ hlots)
  · by_cases hpos : t.Quantity > 0
    · rw [stepFIFO_buy s t hb hpos]
      exact WellFormed_mk s _ _ _ hs (append_lot_ge _ _ _ _ (closeLoop_lots_ge _ _ _ _ _ hlots))
    · by_cases hneg : t.Quantity < 0
      · rw [stepFIFO_sell s t hb hneg]
        exact WellFormed_mk s _ _ _ hs
          (append_lot_ge _ _ _ _ (closeLoop_lots_ge _ _ _ _ _ hlots))
      · have : stepFIFO s t = s := by
          simp only [stepFIFO, hb, hpos, hneg, if_false]
        rw [this]; exact hs

theorem foldl_stepFIFO_wellFormed (trades : List Trade) :
    ∀ s : State, WellFormed s → WellFormed (trades.foldl stepFIFO s) := by
  induction trades with
  | nil => intro s hs; exact hs
  | cons t rest ih => intro s hs; exact ih _ (stepFIFO_wellFormed s t hs)

theorem runFIFO_wellFormed (trades : List Trade) : WellFormed (runFIFO trades) := by
  apply foldl_stepFIFO_wellFormed
  refine ⟨by simp [State.init, mapKeys], by simp [State.init, mapKeys], ?_⟩
  intro e he
  simp [State.init] at he

theorem runFIFO_lots_pos (trades : List Trade) (sym : String) :
    ∀ l ∈ lotsOf (runFIFO trades).openLots sym, 0 < l.qty := fun l hl =>
  lt_of_lt_of_le eps_pos (lotsOf_ge _ sym (runFIFO_wellFormed trades).2.2 l hl)

/-! ## Closing a whole ledger -/

theorem totalQty_cons (l : fifoLot) (rest : List fifoLot) :
    totalQty (l :: rest) = l.qty + totalQty rest := by
  simp [totalQty]

theorem totalQty_nonneg (lots : List fifoLot) (h : ∀ l ∈ lots, 0 < l.qty) :
    0 ≤ totalQty lots := by
  induction lots with
  | nil => simp [totalQty]
  | cons l rest ih =>
    rw [totalQty_cons]
    have h1 := h l (List.mem_cons_self _ _)
    have h2 := ih (fun x hx => h x (List.mem_cons_of_mem _ hx))
    linarith

/-- When every lot may be closed and the requested quantity covers the whole
ledger, the loop consumes each lot in full. -/
theorem closeLoop_all (canClose : fifoLot → Bool) (gain : fifoLot → ℚ → ℚ) :
    ∀ (lots : List fifoLot) (r : ℚ) (acc : Option ℚ),
      (∀ l ∈ lots, canClose l = true) → (∀ l ∈ lots, 0 < l.qty) → totalQty lots ≤ r →
      ((∀ l ∈ lots, eps < l.qty) ∨ eps < r - totalQty lots) →
      (closeLoop canClose gain lots r acc).1 = [] ∧
      (closeLoop canClose gain lots r acc).2.1 = r - totalQty lots ∧
      (closeLoop canClose gain lots r acc).2.2.getD 0 =
        acc.getD 0 + (lots.map (fun l => gain l l.qty)).sum := by
  intro lots
  induction lots with
  | nil =>
    intro r acc _ _ _ _
    rw [closeLoop_nil]
    simp [totalQty]
  | cons l rest ih =>
    intro r acc hc hpos hsum hbig
    have hrest : ∀ x ∈ rest, 0 < x.qty := fun x hx => hpos x (List.mem_cons_of_mem _ hx)
    have h0 := totalQty_nonneg rest hrest
    have hl := hpos l (List.mem_cons_self _ _)
    rw [totalQty_cons] at hsum hbig
    have hr : r > eps := by
      rcases hbig with h | h
      · have := h l (List.mem_cons_self _ _)
        linarith
      · linarith
    rw [closeLoop_full _ _ _ _ _ _ hr (hc l (List.mem_cons_self _ _)) (by linarith)]
    obtain ⟨h1, h2, h3⟩ := ih (r - l.qty) (some (acc.getD 0 + gain l l.qty))
      (fun x hx => hc x (List.mem_cons_of_mem _ hx)) hrest (by linarith)
      (by
        rcases hbig with h | h
        · exact Or.inl (fun x hx => h x (List.mem_cons_of_mem _ hx))
        · exact Or.inr (by linarith))
    refine ⟨h1, ?_, ?_⟩
    · rw [h2, totalQty_cons]; ring
    · rw [h3]
      simp only [Option.getD_some, List.map_cons, List.sum_cons]
      ring

/-! ## Over-closing (C6) -/

/-- C6: an expiration/assignment event whose `|Quantity|` is at least the total
remaining quantity of the symbol's ledger (each lot above `1e-9`) leaves that
ledger empty, changes the symbol's realized P&L by exactly the sum over all its
lots of `+qty*unitPrice` (short) or `-qty*unitPrice` (long), opens no lot for
the excess, and leaves every other symbol's ledger and P&L entry unchanged. -/
theorem over_closing_truncates (s : State) (t : Trade)
    (hb : t.TransactionType = "BookTrade")
    (hlots : ∀ l ∈ lotsOf s.openLots t.Symbol, eps < l.qty)
    (hover : totalQty (lotsOf s.openLots t.Symbol) ≤ |t.Quantity|) :
    lotsOf (stepFIFO s t).openLots t.Symbol = [] ∧
      pnlOf (stepFIFO s t).pnl t.Symbol =
        pnlOf s.pnl t.Symbol +
          ((lotsOf s.openLots t.Symbol).map
            (fun l => if l.isShort then l.qty * l.unitCost else -(l.qty * l.unitCost))).sum ∧
      ∀ sym, sym ≠ t.Symbol →
        lotsOf (stepFIFO s t).openLots sym = lotsOf s.openLots sym ∧
          mapGet? (stepFIFO s t).pnl sym = mapGet? s.pnl sym := by
  obtain ⟨h1, _, h3⟩ := closeLoop_all (fun _ => true)
    (fun l m => if l.isShort then m * l.unitCost else -(m * l.unitCost))
    (lotsOf s.openLots t.Symbol) |t.Quantity| (mapGet? s.pnl t.Symbol)
    (fun _ _ => rfl) (fun l hl => lt_trans eps_pos (hlots l hl)) hover (Or.inl hlots)
  have hacc := closeLoop_acc (fun _ => true)
    (fun l m => if l.isShort then m * l.unitCost else -(m * l.unitCost))
    (lotsOf s.openLots t.Symbol) |t.Quantity| (mapGet? s.pnl t.Symbol)
  rw [stepFIFO_book s t hb]
  refine ⟨?_, ?_, ?_⟩
  · rw [lotsOf_mapSet_same, h1]
  · rw [pnlOf_writeBack_same _ _ _ hacc, h3]
    rfl
  · intro sym hsym
    exact ⟨lotsOf_mapSet_other _ _ _ _ hsym, mapGet?_writeBack_other _ _ _ _ hsym⟩

/-- C6 on an example: expiring 10 units against short lots of 3 and 2 units
empties the ledger, adds 3*2 + 2*5 to the P&L and leaves the other symbol alone. -/
theorem over_closing_truncates_witness :
    exOverTrade.TransactionType = "BookTrade" ∧
      (∀ l ∈ lotsOf exOverState.openLots exOverTrade.Symbol, eps < l.qty) ∧
      totalQty (lotsOf exOverState.openLots exOverTrade.Symbol) ≤ |exOverTrade.Quantity| ∧
      lotsOf (stepFIFO exOverState exOverTrade).openLots "OPT" = [] ∧
      pnlOf (stepFIFO exOverState exOverTrade).pnl "OPT" = 17 ∧
      lotsOf (stepFIFO exOverState exOverTrade).openLots "ACME" = [⟨7, 1, false⟩] ∧
      mapGet? (stepFIFO exOverState exOverTrade).pnl "ACME" = some 4 := by
  have hl : lotsOf exOverState.openLots exOverTrade.Symbol = [⟨3, 2, true⟩, ⟨2, 5, true⟩] := by
    simp [exOverState, exOverTrade, lotsOf, mapGet?]
  have h1 : exOverTrade.TransactionType = "BookTrade" := rfl
  have h2 : ∀ l ∈ lotsOf exOverState.openLots exOverTrade.Symbol, eps < l.qty := by
    rw [hl]
    intro l h
    simp only [List.mem_cons, List.mem_singleton, List.not_mem_nil, or_false] at h
    rcases h with h | h <;> subst h <;> norm_num [eps]
  have h3 : totalQty (lotsOf exOverState.openLots exOverTrade.Symbol)
      ≤ |exOverTrade.Quantity| := by
    rw [hl]
    norm_num [totalQty, exOverTrade]
  have h := over_closing_truncates exOverState exOverTrade h1 h2 h3
  have hsym : exOverTrade.Symbol = "OPT" := rfl
  rw [hsym] at h
  obtain ⟨ha, hb, hc⟩ := h
  have hd := hc "ACME" (by decide)
  refine ⟨h1, h2, h3, ha, ?_, ?_, ?_⟩
  · rw [hb]
    have hl' : lotsOf exOverState.openLots "OPT" = [⟨3, 2, true⟩, ⟨2, 5, true⟩] := hl
    rw [hl']
    norm_num [exOverState, pnlOf, mapGet?]
  · rw [hd.1]
    simp [exOverState, lotsOf, mapGet?]
  · rw [hd.2]
    simp [exOverState, mapGet?]

/-! ## Acquisition with a position flip (C7) -/

/-- C7: a normal buy of `q > 0` units with net cash `n`, processed against a
ledger (reached by any earlier trades) that consists only of short lots whose
total `S` satisfies `q - S > 1e-9`, increases the symbol's realized P&L by
exactly the sum over those lots of `qty * (premium - c)` with `c = -n/q`, and
leaves exactly one long lot of quantity `q - S` at unit cost `c`. -/
theorem acquisition_flip (pre : List Trade) (t : Trade)
    (hb : t.TransactionType ≠ "BookTrade") (hq : t.Quantity > 0)
    (hshort : ∀ l ∈ lotsOf (runFIFO pre).openLots t.Symbol, l.isShort = true)
    (hflip : t.Quantity - totalQty (lotsOf (runFIFO pre).openLots t.Symbol) > eps) :
    pnlOf (stepFIFO (runFIFO pre) t).pnl t.Symbol =
        pnlOf (runFIFO pre).pnl t.Symbol +
          ((lotsOf (runFIFO pre).openLots t.Symbol).map
            (fun l => l.qty *
              (l.unitCost - (-(t.Proceeds + t.Commission)) / t.Quantity))).sum ∧
      lotsOf (stepFIFO (runFIFO pre) t).openLots t.Symbol =
        [⟨t.Quantity - totalQty (lotsOf (runFIFO pre).openLots t.Symbol),
          (-(t.Proceeds + t.Commission)) / t.Quantity, false⟩] := by
  have hpos := runFIFO_lots_pos pre t.Symbol
  obtain ⟨h1, h2, h3⟩ := closeLoop_all (fun l => l.isShort)
    (fun l m => m * l.unitCost - m * ((-netCash t) / t.Quantity))
    (lotsOf (runFIFO pre).openLots t.Symbol) t.Quantity (mapGet? (runFIFO pre).pnl t.Symbol)
    hshort hpos (by have := eps_pos; linarith) (Or.inr hflip)
  have hacc := closeLoop_acc (fun l => l.isShort)
    (fun l m => m * l.unitCost - m * ((-netCash t) / t.Quantity))
    (lotsOf (runFIFO pre).openLots t.Symbol) t.Quantity (mapGet? (runFIFO pre).pnl t.Symbol)
  rw [stepFIFO_buy _ t hb hq]
  refine ⟨?_, ?_⟩
  · rw [pnlOf_writeBack_same _ _ _ hacc, h3]
    congr 1
    · congr 1
      apply List.map_congr_left
      intro l _
      simp only [netCash]
      ring
  · rw [lotsOf_mapSet_same, h1, h2, if_pos hflip]
    rfl

theorem runFIFO_exFlipPre :
    runFIFO exFlipPre = ⟨[("ACME", [⟨3, 10, true⟩, ⟨2, 15, true⟩])], []⟩ := by
  have e1 : stepFIFO State.init
      ⟨"ACME", "20240102", "20240102;093000", -3, 30, 0, "O", "ExchTrade"⟩ =
      ⟨[("ACME", [⟨3, 10, true⟩])], []⟩ := by
    rw [stepFIFO_open_short _ _ (by decide) (by norm_num [eps])
      (by intro l rest h; simp [State.init, lotsOf_nil] at h)]
    norm_num [State.init, lotsOf_nil, mapSet, netCash]
  have e2 : stepFIFO ⟨[("ACME", [⟨3, 10, true⟩])], []⟩
      ⟨"ACME", "20240103", "20240103;093000", -2, 30, 0, "O", "ExchTrade"⟩ =
      ⟨[("ACME", [⟨3, 10, true⟩, ⟨2, 15, true⟩])], []⟩ := by
    rw [stepFIFO_open_short _ _ (by decide) (by norm_num [eps])
      (by
        intro l rest h
        simp only [lotsOf, mapGet?, if_true, Option.getD_some, List.cons.injEq] at h
        rw [← h.1])]
    norm_num [lotsOf, mapGet?, mapSet, netCash]
  simp only [runFIFO, exFlipPre, List.foldl_cons, List.foldl_nil, e1, e2]

/-- C7 on an example: after short sales of 3 units at 10 and 2 units at 15, a
buy of 10 units at 10 realizes 3*(10-10) + 2*(15-10) = 10 and leaves one long
lot of 5 units at unit cost 10. -/
theorem acquisition_flip_witness :
    exFlipBuy.TransactionType ≠ "BookTrade" ∧ exFlipBuy.Quantity > 0 ∧
      (∀ l ∈ lotsOf (runFIFO exFlipPre).openLots exFlipBuy.Symbol, l.isShort = true) ∧
      exFlipBuy.Quantity - totalQty (lotsOf (runFIFO exFlipPre).openLots exFlipBuy.Symbol)
        > eps ∧
      pnlOf (stepFIFO (runFIFO exFlipPre) exFlipBuy).pnl "ACME" = 10 ∧
      lotsOf (stepFIFO (runFIFO exFlipPre) exFlipBuy).openLots "ACME" = [⟨5, 10, false⟩] := by
  have hl : lotsOf (runFIFO exFlipPre).openLots exFlipBuy.Symbol
      = [⟨3, 10, true⟩, ⟨2, 15, true⟩] := by
    rw [runFIFO_exFlipPre]
    simp [exFlipBuy, lotsOf, mapGet?]
  have h1 : exFlipBuy.TransactionType ≠ "BookTrade" := by decide
  have h2 : exFlipBuy.Quantity > 0 := by norm_num [exFlipBuy]
  have h3 : ∀ l ∈ lotsOf (runFIFO exFlipPre).openLots exFlipBuy.Symbol, l.isShort = true := by
    rw [hl]
    intro l h
    simp only [List.mem_cons, List.mem_singleton, List.not_mem_nil, or_false] at h
    rcases h with h | h <;> subst h <;> rfl
  have h4 : exFlipBuy.Quantity
      - totalQty (lotsOf (runFIFO exFlipPre).openLots exFlipBuy.Symbol) > eps := by
    rw [hl]
    norm_num [totalQty, exFlipBuy, eps]
  have h := acquisition_flip exFlipPre exFlipBuy h1 h2 h3 h4
  rw [hl] at h
  have hsym : exFlipBuy.Symbol = "ACME" := rfl
  rw [hsym] at h
  refine ⟨h1, h2, h3, h4, ?_, ?_⟩
  · rw [h.1, runFIFO_exFlipPre]
    norm_num [pnlOf, mapGet?, exFlipBuy]
  · rw [h.2]
    norm_num [totalQty, exFlipBuy]

/-! ## Full reconciliation (C1): counterexamples and an instance -/

theorem runFIFO_exExpiryFee :
    runFIFO exExpiryFee = ⟨[("OPT", [])], [("OPT", -100)]⟩ := by
  have e1 : stepFIFO State.init
      ⟨"OPT", "20240102", "20240102;093000", 1, -100, 0, "O", "ExchTrade"⟩ =
      ⟨[("OPT", [⟨1, 100, false⟩])], []⟩ := by
    rw [stepFIFO_open_long _ _ (by decide) (by norm_num [eps])
      (by intro l rest h; simp [State.init, lotsOf_nil] at h)]
    norm_num [State.init, lotsOf_nil, mapSet, netCash]
  have e2 : stepFIFO ⟨[("OPT", [⟨1, 100, false⟩])], []⟩
      ⟨"OPT", "20240119", "20240119;162000", -1, 0, -1, "C", "BookTrade"⟩ =
      ⟨[("OPT", [])], [("OPT", -100)]⟩ := by
    rw [stepFIFO_book_front _ _ ⟨1, 100, false⟩ [] rfl (by norm_num [eps])
      (by simp [lotsOf, mapGet?]) (by norm_num)]
    norm_num [mapSet, pnlOf, mapGet?, eps]
  simp only [runFIFO, exExpiryFee, List.foldl_cons, List.foldl_nil, e1, e2]

theorem runFIFO_exResidue :
    runFIFO exResidue = ⟨[("ACME", [])], [("ACME", 1 / 1000000000)]⟩ := by
  have e1 : stepFIFO State.init
      ⟨"ACME", "20240102", "20240102;093000", 1, -10, 0, "O", "ExchTrade"⟩ =
      ⟨[("ACME", [⟨1, 10, false⟩])], []⟩ := by
    rw [stepFIFO_open_long _ _ (by decide) (by norm_num [eps])
      (by intro l rest h; simp [State.init, lotsOf_nil] at h)]
    norm_num [State.init, lotsOf_nil, mapSet, netCash]
  have e2 : stepFIFO ⟨[("ACME", [⟨1, 10, false⟩])], []⟩
      ⟨"ACME", "20240103", "20240103;093000", -(1 - 1 / 10000000000), 10, 0, "C",
        "ExchTrade"⟩ =
      ⟨[("ACME", [])], [("ACME", 1 / 1000000000)]⟩ := by
    rw [stepFIFO_sell_front _ _ ⟨1, 10, false⟩ [] (by decide) (by norm_num [eps])
      (by simp [lotsOf, mapGet?]) rfl (by norm_num)]
    norm_num [mapSet, pnlOf, mapGet?, eps, netCash]
  simp only [runFIFO, exResidue, List.foldl_cons, List.foldl_nil, e1, e2]

theorem runFIFO_exZeroQty : runFIFO exZeroQty = ⟨[], []⟩ := by
  simp [runFIFO, exZeroQty, stepFIFO, State.init]

/-- C1 (as stated, refuted) on three histories that end with no open lot:
an expiration event that carries a commission (realized -100, cash -101), a
sell that leaves less than `1e-9` of the lot (realized `1e-9`, cash 0), and a
zero-quantity record that carries a fee (realized 0, cash -1). -/
theorem fifo_full_reconciliation_counterexample :
    ((∀ sym, lotsOf (runFIFO (insertionSortByDateTime exExpiryFee)).openLots sym = []) ∧
        mapSum id (computeFIFOPnL insertionSortByDateTime exExpiryFee) ≠
          (exExpiryFee.map (fun t => t.Proceeds + t.Commission)).sum) ∧
      ((∀ sym, lotsOf (runFIFO (insertionSortByDateTime exResidue)).openLots sym = []) ∧
        mapSum id (computeFIFOPnL insertionSortByDateTime exResidue) ≠
          (exResidue.map (fun t => t.Proceeds + t.Commission)).sum) ∧
      ((∀ sym, lotsOf (runFIFO (insertionSortByDateTime exZeroQty)).openLots sym = []) ∧
        mapSum id (computeFIFOPnL insertionSortByDateTime exZeroQty) ≠
          (exZeroQty.map (fun t => t.Proceeds + t.Commission)).sum) := by
  have s1 : insertionSortByDateTime exExpiryFee = exExpiryFee := by
    apply insertionSortByDateTime_eq_of_increasing
    simp [exExpiryFee, String.lt_iff_toList_lt]
    decide
  have s2 : insertionSortByDateTime exResidue = exResidue := by
    apply insertionSortByDateTime_eq_of_increasing
    simp [exResidue, String.lt_iff_toList_lt]
    decide
  have s3 : insertionSortByDateTime exZeroQty = exZeroQty := by
    apply insertionSortByDateTime_eq_of_increasing
    simp [exZeroQty]
  refine ⟨⟨?_, ?_⟩, ⟨?_, ?_⟩, ⟨?_, ?_⟩⟩
  · intro sym
    rw [s1, runFIFO_exExpiryFee]
    exact lotsOf_singleton_nil _ _
  · rw [computeFIFOPnL, s1, runFIFO_exExpiryFee]
    norm_num [mapSum, exExpiryFee]
  · intro sym
    rw [s2, runFIFO_exResidue]
    exact lotsOf_singleton_nil _ _
  · rw [computeFIFOPnL, s2, runFIFO_exResidue]
    norm_num [mapSum, exResidue]
  · intro sym
    rw [s3, runFIFO_exZeroQty]
    rfl
  · rw [computeFIFOPnL, s3, runFIFO_exZeroQty]
    norm_num [mapSum, exZeroQty]

/-- C1 (as amended) on the long round trip of the specification, with lot size
1: the realized P&L, 198, is the sum of the four cash amounts. -/
theorem fifo_full_reconciliation_witness :
    SortsByDateTime insertionSortByDateTime ∧ eps < (1 : ℚ) ∧
      (∀ t ∈ [exLongBuy, exLongSell], OnGrid 1 t.Quantity) ∧
      (∀ t ∈ [exLongBuy, exLongSell], (t.TransactionType = "BookTrade" ∨ t.Quantity = 0) →
        t.Proceeds + t.Commission = 0) ∧
      (∀ sym, lotsOf (runFIFO (insertionSortByDateTime [exLongBuy, exLongSell])).openLots sym
        = []) ∧
      mapSum id (computeFIFOPnL insertionSortByDateTime [exLongBuy, exLongSell]) =
        ([exLongBuy, exLongSell].map (fun t => t.Proceeds + t.Commission)).sum ∧
      ([exLongBuy, exLongSell].map (fun t => t.Proceeds + t.Commission)).sum = 198 := by
  have h1 : eps < (1 : ℚ) := by norm_num [eps]
  have h2 : ∀ t ∈ [exLongBuy, exLongSell], OnGrid 1 t.Quantity := by
    intro t ht
    simp only [List.mem_cons, List.mem_singleton, List.not_mem_nil, or_false] at ht
    rcases ht with ht | ht <;> subst ht
    · exact ⟨100, by norm_num [exLongBuy]⟩
    · exact ⟨-100, by norm_num [exLongSell]⟩
  have h3 : ∀ t ∈ [exLongBuy, exLongSell],
      (t.TransactionType = "BookTrade" ∨ t.Quantity = 0) → t.Proceeds + t.Commission = 0 := by
    intro t ht
    simp only [List.mem_cons, List.mem_singleton, List.not_mem_nil, or_false] at ht
    rcases ht with ht | ht <;> subst ht
    · rintro (h | h)
      · exact absurd h (by decide)
      · norm_num [exLongBuy] at h
    · rintro (h | h)
      · exact absurd h (by decide)
      · norm_num [exLongSell] at h
  have hs : insertionSortByDateTime [exLongBuy, exLongSell] = [exLongBuy, exLongSell] := by
    apply insertionSortByDateTime_eq_of_increasing
    simp [exLongBuy, exLongSell, String.lt_iff_toList_lt]
    decide
  have h4 : ∀ sym,
      lotsOf (runFIFO (insertionSortByDateTime [exLongBuy, exLongSell])).openLots sym = [] := by
    intro sym
    rw [hs, runFIFO_long_round_trip exLongBuy exLongSell 100 (by norm_num [eps]) rfl
      (by decide) (by decide) rfl rfl]
    exact lotsOf_singleton_nil _ _
  exact ⟨insertionSortByDateTime_sorts, h1, h2, h3, h4,
    fifo_full_reconciliation insertionSortByDateTime insertionSortByDateTime_sorts 1 h1
      [exLongBuy, exLongSell] h2 h3 h4,
    by norm_num [exLongBuy, exLongSell]⟩

/-! ## Disposal (C8) -/

theorem matchedAboveEps_of_le (lots : List fifoLot) (r : ℚ) (h : r ≤ eps) :
    matchedAboveEps lots r = [] := by
  cases lots with
  | nil => rfl
  | cons l rest => simp [matchedAboveEps, not_lt.mpr h]

/-- The accumulator after a loop that may close every lot: one credit per
matched quantity. -/
theorem closeLoop_matched (canClose : fifoLot → Bool) (gain : fifoLot → ℚ → ℚ) :
    ∀ (lots : List fifoLot) (r : ℚ) (acc : Option ℚ), (∀ l ∈ lots, canClose l = true) →
      (closeLoop canClose gain lots r acc).2.2.getD 0 =
        acc.getD 0 + (List.zipWith (fun m l => gain l m) (matchedAboveEps lots r) lots).sum := by
  intro lots
  induction lots with
  | nil => intro r acc _; rw [closeLoop_nil]; simp [matchedAboveEps]
  | cons l rest ih =>
    intro r acc hc
    by_cases hr : r > eps
    · have hcl := hc l (List.mem_cons_self _ _)
      by_cases hq : l.qty ≤ r
      · rw [closeLoop_full _ _ _ _ _ _ hr hcl hq,
          ih _ _ (fun x hx => hc x (List.mem_cons_of_mem _ hx))]
        simp only [matchedAboveEps, hr, if_true, min_eq_left hq, List.zipWith_cons_cons,
          List.sum_cons, Option.getD_some]
        ring
      · have hlt : r < l.qty := not_le.mp hq
        rw [closeLoop_part _ _ _ _ _ _ hr hcl hlt]
        simp only [matchedAboveEps, hr, if_true, min_eq_right hlt.le, sub_self,
          matchedAboveEps_of_le rest 0 eps_pos.le, List.zipWith_cons_cons,
          List.zipWith_nil_left, List.sum_cons, List.sum_nil, Option.getD_some, add_zero]
    · rw [closeLoop_zero _ _ _ _ _ (not_lt.mp hr), matchedAboveEps_of_le _ _ (not_lt.mp hr)]
      simp

/-- The matched quantities never exceed the request or the ledger, and fall
short of both only by an unmatched remainder of at most `eps`. -/
theorem matchedAboveEps_sum (lots : List fifoLot) :
    ∀ r : ℚ, (∀ l ∈ lots, 0 < l.qty) → 0 ≤ r →
      (matchedAboveEps lots r).sum ≤ r ∧ (matchedAboveEps lots r).sum ≤ totalQty lots ∧
        (r - (matchedAboveEps lots r).sum ≤ eps ∨
          (matchedAboveEps lots r).sum = totalQty lots) := by
  induction lots with
  | nil => intro r _ h0; simp [matchedAboveEps, totalQty, h0]
  | cons l rest ih =>
    intro r hpos h0
    have hrest : ∀ x ∈ rest, 0 < x.qty := fun x hx => hpos x (List.mem_cons_of_mem _ hx)
    have hl := hpos l (List.mem_cons_self _ _)
    have hL := totalQty_nonneg rest hrest
    rw [totalQty_cons]
    by_cases hr : r > eps
    · simp only [matchedAboveEps, hr, if_true, List.sum_cons]
      by_cases hq : l.qty ≤ r
      · rw [min_eq_left hq]
        obtain ⟨h1, h2, h3⟩ := ih (r - l.qty) hrest (by linarith)
        refine ⟨by linarith, by linarith, ?_⟩
        rcases h3 with h3 | h3
        · exact Or.inl (by linarith)
        · exact Or.inr (by linarith)
      · have hlt : r < l.qty := not_le.mp hq
        rw [min_eq_right hlt.le, sub_self, matchedAboveEps_of_le rest 0 eps_pos.le]
        simp only [List.sum_nil, add_zero, sub_self]
        exact ⟨le_refl _, by linarith, Or.inl eps_pos.le⟩
    · rw [matchedAboveEps_of_le _ _ (not_lt.mp hr)]
      simp only [List.sum_nil, sub_zero]
      exact ⟨h0, by linarith, Or.inl (not_lt.mp hr)⟩

/-- C8 (as amended): a normal sell with `s = |Quantity| > 1e-9` and unit
proceeds `u = (Proceeds + Commission)/s`, processed against a ledger (reached
by any earlier trades) of long lots only with total `L`, increases the realized
P&L by exactly the sum of `m_i * (u - cost_i)`, where the `m_i` are matched
oldest lot first for as long as more than `1e-9` of the sale is unmatched;
they sum to at most `min s L` and at least `min s L - 1e-9`; and if
`s - L > 1e-9` they sum to `L` and the ledger afterwards is exactly one short
lot of quantity `s - L` at unit price `u`. -/
theorem disposal_rule (pre : List Trade) (t : Trade)
    (hb : t.TransactionType ≠ "BookTrade") (hs : -t.Quantity > eps)
    (hlong : ∀ l ∈ lotsOf (runFIFO pre).openLots t.Symbol, l.isShort = false) :
    pnlOf (stepFIFO (runFIFO pre) t).pnl t.Symbol =
        pnlOf (runFIFO pre).pnl t.Symbol +
          (List.zipWith
            (fun m l => m * ((t.Proceeds + t.Commission) / (-t.Quantity) - l.unitCost))
            (matchedAboveEps (lotsOf (runFIFO pre).openLots t.Symbol) (-t.Quantity))
            (lotsOf (runFIFO pre).openLots t.Symbol)).sum ∧
      (matchedAboveEps (lotsOf (runFIFO pre).openLots t.Symbol) (-t.Quantity)).sum
        ≤ min (-t.Quantity) (totalQty (lotsOf (runFIFO pre).openLots t.Symbol)) ∧
      min (-t.Quantity) (totalQty (lotsOf (runFIFO pre).openLots t.Symbol)) - eps
        ≤ (matchedAboveEps (lotsOf (runFIFO pre).openLots t.Symbol) (-t.Quantity)).sum ∧
      (-t.Quantity - totalQty (lotsOf (runFIFO pre).openLots t.Symbol) > eps →
        (matchedAboveEps (lotsOf (runFIFO pre).openLots t.Symbol) (-t.Quantity)).sum
            = totalQty (lotsOf (runFIFO pre).openLots t.Symbol) ∧
          lotsOf (stepFIFO (runFIFO pre) t).openLots t.Symbol =
            [⟨-t.Quantity - totalQty (lotsOf (runFIFO pre).openLots t.Symbol),
              (t.Proceeds + t.Commission) / (-t.Quantity), true⟩]) := by
  have h0 : t.Quantity < 0 := by
    have := eps_pos; linarith
  have hpos := runFIFO_lots_pos pre t.Symbol
  have hcan : ∀ l ∈ lotsOf (runFIFO pre).openLots t.Symbol,
      (fun l : fifoLot => !l.isShort) l = true := by
    intro l hl; simp [hlong l hl]
  have hacc := closeLoop_acc (fun l => !l.isShort)
    (fun l m => m * (netCash t / (-t.Quantity)) - m * l.unitCost)
    (lotsOf (runFIFO pre).openLots t.Symbol) (-t.Quantity) (mapGet? (runFIFO pre).pnl t.Symbol)
  have hm := closeLoop_matched (fun l => !l.isShort)
    (fun l m => m * (netCash t / (-t.Quantity)) - m * l.unitCost)
    (lotsOf (runFIFO pre).openLots t.Symbol) (-t.Quantity) (mapGet? (runFIFO pre).pnl t.Symbol)
    hcan
  obtain ⟨b1, b2, b3⟩ := matchedAboveEps_sum (lotsOf (runFIFO pre).openLots t.Symbol)
    (-t.Quantity) hpos (by linarith)
  refine ⟨?_, le_min b1 b2, ?_, ?_⟩
  · rw [stepFIFO_sell _ t hb h0, pnlOf_writeBack_same _ _ _ hacc, hm]
    congr 1
    · congr 2
      funext m l
      simp only [netCash]
      ring
  · rcases b3 with b3 | b3
    · have := min_le_left (-t.Quantity) (totalQty (lotsOf (runFIFO pre).openLots t.Symbol))
      linarith
    · have := min_le_right (-t.Quantity) (totalQty (lotsOf (runFIFO pre).openLots t.Symbol))
      have := eps_pos
      linarith
  · intro hflip
    obtain ⟨c1, c2, _⟩ := closeLoop_all (fun l => !l.isShort)
      (fun l m => m * (netCash t / (-t.Quantity)) - m * l.unitCost)
      (lotsOf (runFIFO pre).openLots t.Symbol) (-t.Quantity)
      (mapGet? (runFIFO pre).pnl t.Symbol) hcan hpos
      (by have := eps_pos; linarith) (Or.inr hflip)
    refine ⟨?_, ?_⟩
    · rcases b3 with b3 | b3
      · linarith
      · exact b3
    · rw [stepFIFO_sell _ t hb h0, lotsOf_mapSet_same, c1, c2, if_pos hflip]
      rfl

theorem runFIFO_exSellPre :
    runFIFO exSellPre = ⟨[("ACME", [⟨1, 10, false⟩, ⟨1, 12, false⟩])], []⟩ := by
  have e1 : stepFIFO State.init
      ⟨"ACME", "20240102", "20240102;093000", 1, -10, 0, "O", "ExchTrade"⟩ =
      ⟨[("ACME", [⟨1, 10, false⟩])], []⟩ := by
    rw [stepFIFO_open_long _ _ (by decide) (by norm_num [eps])
      (by intro l rest h; simp [State.init, lotsOf_nil] at h)]
    norm_num [State.init, lotsOf_nil, mapSet, netCash]
  have e2 : stepFIFO ⟨[("ACME", [⟨1, 10, false⟩])], []⟩
      ⟨"ACME", "20240103", "20240103;093000", 1, -12, 0, "O", "ExchTrade"⟩ =
      ⟨[("ACME", [⟨1, 10, false⟩, ⟨1, 12, false⟩])], []⟩ := by
    rw [stepFIFO_open_long _ _ (by decide) (by norm_num [eps])
      (by
        intro l rest h
        simp only [lotsOf, mapGet?, if_true, Option.getD_some, List.cons.injEq] at h
        rw [← h.1])]
    norm_num [lotsOf, mapGet?, mapSet, netCash]
  simp only [runFIFO, exSellPre, List.foldl_cons, List.foldl_nil, e1, e2]

theorem lotsOf_exSellPre (sym : String) (h : sym = "ACME") :
    lotsOf (runFIFO exSellPre).openLots sym = [⟨1, 10, false⟩, ⟨1, 12, false⟩] := by
  rw [runFIFO_exSellPre, h]
  simp [lotsOf, mapGet?]

theorem exSellPre_all_long (sym : String) (h : sym = "ACME") :
    ∀ l ∈ lotsOf (runFIFO exSellPre).openLots sym, l.isShort = false := by
  rw [lotsOf_exSellPre sym h]
  intro l hl
  simp only [List.mem_cons, List.mem_singleton, List.not_mem_nil, or_false] at hl
  rcases hl with hl | hl <;> subst hl <;> rfl

/-- The realized P&L after selling `1 + 5e-10` units at 15 against lots of 1
unit at 10 and 1 unit at 12: only the first lot is matched. -/
theorem pnlOf_exSellDust :
    pnlOf (stepFIFO (runFIFO exSellPre) exSellDust).pnl "ACME" = 5 := by
  have hq : -exSellDust.Quantity > eps := by norm_num [exSellDust, eps]
  have hb : exSellDust.TransactionType ≠ "BookTrade" := by decide
  have h0 : exSellDust.Quantity < 0 := by norm_num [exSellDust]
  have hl := lotsOf_exSellPre exSellDust.Symbol rfl
  have hacc := closeLoop_acc (fun l => !l.isShort)
    (fun l m => m * (netCash exSellDust / (-exSellDust.Quantity)) - m * l.unitCost)
    (lotsOf (runFIFO exSellPre).openLots exSellDust.Symbol) (-exSellDust.Quantity)
    (mapGet? (runFIFO exSellPre).pnl exSellDust.Symbol)
  have hm := closeLoop_matched (fun l => !l.isShort)
    (fun l m => m * (netCash exSellDust / (-exSellDust.Quantity)) - m * l.unitCost)
    (lotsOf (runFIFO exSellPre).openLots exSellDust.Symbol) (-exSellDust.Quantity)
    (mapGet? (runFIFO exSellPre).pnl exSellDust.Symbol)
    (by intro l hl'; simp [exSellPre_all_long exSellDust.Symbol rfl l hl'])
  have hstep := stepFIFO_sell (runFIFO exSellPre) exSellDust hb h0
  have hsym : exSellDust.Symbol = "ACME" := rfl
  rw [hsym] at hstep hacc hm hl
  rw [hstep, pnlOf_writeBack_same _ _ _ hacc, hm, hl, runFIFO_exSellPre]
  have hr1 : (-exSellDust.Quantity) > eps := hq
  have hr2 : ¬ ((-exSellDust.Quantity) - 1 > eps) := by norm_num [exSellDust, eps]
  have hmin : min (1 : ℚ) (-exSellDust.Quantity) = 1 := by
    apply min_eq_left
    norm_num [exSellDust]
  simp only [matchedAboveEps, hr1, if_true, hmin, hr2, if_false, List.zipWith_cons_cons,
    List.zipWith_nil_left, List.sum_cons, List.sum_nil, mapGet?, Option.getD_none]
  norm_num [netCash, exSellDust]

/-- Against long lots of 1 unit at 10 and 1 unit at 12, a normal sell of
`s = 1 + 5e-10` units at 15 per unit meets the premises (`s > 1e-9`, long lots
only), the oldest-first matched quantities that sum to `min s L` are `1` and
`5e-10`, yet the realized P&L grows by 5 and not by
`1 * (15 - 10) + 5e-10 * (15 - 12)`. -/
theorem stepFIFO_exSellDust_unmatched :
    exSellDust.TransactionType ≠ "BookTrade" ∧ -exSellDust.Quantity > eps ∧
      (∀ l ∈ lotsOf (runFIFO exSellPre).openLots "ACME", l.isShort = false) ∧
      (matchedOldestFirst (lotsOf (runFIFO exSellPre).openLots "ACME")
          (-exSellDust.Quantity)).sum
        = min (-exSellDust.Quantity) (totalQty (lotsOf (runFIFO exSellPre).openLots "ACME")) ∧
      pnlOf (stepFIFO (runFIFO exSellPre) exSellDust).pnl "ACME" ≠
        pnlOf (runFIFO exSellPre).pnl "ACME" +
          (List.zipWith
            (fun m l => m * ((exSellDust.Proceeds + exSellDust.Commission)
              / (-exSellDust.Quantity) - l.unitCost))
            (matchedOldestFirst (lotsOf (runFIFO exSellPre).openLots "ACME")
              (-exSellDust.Quantity))
            (lotsOf (runFIFO exSellPre).openLots "ACME")).sum := by
  have hl := lotsOf_exSellPre "ACME" rfl
  have hmin1 : min (1 : ℚ) (-exSellDust.Quantity) = 1 := by
    apply min_eq_left
    norm_num [exSellDust]
  have hmin2 : min (1 : ℚ) (-exSellDust.Quantity - 1) = -exSellDust.Quantity - 1 := by
    apply min_eq_right
    norm_num [exSellDust]
  have hmin3 : min (-exSellDust.Quantity) (2 : ℚ) = -exSellDust.Quantity := by
    apply min_eq_left
    norm_num [exSellDust]
  refine ⟨by decide, by norm_num [exSellDust, eps], exSellPre_all_long "ACME" rfl, ?_, ?_⟩
  · rw [hl]
    simp only [matchedOldestFirst, hmin1, hmin2, totalQty, List.map_cons, List.map_nil,
      List.sum_cons, List.sum_nil]
    norm_num [hmin3]
  · rw [pnlOf_exSellDust, hl, runFIFO_exSellPre]
    simp only [matchedOldestFirst, hmin1, hmin2, List.zipWith_cons_cons,
      List.zipWith_nil_left, List.sum_cons, List.sum_nil, pnlOf, mapGet?, Option.getD_none]
    norm_num [exSellDust]

/-- C8 (as amended) on an example: against long lots of 1 unit at 10 and 1
unit at 12, a sell of 5 units at 15 realizes `1*(15-10) + 1*(15-12) = 8` and
leaves one short lot of 3 units at unit price 15. -/
theorem disposal_rule_witness :
    exSellFlip.TransactionType ≠ "BookTrade" ∧ -exSellFlip.Quantity > eps ∧
      (∀ l ∈ lotsOf (runFIFO exSellPre).openLots exSellFlip.Symbol, l.isShort = false) ∧
      pnlOf (stepFIFO (runFIFO exSellPre) exSellFlip).pnl "ACME" = 8 ∧
      lotsOf (stepFIFO (runFIFO exSellPre) exSellFlip).openLots "ACME" = [⟨3, 15, true⟩] := by
  have hl := lotsOf_exSellPre exSellFlip.Symbol rfl
  have h1 : exSellFlip.TransactionType ≠ "BookTrade" := by decide
  have h2 : -exSellFlip.Quantity > eps := by norm_num [exSellFlip, eps]
  have h3 := exSellPre_all_long exSellFlip.Symbol rfl
  obtain ⟨ha, _, _, hd⟩ := disposal_rule exSellPre exSellFlip h1 h2 h3
  have hflip : -exSellFlip.Quantity
      - totalQty (lotsOf (runFIFO exSellPre).openLots exSellFlip.Symbol) > eps := by
    rw [hl]
    norm_num [totalQty, exSellFlip, eps]
  have he := (hd hflip).2
  rw [hl] at ha he
  have hsym : exSellFlip.Symbol = "ACME" := rfl
  rw [hsym] at ha he
  refine ⟨h1, h2, h3, ?_, ?_⟩
  · rw [ha, runFIFO_exSellPre]
    have hr1 : (-exSellFlip.Quantity) > eps := h2
    have hr2 : (-exSellFlip.Quantity) - 1 > eps := by norm_num [exSellFlip, eps]
    have hmin1 : min (1 : ℚ) (-exSellFlip.Quantity) = 1 := by
      apply min_eq_left
      norm_num [exSellFlip]
    have hmin2 : min (1 : ℚ) (-exSellFlip.Quantity - 1) = 1 := by
      apply min_eq_left
      norm_num [exSellFlip]
    simp only [matchedAboveEps, hr1, if_true, hmin1, hr2, hmin2, List.zipWith_cons_cons,
      List.zipWith_nil_left, List.sum_cons, List.sum_nil, pnlOf, mapGet?, Option.getD_none]
    norm_num [exSellFlip]
  · rw [he]
    norm_num [totalQty, exSellFlip]

/-! ## The cost-basis projector (C9, C10) -/

theorem stepCostBasis_eq (s : State) (t : Trade) :
    stepCostBasis s.openLots t = (stepFIFO s t).openLots := by
  by_cases hb : t.TransactionType = "BookTrade"
  · rw [stepFIFO_book s t hb]
    simp only [stepCostBasis, hb, if_true]
    rw [cbExpireLoop_eq (fun l m => if l.isShort then m * l.unitCost else -(m * l.unitCost))
      _ _ (mapGet? s.pnl t.Symbol)]
  · by_cases hpos : t.Quantity > 0
    · rw [stepFIFO_buy s t hb hpos]
      simp only [stepCostBasis, hb, if_false, hpos, if_true]
      rw [cbCloseLoop_eq true (fun l m => m * l.unitCost - m * ((-netCash t) / t.Quantity))
        _ _ (mapGet? s.pnl t.Symbol)]
      have hf : (fun l : fifoLot => l.isShort == true) = (fun l : fifoLot => l.isShort) := by
        funext l; cases l.isShort <;> rfl
      simp only [hf, netCash]
    · by_cases hneg : t.Quantity < 0
      · rw [stepFIFO_sell s t hb hneg]
        simp only [stepCostBasis, hb, if_false, hpos, hneg, if_true]
        rw [cbCloseLoop_eq false
          (fun l m => m * (netCash t / (-t.Quantity)) - m * l.unitCost)
          _ _ (mapGet? s.pnl t.Symbol)]
        have hf : (fun l : fifoLot => l.isShort == false) = (fun l : fifoLot => !l.isShort) := by
          funext l; cases l.isShort <;> rfl
        simp only [hf, netCash]
      · simp only [stepCostBasis, stepFIFO, hb, hpos, hneg, if_false]

theorem foldl_stepCostBasis_eq (trades : List Trade) :
    ∀ s : State, trades.foldl stepCostBasis s.openLots = (trades.foldl stepFIFO s).openLots := by
  induction trades with
  | nil => intro s; rfl
  | cons t rest ih =>
    intro s
    simp only [List.foldl_cons]
    rw [stepCostBasis_eq s t]
    exact ih (stepFIFO s t)

theorem runCostBasis_eq (trades : List Trade) :
    runCostBasis trades = (runFIFO trades).openLots :=
  foldl_stepCostBasis_eq trades State.init

theorem foldl_append_trades (statements : List FlexStatement) :
    ∀ acc : List Trade,
      statements.foldl (fun acc stmt => acc ++ stmt.Trades) acc =
        acc ++ (statements.map FlexStatement.Trades).flatten := by
  induction statements with
  | nil => intro acc; simp
  | cons st rest ih =>
    intro acc
    simp only [List.foldl_cons, List.map_cons, List.flatten_cons, ih, List.append_assoc]

theorem allTrades_eq (statements : List FlexStatement) :
    allTrades statements = (statements.map FlexStatement.Trades).flatten := by
  rw [allTrades, foldl_append_trades]
  rfl

theorem foldl_totalCost (lots : List fifoLot) :
    ∀ acc : ℚ,
      lots.foldl (fun acc l => if l.isShort = false then acc + l.qty * l.unitCost else acc) acc
        = acc + longCost lots := by
  induction lots with
  | nil => intro acc; simp [longCost]
  | cons l rest ih =>
    intro acc
    simp only [List.foldl_cons, ih]
    cases hS : l.isShort
    · simp [longCost, hS]
      ring
    · simp [longCost, hS]

theorem totalCost_eq_longCost (lots : List fifoLot) : totalCost lots = longCost lots := by
  rw [totalCost, foldl_totalCost, zero_add]

theorem longCost_nil : longCost [] = 0 := rfl

theorem lotsOf_cons_same (k : String) (v : List fifoLot) (rest : GoMap (List fifoLot)) :
    lotsOf ((k, v) :: rest) k = v := by
  simp [lotsOf, mapGet?]

theorem lotsOf_cons_other (k sym : String) (v : List fifoLot) (rest : GoMap (List fifoLot))
    (h : k ≠ sym) : lotsOf ((k, v) :: rest) sym = lotsOf rest sym := by
  simp [lotsOf, mapGet?, h]

theorem lotsOf_of_not_mem (m : GoMap (List fifoLot)) (sym : String) (h : sym ∉ mapKeys m) :
    lotsOf m sym = [] := by
  induction m with
  | nil => rfl
  | cons e rest ih =>
    obtain ⟨k, v⟩ := e
    simp only [mapKeys, List.map_cons, List.mem_cons, not_or] at h
    rw [lotsOf_cons_other _ _ _ _ (fun hh => h.1 hh.symm)]
    exact ih h.2

/-- Reading the result loop of `computeCostBasisFromTrades` at one symbol. -/
theorem mapGet?_foldl_costBasis (m : GoMap (List fifoLot)) (sym : String) :
    ∀ acc : GoMap ℚ, (mapKeys m).Nodup →
      mapGet? (m.foldl
          (fun result e => if totalCost e.2 > 0 then mapSet result e.1 (totalCost e.2) else result)
          acc) sym =
        if 0 < longCost (lotsOf m sym) then some (longCost (lotsOf m sym))
        else mapGet? acc sym := by
  induction m with
  | nil => intro acc _; simp [lotsOf_nil, longCost_nil]
  | cons e rest ih =>
    intro acc hnd
    obtain ⟨k, v⟩ := e
    simp only [mapKeys, List.map_cons, List.nodup_cons] at hnd
    simp only [List.foldl_cons]
    rw [ih _ hnd.2]
    by_cases hk : k = sym
    · subst hk
      rw [lotsOf_of_not_mem rest k hnd.1, lotsOf_cons_same, longCost_nil]
      simp only [lt_irrefl, if_false, totalCost_eq_longCost]
      by_cases hc : longCost v > 0
      · simp only [hc, if_true, mapGet?_mapSet_same]
      · simp only [hc, if_false]
    · rw [lotsOf_cons_other _ _ _ _ hk]
      by_cases hc : totalCost v > 0
      · simp only [hc, if_true, mapGet?_mapSet_other _ _ _ _ (Ne.symm hk)]
      · simp only [hc, if_false]

theorem mapGet?_costBasisResult (m : GoMap (List fifoLot)) (sym : String)
    (h : (mapKeys m).Nodup) :
    mapGet? (costBasisResult m) sym =
      if 0 < longCost (lotsOf m sym) then some (longCost (lotsOf m sym)) else none := by
  rw [costBasisResult, mapGet?_foldl_costBasis m sym [] h]
  rfl

/-- Reading the map returned by `computeCostBasisFromTrades` at one symbol. -/
theorem computeCostBasis_lookup (sortSlice : List Trade → List Trade)
    (statements : List FlexStatement) (sym : String) :
    mapGet? (computeCostBasisFromTrades sortSlice statements) sym =
      if 0 < longCost (lotsOf (runCostBasis (sortSlice (allTrades statements))) sym)
      then some (longCost (lotsOf (runCostBasis (sortSlice (allTrades statements))) sym))
      else none := by
  rw [computeCostBasisFromTrades]
  apply mapGet?_costBasisResult
  rw [runCostBasis_eq]
  exact (runFIFO_wellFormed _).1

theorem runCostBasis_lots_pos (trades : List Trade) (sym : String) :
    ∀ l ∈ lotsOf (runCostBasis trades) sym, 0 < l.qty := by
  rw [runCostBasis_eq]
  exact runFIFO_lots_pos trades sym

/-- C9: for every list of statements, the per-symbol ledgers that
`computeCostBasisFromTrades` reaches are identical to the ledgers
`computeFIFOPnL` reaches on the concatenation of all statements' trades, and
the returned map holds, for a symbol, exactly the sum of `qty * unitCost` over
the long lots of that symbol's final ledger (when an entry is present at all),
short lots contributing nothing. -/
theorem cost_basis_shares_automaton (sortSlice : List Trade → List Trade)
    (statements : List FlexStatement) (sym : String) :
    runCostBasis (sortSlice (allTrades statements)) =
        (runFIFO (sortSlice ((statements.map FlexStatement.Trades).flatten))).openLots ∧
      mapGet? (computeCostBasisFromTrades sortSlice statements) sym =
        if 0 < longCost
            (lotsOf (runFIFO (sortSlice ((statements.map FlexStatement.Trades).flatten))).openLots
              sym)
        then some (longCost
            (lotsOf (runFIFO (sortSlice ((statements.map FlexStatement.Trades).flatten))).openLots
              sym))
        else none := by
  have h1 : runCostBasis (sortSlice (allTrades statements)) =
      (runFIFO (sortSlice ((statements.map FlexStatement.Trades).flatten))).openLots := by
    rw [runCostBasis_eq, allTrades_eq]
  refine ⟨h1, ?_⟩
  rw [← h1]
  exact computeCostBasis_lookup sortSlice statements sym

theorem longCost_cons (l : fifoLot) (rest : List fifoLot) :
    longCost (l :: rest) =
      (if l.isShort = false then l.qty * l.unitCost else 0) + longCost rest := by
  cases hS : l.isShort <;> simp [longCost, hS]

theorem longCost_nonneg (lots : List fifoLot) (hq : ∀ l ∈ lots, 0 < l.qty)
    (hu : ∀ l ∈ lots, l.isShort = false → 0 < l.unitCost) : 0 ≤ longCost lots := by
  induction lots with
  | nil => simp [longCost]
  | cons l rest ih =>
    rw [longCost_cons]
    have h1 := ih (fun x hx => hq x (List.mem_cons_of_mem _ hx))
      (fun x hx => hu x (List.mem_cons_of_mem _ hx))
    split_ifs with hS
    · have := mul_pos (hq l (List.mem_cons_self _ _)) (hu l (List.mem_cons_self _ _) hS)
      linarith
    · linarith

theorem longCost_pos_iff (lots : List fifoLot) (hq : ∀ l ∈ lots, 0 < l.qty)
    (hu : ∀ l ∈ lots, l.isShort = false → 0 < l.unitCost) :
    0 < longCost lots ↔ ∃ l ∈ lots, l.isShort = false := by
  induction lots with
  | nil => simp [longCost]
  | cons l rest ih =>
    have hq' : ∀ x ∈ rest, 0 < x.qty := fun x hx => hq x (List.mem_cons_of_mem _ hx)
    have hu' : ∀ x ∈ rest, x.isShort = false → 0 < x.unitCost :=
      fun x hx => hu x (List.mem_cons_of_mem _ hx)
    have h0 := longCost_nonneg rest hq' hu'
    rw [longCost_cons]
    by_cases hS : l.isShort = false
    · have := mul_pos (hq l (List.mem_cons_self _ _)) (hu l (List.mem_cons_self _ _) hS)
      simp only [hS, if_true]
      constructor
      · intro _; exact ⟨l, List.mem_cons_self _ _, hS⟩
      · intro _; linarith
    · rw [if_neg hS, zero_add, ih hq' hu']
      constructor
      · rintro ⟨x, hx, hxs⟩; exact ⟨x, List.mem_cons_of_mem _ hx, hxs⟩
      · rintro ⟨x, hx, hxs⟩
        rcases List.mem_cons.mp hx with hx | hx
        · subst hx; exact absurd hxs hS
        · exact ⟨x, hx, hxs⟩

/-- C10 (as amended): the map returned by `computeCostBasisFromTrades` has an
entry for a symbol if and only if the total cost `qty * unitCost` of the long
lots of that symbol still open when the pass completes is positive; when every
such long lot has a positive unit cost, that is the case if and only if at
least one long lot of the symbol is still open. -/
theorem cost_basis_presence (sortSlice : List Trade → List Trade)
    (statements : List FlexStatement) (sym : String) :
    ((mapGet? (computeCostBasisFromTrades sortSlice statements) sym).isSome = true ↔
        0 < longCost (lotsOf (runCostBasis (sortSlice (allTrades statements))) sym)) ∧
      ((∀ l ∈ lotsOf (runCostBasis (sortSlice (allTrades statements))) sym,
          l.isShort = false → 0 < l.unitCost) →
        ((mapGet? (computeCostBasisFromTrades sortSlice statements) sym).isSome = true ↔
          ∃ l ∈ lotsOf (runCostBasis (sortSlice (allTrades statements))) sym,
            l.isShort = false)) := by
  have h1 : (mapGet? (computeCostBasisFromTrades sortSlice statements) sym).isSome = true ↔
      0 < longCost (lotsOf (runCostBasis (sortSlice (allTrades statements))) sym) := by
    rw [computeCostBasis_lookup]
    split_ifs with h
    · simp [h]
    · simp [h]
  refine ⟨h1, fun hu => ?_⟩
  rw [h1]
  exact longCost_pos_iff _ (runCostBasis_lots_pos _ sym) hu

theorem insertionSortByDateTime_singleton (t : Trade) : insertionSortByDateTime [t] = [t] := by
  simp [insertionSortByDateTime]

theorem runCostBasis_exFreeShares :
    runCostBasis (insertionSortByDateTime (allTrades exFreeShares)) =
      [("ACME", [⟨10, 0, false⟩])] := by
  have ha : allTrades exFreeShares =
      [⟨"ACME", "20240102", "20240102;093000", 10, 0, 0, "O", "ExchTrade"⟩] := by
    simp [allTrades, exFreeShares]
  rw [ha, insertionSortByDateTime_singleton, runCostBasis_eq]
  simp only [runFIFO, List.foldl_cons, List.foldl_nil]
  rw [stepFIFO_open_long _ _ (by decide) (by norm_num [eps])
    (by intro l rest h; simp [State.init, lotsOf_nil] at h)]
  norm_num [State.init, lotsOf_nil, mapSet, netCash]

/-- C10 (as stated, refuted): after 10 units received at no cost a long lot is
still open, yet the returned map has no entry for the symbol. -/
theorem cost_basis_presence_counterexample :
    (∃ l ∈ lotsOf (runCostBasis (insertionSortByDateTime (allTrades exFreeShares))) "ACME",
        l.isShort = false) ∧
      mapGet? (computeCostBasisFromTrades insertionSortByDateTime exFreeShares) "ACME"
        = none := by
  constructor
  · rw [runCostBasis_exFreeShares]
    exact ⟨⟨10, 0, false⟩, by simp [lotsOf, mapGet?], rfl⟩
  · rw [computeCostBasis_lookup, runCostBasis_exFreeShares]
    norm_num [lotsOf, mapGet?, longCost]

theorem runCostBasis_exStatements :
    runCostBasis (insertionSortByDateTime (allTrades exStatements)) =
      [("ACME", [⟨6, 10, false⟩])] := by
  have ha : allTrades exStatements =
      [⟨"ACME", "20240102", "20240102;093000", 10, -100, 0, "O", "ExchTrade"⟩,
       ⟨"ACME", "20240103", "20240103;093000", -4, 60, 0, "C", "ExchTrade"⟩] := by
    simp [allTrades, exStatements]
  have hs : insertionSortByDateTime
      [(⟨"ACME", "20240102", "20240102;093000", 10, -100, 0, "O", "ExchTrade"⟩ : Trade),
       ⟨"ACME", "20240103", "20240103;093000", -4, 60, 0, "C", "ExchTrade"⟩] =
      [⟨"ACME", "20240102", "20240102;093000", 10, -100, 0, "O", "ExchTrade"⟩,
       ⟨"ACME", "20240103", "20240103;093000", -4, 60, 0, "C", "ExchTrade"⟩] := by
    apply insertionSortByDateTime_eq_of_increasing
    simp [String.lt_iff_toList_lt]
    decide
  have e1 : stepFIFO State.init
      ⟨"ACME", "20240102", "20240102;093000", 10, -100, 0, "O", "ExchTrade"⟩ =
      ⟨[("ACME", [⟨10, 10, false⟩])], []⟩ := by
    rw [stepFIFO_open_long _ _ (by decide) (by norm_num [eps])
      (by intro l rest h; simp [State.init, lotsOf_nil] at h)]
    norm_num [State.init, lotsOf_nil, mapSet, netCash]
  have e2 : stepFIFO ⟨[("ACME", [⟨10, 10, false⟩])], []⟩
      ⟨"ACME", "20240103", "20240103;093000", -4, 60, 0, "C", "ExchTrade"⟩ =
      ⟨[("ACME", [⟨6, 10, false⟩])], [("ACME", 20)]⟩ := by
    rw [stepFIFO_sell_front _ _ ⟨10, 10, false⟩ [] (by decide) (by norm_num [eps])
      (by simp [lotsOf, mapGet?]) rfl (by norm_num)]
    norm_num [mapSet, pnlOf, mapGet?, netCash, eps]
  rw [ha, hs, runCostBasis_eq]
  simp only [runFIFO, List.foldl_cons, List.foldl_nil, e1, e2]

/-- C10 (as amended) on an example: with 6 units at unit cost 10 still open the
symbol has an entry, and the open lot is long with a positive unit cost. -/
theorem cost_basis_presence_witness :
    (∀ l ∈ lotsOf (runCostBasis (insertionSortByDateTime (allTrades exStatements))) "ACME",
        l.isShort = false → 0 < l.unitCost) ∧
      ((mapGet? (computeCostBasisFromTrades insertionSortByDateTime exStatements)
          "ACME").isSome = true ↔
        ∃ l ∈ lotsOf (runCostBasis (insertionSortByDateTime (allTrades exStatements))) "ACME",
          l.isShort = false) ∧
      (∃ l ∈ lotsOf (runCostBasis (insertionSortByDateTime (allTrades exStatements))) "ACME",
        l.isShort = false) := by
  have hu : ∀ l ∈ lotsOf (runCostBasis (insertionSortByDateTime (allTrades exStatements)))
      "ACME", l.isShort = false → 0 < l.unitCost := by
    rw [runCostBasis_exStatements]
    intro l hl _
    simp only [lotsOf, mapGet?, if_true, Option.getD_some, List.mem_singleton] at hl
    subst hl
    norm_num
  refine ⟨hu, (cost_basis_presence insertionSortByDateTime exStatements "ACME").2 hu, ?_⟩
  rw [runCostBasis_exStatements]
  exact ⟨⟨6, 10, false⟩, by simp [lotsOf, mapGet?], rfl⟩

/-! ## Lot-quantity invariant (C12) -/

theorem runFIFO_exBoundary :
    runFIFO exBoundary = ⟨[("ACME", [⟨1 / 1000000000, 10, false⟩])],
      [("ACME", 1 / 100000000)]⟩ := by
  have e1 : stepFIFO State.init
      ⟨"ACME", "20240102", "20240102;093000", 1, -10, 0, "O", "ExchTrade"⟩ =
      ⟨[("ACME", [⟨1, 10, false⟩])], []⟩ := by
    rw [stepFIFO_open_long _ _ (by decide) (by norm_num [eps])
      (by intro l rest h; simp [State.init, lotsOf_nil] at h)]
    norm_num [State.init, lotsOf_nil, mapSet, netCash]
  have e2 : stepFIFO ⟨[("ACME", [⟨1, 10, false⟩])], []⟩
      ⟨"ACME", "20240103", "20240103;093000", -(1 - 1 / 1000000000), 10, 0, "C",
        "ExchTrade"⟩ =
      ⟨[("ACME", [⟨1 / 1000000000, 10, false⟩])], [("ACME", 1 / 100000000)]⟩ := by
    rw [stepFIFO_sell_front _ _ ⟨1, 10, false⟩ [] (by decide) (by norm_num [eps])
      (by simp [lotsOf, mapGet?]) rfl (by norm_num)]
    norm_num [mapSet, pnlOf, mapGet?, eps, netCash]
  simp only [runFIFO, exBoundary, List.foldl_cons, List.foldl_nil, e1, e2]

theorem insertionSortByDateTime_exBoundary :
    insertionSortByDateTime exBoundary = exBoundary := by
  apply insertionSortByDateTime_eq_of_increasing
  simp [exBoundary, String.lt_iff_toList_lt]
  decide

/-- In exact arithmetic: after buying 1 unit and selling all but exactly
`1e-9` of it, the ledger holds a lot whose remaining quantity is exactly
`1e-9`, not strictly greater. -/
theorem runFIFO_exBoundary_lot_at_eps :
    ∃ l ∈ lotsOf (runFIFO (insertionSortByDateTime exBoundary)).openLots "ACME",
      ¬ (l.qty > eps) := by
  rw [insertionSortByDateTime_exBoundary, runFIFO_exBoundary]
  refine ⟨⟨1 / 1000000000, 10, false⟩, by simp [lotsOf, mapGet?], ?_⟩
  norm_num [eps]

/-- C12 (as amended): after each trade processed by `computeFIFOPnL` and by
`computeCostBasisFromTrades`, that is, after any list `pre` of trades has been
processed, every lot present in every symbol's ledger has remaining quantity
at least `1e-9`. -/
theorem lot_quantity_invariant (pre : List Trade) (sym : String) :
    (∀ l ∈ lotsOf (runFIFO pre).openLots sym, eps ≤ l.qty) ∧
      (∀ l ∈ lotsOf (runCostBasis pre) sym, eps ≤ l.qty) := by
  have h := lotsOf_ge _ sym (runFIFO_wellFormed pre).2.2
  refine ⟨h, ?_⟩
  rw [runCostBasis_eq]
  exact h

/-- C12 (as amended) on the boundary example: the lot of exactly `1e-9` units
that is left satisfies the bound. -/
theorem lot_quantity_invariant_witness :
    (⟨1 / 1000000000, 10, false⟩ : fifoLot) ∈ lotsOf (runFIFO exBoundary).openLots "ACME" ∧
      eps ≤ (⟨1 / 1000000000, 10, false⟩ : fifoLot).qty := by
  have hm : (⟨1 / 1000000000, 10, false⟩ : fifoLot)
      ∈ lotsOf (runFIFO exBoundary).openLots "ACME" := by
    rw [runFIFO_exBoundary]
    simp [lotsOf, mapGet?]
  exact ⟨hm, (lot_quantity_invariant exBoundary "ACME").1 _ hm⟩

/-! ## P&L is realized only on closing (C13) -/

theorem stepFIFO_buy_no_close (s : State) (t : Trade) (hb : t.TransactionType ≠ "BookTrade")
    (hq : t.Quantity > 0)
    (hfront : ∀ l rest, lotsOf s.openLots t.Symbol = l :: rest → l.isShort = false) :
    stepFIFO s t =
      ⟨mapSet s.openLots t.Symbol
          (if t.Quantity > eps then
            lotsOf s.openLots t.Symbol ++ [⟨t.Quantity, (-netCash t) / t.Quantity, false⟩]
          else lotsOf s.openLots t.Symbol),
        s.pnl⟩ := by
  have hloop : closeLoop (fun l => l.isShort)
      (fun l m => m * l.unitCost - m * ((-netCash t) / t.Quantity))
      (lotsOf s.openLots t.Symbol) t.Quantity (mapGet? s.pnl t.Symbol) =
      (lotsOf s.openLots t.Symbol, t.Quantity, mapGet? s.pnl t.Symbol) := by
    cases hl : lotsOf s.openLots t.Symbol with
    | nil => exact closeLoop_nil _ _ _ _
    | cons l rest =>
      apply closeLoop_stop
      simp [hfront l rest hl]
  rw [stepFIFO_buy s t hb hq, hloop]
  simp only [writeBack_unchanged]

theorem stepFIFO_sell_no_close (s : State) (t : Trade) (hb : t.TransactionType ≠ "BookTrade")
    (hq : t.Quantity < 0)
    (hfront : ∀ l rest, lotsOf s.openLots t.Symbol = l :: rest → l.isShort = true) :
    stepFIFO s t =
      ⟨mapSet s.openLots t.Symbol
          (if -t.Quantity > eps then
            lotsOf s.openLots t.Symbol ++ [⟨-t.Quantity, netCash t / (-t.Quantity), true⟩]
          else lotsOf s.openLots t.Symbol),
        s.pnl⟩ := by
  have hloop : closeLoop (fun l => !l.isShort)
      (fun l m => m * (netCash t / (-t.Quantity)) - m * l.unitCost)
      (lotsOf s.openLots t.Symbol) (-t.Quantity) (mapGet? s.pnl t.Symbol) =
      (lotsOf s.openLots t.Symbol, -t.Quantity, mapGet? s.pnl t.Symbol) := by
    cases hl : lotsOf s.openLots t.Symbol with
    | nil => exact closeLoop_nil _ _ _ _
    | cons l rest =>
      apply closeLoop_stop
      simp [hfront l rest hl]
  rw [stepFIFO_sell s t hb hq, hloop]
  simp only [writeBack_unchanged]

theorem stepFIFO_book_empty (s : State) (t : Trade) (hb : t.TransactionType = "BookTrade")
    (hl : lotsOf s.openLots t.Symbol = []) :
    stepFIFO s t = ⟨mapSet s.openLots t.Symbol [], s.pnl⟩ := by
  rw [stepFIFO_book s t hb, hl, closeLoop_nil]
  simp only [writeBack_unchanged]

/-- After buys only, no P&L entry exists and every lot is long. -/
theorem foldl_buys_only (trades : List Trade) :
    ∀ s : State, s.pnl = [] → (∀ e ∈ s.openLots, ∀ l ∈ e.2, l.isShort = false) →
      (∀ t ∈ trades, t.TransactionType ≠ "BookTrade" ∧ t.Quantity > 0) →
      (trades.foldl stepFIFO s).pnl = [] := by
  induction trades with
  | nil => intro s hp _ _; exact hp
  | cons t rest ih =>
    intro s hp hlong hb
    obtain ⟨hb1, hq1⟩ := hb t (List.mem_cons_self _ _)
    have hl : ∀ l ∈ lotsOf s.openLots t.Symbol, l.isShort = false := by
      unfold lotsOf
      cases hm : mapGet? s.openLots t.Symbol with
      | none => intro l hl; simp at hl
      | some lots => exact hlong _ (mem_of_mapGet? _ _ _ hm)
    have hstep := stepFIFO_buy_no_close s t hb1 hq1
      (fun l r h => hl l (by rw [h]; exact List.mem_cons_self _ _))
    simp only [List.foldl_cons]
    apply ih
    · rw [hstep]; exact hp
    · rw [hstep]
      intro e he
      rcases mem_mapSet _ _ _ _ he with h | h
      · subst h
        intro l hl'
        split_ifs at hl' with hc
        · rcases List.mem_append.mp hl' with h1 | h1
          · exact hl l h1
          · simp only [List.mem_singleton] at h1
            subst h1; rfl
        · exact hl l hl'
      · exact hlong e h
    · exact fun x hx => hb x (List.mem_cons_of_mem _ hx)

/-- C13: a trade during which no existing lot is consumed (a normal buy on a
ledger that is empty or starts with a long lot, a normal sell on a ledger that
is empty or starts with a short lot, an expiration on an empty ledger) leaves
the realized-P&L map unchanged; and for a history of normal buys only
`computeFIFOPnL` returns a map with no entry for any symbol. -/
theorem pnl_only_on_closing :
    (∀ (s : State) (t : Trade),
        ((t.TransactionType ≠ "BookTrade" ∧ t.Quantity > 0 ∧
            ∀ l rest, lotsOf s.openLots t.Symbol = l :: rest → l.isShort = false) ∨
          (t.TransactionType ≠ "BookTrade" ∧ t.Quantity < 0 ∧
            ∀ l rest, lotsOf s.openLots t.Symbol = l :: rest → l.isShort = true) ∨
          (t.TransactionType = "BookTrade" ∧ lotsOf s.openLots t.Symbol = [])) →
        (stepFIFO s t).pnl = s.pnl) ∧
      (∀ (sortSlice : List Trade → List Trade) (trades : List Trade),
        SortsByDateTime sortSlice →
        (∀ t ∈ trades, t.TransactionType ≠ "BookTrade" ∧ t.Quantity > 0) →
        computeFIFOPnL sortSlice trades = []) := by
  constructor
  · intro s t h
    rcases h with ⟨hb, hq, hf⟩ | ⟨hb, hq, hf⟩ | ⟨hb, hl⟩
    · rw [stepFIFO_buy_no_close s t hb hq hf]
    · rw [stepFIFO_sell_no_close s t hb hq hf]
    · rw [stepFIFO_book_empty s t hb hl]
  · intro sortSlice trades hsort hb
    have hperm := (hsort trades).1
    exact foldl_buys_only (sortSlice trades) State.init rfl
      (by intro e he; simp [State.init] at he)
      (fun t ht => hb t (hperm.mem_iff.mp ht))

/-- C13 on an example: two buys in two symbols leave the P&L map empty. -/
theorem pnl_only_on_closing_witness :
    SortsByDateTime insertionSortByDateTime ∧
      (∀ t ∈ exBuysOnly, t.TransactionType ≠ "BookTrade" ∧ t.Quantity > 0) ∧
      computeFIFOPnL insertionSortByDateTime exBuysOnly = [] := by
  have hb : ∀ t ∈ exBuysOnly, t.TransactionType ≠ "BookTrade" ∧ t.Quantity > 0 := by
    intro t ht
    simp only [exBuysOnly, List.mem_cons, List.mem_singleton, List.not_mem_nil, or_false] at ht
    rcases ht with ht | ht <;> subst ht <;> exact ⟨by decide, by norm_num⟩
  exact ⟨insertionSortByDateTime_sorts, hb,
    pnl_only_on_closing.2 insertionSortByDateTime exBuysOnly insertionSortByDateTime_sorts hb⟩

/-! ## Ledger homogeneity (C19) -/

theorem closeLoop_sides (canClose : fifoLot → Bool) (gain : fifoLot → ℚ → ℚ) :
    ∀ (lots : List fifoLot) (r : ℚ) (acc : Option ℚ),
      ∀ x ∈ (closeLoop canClose gain lots r acc).1, ∃ l ∈ lots, x.isShort = l.isShort := by
  intro lots
  induction lots with
  | nil => intro r acc x hx; rw [closeLoop_nil] at hx; simp at hx
  | cons l rest ih =>
    intro r acc x hx
    by_cases hc : r > eps ∧ canClose l = true
    · by_cases hq : l.qty ≤ r
      · rw [closeLoop_full _ _ _ _ _ _ hc.1 hc.2 hq] at hx
        obtain ⟨y, hy, hxy⟩ := ih _ _ x hx
        exact ⟨y, List.mem_cons_of_mem _ hy, hxy⟩
      · rw [closeLoop_part _ _ _ _ _ _ hc.1 hc.2 (not_le.mp hq)] at hx
        split_ifs at hx with hd
        · exact ⟨x, List.mem_cons_of_mem _ hx, rfl⟩
        · rcases List.mem_cons.mp hx with hx | hx
          · exact ⟨l, List.mem_cons_self _ _, by rw [hx]⟩
          · exact ⟨x, List.mem_cons_of_mem _ hx, rfl⟩
    · rw [closeLoop_stop _ _ _ _ _ _ hc] at hx
      exact ⟨x, hx, rfl⟩

/-- At loop exit with more than `eps` remaining, the ledger is empty or its
front lot may not be closed. -/
theorem closeLoop_exit (canClose : fifoLot → Bool) (gain : fifoLot → ℚ → ℚ) :
    ∀ (lots : List fifoLot) (r : ℚ) (acc : Option ℚ),
      (closeLoop canClose gain lots r acc).2.1 > eps →
      ∀ l rest, (closeLoop canClose gain lots r acc).1 = l :: rest → canClose l = false := by
  intro lots
  induction lots with
  | nil => intro r acc _ l rest h; rw [closeLoop_nil] at h; simp at h
  | cons x xs ih =>
    intro r acc hr l rest h
    by_cases hc : r > eps ∧ canClose x = true
    · by_cases hq : x.qty ≤ r
      · rw [closeLoop_full _ _ _ _ _ _ hc.1 hc.2 hq] at hr h
        exact ih _ _ hr l rest h
      · rw [closeLoop_part _ _ _ _ _ _ hc.1 hc.2 (not_le.mp hq)] at hr
        exact absurd hr not_zero_gt_eps
    · rw [closeLoop_stop _ _ _ _ _ _ hc] at hr h
      simp only [List.cons.injEq] at h
      rw [← h.1]
      by_cases hcx : canClose x = true
      · exact absurd ⟨hr, hcx⟩ hc
      · simpa using hcx

theorem Homogeneous_closeLoop (canClose : fifoLot → Bool) (gain : fifoLot → ℚ → ℚ)
    (lots : List fifoLot) (r : ℚ) (acc : Option ℚ) (h : Homogeneous lots) :
    Homogeneous (closeLoop canClose gain lots r acc).1 := by
  intro a ha b hb
  obtain ⟨a', ha', haa⟩ := closeLoop_sides canClose gain lots r acc a ha
  obtain ⟨b', hb', hbb⟩ := closeLoop_sides canClose gain lots r acc b hb
  rw [haa, hbb]
  exact h a' ha' b' hb'

/-- Appending a lot of side `b` after a loop that closes lots of the other
side keeps the ledger on one side. -/
theorem Homogeneous_append (canClose : fifoLot → Bool) (gain : fifoLot → ℚ → ℚ)
    (lots : List fifoLot) (r : ℚ) (acc : Option ℚ) (u : ℚ) (b : Bool)
    (h : Homogeneous lots) (hside : ∀ l, canClose l = false → l.isShort = b) :
    Homogeneous
      (if (closeLoop canClose gain lots r acc).2.1 > eps then
        (closeLoop canClose gain lots r acc).1 ++
          [⟨(closeLoop canClose gain lots r acc).2.1, u, b⟩]
      else (closeLoop canClose gain lots r acc).1) := by
  have hh := Homogeneous_closeLoop canClose gain lots r acc h
  split_ifs with hr
  · have hall : ∀ x ∈ (closeLoop canClose gain lots r acc).1, x.isShort = b := by
      intro x hx
      cases hl : (closeLoop canClose gain lots r acc).1 with
      | nil => rw [hl] at hx; simp at hx
      | cons l rest =>
        have hlb := hside l (closeLoop_exit canClose gain lots r acc hr l rest hl)
        rw [← hlb]
        exact hh x hx l (by rw [hl]; exact List.mem_cons_self _ _)
    have hall' : ∀ x ∈ (closeLoop canClose gain lots r acc).1 ++
        [⟨(closeLoop canClose gain lots r acc).2.1, u, b⟩], x.isShort = b := by
      intro x hx
      rcases List.mem_append.mp hx with hx | hx
      · exact hall x hx
      · simp only [List.mem_singleton] at hx
        subst hx; rfl
    intro x hx y hy
    rw [hall' x hx, hall' y hy]
  · exact hh

theorem Homogeneous_lotsOf (openLots : GoMap (List fifoLot)) (sym : String)
    (h : ∀ e ∈ openLots, Homogeneous e.2) : Homogeneous (lotsOf openLots sym) := by
  unfold lotsOf
  cases hm : mapGet? openLots sym with
  | none => intro a ha; simp at ha
  | some lots => exact h _ (mem_of_mapGet? _ _ _ hm)

theorem stepFIFO_homogeneous (s : State) (t : Trade)
    (h : ∀ e ∈ s.openLots, Homogeneous e.2) :
    ∀ e ∈ (stepFIFO s t).openLots, Homogeneous e.2 := by
  have hl := Homogeneous_lotsOf s.openLots t.Symbol h
  have key : ∀ (lots : List fifoLot) (pnl : GoMap ℚ), Homogeneous lots →
      ∀ e ∈ (⟨mapSet s.openLots t.Symbol lots, pnl⟩ : State).openLots, Homogeneous e.2 := by
    intro lots pnl hlots e he
    rcases mem_mapSet _ _ _ _ he with h1 | h1
    · subst h1; exact hlots
    · exact h e h1
  by_cases hb : t.TransactionType = "BookTrade"
  · rw [stepFIFO_book s t hb]
    exact key _ _ (Homogeneous_closeLoop _ _ _ _ _ hl)
  · by_cases hpos : t.Quantity > 0
    · rw [stepFIFO_buy s t hb hpos]
      exact key _ _ (Homogeneous_append _ _ _ _ _ _ false hl (by intro l hc; simpa using hc))
    · by_cases hneg : t.Quantity < 0
      · rw [stepFIFO_sell s t hb hneg]
        exact key _ _ (Homogeneous_append _ _ _ _ _ _ true hl (by intro l hc; simpa using hc))
      · have : stepFIFO s t = s := by
          simp only [stepFIFO, hb, hpos, hneg, if_false]
        rw [this]; exact h

theorem foldl_stepFIFO_homogeneous (trades : List Trade) :
    ∀ s : State, (∀ e ∈ s.openLots, Homogeneous e.2) →
      ∀ e ∈ (trades.foldl stepFIFO s).openLots, Homogeneous e.2 := by
  induction trades with
  | nil => intro s h; exact h
  | cons t rest ih => intro s h; exact ih _ (stepFIFO_homogeneous s t h)

theorem runFIFO_homogeneous (pre : List Trade) (sym : String) :
    Homogeneous (lotsOf (runFIFO pre).openLots sym) :=
  Homogeneous_lotsOf _ sym
    (foldl_stepFIFO_homogeneous pre State.init (by intro e he; simp [State.init] at he))

/-- C19: after each trade processed by `computeFIFOPnL`, that is, after any
list `pre` of trades has been processed, all lots in any one symbol's ledger
are on the same side, all long or all short. -/
theorem ledger_homogeneity (pre : List Trade) (sym : String) (l₁ l₂ : fifoLot)
    (h₁ : l₁ ∈ lotsOf (runFIFO pre).openLots sym)
    (h₂ : l₂ ∈ lotsOf (runFIFO pre).openLots sym) :
    l₁.isShort = l₂.isShort :=
  runFIFO_homogeneous pre sym l₁ h₁ l₂ h₂

/-- C19 on an example: the two lots left by the two buys of `exSellPre` are
both long. -/
theorem ledger_homogeneity_witness :
    (⟨1, 10, false⟩ : fifoLot) ∈ lotsOf (runFIFO exSellPre).openLots "ACME" ∧
      (⟨1, 12, false⟩ : fifoLot) ∈ lotsOf (runFIFO exSellPre).openLots "ACME" ∧
      (⟨1, 10, false⟩ : fifoLot).isShort = (⟨1, 12, false⟩ : fifoLot).isShort := by
  have h1 : (⟨1, 10, false⟩ : fifoLot) ∈ lotsOf (runFIFO exSellPre).openLots "ACME" := by
    rw [lotsOf_exSellPre "ACME" rfl]; simp
  have h2 : (⟨1, 12, false⟩ : fifoLot) ∈ lotsOf (runFIFO exSellPre).openLots "ACME" := by
    rw [lotsOf_exSellPre "ACME" rfl]; simp
  exact ⟨h1, h2, ledger_homogeneity exSellPre "ACME" _ _ h1 h2⟩

/-! ## Quantities through one loop -/

/-- The ledger and the counter at loop exit do not depend on the credits. -/
theorem closeLoop_indep (canClose : fifoLot → Bool) (gain gain' : fifoLot → ℚ → ℚ) :
    ∀ (lots : List fifoLot) (r : ℚ) (acc acc' : Option ℚ),
      (closeLoop canClose gain lots r acc).1 = (closeLoop canClose gain' lots r acc').1 ∧
      (closeLoop canClose gain lots r acc).2.1 = (closeLoop canClose gain' lots r acc').2.1 := by
  intro lots
  induction lots with
  | nil => intro r acc acc'; simp [closeLoop_nil]
  | cons l rest ih =>
    intro r acc acc'
    by_cases hc : r > eps ∧ canClose l = true
    · by_cases hq : l.qty ≤ r
      · rw [closeLoop_full _ _ _ _ _ _ hc.1 hc.2 hq, closeLoop_full _ _ _ _ _ _ hc.1 hc.2 hq]
        exact ih _ _ _
      · rw [closeLoop_part _ _ _ _ _ _ hc.1 hc.2 (not_le.mp hq),
          closeLoop_part _ _ _ _ _ _ hc.1 hc.2 (not_le.mp hq)]
        exact ⟨rfl, rfl⟩
    · rw [closeLoop_stop _ _ _ _ _ _ hc, closeLoop_stop _ _ _ _ _ _ hc]
      exact ⟨rfl, rfl⟩

/-- With `match` as the credit the accumulator grows by what the counter loses. -/
theorem closeLoop_matched_total (canClose : fifoLot → Bool) :
    ∀ (lots : List fifoLot) (r : ℚ) (acc : Option ℚ),
      (closeLoop canClose (fun _ m => m) lots r acc).2.2.getD 0 =
        acc.getD 0 + (r - (closeLoop canClose (fun _ m => m) lots r acc).2.1) := by
  intro lots
  induction lots with
  | nil => intro r acc; simp [closeLoop_nil]
  | cons l rest ih =>
    intro r acc
    by_cases hc : r > eps ∧ canClose l = true
    · by_cases hq : l.qty ≤ r
      · rw [closeLoop_full _ _ _ _ _ _ hc.1 hc.2 hq, ih]
        simp only [Option.getD_some]
        ring
      · rw [closeLoop_part _ _ _ _ _ _ hc.1 hc.2 (not_le.mp hq)]
        simp
    · rw [closeLoop_stop _ _ _ _ _ _ hc]
      simp

theorem signedOpen_cons (l : fifoLot) (rest : List fifoLot) :
    signedOpen (l :: rest) = (if l.isShort then -l.qty else l.qty) + signedOpen rest := by
  simp [signedOpen]

theorem signedOpen_append (a b : List fifoLot) :
    signedOpen (a ++ b) = signedOpen a + signedOpen b := by
  simp [signedOpen]

theorem totalQty_append (a b : List fifoLot) :
    totalQty (a ++ b) = totalQty a + totalQty b := by
  simp [totalQty]

/-- Quantities of one loop on a grid: nothing is dropped, so the ledger loses
exactly what the counter loses, on the side that the loop closes. -/
theorem closeLoop_qty (canClose : fifoLot → Bool) (gain : fifoLot → ℚ → ℚ) (g : ℚ) (b : Bool)
    (hg : eps < g) (hside : ∀ l, canClose l = true → l.isShort = b) :
    ∀ (lots : List fifoLot) (r : ℚ) (acc : Option ℚ),
      GridLots g lots → 0 ≤ r → OnGrid g r →
      GridLots g (closeLoop canClose gain lots r acc).1 ∧
      0 ≤ (closeLoop canClose gain lots r acc).2.1 ∧
      OnGrid g (closeLoop canClose gain lots r acc).2.1 ∧
      totalQty (closeLoop canClose gain lots r acc).1 =
        totalQty lots - (r - (closeLoop canClose gain lots r acc).2.1) ∧
      signedOpen (closeLoop canClose gain lots r acc).1 =
        signedOpen lots +
          (if b then 1 else -1) * (r - (closeLoop canClose gain lots r acc).2.1) := by
  intro lots
  induction lots with
  | nil =>
    intro r acc hl h0 hr
    rw [closeLoop_nil]
    exact ⟨hl, h0, hr, by simp, by simp⟩
  | cons l rest ih =>
    intro r acc hl h0 hr
    have hlq := hl l (List.mem_cons_self _ _)
    have hrest : GridLots g rest := fun x hx => hl x (List.mem_cons_of_mem _ hx)
    by_cases hc : r > eps ∧ canClose l = true
    · have hb := hside l hc.2
      by_cases hq : l.qty ≤ r
      · rw [closeLoop_full _ _ _ _ _ _ hc.1 hc.2 hq]
        obtain ⟨h1, h2, h3, h4, h5⟩ := ih (r - l.qty) (some (acc.getD 0 + gain l l.qty)) hrest
          (by linarith) (hr.sub hlq.2)
        refine ⟨h1, h2, h3, ?_, ?_⟩
        · rw [h4, totalQty_cons]; ring
        · rw [h5, signedOpen_cons, hb]
          cases b <;> simp <;> ring
      · have hlt : r < l.qty := not_le.mp hq
        rw [closeLoop_part _ _ _ _ _ _ hc.1 hc.2 hlt]
        have hge : g ≤ l.qty - r := (hlq.2.sub hr).le_of_pos (lt_trans eps_pos hg) (by linarith)
        have hnot : ¬ (l.qty - r < eps) := by linarith
        simp only [if_neg hnot]
        refine ⟨?_, le_refl 0, OnGrid.zero g, ?_, ?_⟩
        · intro x hx
          rcases List.mem_cons.mp hx with hx | hx
          · subst hx
            exact ⟨by show 0 < l.qty - r; linarith, hlq.2.sub hr⟩
          · exact hrest x hx
        · rw [totalQty_cons, totalQty_cons]; ring
        · rw [signedOpen_cons, signedOpen_cons, hb]
          cases b <;> simp <;> ring
    · rw [closeLoop_stop _ _ _ _ _ _ hc]
      exact ⟨hl, h0, hr, by simp, by simp⟩

/-! ## Quantities through one trade and through a run -/

theorem GridLots_append_lot (g : ℚ) (lots : List fifoLot) (r u : ℚ) (b : Bool)
    (hl : GridLots g lots) (h0 : 0 ≤ r) (hr : OnGrid g r) :
    GridLots g (if r > eps then lots ++ [⟨r, u, b⟩] else lots) := by
  split_ifs with hc
  · intro x hx
    rcases List.mem_append.mp hx with hx | hx
    · exact hl x hx
    · simp only [List.mem_singleton] at hx
      subst hx
      exact ⟨lt_trans eps_pos hc, hr⟩
  · exact hl

/-- One normal trade on a grid: the signed open quantity of its symbol moves
by the trade's quantity, the total open quantity by its absolute value less
twice what was matched; the other symbols' ledgers are not touched. -/
theorem stepFIFO_qty (g : ℚ) (hg : eps < g) (s : State) (t : Trade)
    (hs : GridState g s) (hb : t.TransactionType ≠ "BookTrade")
    (hq : OnGrid g t.Quantity) :
    GridState g (stepFIFO s t) ∧
      signedOpen (lotsOf (stepFIFO s t).openLots t.Symbol) =
        signedOpen (lotsOf s.openLots t.Symbol) + t.Quantity ∧
      totalQty (lotsOf (stepFIFO s t).openLots t.Symbol) =
        totalQty (lotsOf s.openLots t.Symbol) + |t.Quantity| - 2 * matchedBy s t := by
  have hlots := GridLots_lotsOf g s.openLots t.Symbol hs.2
  by_cases hpos : t.Quantity > 0
  · obtain ⟨h1, h2, h3, h4, h5⟩ := closeLoop_qty (fun l => l.isShort)
      (fun l m => m * l.unitCost - m * ((-netCash t) / t.Quantity)) g true hg
      (fun l h => h) (lotsOf s.openLots t.Symbol) t.Quantity (mapGet? s.pnl t.Symbol)
      hlots hpos.le hq
    have hi := (closeLoop_indep (fun l => l.isShort) (fun _ m => m)
      (fun l m => m * l.unitCost - m * ((-netCash t) / t.Quantity))
      (lotsOf s.openLots t.Symbol) t.Quantity none (mapGet? s.pnl t.Symbol)).2
    have hm : matchedBy s t = t.Quantity - (closeLoop (fun l => l.isShort)
        (fun l m => m * l.unitCost - m * ((-netCash t) / t.Quantity))
        (lotsOf s.openLots t.Symbol) t.Quantity (mapGet? s.pnl t.Symbol)).2.1 := by
      simp only [matchedBy, hb, if_false, hpos, if_true]
      rw [closeLoop_matched_total, hi]
      simp
    rw [stepFIFO_buy s t hb hpos, hm, abs_of_pos hpos]
    refine ⟨GridState_mapSet g s _ _ _ hs (GridLots_append_lot g _ _ _ _ h1 h2 h3), ?_, ?_⟩
    · rw [lotsOf_mapSet_same]
      split_ifs with hr
      · rw [signedOpen_append, h5]
        simp [signedOpen]
        ring
      · have hr0 := h3.eq_zero_of_le_eps hg h2 (not_lt.mp hr)
        rw [h5, hr0]
        simp
    · rw [lotsOf_mapSet_same]
      split_ifs with hr
      · rw [totalQty_append, h4]
        simp only [totalQty, List.map_cons, List.map_nil, List.sum_cons, List.sum_nil]
        ring
      · have hr0 := h3.eq_zero_of_le_eps hg h2 (not_lt.mp hr)
        rw [h4, hr0]
        ring
  · by_cases hneg : t.Quantity < 0
    · obtain ⟨h1, h2, h3, h4, h5⟩ := closeLoop_qty (fun l => !l.isShort)
        (fun l m => m * (netCash t / (-t.Quantity)) - m * l.unitCost) g false hg
        (fun l h => by simpa using h) (lotsOf s.openLots t.Symbol) (-t.Quantity)
        (mapGet? s.pnl t.Symbol) hlots (by linarith) hq.neg
      have hi := (closeLoop_indep (fun l => !l.isShort) (fun _ m => m)
        (fun l m => m * (netCash t / (-t.Quantity)) - m * l.unitCost)
        (lotsOf s.openLots t.Symbol) (-t.Quantity) none (mapGet? s.pnl t.Symbol)).2
      have hm : matchedBy s t = -t.Quantity - (closeLoop (fun l => !l.isShort)
          (fun l m => m * (netCash t / (-t.Quantity)) - m * l.unitCost)
          (lotsOf s.openLots t.Symbol) (-t.Quantity) (mapGet? s.pnl t.Symbol)).2.1 := by
        simp only [matchedBy, hb, if_false, hpos, hneg, if_true]
        rw [closeLoop_matched_total, hi]
        simp
      rw [stepFIFO_sell s t hb hneg, hm, abs_of_neg hneg]
      refine ⟨GridState_mapSet g s _ _ _ hs (GridLots_append_lot g _ _ _ _ h1 h2 h3), ?_, ?_⟩
      · rw [lotsOf_mapSet_same]
        split_ifs with hr
        · rw [signedOpen_append, h5]
          simp [signedOpen]
          ring
        · have hr0 := h3.eq_zero_of_le_eps hg h2 (not_lt.mp hr)
          rw [h5, hr0]
          simp
      · rw [lotsOf_mapSet_same]
        split_ifs with hr
        · rw [totalQty_append, h4]
          simp only [totalQty, List.map_cons, List.map_nil, List.sum_cons, List.sum_nil]
          ring
        · have hr0 := h3.eq_zero_of_le_eps hg h2 (not_lt.mp hr)
          rw [h4, hr0]
          ring
    · have h0 : t.Quantity = 0 := le_antisymm (not_lt.mp hpos) (not_lt.mp hneg)
      have hst : stepFIFO s t = s := by
        simp only [stepFIFO, hb, hpos, hneg, if_false]
      have hm : matchedBy s t = 0 := by
        simp only [matchedBy, hb, hpos, hneg, if_false]
      rw [hst, hm, h0]
      exact ⟨hs, by simp, by simp⟩

/-- A trade of another symbol leaves the ledger of `sym` as it is. -/
theorem stepFIFO_lotsOf_other (s : State) (t : Trade) (sym : String) (h : sym ≠ t.Symbol) :
    lotsOf (stepFIFO s t).openLots sym = lotsOf s.openLots sym := by
  by_cases hb : t.TransactionType = "BookTrade"
  · rw [stepFIFO_book s t hb]; exact lotsOf_mapSet_other _ _ _ _ h
  · by_cases hpos : t.Quantity > 0
    · rw [stepFIFO_buy s t hb hpos]; exact lotsOf_mapSet_other _ _ _ _ h
    · by_cases hneg : t.Quantity < 0
      · rw [stepFIFO_sell s t hb hneg]; exact lotsOf_mapSet_other _ _ _ _ h
      · simp only [stepFIFO, hb, hpos, hneg, if_false]

theorem netQty_cons (sym : String) (t : Trade) (rest : List Trade) :
    netQty sym (t :: rest) = (if t.Symbol = sym then t.Quantity else 0) + netQty sym rest := by
  by_cases h : t.Symbol = sym <;> simp [netQty, List.filter_cons, h]

theorem grossQty_cons (sym : String) (t : Trade) (rest : List Trade) :
    grossQty sym (t :: rest) =
      (if t.Symbol = sym then |t.Quantity| else 0) + grossQty sym rest := by
  by_cases h : t.Symbol = sym <;> simp [grossQty, List.filter_cons, h]

/-- A run of normal trades on a grid, seen from one symbol. -/
theorem foldl_stepFIFO_qty (g : ℚ) (hg : eps < g) (sym : String) (trades : List Trade) :
    ∀ s : State, GridState g s →
      (∀ t ∈ trades, t.TransactionType ≠ "BookTrade") →
      (∀ t ∈ trades, OnGrid g t.Quantity) →
      GridState g (trades.foldl stepFIFO s) ∧
      signedOpen (lotsOf (trades.foldl stepFIFO s).openLots sym) =
        signedOpen (lotsOf s.openLots sym) + netQty sym trades ∧
      totalQty (lotsOf (trades.foldl stepFIFO s).openLots sym) =
        totalQty (lotsOf s.openLots sym) + grossQty sym trades
          - 2 * matchedRun sym s trades := by
  induction trades with
  | nil => intro s hs _ _; exact ⟨hs, by simp [netQty], by simp [grossQty, matchedRun]⟩
  | cons t rest ih =>
    intro s hs hb hq
    obtain ⟨h1, h2, h3⟩ := stepFIFO_qty g hg s t hs (hb t (List.mem_cons_self _ _))
      (hq t (List.mem_cons_self _ _))
    obtain ⟨k1, k2, k3⟩ := ih (stepFIFO s t) h1
      (fun x hx => hb x (List.mem_cons_of_mem _ hx))
      (fun x hx => hq x (List.mem_cons_of_mem _ hx))
    simp only [List.foldl_cons]
    refine ⟨k1, ?_, ?_⟩
    · rw [k2, netQty_cons]
      by_cases hsym : t.Symbol = sym
      · subst hsym
        rw [h2]; simp only [if_true]; ring
      · rw [stepFIFO_lotsOf_other s t sym (fun h => hsym h.symm)]
        simp only [hsym, if_false]; ring
    · rw [k3, grossQty_cons, matchedRun]
      by_cases hsym : t.Symbol = sym
      · subst hsym
        rw [h3]; simp only [if_true]; ring
      · rw [stepFIFO_lotsOf_other s t sym (fun h => hsym h.symm)]
        simp only [hsym, if_false]; ring

theorem netQty_perm (sym : String) (l₁ l₂ : List Trade) (h : l₁.Perm l₂) :
    netQty sym l₁ = netQty sym l₂ :=
  ((h.filter _).map _).sum_eq

theorem grossQty_perm (sym : String) (l₁ l₂ : List Trade) (h : l₁.Perm l₂) :
    grossQty sym l₁ = grossQty sym l₂ :=
  ((h.filter _).map _).sum_eq

theorem signedOpen_of_side (b : Bool) (lots : List fifoLot) (h : ∀ l ∈ lots, l.isShort = b) :
    signedOpen lots = (if b then -1 else 1) * totalQty lots := by
  induction lots with
  | nil => simp [signedOpen, totalQty]
  | cons l rest ih =>
    rw [signedOpen_cons, totalQty_cons, ih (fun x hx => h x (List.mem_cons_of_mem _ hx)),
      h l (List.mem_cons_self _ _)]
    cases b <;> simp <;> ring

theorem abs_signedOpen (lots : List fifoLot) (hh : Homogeneous lots)
    (hpos : ∀ l ∈ lots, 0 < l.qty) : |signedOpen lots| = totalQty lots := by
  have h0 := totalQty_nonneg lots hpos
  cases hl : lots with
  | nil => simp [signedOpen, totalQty]
  | cons l rest =>
    rw [← hl]
    have hside : ∀ x ∈ lots, x.isShort = l.isShort := fun x hx =>
      hh x hx l (by rw [hl]; exact List.mem_cons_self _ _)
    rw [signedOpen_of_side l.isShort lots hside]
    cases l.isShort
    · simp [abs_of_nonneg h0]
    · simp [abs_of_nonneg h0]

/-! ## Signed position (C20) and matched quantity (C11) -/

/-- A run of normal trades on a grid from the empty state, seen from one symbol. -/
theorem runFIFO_qty (g : ℚ) (hg : eps < g) (sym : String) (trades : List Trade)
    (hb : ∀ t ∈ trades, t.TransactionType ≠ "BookTrade")
    (hq : ∀ t ∈ trades, OnGrid g t.Quantity) :
    signedOpen (lotsOf (runFIFO trades).openLots sym) = netQty sym trades ∧
      totalQty (lotsOf (runFIFO trades).openLots sym) =
        grossQty sym trades - 2 * matchedRun sym State.init trades := by
  obtain ⟨_, h2, h3⟩ := foldl_stepFIFO_qty g hg sym trades State.init (GridState_init g) hb hq
  have e1 : signedOpen (lotsOf State.init.openLots sym) = 0 := by
    simp [State.init, lotsOf_nil, signedOpen]
  have e2 : totalQty (lotsOf State.init.openLots sym) = 0 := by
    simp [State.init, lotsOf_nil, totalQty]
  rw [e1, zero_add] at h2
  rw [e2, zero_add] at h3
  exact ⟨h2, h3⟩

/-- C20: for every history of normal exchange trades (no `"BookTrade"`) whose
quantities are integers, after the pass of `computeFIFOPnL` the signed open
quantity of every symbol (long lots minus short lots) equals the sum of that
symbol's signed trade quantities. -/
theorem signed_position_conservation (sortSlice : List Trade → List Trade)
    (hsort : SortsByDateTime sortSlice) (trades : List Trade)
    (hnormal : ∀ t ∈ trades, t.TransactionType ≠ "BookTrade")
    (hint : ∀ t ∈ trades, ∃ n : ℤ, t.Quantity = n) (sym : String) :
    signedOpen (lotsOf (runFIFO (sortSlice trades)).openLots sym) = netQty sym trades := by
  have hperm := (hsort trades).1
  have h := (runFIFO_qty 1 (by norm_num [eps]) sym (sortSlice trades)
    (fun t ht => hnormal t (hperm.mem_iff.mp ht))
    (fun t ht => by
      obtain ⟨n, hn⟩ := hint t (hperm.mem_iff.mp ht)
      exact ⟨n, by rw [hn, mul_one]⟩)).1
  rw [h]
  exact netQty_perm sym _ _ hperm

theorem runFIFO_exFifo :
    runFIFO [exFifoBuy1, exFifoBuy2, exFifoSell] =
      ⟨[("ACME", [⟨6, 10, false⟩, ⟨10, 12, false⟩])], [("ACME", 20)]⟩ := by
  rw [runFIFO_two_buys_sell exFifoBuy1 exFifoBuy2 exFifoSell 10 10 4 (by norm_num [eps])
    (by norm_num) (by norm_num [eps]) rfl rfl (by decide) (by decide) (by decide) rfl rfl rfl]
  norm_num [exFifoBuy1, exFifoBuy2, exFifoSell, netCash, eps]

theorem insertionSortByDateTime_exFifo :
    insertionSortByDateTime [exFifoBuy1, exFifoBuy2, exFifoSell] =
      [exFifoBuy1, exFifoBuy2, exFifoSell] := by
  apply insertionSortByDateTime_eq_of_increasing
  simp [exFifoBuy1, exFifoBuy2, exFifoSell, String.lt_iff_toList_lt]
  decide

/-- C20 on an example: after buy 10, buy 10, sell 4 the ledger holds 6 + 10
units long, the net traded quantity 10 + 10 - 4. -/
theorem signed_position_conservation_witness :
    SortsByDateTime insertionSortByDateTime ∧
      (∀ t ∈ [exFifoBuy1, exFifoBuy2, exFifoSell], t.TransactionType ≠ "BookTrade") ∧
      (∀ t ∈ [exFifoBuy1, exFifoBuy2, exFifoSell], ∃ n : ℤ, t.Quantity = n) ∧
      signedOpen (lotsOf
          (runFIFO (insertionSortByDateTime [exFifoBuy1, exFifoBuy2, exFifoSell])).openLots
          "ACME") = netQty "ACME" [exFifoBuy1, exFifoBuy2, exFifoSell] ∧
      netQty "ACME" [exFifoBuy1, exFifoBuy2, exFifoSell] = 16 := by
  have h1 : ∀ t ∈ [exFifoBuy1, exFifoBuy2, exFifoSell], t.TransactionType ≠ "BookTrade" := by
    intro t ht
    simp only [List.mem_cons, List.mem_singleton, List.not_mem_nil, or_false] at ht
    rcases ht with ht | ht | ht <;> subst ht <;> decide
  have h2 : ∀ t ∈ [exFifoBuy1, exFifoBuy2, exFifoSell], ∃ n : ℤ, t.Quantity = n := by
    intro t ht
    simp only [List.mem_cons, List.mem_singleton, List.not_mem_nil, or_false] at ht
    rcases ht with ht | ht | ht <;> subst ht
    · exact ⟨10, by norm_num [exFifoBuy1]⟩
    · exact ⟨10, by norm_num [exFifoBuy2]⟩
    · exact ⟨-4, by norm_num [exFifoSell]⟩
  refine ⟨insertionSortByDateTime_sorts, h1, h2,
    signed_position_conservation insertionSortByDateTime insertionSortByDateTime_sorts
      [exFifoBuy1, exFifoBuy2, exFifoSell] h1 h2 "ACME", ?_⟩
  norm_num [netQty, exFifoBuy1, exFifoBuy2, exFifoSell]

theorem insertionSortByDateTime_exLong :
    insertionSortByDateTime [exLongBuy, exLongSell] = [exLongBuy, exLongSell] := by
  apply insertionSortByDateTime_eq_of_increasing
  simp [exLongBuy, exLongSell, String.lt_iff_toList_lt]
  decide

theorem matchedRun_exLong :
    matchedRun "ACME" State.init [exLongBuy, exLongSell] = 100 := by
  have e1 : stepFIFO State.init exLongBuy =
      ⟨[("ACME", [⟨100, 1001 / 100, false⟩])], []⟩ := by
    rw [stepFIFO_open_long State.init exLongBuy (by decide) (by norm_num [exLongBuy, eps])
      (by intro l rest h; simp [State.init, lotsOf_nil] at h)]
    norm_num [State.init, lotsOf_nil, mapSet, netCash, exLongBuy]
  have m1 : matchedBy State.init exLongBuy = 0 := by
    have hb : exLongBuy.TransactionType ≠ "BookTrade" := by decide
    have hq : exLongBuy.Quantity > 0 := by norm_num [exLongBuy]
    simp only [matchedBy, hb, if_false, hq, if_true, State.init, lotsOf_nil, closeLoop_nil]
    rfl
  have m2 : matchedBy ⟨[("ACME", [⟨100, 1001 / 100, false⟩])], []⟩ exLongSell = 100 := by
    have hb : exLongSell.TransactionType ≠ "BookTrade" := by decide
    have hq : ¬ exLongSell.Quantity > 0 := by norm_num [exLongSell]
    have hq' : exLongSell.Quantity < 0 := by norm_num [exLongSell]
    have hl : lotsOf [("ACME", [(⟨100, 1001 / 100, false⟩ : fifoLot)])] exLongSell.Symbol
        = [⟨100, 1001 / 100, false⟩] := by
      simp [lotsOf, mapGet?, exLongSell]
    simp only [matchedBy, hb, if_false, hq, hq', if_true, hl]
    rw [closeLoop_front _ _ _ _ _ _ (by norm_num [exLongSell, eps]) rfl
      (by norm_num [exLongSell])]
    norm_num [exLongSell]
  have hs1 : exLongBuy.Symbol = "ACME" := rfl
  have hs2 : exLongSell.Symbol = "ACME" := rfl
  simp only [matchedRun, hs1, hs2, if_true, e1, m1, m2]
  norm_num

/-- C11 (as stated, refuted) on the long round trip of the specification: 100
units are matched in total, yet the net traded quantity is 100 - 100 = 0. -/
theorem matched_quantity_counterexample :
    matchedRun "ACME" State.init (insertionSortByDateTime [exLongBuy, exLongSell]) = 100 ∧
      |netQty "ACME" [exLongBuy, exLongSell]| = 0 ∧
      matchedRun "ACME" State.init (insertionSortByDateTime [exLongBuy, exLongSell]) ≠
        |netQty "ACME" [exLongBuy, exLongSell]| := by
  have h1 : matchedRun "ACME" State.init (insertionSortByDateTime [exLongBuy, exLongSell])
      = 100 := by
    rw [insertionSortByDateTime_exLong, matchedRun_exLong]
  have h2 : |netQty "ACME" [exLongBuy, exLongSell]| = 0 := by
    norm_num [netQty, exLongBuy, exLongSell]
  refine ⟨h1, h2, ?_⟩
  rw [h1, h2]
  norm_num

/-- C11 (as amended): for every sequence of normal exchange trades whose
quantities are whole multiples of one lot size `g > 1e-9`, and every symbol,
twice the total quantity matched against the symbol's open lots over the whole
run of `computeFIFOPnL`, plus the absolute value of the symbol's net traded
quantity, equals the sum of the absolute quantities of the symbol's trades. -/
theorem matched_quantity_conservation (sortSlice : List Trade → List Trade)
    (hsort : SortsByDateTime sortSlice) (g : ℚ) (hg : eps < g) (trades : List Trade)
    (hnormal : ∀ t ∈ trades, t.TransactionType ≠ "BookTrade")
    (hgrid : ∀ t ∈ trades, OnGrid g t.Quantity) (sym : String) :
    2 * matchedRun sym State.init (sortSlice trades) + |netQty sym trades| =
      grossQty sym trades := by
  have hperm := (hsort trades).1
  obtain ⟨h1, h2⟩ := runFIFO_qty g hg sym (sortSlice trades)
    (fun t ht => hnormal t (hperm.mem_iff.mp ht))
    (fun t ht => hgrid t (hperm.mem_iff.mp ht))
  have h3 := abs_signedOpen _ (runFIFO_homogeneous (sortSlice trades) sym)
    (runFIFO_lots_pos (sortSlice trades) sym)
  rw [h1, netQty_perm sym _ _ hperm] at h3
  rw [grossQty_perm sym _ _ hperm] at h2
  linarith

/-- C11 (as amended) on the long round trip: `2 * 100 + 0 = 100 + 100`. -/
theorem matched_quantity_conservation_witness :
    SortsByDateTime insertionSortByDateTime ∧ eps < (1 : ℚ) ∧
      (∀ t ∈ [exLongBuy, exLongSell], t.TransactionType ≠ "BookTrade") ∧
      (∀ t ∈ [exLongBuy, exLongSell], OnGrid 1 t.Quantity) ∧
      2 * matchedRun "ACME" State.init (insertionSortByDateTime [exLongBuy, exLongSell])
          + |netQty "ACME" [exLongBuy, exLongSell]| = grossQty "ACME" [exLongBuy, exLongSell] ∧
      grossQty "ACME" [exLongBuy, exLongSell] = 200 := by
  have h0 : eps < (1 : ℚ) := by norm_num [eps]
  have h1 : ∀ t ∈ [exLongBuy, exLongSell], t.TransactionType ≠ "BookTrade" := by
    intro t ht
    simp only [List.mem_cons, List.mem_singleton, List.not_mem_nil, or_false] at ht
    rcases ht with ht | ht <;> subst ht <;> decide
  have h2 : ∀ t ∈ [exLongBuy, exLongSell], OnGrid 1 t.Quantity := by
    intro t ht
    simp only [List.mem_cons, List.mem_singleton, List.not_mem_nil, or_false] at ht
    rcases ht with ht | ht <;> subst ht
    · exact ⟨100, by norm_num [exLongBuy]⟩
    · exact ⟨-100, by norm_num [exLongSell]⟩
  refine ⟨insertionSortByDateTime_sorts, h0, h1, h2,
    matched_quantity_conservation insertionSortByDateTime insertionSortByDateTime_sorts 1 h0
      [exLongBuy, exLongSell] h1 h2 "ACME", ?_⟩
  norm_num [grossQty, exLongBuy, exLongSell]

/-! ## The matching step never aborts (C17) -/

/-- With one evaluation of the condition per lot and one more, the checked
loop ends and agrees with the loop. -/
theorem closeLoopChecked_eq (canClose : fifoLot → Bool) (gain : fifoLot → ℚ → ℚ) :
    ∀ (lots : List fifoLot) (fuel : Nat) (r : ℚ) (acc : Option ℚ),
      lots.length + 1 ≤ fuel →
      closeLoopChecked canClose gain fuel lots r acc = some (closeLoop canClose gain lots r acc) := by
  intro lots
  induction lots with
  | nil =>
    intro fuel r acc hf
    obtain ⟨n, rfl⟩ : ∃ n, fuel = n + 1 := ⟨fuel - 1, by simp at hf; omega⟩
    simp [closeLoopChecked, closeLoop_nil]
  | cons l rest ih =>
    intro fuel r acc hf
    obtain ⟨n, rfl⟩ : ∃ n, fuel = n + 1 := ⟨fuel - 1, by simp at hf; omega⟩
    have hn : rest.length + 1 ≤ n := by simp at hf; omega
    by_cases hc : r > eps ∧ canClose l = true
    · have hcond : (decide (r > eps) && decide ((l :: rest).length > 0) &&
          (match (l :: rest).head? with
            | some l => canClose l
            | none => false)) = true := by
        simp [hc.1, hc.2]
      rw [closeLoopChecked, if_pos hcond]
      by_cases hq : l.qty ≤ r
      · rw [closeLoop_full _ _ _ _ _ _ hc.1 hc.2 hq]
        simp only [min_eq_left hq, sub_self, eps_pos, if_true]
        exact ih n _ _ hn
      · have hlt : r < l.qty := not_le.mp hq
        rw [closeLoop_part _ _ _ _ _ _ hc.1 hc.2 hlt]
        simp only [min_eq_right hlt.le, sub_self]
        by_cases hd : l.qty - r < eps
        · simp only [hd, if_true]
          rw [ih n _ _ hn, closeLoop_zero _ _ _ _ _ eps_pos.le]
        · simp only [hd, if_false]
          obtain ⟨k, rfl⟩ : ∃ k, n = k + 1 := ⟨n - 1, by omega⟩
          have hstop : (decide ((0 : ℚ) > eps) &&
              decide (((⟨l.qty - r, l.unitCost, l.isShort⟩ : fifoLot) :: rest).length > 0) &&
              (match ((⟨l.qty - r, l.unitCost, l.isShort⟩ : fifoLot) :: rest).head? with
                | some l => canClose l
                | none => false)) = false := by
            simp [not_zero_gt_eps]
          rw [closeLoopChecked, hstop]
          simp
    · have hcond : (decide (r > eps) && decide ((l :: rest).length > 0) &&
          (match (l :: rest).head? with
            | some l => canClose l
            | none => false)) = false := by
        by_cases hr : r > eps
        · have : canClose l = false := by
            by_cases h : canClose l = true
            · exact absurd ⟨hr, h⟩ hc
            · simpa using h
          simp [this]
        · simp [hr]
      rw [closeLoopChecked, hcond, closeLoop_stop _ _ _ _ _ _ hc]
      simp

theorem stepFIFOChecked_eq (s : State) (t : Trade) :
    stepFIFOChecked s t = some (stepFIFO s t) := by
  by_cases hb : t.TransactionType = "BookTrade"
  · rw [stepFIFO_book s t hb]
    simp only [stepFIFOChecked, hb, if_true]
    rw [closeLoopChecked_eq _ _ _ _ _ _ (le_refl _)]
    rfl
  · by_cases hpos : t.Quantity > 0
    · rw [stepFIFO_buy s t hb hpos]
      simp only [stepFIFOChecked, hb, if_false, hpos, if_true, divChecked, ne_of_gt hpos]
      simp only [Option.some_bind]
      rw [closeLoopChecked_eq _ _ _ _ _ _ (le_refl _)]
      rfl
    · by_cases hneg : t.Quantity < 0
      · rw [stepFIFO_sell s t hb hneg]
        have hne : ¬ (-t.Quantity = 0) := by
          intro h; linarith
        simp only [stepFIFOChecked, hb, if_false, hpos, hneg, if_true, divChecked, hne]
        simp only [Option.some_bind]
        rw [closeLoopChecked_eq _ _ _ _ _ _ (le_refl _)]
        rfl
      · simp only [stepFIFOChecked, stepFIFO, hb, hpos, hneg, if_false]

theorem runFIFOChecked_eq (trades : List Trade) :
    ∀ s : State, runFIFOChecked s trades = some (trades.foldl stepFIFO s) := by
  induction trades with
  | nil => intro s; rfl
  | cons t rest ih =>
    intro s
    simp only [runFIFOChecked, stepFIFOChecked_eq, Option.some_bind, List.foldl_cons, ih]

/-- C17: for every trade list, whatever its quantities, proceeds, commissions
and transaction kinds, `computeFIFOPnL` runs to completion and returns its
map: with every zero divisor, every read of the front of an empty ledger and
every loop that outlasts `len(openLots[sym]) + 1` evaluations of its condition
counted as an abort, the pass ends without one; and each iteration of a
matching loop either removes the front lot or leaves nothing to match. -/
theorem matching_never_aborts (sortSlice : List Trade → List Trade) (trades : List Trade) :
    computeFIFOPnLChecked sortSlice trades = some (computeFIFOPnL sortSlice trades) ∧
      (∀ (canClose : fifoLot → Bool) (gain : fifoLot → ℚ → ℚ) (l : fifoLot)
          (rest : List fifoLot) (r : ℚ) (acc : Option ℚ), r > eps → canClose l = true →
        closeLoop canClose gain (l :: rest) r acc =
            closeLoop canClose gain rest (r - min l.qty r)
              (some (acc.getD 0 + gain l (min l.qty r))) ∨
          (r - min l.qty r = 0 ∧
            closeLoop canClose gain (l :: rest) r acc =
              ({ l with qty := l.qty - min l.qty r } :: rest, 0,
                some (acc.getD 0 + gain l (min l.qty r))))) := by
  constructor
  · simp only [computeFIFOPnLChecked, computeFIFOPnL, runFIFO, runFIFOChecked_eq, Option.map_some']
  · intro canClose gain l rest r acc hr hc
    by_cases hq : l.qty ≤ r
    · left
      rw [closeLoop_full _ _ _ _ _ _ hr hc hq, min_eq_left hq]
    · have hlt : r < l.qty := not_le.mp hq
      rw [closeLoop_part _ _ _ _ _ _ hr hc hlt, min_eq_right hlt.le, sub_self]
      by_cases hd : l.qty - r < eps
      · left
        rw [if_pos hd, closeLoop_zero _ _ _ _ _ eps_pos.le]
      · right
        rw [if_neg hd]
        exact ⟨rfl, rfl⟩

/-- C17 on the long round trip of the specification: the checked pass returns
the map with the entry 198, and the one iteration of the sell loop removes the
front lot. -/
theorem matching_never_aborts_witness :
    computeFIFOPnLChecked insertionSortByDateTime [exLongBuy, exLongSell]
        = some [("ACME", 198)] ∧
      (100 : ℚ) > eps ∧
      (closeLoop (fun l => !l.isShort) (fun _ m => m) [⟨100, 10, false⟩] 100 none =
          closeLoop (fun l => !l.isShort) (fun _ m => m) []
            (100 - min (⟨100, 10, false⟩ : fifoLot).qty 100)
            (some ((none : Option ℚ).getD 0 + min (⟨100, 10, false⟩ : fifoLot).qty 100)) ∨
        ((100 : ℚ) - min (⟨100, 10, false⟩ : fifoLot).qty 100 = 0 ∧
          closeLoop (fun l => !l.isShort) (fun _ m => m) [⟨100, 10, false⟩] 100 none =
            ([⟨(⟨100, 10, false⟩ : fifoLot).qty - min (⟨100, 10, false⟩ : fifoLot).qty 100,
                10, false⟩], 0,
              some ((none : Option ℚ).getD 0 + min (⟨100, 10, false⟩ : fifoLot).qty 100)))) := by
  have h := matching_never_aborts insertionSortByDateTime [exLongBuy, exLongSell]
  have hq : (100 : ℚ) > eps := by norm_num [eps]
  refine ⟨?_, hq, h.2 (fun l => !l.isShort) (fun _ m => m) ⟨100, 10, false⟩ [] 100 none hq rfl⟩
  rw [h.1, computeFIFOPnL, insertionSortByDateTime_exLong,
    runFIFO_long_round_trip exLongBuy exLongSell 100 hq rfl (by decide) (by decide) rfl rfl]
  norm_num [exLongBuy, exLongSell, netCash]

/-! ## Unit prices (C16) -/

theorem runFIFO_exCheapShort :
    runFIFO exCheapShort = ⟨[("OPT", [⟨1, -1 / 20, true⟩])], []⟩ := by
  simp only [runFIFO, exCheapShort, List.foldl_cons, List.foldl_nil]
  rw [stepFIFO_open_short _ _ (by decide) (by norm_num [eps])
    (by intro l rest h; simp [State.init, lotsOf_nil] at h)]
  norm_num [State.init, lotsOf_nil, mapSet, netCash]

/-- C16 at the failing input: one contract sold to open for proceeds 1 with
commission -1.05 follows the input contract (no buy, a sell with positive
proceeds, a commission that is not positive), and the short lot that
`computeFIFOPnL` places in the ledger has unit price -0.05. -/
theorem unit_price_negative_short_lot :
    (∀ t ∈ exCheapShort, t.TransactionType ≠ "BookTrade" →
        (t.Quantity > 0 → t.Proceeds < 0) ∧ (t.Quantity < 0 → t.Proceeds > 0)) ∧
      (∀ t ∈ exCheapShort, t.Commission ≤ 0) ∧
      lotsOf (runFIFO (insertionSortByDateTime exCheapShort)).openLots "OPT"
        = [⟨1, -1 / 20, true⟩] ∧
      ¬ ((⟨1, -1 / 20, true⟩ : fifoLot).unitCost > 0) := by
  refine ⟨?_, ?_, ?_, by norm_num⟩
  · intro t ht _
    simp only [exCheapShort, List.mem_singleton] at ht
    subst ht
    exact ⟨by norm_num, by norm_num⟩
  · intro t ht
    simp only [exCheapShort, List.mem_singleton] at ht
    subst ht
    norm_num
  · have hs : insertionSortByDateTime exCheapShort = exCheapShort :=
      insertionSortByDateTime_singleton _
    rw [hs, runFIFO_exCheapShort]
    simp [lotsOf, mapGet?]

/-- Every lot that leaves a loop has the side and the unit price of a lot that
entered it. -/
theorem closeLoop_lot_origin (canClose : fifoLot → Bool) (gain : fifoLot → ℚ → ℚ) :
    ∀ (lots : List fifoLot) (r : ℚ) (acc : Option ℚ),
      ∀ x ∈ (closeLoop canClose gain lots r acc).1,
        ∃ l ∈ lots, x.isShort = l.isShort ∧ x.unitCost = l.unitCost := by
  intro lots
  induction lots with
  | nil => intro r acc x hx; rw [closeLoop_nil] at hx; simp at hx
  | cons l rest ih =>
    intro r acc x hx
    by_cases hc : r > eps ∧ canClose l = true
    · by_cases hq : l.qty ≤ r
      · rw [closeLoop_full _ _ _ _ _ _ hc.1 hc.2 hq] at hx
        obtain ⟨y, hy, hxy⟩ := ih _ _ x hx
        exact ⟨y, List.mem_cons_of_mem _ hy, hxy⟩
      · rw [closeLoop_part _ _ _ _ _ _ hc.1 hc.2 (not_le.mp hq)] at hx
        split_ifs at hx with hd
        · exact ⟨x, List.mem_cons_of_mem _ hx, rfl, rfl⟩
        · rcases List.mem_cons.mp hx with hx | hx
          · exact ⟨l, List.mem_cons_self _ _, by rw [hx], by rw [hx]⟩
          · exact ⟨x, List.mem_cons_of_mem _ hx, rfl, rfl⟩
    · rw [closeLoop_stop _ _ _ _ _ _ hc] at hx
      exact ⟨x, hx, rfl, rfl⟩

/-- Unit prices stay positive when every normal buy has negative net cash and
every normal sell has positive net cash. -/
theorem foldl_stepFIFO_unitCost_pos (trades : List Trade) :
    ∀ s : State, (∀ e ∈ s.openLots, ∀ l ∈ e.2, 0 < l.unitCost) →
      (∀ t ∈ trades, t.TransactionType ≠ "BookTrade" →
        (t.Quantity > 0 → netCash t < 0) ∧ (t.Quantity < 0 → netCash t > 0)) →
      ∀ e ∈ (trades.foldl stepFIFO s).openLots, ∀ l ∈ e.2, 0 < l.unitCost := by
  induction trades with
  | nil => intro s h _; exact h
  | cons t rest ih =>
    intro s h hc
    simp only [List.foldl_cons]
    apply ih _ _ (fun x hx => hc x (List.mem_cons_of_mem _ hx))
    have hl : ∀ l ∈ lotsOf s.openLots t.Symbol, 0 < l.unitCost := by
      unfold lotsOf
      cases hm : mapGet? s.openLots t.Symbol with
      | none => intro l hl; simp at hl
      | some lots => exact h _ (mem_of_mapGet? _ _ _ hm)
    have hloop : ∀ (canClose : fifoLot → Bool) (gain : fifoLot → ℚ → ℚ) (r : ℚ)
        (acc : Option ℚ),
        ∀ x ∈ (closeLoop canClose gain (lotsOf s.openLots t.Symbol) r acc).1,
          0 < x.unitCost := by
      intro canClose gain r acc x hx
      obtain ⟨y, hy, _, hxy⟩ := closeLoop_lot_origin canClose gain _ r acc x hx
      rw [hxy]; exact hl y hy
    have key : ∀ (lots : List fifoLot) (pnl : GoMap ℚ), (∀ l ∈ lots, 0 < l.unitCost) →
        ∀ e ∈ (⟨mapSet s.openLots t.Symbol lots, pnl⟩ : State).openLots,
          ∀ l ∈ e.2, 0 < l.unitCost := by
      intro lots pnl hlots e he
      rcases mem_mapSet _ _ _ _ he with h1 | h1
      · subst h1; exact hlots
      · exact h e h1
    by_cases hb : t.TransactionType = "BookTrade"
    · rw [stepFIFO_book s t hb]
      exact key _ _ (hloop _ _ _ _)
    · have hct := hc t (List.mem_cons_self _ _) hb
      by_cases hpos : t.Quantity > 0
      · rw [stepFIFO_buy s t hb hpos]
        apply key
        intro l hl'
        split_ifs at hl' with hr
        · rcases List.mem_append.mp hl' with h1 | h1
          · exact hloop _ _ _ _ l h1
          · simp only [List.mem_singleton] at h1
            subst h1
            exact div_pos (by have := hct.1 hpos; linarith) hpos
        · exact hloop _ _ _ _ l hl'
      · by_cases hneg : t.Quantity < 0
        · rw [stepFIFO_sell s t hb hneg]
          apply key
          intro l hl'
          split_ifs at hl' with hr
          · rcases List.mem_append.mp hl' with h1 | h1
            · exact hloop _ _ _ _ l h1
            · simp only [List.mem_singleton] at h1
              subst h1
              exact div_pos (hct.2 hneg) (by linarith)
          · exact hloop _ _ _ _ l hl'
        · have : stepFIFO s t = s := by
            simp only [stepFIFO, hb, hpos, hneg, if_false]
          rw [this]; exact h

/-! ## Symbol independence: the matching pass -/

theorem mapGet?_writeBack_same (pnl : GoMap ℚ) (sym : String) (acc : Option ℚ)
    (h : acc = mapGet? pnl sym ∨ ∃ v, acc = some v) :
    mapGet? (writeBack pnl sym acc) sym = acc := by
  cases acc with
  | none =>
    rcases h with h | ⟨v, h⟩
    · simp [writeBack, ← h]
    · simp at h
  | some v => simp [writeBack, mapGet?_mapSet_same]

/-- A trade of another symbol leaves the P&L entry of `sym` as it is. -/
theorem stepFIFO_pnl_other (s : State) (t : Trade) (sym : String) (h : sym ≠ t.Symbol) :
    mapGet? (stepFIFO s t).pnl sym = mapGet? s.pnl sym := by
  by_cases hb : t.TransactionType = "BookTrade"
  · rw [stepFIFO_book s t hb]; exact mapGet?_writeBack_other _ _ _ _ h
  · by_cases hpos : t.Quantity > 0
    · rw [stepFIFO_buy s t hb hpos]; exact mapGet?_writeBack_other _ _ _ _ h
    · by_cases hneg : t.Quantity < 0
      · rw [stepFIFO_sell s t hb hneg]; exact mapGet?_writeBack_other _ _ _ _ h
      · simp only [stepFIFO, hb, hpos, hneg, if_false]

/-- What a trade does to its own symbol depends only on that symbol's ledger
and P&L entry. -/
theorem stepFIFO_congr (s₁ s₂ : State) (t : Trade)
    (hl : lotsOf s₁.openLots t.Symbol = lotsOf s₂.openLots t.Symbol)
    (hp : mapGet? s₁.pnl t.Symbol = mapGet? s₂.pnl t.Symbol) :
    lotsOf (stepFIFO s₁ t).openLots t.Symbol = lotsOf (stepFIFO s₂ t).openLots t.Symbol ∧
      mapGet? (stepFIFO s₁ t).pnl t.Symbol = mapGet? (stepFIFO s₂ t).pnl t.Symbol := by
  by_cases hb : t.TransactionType = "BookTrade"
  · rw [stepFIFO_book s₁ t hb, stepFIFO_book s₂ t hb]
    refine ⟨by rw [lotsOf_mapSet_same, lotsOf_mapSet_same, hl, hp], ?_⟩
    rw [mapGet?_writeBack_same _ _ _ (closeLoop_acc _ _ _ _ _),
      mapGet?_writeBack_same _ _ _ (closeLoop_acc _ _ _ _ _), hl, hp]
  · by_cases hpos : t.Quantity > 0
    · rw [stepFIFO_buy s₁ t hb hpos, stepFIFO_buy s₂ t hb hpos]
      refine ⟨by rw [lotsOf_mapSet_same, lotsOf_mapSet_same, hl, hp], ?_⟩
      rw [mapGet?_writeBack_same _ _ _ (closeLoop_acc _ _ _ _ _),
        mapGet?_writeBack_same _ _ _ (closeLoop_acc _ _ _ _ _), hl, hp]
    · by_cases hneg : t.Quantity < 0
      · rw [stepFIFO_sell s₁ t hb hneg, stepFIFO_sell s₂ t hb hneg]
        refine ⟨by rw [lotsOf_mapSet_same, lotsOf_mapSet_same, hl, hp], ?_⟩
        rw [mapGet?_writeBack_same _ _ _ (closeLoop_acc _ _ _ _ _),
          mapGet?_writeBack_same _ _ _ (closeLoop_acc _ _ _ _ _), hl, hp]
      · have e1 : stepFIFO s₁ t = s₁ := by simp only [stepFIFO, hb, hpos, hneg, if_false]
        have e2 : stepFIFO s₂ t = s₂ := by simp only [stepFIFO, hb, hpos, hneg, if_false]
        rw [e1, e2]
        exact ⟨hl, hp⟩

/-- Processing a list and processing only its trades of `sym`, in the same
relative order, leave the same ledger and the same P&L entry for `sym`. -/
theorem foldl_stepFIFO_filter (sym : String) (trades : List Trade) :
    ∀ s₁ s₂ : State, lotsOf s₁.openLots sym = lotsOf s₂.openLots sym →
      mapGet? s₁.pnl sym = mapGet? s₂.pnl sym →
      lotsOf (trades.foldl stepFIFO s₁).openLots sym =
          lotsOf ((trades.filter (fun t => t.Symbol = sym)).foldl stepFIFO s₂).openLots sym ∧
        mapGet? (trades.foldl stepFIFO s₁).pnl sym =
          mapGet? ((trades.filter (fun t => t.Symbol = sym)).foldl stepFIFO s₂).pnl sym := by
  induction trades with
  | nil => intro s₁ s₂ hl hp; exact ⟨hl, hp⟩
  | cons t rest ih =>
    intro s₁ s₂ hl hp
    by_cases hsym : t.Symbol = sym
    · subst hsym
      obtain ⟨h1, h2⟩ := stepFIFO_congr s₁ s₂ t hl hp
      simp only [List.filter_cons, decide_True, if_true, List.foldl_cons]
      exact ih _ _ h1 h2
    · have hne : sym ≠ t.Symbol := fun h => hsym h.symm
      simp only [List.filter_cons, hsym, decide_False, List.foldl_cons]
      apply ih
      · rw [stepFIFO_lotsOf_other s₁ t sym hne]; exact hl
      · rw [stepFIFO_pnl_other s₁ t sym hne]; exact hp

theorem runFIFO_filter (sym : String) (trades : List Trade) :
    lotsOf (runFIFO trades).openLots sym =
        lotsOf (runFIFO (trades.filter (fun t => t.Symbol = sym))).openLots sym ∧
      mapGet? (runFIFO trades).pnl sym =
        mapGet? (runFIFO (trades.filter (fun t => t.Symbol = sym))).pnl sym :=
  foldl_stepFIFO_filter sym trades State.init State.init rfl rfl

/-- With pairwise distinct `DateTime`s among the trades of `sym`, sorting them
alone gives the order they have in the sort of the whole list. -/
theorem sortSlice_filter (sortSlice : List Trade → List Trade)
    (hsort : SortsByDateTime sortSlice) (trades : List Trade) (sym : String)
    (hd : ((trades.filter (fun t => t.Symbol = sym)).map Trade.DateTime).Nodup) :
    sortSlice (trades.filter (fun t => t.Symbol = sym)) =
      (sortSlice trades).filter (fun t => t.Symbol = sym) := by
  obtain ⟨hp, hs⟩ := hsort trades
  have hpf : ((sortSlice trades).filter (fun t => t.Symbol = sym)).Perm
      (trades.filter (fun t => t.Symbol = sym)) := hp.filter _
  have hsf : ((sortSlice trades).filter (fun t => t.Symbol = sym)).Pairwise
      (fun a b => ¬ b.DateTime < a.DateTime) := hs.sublist (List.filter_sublist _)
  have hnd : (((sortSlice trades).filter (fun t => t.Symbol = sym)).map Trade.DateTime).Nodup :=
    (hpf.map _).nodup_iff.mpr hd
  rw [List.Nodup, List.pairwise_map] at hnd
  exact sortSlice_eq_of_increasing sortSlice hsort _ _
    ((hsf.and hnd).imp (fun h => lt_of_le_of_ne (not_lt.mp h.1) h.2)) hpf.symm

/-! ## Month bucketing (C18) -/

/-- A P&L entry or a short lot of `sym` after a trade was there before the
trade, or the trade is a disposal or an expiration of `sym`. -/
theorem stepFIFO_closing_origin (s : State) (t : Trade) (sym : String)
    (h : mapGet? (stepFIFO s t).pnl sym ≠ none ∨
      ∃ l ∈ lotsOf (stepFIFO s t).openLots sym, l.isShort = true) :
    (mapGet? s.pnl sym ≠ none ∨ ∃ l ∈ lotsOf s.openLots sym, l.isShort = true) ∨
      (t.Symbol = sym ∧ (t.Quantity < 0 ∨ t.TransactionType = "BookTrade")) := by
  by_cases hsym : sym = t.Symbol
  · by_cases hb : t.TransactionType = "BookTrade"
    · exact Or.inr ⟨hsym.symm, Or.inr hb⟩
    · by_cases hneg : t.Quantity < 0
      · exact Or.inr ⟨hsym.symm, Or.inl hneg⟩
      · left
        by_cases hpos : t.Quantity > 0
        · by_cases hfront : ∀ l rest, lotsOf s.openLots t.Symbol = l :: rest → l.isShort = false
          · rw [stepFIFO_buy_no_close s t hb hpos hfront] at h
            rcases h with h | ⟨l, hl, hS⟩
            · exact Or.inl h
            · right
              rw [hsym, lotsOf_mapSet_same] at hl
              rw [hsym]
              split_ifs at hl
              · rcases List.mem_append.mp hl with hl | hl
                · exact ⟨l, hl, hS⟩
                · simp only [List.mem_singleton] at hl
                  rw [hl] at hS
                  simp at hS
              · exact ⟨l, hl, hS⟩
          · right
            push_neg at hfront
            obtain ⟨l, rest, hl, hS⟩ := hfront
            rw [hsym, hl]
            exact ⟨l, List.mem_cons_self _ _, by simpa using hS⟩
        · have hs : stepFIFO s t = s := by
            simp only [stepFIFO, hb, hpos, hneg, if_false]
          rw [hs] at h
          exact h
  · left
    rw [stepFIFO_pnl_other s t sym hsym, stepFIFO_lotsOf_other s t sym hsym] at h
    exact h

theorem foldl_stepFIFO_closing_origin (trades : List Trade) (sym : String) :
    ∀ s : State,
      (mapGet? (trades.foldl stepFIFO s).pnl sym ≠ none ∨
        ∃ l ∈ lotsOf (trades.foldl stepFIFO s).openLots sym, l.isShort = true) →
      (mapGet? s.pnl sym ≠ none ∨ ∃ l ∈ lotsOf s.openLots sym, l.isShort = true) ∨
        ∃ t ∈ trades, t.Symbol = sym ∧ (t.Quantity < 0 ∨ t.TransactionType = "BookTrade") := by
  induction trades with
  | nil => intro s h; exact Or.inl h
  | cons t rest ih =>
    intro s h
    rw [List.foldl_cons] at h
    rcases ih _ h with h1 | ⟨u, hu, hq⟩
    · rcases stepFIFO_closing_origin s t sym h1 with h2 | h2
      · exact Or.inl h2
      · exact Or.inr ⟨t, List.mem_cons_self _ _, h2⟩
    · exact Or.inr ⟨u, List.mem_cons_of_mem _ hu, hq⟩

/-- Every symbol with an entry in the map returned by `computeFIFOPnL` has a
disposal or an expiration among the trades. -/
theorem computeFIFOPnL_entry_origin (sortSlice : List Trade → List Trade)
    (hperm : ∀ l, (sortSlice l).Perm l) (trades : List Trade) (e : String × ℚ)
    (he : e ∈ computeFIFOPnL sortSlice trades) :
    ∃ t ∈ trades, t.Symbol = e.1 ∧ (t.Quantity < 0 ∨ t.TransactionType = "BookTrade") := by
  have hwf := runFIFO_wellFormed (sortSlice trades)
  have hget : mapGet? (runFIFO (sortSlice trades)).pnl e.1 = some e.2 :=
    mapGet?_of_mem _ e hwf.2.1 he
  have h := foldl_stepFIFO_closing_origin (sortSlice trades) e.1 State.init
    (Or.inl (by rw [← runFIFO.eq_1, hget]; simp))
  rcases h with h | ⟨t, ht, hq⟩
  · rcases h with h | ⟨l, hl, _⟩
    · simp [State.init, mapGet?] at h
    · simp [State.init, lotsOf_nil] at hl
  · exact ⟨t, (hperm trades).mem_iff.mp ht, hq⟩

/-- The inner loop of `AnalyzePnL` stops at the first qualifying trade of the
symbol. -/
theorem firstClosingMonth_eq (filtered : List Trade) (sym : String) :
    firstClosingMonth filtered sym =
      (firstQualifying filtered sym).map (fun t => monthKey t.TradeDate) := by
  induction filtered with
  | nil => simp [firstClosingMonth, firstQualifying]
  | cons t rest ih =>
    unfold firstQualifying at ih ⊢
    by_cases hs : t.Symbol = sym
    · by_cases hq : t.Quantity < 0 ∨
          (t.TransactionType = "BookTrade" ∨ t.OpenCloseInd = "C" ∨ t.OpenCloseInd = "C;")
      · simp [firstClosingMonth, hs, hq, List.filter_cons]
      · rw [firstClosingMonth]
        simp only [hs, ne_eq, not_true_eq_false, if_false, hq, ih]
        simp [List.filter_cons, hs, hq]
    · rw [firstClosingMonth]
      simp only [ne_eq, hs, not_false_eq_true, if_true, ih]
      simp [List.filter_cons, hs]

theorem firstQualifying_isSome (filtered : List Trade) (sym : String)
    (h : ∃ t ∈ filtered, t.Symbol = sym ∧ (t.Quantity < 0 ∨ t.TransactionType = "BookTrade")) :
    ∃ t, firstQualifying filtered sym = some t := by
  obtain ⟨t, ht, hs, hq⟩ := h
  have hmem : t ∈ filtered.filter (fun t => t.Symbol = sym ∧
      (t.Quantity < 0 ∨ t.TransactionType = "BookTrade" ∨
        t.OpenCloseInd = "C" ∨ t.OpenCloseInd = "C;")) := by
    rw [List.mem_filter]
    refine ⟨ht, ?_⟩
    rcases hq with hq | hq
    · simp [hs, hq]
    · simp [hs, hq]
  unfold firstQualifying
  cases hl : filtered.filter (fun t => t.Symbol = sym ∧
      (t.Quantity < 0 ∨ t.TransactionType = "BookTrade" ∨
        t.OpenCloseInd = "C" ∨ t.OpenCloseInd = "C;")) with
  | nil => rw [hl] at hmem; simp at hmem
  | cons x xs => exact ⟨x, rfl⟩

/-- The first qualifying trade is a trade of the symbol in the list, it
qualifies, and no earlier trade of the symbol does. -/
theorem firstQualifying_spec (filtered : List Trade) (sym : String) (t : Trade)
    (h : firstQualifying filtered sym = some t) :
    ∃ before after, filtered = before ++ t :: after ∧ t.Symbol = sym ∧
      (t.Quantity < 0 ∨ t.TransactionType = "BookTrade" ∨
        t.OpenCloseInd = "C" ∨ t.OpenCloseInd = "C;") ∧
      ∀ u ∈ before, ¬ (u.Symbol = sym ∧
        (u.Quantity < 0 ∨ u.TransactionType = "BookTrade" ∨
          u.OpenCloseInd = "C" ∨ u.OpenCloseInd = "C;")) := by
  induction filtered with
  | nil => simp [firstQualifying] at h
  | cons x rest ih =>
    unfold firstQualifying at h ih
    by_cases hx : x.Symbol = sym ∧
        (x.Quantity < 0 ∨ x.TransactionType = "BookTrade" ∨
          x.OpenCloseInd = "C" ∨ x.OpenCloseInd = "C;")
    · rw [List.filter_cons_of_pos (by simpa using hx)] at h
      simp only [List.head?_cons, Option.some.injEq] at h
      subst h
      exact ⟨[], rest, rfl, hx.1, hx.2, by simp⟩
    · rw [List.filter_cons_of_neg (by simpa using hx)] at h
      obtain ⟨before, after, he, hs, hq, hb⟩ := ih h
      refine ⟨x :: before, after, by rw [he]; rfl, hs, hq, ?_⟩
      intro u hu
      rcases List.mem_cons.mp hu with hu | hu
      · rw [hu]; exact hx
      · exact hb u hu

theorem mapGet?_of_not_mem {V : Type} (m : GoMap V) (k : String) (h : k ∉ mapKeys m) :
    mapGet? m k = none := by
  induction m with
  | nil => rfl
  | cons e rest ih =>
    obtain ⟨k₀, v₀⟩ := e
    simp only [mapKeys, List.map_cons, List.mem_cons, not_or] at h
    have hne : ¬ k₀ = k := fun hh => h.1 hh.symm
    simp only [mapGet?, hne, if_false]
    exact ih h.2

theorem mem_mapKeys_mapSet {V : Type} (m : GoMap V) (k : String) (v : V) (k' : String) :
    k' ∈ mapKeys (mapSet m k v) ↔ k' = k ∨ k' ∈ mapKeys m := by
  rw [mapKeys_mapSet]
  split_ifs with hk
  · constructor
    · intro h; exact Or.inr h
    · rintro (h | h)
      · rw [h]; exact hk
      · exact h
  · simp only [List.mem_append, List.mem_singleton]
    tauto

theorem PeriodKeyed_nil : PeriodKeyed [] := by
  simp [PeriodKeyed, mapKeys]

theorem PeriodKeyed_mapSet (m : GoMap PeriodPnL) (k : String) (v : PeriodPnL)
    (h : PeriodKeyed m) (hv : v.Period = k) : PeriodKeyed (mapSet m k v) := by
  refine ⟨mapKeys_mapSet_nodup m k v h.1, ?_⟩
  intro e he
  rcases mem_mapSet m k v e he with he | he
  · rw [he]; exact hv
  · exact h.2 e he

theorem Period_getD (m : GoMap PeriodPnL) (k : String) (h : PeriodKeyed m) :
    ((mapGet? m k).getD ⟨k, 0, 0, 0⟩).Period = k := by
  cases hg : mapGet? m k with
  | none => rfl
  | some v => exact h.2 (k, v) (mem_of_mapGet? m k v hg)

theorem monthPnL_getD (m : GoMap PeriodPnL) (k : String) :
    ((mapGet? m k).getD ⟨k, 0, 0, 0⟩).RealizedPnL = monthPnL m k := by
  unfold monthPnL
  cases mapGet? m k <;> rfl

theorem monthPnL_mapSet_same (m : GoMap PeriodPnL) (k : String) (v : PeriodPnL) :
    monthPnL (mapSet m k v) k = v.RealizedPnL := by
  simp [monthPnL, mapGet?_mapSet_same]

theorem monthPnL_mapSet_other (m : GoMap PeriodPnL) (k : String) (v : PeriodPnL) (p : String)
    (h : p ≠ k) : monthPnL (mapSet m k v) p = monthPnL m p := by
  simp [monthPnL, mapGet?_mapSet_other m k p v h]

/-- The first loop of `AnalyzePnL` keeps the month map keyed by `Period`. -/
theorem tradeLoopStep_keyed (a : TradeLoopState) (t : Trade) (h : PeriodKeyed a.monthMap) :
    PeriodKeyed (tradeLoopStep a t).monthMap := by
  simp only [tradeLoopStep]
  split_ifs
  · exact PeriodKeyed_mapSet _ _ _ h (Period_getD _ _ h)
  · exact h

/-- The first loop of `AnalyzePnL` writes no realized P&L into the month map. -/
theorem tradeLoopStep_monthPnL (a : TradeLoopState) (t : Trade) (p : String) :
    monthPnL (tradeLoopStep a t).monthMap p = monthPnL a.monthMap p := by
  simp only [tradeLoopStep]
  split_ifs
  · by_cases hp : p = monthKey t.TradeDate
    · rw [hp, monthPnL_mapSet_same]
      exact monthPnL_getD _ _
    · exact monthPnL_mapSet_other _ _ _ _ hp
  · rfl

theorem foldl_tradeLoopStep (trades : List Trade) (p : String) :
    ∀ a : TradeLoopState, PeriodKeyed a.monthMap →
      PeriodKeyed (trades.foldl tradeLoopStep a).monthMap ∧
        monthPnL (trades.foldl tradeLoopStep a).monthMap p = monthPnL a.monthMap p := by
  induction trades with
  | nil => intro a h; exact ⟨h, rfl⟩
  | cons t rest ih =>
    intro a h
    rw [List.foldl_cons]
    obtain ⟨h1, h2⟩ := ih _ (tradeLoopStep_keyed a t h)
    exact ⟨h1, by rw [h2, tradeLoopStep_monthPnL]⟩

/-- The month map after one iteration of the second loop of `AnalyzePnL`. -/
theorem pnlLoopStep_monthMap (filtered : List Trade) (a : PnLLoopState) (e : String × ℚ) :
    (pnlLoopStep filtered a e).monthMap =
      if |e.2| < 1 / 1000000 then a.monthMap
      else
        match firstClosingMonth filtered e.1 with
        | none => a.monthMap
        | some month =>
          mapSet a.monthMap month
            { (mapGet? a.monthMap month).getD ⟨month, 0, 0, 0⟩ with
              RealizedPnL :=
                ((mapGet? a.monthMap month).getD ⟨month, 0, 0, 0⟩).RealizedPnL + e.2 } := by
  unfold pnlLoopStep
  split_ifs <;> rfl

theorem pnlLoopStep_keyed (filtered : List Trade) (a : PnLLoopState) (e : String × ℚ)
    (h : PeriodKeyed a.monthMap) : PeriodKeyed (pnlLoopStep filtered a e).monthMap := by
  rw [pnlLoopStep_monthMap]
  split_ifs
  · exact h
  · cases firstClosingMonth filtered e.1 with
    | none => exact h
    | some month => exact PeriodKeyed_mapSet _ _ _ h (Period_getD _ _ h)

/-- One iteration of the second loop adds the symbol's P&L to the bucket of
the month of its first qualifying trade, and to no other bucket. -/
theorem pnlLoopStep_monthPnL (filtered : List Trade) (a : PnLLoopState) (e : String × ℚ)
    (p : String) :
    monthPnL (pnlLoopStep filtered a e).monthMap p =
      monthPnL a.monthMap p +
        (if ¬ (|e.2| < 1 / 1000000) ∧
            (firstQualifying filtered e.1).map (fun t => monthKey t.TradeDate) = some p
          then e.2 else 0) := by
  rw [pnlLoopStep_monthMap, ← firstClosingMonth_eq]
  by_cases hr : |e.2| < 1 / 1000000
  · rw [if_pos hr, if_neg (fun hh => hh.1 hr), add_zero]
  · simp only [hr, if_false, not_false_eq_true, true_and]
    cases hm : firstClosingMonth filtered e.1 with
    | none => simp
    | some month =>
      by_cases hp : p = month
      · subst hp
        simp only [monthPnL_mapSet_same, monthPnL_getD, if_true]
      · have hne : ¬ some month = some p := by
          intro hh
          exact hp (Option.some.inj hh).symm
        simp only [monthPnL_mapSet_other _ _ _ _ hp, hne, if_false, add_zero]

theorem foldl_pnlLoopStep (filtered : List Trade) (es : GoMap ℚ) (p : String) :
    ∀ a : PnLLoopState, PeriodKeyed a.monthMap →
      PeriodKeyed (es.foldl (pnlLoopStep filtered) a).monthMap ∧
        monthPnL (es.foldl (pnlLoopStep filtered) a).monthMap p =
          monthPnL a.monthMap p + reportedInMonth filtered es p := by
  induction es with
  | nil => intro a h; exact ⟨h, by simp [reportedInMonth]⟩
  | cons e rest ih =>
    intro a h
    rw [List.foldl_cons]
    obtain ⟨h1, h2⟩ := ih _ (pnlLoopStep_keyed filtered a e h)
    refine ⟨h1, ?_⟩
    rw [h2, pnlLoopStep_monthPnL]
    unfold reportedInMonth
    by_cases hc : ¬ (|e.2| < 1 / 1000000) ∧
        (firstQualifying filtered e.1).map (fun t => monthKey t.TradeDate) = some p
    · rw [List.filter_cons_of_pos (by simpa using hc), if_pos hc]
      simp only [List.map_cons, List.sum_cons]
      ring
    · rw [List.filter_cons_of_neg (by simpa using hc), if_neg hc]
      ring

theorem reportedInMonth_perm (filtered : List Trade) (es₁ es₂ : GoMap ℚ) (h : es₁.Perm es₂)
    (p : String) : reportedInMonth filtered es₁ p = reportedInMonth filtered es₂ p := by
  unfold reportedInMonth
  exact ((h.filter _).map _).sum_eq

theorem bucketPnL_perm (l₁ l₂ : List PeriodPnL) (h : l₁.Perm l₂) (p : String) :
    bucketPnL l₁ p = bucketPnL l₂ p := by
  unfold bucketPnL
  exact ((h.filter _).map _).sum_eq

/-- Reading the bucket of a month from the list of records of a month map. -/
theorem bucketPnL_values (m : GoMap PeriodPnL) (h : PeriodKeyed m) (p : String) :
    bucketPnL (m.map Prod.snd) p = monthPnL m p := by
  induction m with
  | nil => rfl
  | cons e rest ih =>
    obtain ⟨k, v⟩ := e
    have hk : v.Period = k := h.2 (k, v) (List.mem_cons_self _ _)
    have hnd : k ∉ mapKeys rest ∧ (mapKeys rest).Nodup := by
      have := h.1
      simpa [mapKeys] using this
    have hrest : PeriodKeyed rest :=
      ⟨hnd.2, fun e he => h.2 e (List.mem_cons_of_mem _ he)⟩
    have ih' := ih hrest
    unfold bucketPnL at ih' ⊢
    by_cases hp : k = p
    · have h0 : monthPnL rest p = 0 := by
        simp [monthPnL, mapGet?_of_not_mem rest p (hp ▸ hnd.1)]
      rw [List.map_cons, List.filter_cons_of_pos (by simp [hk, hp])]
      simp only [List.map_cons, List.sum_cons, ih', h0, add_zero]
      simp [monthPnL, mapGet?, hp]
    · rw [List.map_cons, List.filter_cons_of_neg (by simp [hk, hp]), ih']
      simp [monthPnL, mapGet?, hp]

theorem periods_values (m : GoMap PeriodPnL) (h : PeriodKeyed m) :
    (m.map Prod.snd).map (fun mp => mp.Period) = mapKeys m := by
  unfold mapKeys
  rw [List.map_map]
  apply List.map_congr_left
  intro e he
  exact h.2 e he

theorem pnlLoopStep_keys_mono (filtered : List Trade) (a : PnLLoopState) (e : String × ℚ)
    (k : String) (h : k ∈ mapKeys a.monthMap) :
    k ∈ mapKeys (pnlLoopStep filtered a e).monthMap := by
  rw [pnlLoopStep_monthMap]
  split_ifs
  · exact h
  · cases firstClosingMonth filtered e.1 with
    | none => exact h
    | some month => exact (mem_mapKeys_mapSet _ _ _ _).mpr (Or.inr h)

theorem pnlLoopStep_key (filtered : List Trade) (a : PnLLoopState) (e : String × ℚ)
    (p : String) (hr : ¬ (|e.2| < 1 / 1000000))
    (hm : firstClosingMonth filtered e.1 = some p) :
    p ∈ mapKeys (pnlLoopStep filtered a e).monthMap := by
  rw [pnlLoopStep_monthMap, if_neg hr, hm]
  exact (mem_mapKeys_mapSet _ _ _ _).mpr (Or.inl rfl)

theorem foldl_pnlLoopStep_keys_mono (filtered : List Trade) (es : GoMap ℚ) (k : String) :
    ∀ a : PnLLoopState, k ∈ mapKeys a.monthMap →
      k ∈ mapKeys (es.foldl (pnlLoopStep filtered) a).monthMap := by
  induction es with
  | nil => intro a h; exact h
  | cons e rest ih =>
    intro a h
    rw [List.foldl_cons]
    exact ih _ (pnlLoopStep_keys_mono filtered a e k h)

theorem foldl_pnlLoopStep_key (filtered : List Trade) (es : GoMap ℚ) (e : String × ℚ)
    (p : String) (he : e ∈ es) (hr : ¬ (|e.2| < 1 / 1000000))
    (hm : firstClosingMonth filtered e.1 = some p) :
    ∀ a : PnLLoopState, p ∈ mapKeys (es.foldl (pnlLoopStep filtered) a).monthMap := by
  induction es with
  | nil => simp at he
  | cons x rest ih =>
    intro a
    rw [List.foldl_cons]
    rcases List.mem_cons.mp he with he | he
    · rw [← he]
      exact foldl_pnlLoopStep_keys_mono filtered rest p _ (pnlLoopStep_key filtered a e p hr hm)
    · exact ih he _

/-- The month map of `AnalyzePnL` after its two loops: keyed by `Period`, and
the bucket of each month holds the P&L of the reported symbols whose first
qualifying trade falls in that month. -/
theorem analyzeLoops_monthMap (sortSlice : List Trade → List Trade)
    (rangeOrder : GoMap ℚ → GoMap ℚ) (statements : List FlexStatement)
    (fromDate toDate : String) (hrange : ∀ m, (rangeOrder m).Perm m) (p : String) :
    PeriodKeyed (analyzeLoops sortSlice rangeOrder statements fromDate toDate).1.monthMap ∧
      monthPnL (analyzeLoops sortSlice rangeOrder statements fromDate toDate).1.monthMap p =
        reportedInMonth (filteredTrades statements fromDate toDate)
          (computeFIFOPnL sortSlice (filteredTrades statements fromDate toDate)) p := by
  have h1 := foldl_tradeLoopStep (filteredTrades statements fromDate toDate) p ⟨[], [], 0⟩
    PeriodKeyed_nil
  have h2 := foldl_pnlLoopStep (filteredTrades statements fromDate toDate)
    (rangeOrder (computeFIFOPnL sortSlice (filteredTrades statements fromDate toDate))) p
    ⟨((filteredTrades statements fromDate toDate).foldl tradeLoopStep ⟨[], [], 0⟩).symbolMap,
      ((filteredTrades statements fromDate toDate).foldl tradeLoopStep ⟨[], [], 0⟩).monthMap,
      0, 0, 0⟩ h1.1
  refine ⟨h2.1, ?_⟩
  have h3 : monthPnL ([] : GoMap PeriodPnL) p = 0 := rfl
  simp only [analyzeLoops]
  rw [h2.2, h1.2, h3, zero_add]
  exact reportedInMonth_perm _ _ _ (hrange _) p

/-- The buckets of the report are the buckets of the month map. -/
theorem AnalyzePnL_bucketPnL (sortSlice : List Trade → List Trade)
    (rangeOrder : GoMap ℚ → GoMap ℚ) (sortSymbols : List SymbolPnL → List SymbolPnL)
    (sortMonths : List PeriodPnL → List PeriodPnL) (statements : List FlexStatement)
    (fromDate toDate : String) (hrange : ∀ m, (rangeOrder m).Perm m)
    (hmonths : ∀ l, (sortMonths l).Perm l) (p : String) :
    bucketPnL (AnalyzePnL sortSlice rangeOrder sortSymbols sortMonths statements
        fromDate toDate).ByMonth p =
      reportedInMonth (filteredTrades statements fromDate toDate)
        (computeFIFOPnL sortSlice (filteredTrades statements fromDate toDate)) p := by
  have h := analyzeLoops_monthMap sortSlice rangeOrder statements fromDate toDate hrange p
  simp only [AnalyzePnL]
  rw [bucketPnL_perm _ _ (hmonths _) p, bucketPnL_values _ h.1 p, h.2]

/-- No two entries of `ByMonth` have the same `Period`. -/
theorem AnalyzePnL_periods_nodup (sortSlice : List Trade → List Trade)
    (rangeOrder : GoMap ℚ → GoMap ℚ) (sortSymbols : List SymbolPnL → List SymbolPnL)
    (sortMonths : List PeriodPnL → List PeriodPnL) (statements : List FlexStatement)
    (fromDate toDate : String) (hrange : ∀ m, (rangeOrder m).Perm m)
    (hmonths : ∀ l, (sortMonths l).Perm l) :
    ((AnalyzePnL sortSlice rangeOrder sortSymbols sortMonths statements
        fromDate toDate).ByMonth.map (fun mp => mp.Period)).Nodup := by
  have h := (analyzeLoops_monthMap sortSlice rangeOrder statements fromDate toDate hrange "").1
  simp only [AnalyzePnL]
  rw [((hmonths _).map _).nodup_iff, periods_values _ h]
  exact h.1

/-- Every reported symbol has a first qualifying trade in the filtered list,
and the report has a bucket for the month of that trade. -/
theorem AnalyzePnL_bucket_exists (sortSlice : List Trade → List Trade)
    (rangeOrder : GoMap ℚ → GoMap ℚ) (sortSymbols : List SymbolPnL → List SymbolPnL)
    (sortMonths : List PeriodPnL → List PeriodPnL) (statements : List FlexStatement)
    (fromDate toDate : String) (hperm : ∀ l, (sortSlice l).Perm l)
    (hrange : ∀ m, (rangeOrder m).Perm m) (hmonths : ∀ l, (sortMonths l).Perm l)
    (e : String × ℚ)
    (he : e ∈ computeFIFOPnL sortSlice (filteredTrades statements fromDate toDate))
    (hr : ¬ (|e.2| < 1 / 1000000)) :
    ∃ t, firstQualifying (filteredTrades statements fromDate toDate) e.1 = some t ∧
      ∃ mp ∈ (AnalyzePnL sortSlice rangeOrder sortSymbols sortMonths statements
          fromDate toDate).ByMonth, mp.Period = monthKey t.TradeDate := by
  obtain ⟨t, ht⟩ := firstQualifying_isSome (filteredTrades statements fromDate toDate) e.1
    (computeFIFOPnL_entry_origin sortSlice hperm _ e he)
  refine ⟨t, ht, ?_⟩
  have hm : firstClosingMonth (filteredTrades statements fromDate toDate) e.1 =
      some (monthKey t.TradeDate) := by
    rw [firstClosingMonth_eq, ht]; rfl
  have hkeyed :=
    (analyzeLoops_monthMap sortSlice rangeOrder statements fromDate toDate hrange "").1
  have hkey := foldl_pnlLoopStep_key (filteredTrades statements fromDate toDate)
    (rangeOrder (computeFIFOPnL sortSlice (filteredTrades statements fromDate toDate))) e
    (monthKey t.TradeDate) ((hrange _).mem_iff.mpr he) hr hm
    ⟨((filteredTrades statements fromDate toDate).foldl tradeLoopStep ⟨[], [], 0⟩).symbolMap,
      ((filteredTrades statements fromDate toDate).foldl tradeLoopStep ⟨[], [], 0⟩).monthMap,
      0, 0, 0⟩
  have hmem : monthKey t.TradeDate ∈
      ((AnalyzePnL sortSlice rangeOrder sortSymbols sortMonths statements
        fromDate toDate).ByMonth.map (fun mp => mp.Period)) := by
    simp only [AnalyzePnL]
    rw [((hmonths _).map _).mem_iff, periods_values _ hkeyed]
    exact hkey
  obtain ⟨mp, hmp, hp⟩ := List.mem_map.mp hmem
  exact ⟨mp, hmp, hp⟩

/-- C18 (as amended): for every input to `AnalyzePnL`, every order of the
unordered loops and every sort within the `sort.Slice` contract, (1) the
entries of `ByMonth` have pairwise different `Period`s and the map returned by
`computeFIFOPnL` has one entry per symbol; (2) every reported symbol (absolute
P&L at least `1e-6`) has a first trade in the date-filtered list that is a
disposal, an expiration/assignment or marked as a close, and the report has a
bucket whose `Period` is `monthKey` of that trade's `TradeDate`: the first six
bytes of the normalized date when it has at least six, the empty string
otherwise; (3) for every period, the realized P&L of the bucket is the sum of
the whole P&L of exactly the reported symbols whose first qualifying trade has
that month, so that no other bucket receives any of a symbol's P&L. -/
theorem month_bucketing (sortSlice : List Trade → List Trade)
    (rangeOrder : GoMap ℚ → GoMap ℚ) (sortSymbols : List SymbolPnL → List SymbolPnL)
    (sortMonths : List PeriodPnL → List PeriodPnL) (statements : List FlexStatement)
    (fromDate toDate : String) (hsort : SortsByDateTime sortSlice)
    (hrange : ∀ m, (rangeOrder m).Perm m) (hmonths : ∀ l, (sortMonths l).Perm l) :
    (((AnalyzePnL sortSlice rangeOrder sortSymbols sortMonths statements
          fromDate toDate).ByMonth.map (fun mp => mp.Period)).Nodup ∧
        (mapKeys (computeFIFOPnL sortSlice (filteredTrades statements fromDate toDate))).Nodup) ∧
      (∀ e ∈ computeFIFOPnL sortSlice (filteredTrades statements fromDate toDate),
        ¬ (|e.2| < 1 / 1000000) →
        ∃ t, firstQualifying (filteredTrades statements fromDate toDate) e.1 = some t ∧
          ∃ mp ∈ (AnalyzePnL sortSlice rangeOrder sortSymbols sortMonths statements
              fromDate toDate).ByMonth,
            mp.Period = monthKey t.TradeDate) ∧
      ∀ p, bucketPnL (AnalyzePnL sortSlice rangeOrder sortSymbols sortMonths statements
          fromDate toDate).ByMonth p =
        reportedInMonth (filteredTrades statements fromDate toDate)
          (computeFIFOPnL sortSlice (filteredTrades statements fromDate toDate)) p :=
  ⟨⟨AnalyzePnL_periods_nodup sortSlice rangeOrder sortSymbols sortMonths statements
        fromDate toDate hrange hmonths,
      (runFIFO_wellFormed (sortSlice (filteredTrades statements fromDate toDate))).2.1⟩,
    fun e he hr => AnalyzePnL_bucket_exists sortSlice rangeOrder sortSymbols sortMonths
      statements fromDate toDate (fun l => (hsort l).1) hrange hmonths e he hr,
    fun p => AnalyzePnL_bucketPnL sortSlice rangeOrder sortSymbols sortMonths statements
      fromDate toDate hrange hmonths p⟩

theorem filteredTrades_exShortDate :
    filteredTrades exShortDate "" "" =
      [⟨"ACME", "2024", "20240102;093000", 1, -10, 0, "O", "ExchTrade"⟩,
       ⟨"ACME", "2024", "20240103;093000", -1, 15, 0, "C", "ExchTrade"⟩] := by
  simp [filteredTrades, exShortDate, inDateRange]

theorem computeFIFOPnL_exShortDate :
    computeFIFOPnL insertionSortByDateTime (filteredTrades exShortDate "" "") =
      [("ACME", 5)] := by
  have hs : insertionSortByDateTime
      [⟨"ACME", "2024", "20240102;093000", 1, -10, 0, "O", "ExchTrade"⟩,
       ⟨"ACME", "2024", "20240103;093000", -1, 15, 0, "C", "ExchTrade"⟩] =
      [⟨"ACME", "2024", "20240102;093000", 1, -10, 0, "O", "ExchTrade"⟩,
       ⟨"ACME", "2024", "20240103;093000", -1, 15, 0, "C", "ExchTrade"⟩] := by
    apply insertionSortByDateTime_eq_of_increasing
    simp [String.lt_iff_toList_lt]
    decide
  have hr := runFIFO_long_round_trip
    ⟨"ACME", "2024", "20240102;093000", 1, -10, 0, "O", "ExchTrade"⟩
    ⟨"ACME", "2024", "20240103;093000", -1, 15, 0, "C", "ExchTrade"⟩ 1
    (by norm_num [eps]) rfl (by decide) (by decide) rfl rfl
  rw [filteredTrades_exShortDate]
  unfold computeFIFOPnL
  rw [hs, hr]
  norm_num [netCash]

theorem monthKey_year : monthKey "2024" = "" := by decide

theorem ByMonth_exShortDate :
    (AnalyzePnL insertionSortByDateTime id id id exShortDate "" "").ByMonth =
      [⟨"", 5, 1, 0⟩] := by
  simp only [AnalyzePnL, analyzeLoops, computeFIFOPnL_exShortDate, id]
  rw [filteredTrades_exShortDate]
  simp [tradeLoopStep, pnlLoopStep, firstClosingMonth, monthKey_year, mapGet?, mapSet]
  norm_num


theorem firstQualifying_exShortDate :
    firstQualifying (filteredTrades exShortDate "" "") "ACME" =
      some ⟨"ACME", "2024", "20240103;093000", -1, 15, 0, "C", "ExchTrade"⟩ := by
  rw [filteredTrades_exShortDate]
  simp [firstQualifying, List.filter_cons]

/-- In `exShortDate` the symbol ACME is reported with a realized P&L of 5, its
first qualifying trade in the filtered list is the sale, and the first six
characters of that trade's normalized `TradeDate` are `"2024"`; no bucket of
the report has that `Period`, the P&L is in the bucket with the empty
`Period`. -/
theorem AnalyzePnL_exShortDate_bucket :
    computeFIFOPnL insertionSortByDateTime (filteredTrades exShortDate "" "") =
        [("ACME", 5)] ∧
      ¬ (|(5 : ℚ)| < 1 / 1000000) ∧
      firstQualifying (filteredTrades exShortDate "" "") "ACME" =
        some ⟨"ACME", "2024", "20240103;093000", -1, 15, 0, "C", "ExchTrade"⟩ ∧
      String.mk ((normalizeDate "2024").data.take 6) = "2024" ∧
      (∀ mp ∈ (AnalyzePnL insertionSortByDateTime id id id exShortDate "" "").ByMonth,
        mp.Period ≠ String.mk ((normalizeDate "2024").data.take 6)) ∧
      bucketPnL (AnalyzePnL insertionSortByDateTime id id id exShortDate "" "").ByMonth
        (String.mk ((normalizeDate "2024").data.take 6)) = 0 ∧
      bucketPnL (AnalyzePnL insertionSortByDateTime id id id exShortDate "" "").ByMonth "" = 5 := by
  have h6 : String.mk ((normalizeDate "2024").data.take 6) = "2024" := by decide
  refine ⟨computeFIFOPnL_exShortDate, by norm_num, firstQualifying_exShortDate, h6, ?_, ?_, ?_⟩
  · rw [ByMonth_exShortDate, h6]
    intro mp hmp
    simp only [List.mem_singleton] at hmp
    rw [hmp]
    decide
  · rw [ByMonth_exShortDate, h6]
    simp [bucketPnL]
  · rw [ByMonth_exShortDate]
    simp [bucketPnL]

theorem filteredTrades_exTwoMonths :
    filteredTrades exTwoMonths "" "" =
      [⟨"ACME", "2024-01-15", "20240115;093000", 100, -1000, -1, "O", "ExchTrade"⟩,
       ⟨"ACME", "2024-02-20", "20240220;093000", -100, 1200, -1, "C", "ExchTrade"⟩] := by
  simp [filteredTrades, exTwoMonths, inDateRange]

theorem computeFIFOPnL_exTwoMonths :
    computeFIFOPnL insertionSortByDateTime (filteredTrades exTwoMonths "" "") =
      [("ACME", 198)] := by
  have hs : insertionSortByDateTime
      [⟨"ACME", "2024-01-15", "20240115;093000", 100, -1000, -1, "O", "ExchTrade"⟩,
       ⟨"ACME", "2024-02-20", "20240220;093000", -100, 1200, -1, "C", "ExchTrade"⟩] =
      [⟨"ACME", "2024-01-15", "20240115;093000", 100, -1000, -1, "O", "ExchTrade"⟩,
       ⟨"ACME", "2024-02-20", "20240220;093000", -100, 1200, -1, "C", "ExchTrade"⟩] := by
    apply insertionSortByDateTime_eq_of_increasing
    simp [String.lt_iff_toList_lt]
    decide
  have hr := runFIFO_long_round_trip
    ⟨"ACME", "2024-01-15", "20240115;093000", 100, -1000, -1, "O", "ExchTrade"⟩
    ⟨"ACME", "2024-02-20", "20240220;093000", -100, 1200, -1, "C", "ExchTrade"⟩ 100
    (by norm_num [eps]) rfl (by decide) (by decide) rfl rfl
  rw [filteredTrades_exTwoMonths]
  unfold computeFIFOPnL
  rw [hs, hr]
  norm_num [netCash]

theorem firstQualifying_exTwoMonths :
    firstQualifying (filteredTrades exTwoMonths "" "") "ACME" =
      some ⟨"ACME", "2024-02-20", "20240220;093000", -100, 1200, -1, "C", "ExchTrade"⟩ := by
  rw [filteredTrades_exTwoMonths]
  simp [firstQualifying, List.filter_cons]

theorem monthKey_exTwoMonths : monthKey "2024-02-20" = "202402" := by decide

/-- C18 (as amended) on an example: the long round trip of the specification,
bought on 2024-01-15 and sold on 2024-02-20, puts its whole P&L of 198 into
the bucket `202402` of the sale and nothing into the bucket `202401`. -/
theorem month_bucketing_witness :
    SortsByDateTime insertionSortByDateTime ∧ (∀ m : GoMap ℚ, (id m).Perm m) ∧
      (∀ l : List PeriodPnL, (id l).Perm l) ∧
      computeFIFOPnL insertionSortByDateTime (filteredTrades exTwoMonths "" "") =
        [("ACME", 198)] ∧
      firstQualifying (filteredTrades exTwoMonths "" "") "ACME" =
        some ⟨"ACME", "2024-02-20", "20240220;093000", -100, 1200, -1, "C", "ExchTrade"⟩ ∧
      monthKey "2024-02-20" = "202402" ∧
      (∃ mp ∈ (AnalyzePnL insertionSortByDateTime id id id exTwoMonths "" "").ByMonth,
        mp.Period = "202402") ∧
      bucketPnL (AnalyzePnL insertionSortByDateTime id id id exTwoMonths "" "").ByMonth
        "202402" = 198 ∧
      bucketPnL (AnalyzePnL insertionSortByDateTime id id id exTwoMonths "" "").ByMonth
        "202401" = 0 := by
  have h := month_bucketing insertionSortByDateTime id id id exTwoMonths "" ""
    insertionSortByDateTime_sorts (fun m => List.Perm.refl m) (fun l => List.Perm.refl l)
  have hq := firstQualifying_exTwoMonths
  have hmem : (("ACME", 198) : String × ℚ) ∈
      computeFIFOPnL insertionSortByDateTime (filteredTrades exTwoMonths "" "") := by
    rw [computeFIFOPnL_exTwoMonths]; exact List.mem_singleton.mpr rfl
  refine ⟨insertionSortByDateTime_sorts, fun m => List.Perm.refl m,
    fun l => List.Perm.refl l, computeFIFOPnL_exTwoMonths, hq, monthKey_exTwoMonths, ?_, ?_, ?_⟩
  · obtain ⟨t, ht, mp, hmp, hp⟩ := h.2.1 ("ACME", 198) hmem (by norm_num)
    rw [hq] at ht
    refine ⟨mp, hmp, ?_⟩
    rw [hp, ← Option.some.inj ht]
    exact monthKey_exTwoMonths
  · rw [h.2.2 "202402", computeFIFOPnL_exTwoMonths]
    unfold reportedInMonth
    rw [List.filter_cons_of_pos (by
      simp only [hq, Option.map_some', monthKey_exTwoMonths]
      norm_num)]
    simp
  · rw [h.2.2 "202401", computeFIFOPnL_exTwoMonths]
    unfold reportedInMonth
    rw [List.filter_cons_of_neg (by
      simp only [hq, Option.map_some', monthKey_exTwoMonths]
      simp)]
    simp

/-! ## Month totals (C21) -/

/-- The first loop of `AnalyzePnL` leaves the sum of the realized P&L of the
month map as it is. -/
theorem tradeLoopStep_mapSum (a : TradeLoopState) (t : Trade) :
    mapSum (fun mp => mp.RealizedPnL) (tradeLoopStep a t).monthMap =
      mapSum (fun mp => mp.RealizedPnL) a.monthMap := by
  simp only [tradeLoopStep]
  split_ifs
  · rw [mapSum_mapSet]
    have h := monthPnL_getD a.monthMap (monthKey t.TradeDate)
    unfold monthPnL at h
    simp only [h]
    ring
  · rfl

theorem foldl_tradeLoopStep_mapSum (trades : List Trade) :
    ∀ a : TradeLoopState,
      mapSum (fun mp => mp.RealizedPnL) (trades.foldl tradeLoopStep a).monthMap =
        mapSum (fun mp => mp.RealizedPnL) a.monthMap := by
  induction trades with
  | nil => intro a; rfl
  | cons t rest ih =>
    intro a
    rw [List.foldl_cons, ih, tradeLoopStep_mapSum]

/-- The running total after one iteration of the second loop of `AnalyzePnL`. -/
theorem pnlLoopStep_totalPnL (filtered : List Trade) (a : PnLLoopState) (e : String × ℚ) :
    (pnlLoopStep filtered a e).totalPnL =
      if |e.2| < 1 / 1000000 then a.totalPnL else a.totalPnL + e.2 := by
  unfold pnlLoopStep
  split_ifs <;> rfl

/-- One iteration of the second loop moves the sum over the month map and the
running total by the same amount, when the symbol has a qualifying trade. -/
theorem pnlLoopStep_mapSum (filtered : List Trade) (a : PnLLoopState) (e : String × ℚ)
    (h : ¬ (|e.2| < 1 / 1000000) → firstClosingMonth filtered e.1 ≠ none) :
    mapSum (fun mp => mp.RealizedPnL) (pnlLoopStep filtered a e).monthMap
        - (pnlLoopStep filtered a e).totalPnL =
      mapSum (fun mp => mp.RealizedPnL) a.monthMap - a.totalPnL := by
  rw [pnlLoopStep_monthMap, pnlLoopStep_totalPnL]
  by_cases hr : |e.2| < 1 / 1000000
  · rw [if_pos hr, if_pos hr]
  · rw [if_neg hr, if_neg hr]
    cases hm : firstClosingMonth filtered e.1 with
    | none => exact absurd hm (h hr)
    | some month =>
      simp only []
      rw [mapSum_mapSet]
      have hg := monthPnL_getD a.monthMap month
      unfold monthPnL at hg
      simp only [hg]
      ring

theorem foldl_pnlLoopStep_mapSum (filtered : List Trade) (es : GoMap ℚ)
    (h : ∀ e ∈ es, ¬ (|e.2| < 1 / 1000000) → firstClosingMonth filtered e.1 ≠ none) :
    ∀ a : PnLLoopState,
      mapSum (fun mp => mp.RealizedPnL) (es.foldl (pnlLoopStep filtered) a).monthMap
          - (es.foldl (pnlLoopStep filtered) a).totalPnL =
        mapSum (fun mp => mp.RealizedPnL) a.monthMap - a.totalPnL := by
  induction es with
  | nil => intro a; rfl
  | cons e rest ih =>
    intro a
    rw [List.foldl_cons, ih (fun x hx => h x (List.mem_cons_of_mem _ hx)),
      pnlLoopStep_mapSum filtered a e (h e (List.mem_cons_self _ _))]

/-- Every entry of the map returned by `computeFIFOPnL` on the filtered list
makes the inner loop of `AnalyzePnL` stop at a qualifying trade. -/
theorem firstClosingMonth_ne_none (sortSlice : List Trade → List Trade)
    (hperm : ∀ l, (sortSlice l).Perm l) (filtered : List Trade) (e : String × ℚ)
    (he : e ∈ computeFIFOPnL sortSlice filtered) :
    firstClosingMonth filtered e.1 ≠ none := by
  obtain ⟨t, ht⟩ := firstQualifying_isSome filtered e.1
    (computeFIFOPnL_entry_origin sortSlice hperm filtered e he)
  rw [firstClosingMonth_eq, ht]
  simp

/-- The sum of the realized P&L over the month map equals the running total
after the two loops of `AnalyzePnL`. -/
theorem analyzeLoops_mapSum (sortSlice : List Trade → List Trade)
    (rangeOrder : GoMap ℚ → GoMap ℚ) (statements : List FlexStatement)
    (fromDate toDate : String) (hperm : ∀ l, (sortSlice l).Perm l)
    (hrange : ∀ m, (rangeOrder m).Perm m) :
    mapSum (fun mp => mp.RealizedPnL)
        (analyzeLoops sortSlice rangeOrder statements fromDate toDate).1.monthMap =
      (analyzeLoops sortSlice rangeOrder statements fromDate toDate).1.totalPnL := by
  have h1 := foldl_tradeLoopStep_mapSum (filteredTrades statements fromDate toDate) ⟨[], [], 0⟩
  have h2 := foldl_pnlLoopStep_mapSum (filteredTrades statements fromDate toDate)
    (rangeOrder (computeFIFOPnL sortSlice (filteredTrades statements fromDate toDate)))
    (fun e he _ => firstClosingMonth_ne_none sortSlice hperm _ e ((hrange _).mem_iff.mp he))
    ⟨((filteredTrades statements fromDate toDate).foldl tradeLoopStep ⟨[], [], 0⟩).symbolMap,
      ((filteredTrades statements fromDate toDate).foldl tradeLoopStep ⟨[], [], 0⟩).monthMap,
      0, 0, 0⟩
  have h3 : mapSum (fun mp => mp.RealizedPnL) ([] : GoMap PeriodPnL) = 0 := rfl
  simp only [analyzeLoops]
  simp only [h1, h3, sub_zero] at h2
  linarith

/-- The sum over `ByMonth` is the sum over the month map. -/
theorem AnalyzePnL_ByMonth_sum (sortSlice : List Trade → List Trade)
    (rangeOrder : GoMap ℚ → GoMap ℚ) (sortSymbols : List SymbolPnL → List SymbolPnL)
    (sortMonths : List PeriodPnL → List PeriodPnL) (statements : List FlexStatement)
    (fromDate toDate : String) (hmonths : ∀ l, (sortMonths l).Perm l) :
    ((AnalyzePnL sortSlice rangeOrder sortSymbols sortMonths statements
        fromDate toDate).ByMonth.map (fun mp => mp.RealizedPnL)).sum =
      mapSum (fun mp => mp.RealizedPnL)
        (analyzeLoops sortSlice rangeOrder statements fromDate toDate).1.monthMap := by
  simp only [AnalyzePnL, mapSum]
  rw [((hmonths _).map _).sum_eq, List.map_map]
  rfl


/-- C21: for every input to `AnalyzePnL`, every order of the unordered loops
and every sort within the `sort.Slice` contract, the sum of `RealizedPnL` over
all entries of `ByMonth` equals `TotalPnL` (exact arithmetic), and every symbol
with a reported realized P&L (absolute value at least `1e-6`) has a first
qualifying trade (a disposal, an expiration/assignment or a close-marked
trade) in the filtered list, so that the inner loop finds a month for it. -/
theorem month_totals_reconcile (sortSlice : List Trade → List Trade)
    (rangeOrder : GoMap ℚ → GoMap ℚ) (sortSymbols : List SymbolPnL → List SymbolPnL)
    (sortMonths : List PeriodPnL → List PeriodPnL) (statements : List FlexStatement)
    (fromDate toDate : String) (hsort : SortsByDateTime sortSlice)
    (hrange : ∀ m, (rangeOrder m).Perm m) (hmonths : ∀ l, (sortMonths l).Perm l) :
    ((AnalyzePnL sortSlice rangeOrder sortSymbols sortMonths statements
          fromDate toDate).ByMonth.map (fun mp => mp.RealizedPnL)).sum =
        (AnalyzePnL sortSlice rangeOrder sortSymbols sortMonths statements
          fromDate toDate).TotalPnL ∧
      ∀ e ∈ computeFIFOPnL sortSlice (filteredTrades statements fromDate toDate),
        ¬ (|e.2| < 1 / 1000000) →
        (∃ t, firstQualifying (filteredTrades statements fromDate toDate) e.1 = some t) ∧
          firstClosingMonth (filteredTrades statements fromDate toDate) e.1 ≠ none := by
  refine ⟨?_, fun e he _ => ⟨?_, ?_⟩⟩
  · rw [AnalyzePnL_ByMonth_sum sortSlice rangeOrder sortSymbols sortMonths statements
      fromDate toDate hmonths]
    exact analyzeLoops_mapSum sortSlice rangeOrder statements fromDate toDate
      (fun l => (hsort l).1) hrange
  · exact firstQualifying_isSome _ e.1
      (computeFIFOPnL_entry_origin sortSlice (fun l => (hsort l).1) _ e he)
  · exact firstClosingMonth_ne_none sortSlice (fun l => (hsort l).1) _ e he

theorem TotalPnL_exTwoMonths :
    (AnalyzePnL insertionSortByDateTime id id id exTwoMonths "" "").TotalPnL = 198 := by
  simp only [AnalyzePnL, analyzeLoops, computeFIFOPnL_exTwoMonths, id]
  simp [pnlLoopStep]
  norm_num [abs_of_pos]

/-- C21 on an example: for the long round trip of the specification, bought in
January and sold in February, the entries of `ByMonth` sum to the `TotalPnL`
of 198. -/
theorem month_totals_reconcile_witness :
    SortsByDateTime insertionSortByDateTime ∧ (∀ m : GoMap ℚ, (id m).Perm m) ∧
      (∀ l : List PeriodPnL, (id l).Perm l) ∧
      (AnalyzePnL insertionSortByDateTime id id id exTwoMonths "" "").TotalPnL = 198 ∧
      ((AnalyzePnL insertionSortByDateTime id id id exTwoMonths "" "").ByMonth.map
        (fun mp => mp.RealizedPnL)).sum = 198 := by
  have h := month_totals_reconcile insertionSortByDateTime id id id exTwoMonths "" ""
    insertionSortByDateTime_sorts (fun m => List.Perm.refl m) (fun l => List.Perm.refl l)
  refine ⟨insertionSortByDateTime_sorts, fun m => List.Perm.refl m,
    fun l => List.Perm.refl l, TotalPnL_exTwoMonths, ?_⟩
  rw [h.1, TotalPnL_exTwoMonths]

/-! ## Evaluating the pass in `float64` arithmetic -/

theorem eps64_pos : 0 < eps64 := by decide!

theorem sub64_self (x : ℚ) : sub64 x x = 0 := by simp [sub64, round64]

theorem closeLoop64_nil (canClose upd r acc) :
    closeLoop64 canClose upd [] r acc = ([], r, acc) := by
  rw [closeLoop64]

theorem closeLoop64_stop (canClose upd l rest r acc)
    (h : ¬ (r > eps64 ∧ canClose l = true)) :
    closeLoop64 canClose upd (l :: rest) r acc = (l :: rest, r, acc) := by
  rw [closeLoop64, dif_neg h]

/-- One iteration of the loop body after which the front lot is dropped. -/
theorem closeLoop64_drop (canClose : fifoLot → Bool) (upd : ℚ → fifoLot → ℚ → ℚ)
    (l : fifoLot) (rest : List fifoLot) (r : ℚ) (acc : Option ℚ)
    (h : r > eps64 ∧ canClose l = true) (hq : sub64 l.qty (min l.qty r) < eps64) :
    closeLoop64 canClose upd (l :: rest) r acc =
      closeLoop64 canClose upd rest (sub64 r (min l.qty r))
        (some (upd (acc.getD 0) l (min l.qty r))) := by
  rw [closeLoop64, dif_pos h]
  simp only [dif_pos hq]

/-- One iteration of the loop body after which the front lot is kept. -/
theorem closeLoop64_keep (canClose : fifoLot → Bool) (upd : ℚ → fifoLot → ℚ → ℚ)
    (l : fifoLot) (rest : List fifoLot) (r : ℚ) (acc : Option ℚ)
    (h : r > eps64 ∧ canClose l = true) (hq : ¬ sub64 l.qty (min l.qty r) < eps64) :
    closeLoop64 canClose upd (l :: rest) r acc =
      closeLoop64 canClose upd ({ l with qty := sub64 l.qty (min l.qty r) } :: rest)
        (sub64 r (min l.qty r)) (some (upd (acc.getD 0) l (min l.qty r))) := by
  rw [closeLoop64, dif_pos h]
  simp only [dif_neg hq]

theorem runFIFO64_ex49 :
    runFIFO64 [exBuy49, exSell49] =
      ⟨[("ACME", [])], [("ACME", -9007199254740991 / 9007199254740992)]⟩ := by
  have e1 : stepFIFO64 State.init exBuy49 =
      ⟨[("ACME", [⟨49, 5882252574524729 / 144115188075855872, false⟩])], []⟩ := by
    simp only [stepFIFO64, exBuy49, State.init, lotsOf_nil, closeLoop64_nil]
    rw [if_neg (by decide), if_pos (by norm_num), if_pos (by decide!)]
    simp only [mapSet, writeBack, mapGet?, List.nil_append]
    congr 4
    decide!
  have e2 : stepFIFO64 ⟨[("ACME", [⟨49, 5882252574524729 / 144115188075855872, false⟩])], []⟩
      exSell49 = ⟨[("ACME", [])], [("ACME", -9007199254740991 / 9007199254740992)]⟩ := by
    simp only [stepFIFO64, exSell49, lotsOf, mapGet?, if_true, Option.getD_some]
    rw [if_neg (by decide), if_neg (by norm_num), if_pos (by norm_num)]
    rw [closeLoop64_drop _ _ _ _ _ _ (by constructor; decide!; rfl) (by decide!)]
    simp only [closeLoop64_nil]
    rw [if_neg (by decide!)]
    simp only [mapSet, writeBack, if_true, Option.getD_none]
    congr 3
    decide!
  simp only [runFIFO64, List.foldl_cons, List.foldl_nil, e1, e2]

/-! ## Evaluation of the `float64` pass -/

/-- A normal buy in `float64` against a ledger without a short lot at the
front opens a long lot and leaves the P&L map as it is. -/
theorem stepFIFO64_open_long (s : State) (t : Trade) (hb : t.TransactionType ≠ "BookTrade")
    (hq : t.Quantity > eps64)
    (hfront : ∀ l rest, lotsOf s.openLots t.Symbol = l :: rest → l.isShort = false) :
    stepFIFO64 s t =
      ⟨mapSet s.openLots t.Symbol (lotsOf s.openLots t.Symbol ++
          [⟨t.Quantity, div64 (-(add64 t.Proceeds t.Commission)) t.Quantity, false⟩]), s.pnl⟩ := by
  have hpos : t.Quantity > 0 := lt_trans eps64_pos hq
  have hloop : ∀ upd, closeLoop64 (fun l => l.isShort) upd (lotsOf s.openLots t.Symbol)
      t.Quantity (mapGet? s.pnl t.Symbol) =
      (lotsOf s.openLots t.Symbol, t.Quantity, mapGet? s.pnl t.Symbol) := by
    intro upd
    cases hl : lotsOf s.openLots t.Symbol with
    | nil => rw [closeLoop64_nil]
    | cons l rest =>
      rw [closeLoop64_stop]
      rw [hfront l rest hl]
      simp
  simp only [stepFIFO64, if_neg hb, if_pos hpos, hloop, if_pos hq, writeBack_unchanged]

/-- A normal sell in `float64` against a ledger without a long lot at the
front opens a short lot and leaves the P&L map as it is. -/
theorem stepFIFO64_open_short (s : State) (t : Trade) (hb : t.TransactionType ≠ "BookTrade")
    (hq : -t.Quantity > eps64)
    (hfront : ∀ l rest, lotsOf s.openLots t.Symbol = l :: rest → l.isShort = true) :
    stepFIFO64 s t =
      ⟨mapSet s.openLots t.Symbol (lotsOf s.openLots t.Symbol ++
          [⟨-t.Quantity, div64 (add64 t.Proceeds t.Commission) (-t.Quantity), true⟩]), s.pnl⟩ := by
  have hneg : t.Quantity < 0 := by
    have := eps64_pos; linarith
  have hloop : ∀ upd, closeLoop64 (fun l => !l.isShort) upd (lotsOf s.openLots t.Symbol)
      (-t.Quantity) (mapGet? s.pnl t.Symbol) =
      (lotsOf s.openLots t.Symbol, -t.Quantity, mapGet? s.pnl t.Symbol) := by
    intro upd
    cases hl : lotsOf s.openLots t.Symbol with
    | nil => rw [closeLoop64_nil]
    | cons l rest =>
      rw [closeLoop64_stop]
      rw [hfront l rest hl]
      simp
  simp only [stepFIFO64, if_neg hb, if_neg (not_lt.mpr hneg.le), if_pos hneg, hloop, if_pos hq,
    writeBack_unchanged]

theorem runFIFO64_exOverRound_buys :
    runFIFO64 (exOverRound.take 3) =
      ⟨[("OPT", [⟨8388608 + 1 / 536870912, 1, false⟩, ⟨16777216, 1, false⟩,
          ⟨1 + 1 / 536870912, 1, false⟩])], []⟩ := by
  have e1 : stepFIFO64 State.init
      ⟨"OPT", "20240102", "20240102;093000", 8388608 + 1 / 536870912,
        -(8388608 + 1 / 536870912), 0, "O", "ExchTrade"⟩ =
      ⟨[("OPT", [⟨8388608 + 1 / 536870912, 1, false⟩])], []⟩ := by
    rw [stepFIFO64_open_long _ _ (by decide) (by decide!)
      (by intro l rest h; simp [State.init, lotsOf_nil] at h)]
    simp only [State.init, lotsOf_nil, mapSet, List.nil_append]
    exact congrArg₂ State.mk (by decide!) rfl
  have e2 : stepFIFO64 ⟨[("OPT", [⟨8388608 + 1 / 536870912, 1, false⟩])], []⟩
      ⟨"OPT", "20240103", "20240103;093000", 16777216, -16777216, 0, "O", "ExchTrade"⟩ =
      ⟨[("OPT", [⟨8388608 + 1 / 536870912, 1, false⟩, ⟨16777216, 1, false⟩])], []⟩ := by
    rw [stepFIFO64_open_long _ _ (by decide) (by decide!)
      (by intro l rest h; simp [lotsOf, mapGet?] at h; rw [← h.1])]
    simp only [lotsOf, mapGet?, if_true, Option.getD_some, mapSet, List.cons_append,
      List.nil_append]
    exact congrArg₂ State.mk (by decide!) rfl
  have e3 : stepFIFO64
      ⟨[("OPT", [⟨8388608 + 1 / 536870912, 1, false⟩, ⟨16777216, 1, false⟩])], []⟩
      ⟨"OPT", "20240104", "20240104;093000", 1 + 1 / 536870912, -(1 + 1 / 536870912), 0, "O",
        "ExchTrade"⟩ =
      ⟨[("OPT", [⟨8388608 + 1 / 536870912, 1, false⟩, ⟨16777216, 1, false⟩,
          ⟨1 + 1 / 536870912, 1, false⟩])], []⟩ := by
    rw [stepFIFO64_open_long _ _ (by decide) (by decide!)
      (by intro l rest h; simp [lotsOf, mapGet?] at h; rw [← h.1])]
    simp only [lotsOf, mapGet?, if_true, Option.getD_some, mapSet, List.cons_append,
      List.nil_append]
    exact congrArg₂ State.mk (by decide!) rfl
  simp only [runFIFO64, exOverRound, List.take, List.foldl_cons, List.foldl_nil, e1, e2, e3]

theorem runFIFO64_exOverRound :
    runFIFO64 exOverRound = ⟨[("OPT", [⟨1 / 536870912, 1, false⟩])], [("OPT", -25165825)]⟩ := by
  have e4 : stepFIFO64
      ⟨[("OPT", [⟨8388608 + 1 / 536870912, 1, false⟩, ⟨16777216, 1, false⟩,
          ⟨1 + 1 / 536870912, 1, false⟩])], []⟩
      ⟨"OPT", "20240105", "20240105;093000", 25165825 + 1 / 268435456, 0, 0, "C", "BookTrade"⟩ =
      ⟨[("OPT", [⟨1 / 536870912, 1, false⟩])], [("OPT", -25165825)]⟩ := by
    simp only [stepFIFO64, lotsOf, mapGet?, if_true, Option.getD_some]
    rw [closeLoop64_drop _ _ _ _ _ _ (by constructor; decide!; rfl) (by decide!)]
    rw [closeLoop64_drop _ _ _ _ _ _ (by constructor; decide!; rfl) (by decide!)]
    rw [closeLoop64_keep _ _ _ _ _ _ (by constructor; decide!; rfl) (by decide!)]
    rw [closeLoop64_stop _ _ _ _ _ _ (by rw [not_and]; intro h; exact absurd h (by decide!))]
    simp only [mapSet, writeBack, if_true]
    exact congrArg₂ State.mk (by decide!) (by decide!)
  have h := runFIFO64_exOverRound_buys
  simp only [runFIFO64, exOverRound, List.take, List.foldl_cons, List.foldl_nil] at h ⊢
  rw [h, e4]

theorem runFIFO64_short49 :
    runFIFO64 [exShort49, exCover49] =
      ⟨[("ACME", [])], [("ACME", -9007199254740991 / 9007199254740992)]⟩ := by
  have e1 : stepFIFO64 State.init exShort49 =
      ⟨[("ACME", [⟨49, 5882252574524729 / 288230376151711744, true⟩])], []⟩ := by
    rw [stepFIFO64_open_short _ _ (by decide) (by decide!)
      (by intro l rest h; simp [State.init, lotsOf_nil] at h)]
    simp only [State.init, lotsOf_nil, mapSet, List.nil_append, exShort49]
    exact congrArg₂ State.mk (by decide!) rfl
  have e2 : stepFIFO64 ⟨[("ACME", [⟨49, 5882252574524729 / 288230376151711744, true⟩])], []⟩
      exCover49 = ⟨[("ACME", [])], [("ACME", -9007199254740991 / 9007199254740992)]⟩ := by
    simp only [stepFIFO64, exCover49, lotsOf, mapGet?, if_true, Option.getD_some]
    rw [if_neg (by decide), if_pos (by norm_num)]
    rw [closeLoop64_drop _ _ _ _ _ _ (by constructor; decide!; rfl) (by decide!)]
    simp only [closeLoop64_nil]
    rw [if_neg (by decide!)]
    simp only [mapSet, writeBack, if_true, Option.getD_none]
    exact congrArg₂ State.mk (by decide!) (by decide!)
  simp only [runFIFO64, List.foldl_cons, List.foldl_nil, e1, e2]

theorem runFIFO64_exFifoRound :
    runFIFO64 exFifoRound =
      ⟨[("ACME", [⟨7, 5713942027226317 / 562949953421312, false⟩, ⟨10, 12, false⟩])],
        [("ACME", 100275460453171 / 35184372088832)]⟩ := by
  have e1 : stepFIFO64 State.init
      ⟨"ACME", "20240102", "20240102;093000", 10, -(203 / 2), 0, "O", "ExchTrade"⟩ =
      ⟨[("ACME", [⟨10, 5713942027226317 / 562949953421312, false⟩])], []⟩ := by
    rw [stepFIFO64_open_long _ _ (by decide) (by decide!)
      (by intro l rest h; simp [State.init, lotsOf_nil] at h)]
    simp only [State.init, lotsOf_nil, mapSet, List.nil_append]
    exact congrArg₂ State.mk (by decide!) rfl
  have e2 : stepFIFO64 ⟨[("ACME", [⟨10, 5713942027226317 / 562949953421312, false⟩])], []⟩
      ⟨"ACME", "20240103", "20240103;093000", 10, -120, 0, "O", "ExchTrade"⟩ =
      ⟨[("ACME", [⟨10, 5713942027226317 / 562949953421312, false⟩, ⟨10, 12, false⟩])], []⟩ := by
    rw [stepFIFO64_open_long _ _ (by decide) (by decide!)
      (by intro l rest h; simp [lotsOf, mapGet?] at h; rw [← h.1])]
    simp only [lotsOf, mapGet?, if_true, Option.getD_some, mapSet, List.cons_append,
      List.nil_append]
    exact congrArg₂ State.mk (by decide!) rfl
  have e3 : stepFIFO64
      ⟨[("ACME", [⟨10, 5713942027226317 / 562949953421312, false⟩, ⟨10, 12, false⟩])], []⟩
      ⟨"ACME", "20240104", "20240104;093000", -3, round64 (333 / 10), 0, "C", "ExchTrade"⟩ =
      ⟨[("ACME", [⟨7, 5713942027226317 / 562949953421312, false⟩, ⟨10, 12, false⟩])],
        [("ACME", 100275460453171 / 35184372088832)]⟩ := by
    simp only [stepFIFO64, lotsOf, mapGet?, if_true, Option.getD_some]
    rw [if_neg (by decide), if_neg (by norm_num), if_pos (by norm_num)]
    rw [closeLoop64_keep _ _ _ _ _ _ (by constructor; decide!; rfl) (by decide!)]
    rw [closeLoop64_stop _ _ _ _ _ _ (by rw [not_and]; intro h; exact absurd h (by decide!))]
    rw [if_neg (by decide!)]
    simp only [mapSet, writeBack, if_true, Option.getD_none]
    exact congrArg₂ State.mk (by decide!) (by decide!)
  simp only [runFIFO64, exFifoRound, List.foldl_cons, List.foldl_nil, e1, e2, e3]

theorem runFIFO64_exFlipRoundPre :
    runFIFO64 exFlipRoundPre =
      ⟨[("ACME", [⟨8388608 + 1 / 536870912, 1, true⟩, ⟨16777216, 1, true⟩])], []⟩ := by
  have e1 : stepFIFO64 State.init
      ⟨"ACME", "20240102", "20240102;093000", -(8388608 + 1 / 536870912),
        8388608 + 1 / 536870912, 0, "O", "ExchTrade"⟩ =
      ⟨[("ACME", [⟨8388608 + 1 / 536870912, 1, true⟩])], []⟩ := by
    rw [stepFIFO64_open_short _ _ (by decide) (by decide!)
      (by intro l rest h; simp [State.init, lotsOf_nil] at h)]
    simp only [State.init, lotsOf_nil, mapSet, List.nil_append]
    exact congrArg₂ State.mk (by decide!) rfl
  have e2 : stepFIFO64 ⟨[("ACME", [⟨8388608 + 1 / 536870912, 1, true⟩])], []⟩
      ⟨"ACME", "20240103", "20240103;093000", -16777216, 16777216, 0, "O", "ExchTrade"⟩ =
      ⟨[("ACME", [⟨8388608 + 1 / 536870912, 1, true⟩, ⟨16777216, 1, true⟩])], []⟩ := by
    rw [stepFIFO64_open_short _ _ (by decide) (by decide!)
      (by intro l rest h; simp [lotsOf, mapGet?] at h; rw [← h.1])]
    simp only [lotsOf, mapGet?, if_true, Option.getD_some, mapSet, List.cons_append,
      List.nil_append]
    exact congrArg₂ State.mk (by decide!) rfl
  simp only [runFIFO64, exFlipRoundPre, List.foldl_cons, List.foldl_nil, e1, e2]

theorem stepFIFO64_exFlipRoundBuy :
    stepFIFO64 (runFIFO64 exFlipRoundPre) exFlipRoundBuy =
      ⟨[("ACME", [])], [("ACME", 6755399172620289 / 268435456)]⟩ := by
  rw [runFIFO64_exFlipRoundPre]
  simp only [stepFIFO64, exFlipRoundBuy, lotsOf, mapGet?, if_true, Option.getD_some]
  rw [if_neg (by decide), if_pos (by norm_num)]
  rw [closeLoop64_drop _ _ _ _ _ _ (by constructor; decide!; rfl) (by decide!)]
  rw [closeLoop64_drop _ _ _ _ _ _ (by constructor; decide!; rfl) (by decide!)]
  simp only [closeLoop64_nil]
  rw [if_neg (by decide!)]
  simp only [mapSet, writeBack, if_true, Option.getD_none]
  exact congrArg₂ State.mk (by decide!) (by decide!)

theorem runFIFO64_exSellRoundPre :
    runFIFO64 exSellRoundPre =
      ⟨[("ACME", [⟨8388608 + 1 / 536870912, 1, false⟩, ⟨16777216, 1, false⟩])], []⟩ := by
  have e1 : stepFIFO64 State.init
      ⟨"ACME", "20240102", "20240102;093000", 8388608 + 1 / 536870912,
        -(8388608 + 1 / 536870912), 0, "O", "ExchTrade"⟩ =
      ⟨[("ACME", [⟨8388608 + 1 / 536870912, 1, false⟩])], []⟩ := by
    rw [stepFIFO64_open_long _ _ (by decide) (by decide!)
      (by intro l rest h; simp [State.init, lotsOf_nil] at h)]
    simp only [State.init, lotsOf_nil, mapSet, List.nil_append]
    exact congrArg₂ State.mk (by decide!) rfl
  have e2 : stepFIFO64 ⟨[("ACME", [⟨8388608 + 1 / 536870912, 1, false⟩])], []⟩
      ⟨"ACME", "20240103", "20240103;093000", 16777216, -16777216, 0, "O", "ExchTrade"⟩ =
      ⟨[("ACME", [⟨8388608 + 1 / 536870912, 1, false⟩, ⟨16777216, 1, false⟩])], []⟩ := by
    rw [stepFIFO64_open_long _ _ (by decide) (by decide!)
      (by intro l rest h; simp [lotsOf, mapGet?] at h; rw [← h.1])]
    simp only [lotsOf, mapGet?, if_true, Option.getD_some, mapSet, List.cons_append,
      List.nil_append]
    exact congrArg₂ State.mk (by decide!) rfl
  simp only [runFIFO64, exSellRoundPre, List.foldl_cons, List.foldl_nil, e1, e2]

theorem stepFIFO64_exSellRoundSell :
    stepFIFO64 (runFIFO64 exSellRoundPre) exSellRoundSell =
      ⟨[("ACME", [])], [("ACME", -6755399172620289 / 268435456)]⟩ := by
  rw [runFIFO64_exSellRoundPre]
  simp only [stepFIFO64, exSellRoundSell, lotsOf, mapGet?, if_true, Option.getD_some]
  rw [if_neg (by decide), if_neg (by norm_num), if_pos (by norm_num)]
  rw [closeLoop64_drop _ _ _ _ _ _ (by constructor; decide!; rfl) (by decide!)]
  rw [closeLoop64_drop _ _ _ _ _ _ (by constructor; decide!; rfl) (by decide!)]
  simp only [closeLoop64_nil]
  rw [if_neg (by decide!)]
  simp only [mapSet, writeBack, if_true, Option.getD_none]
  exact congrArg₂ State.mk (by decide!) (by decide!)

theorem runFIFO64_exLotAtEps :
    runFIFO64 exLotAtEps =
      ⟨[("ACME", [⟨eps64, 400000000, false⟩])],
        [("ACME", 900719925474099 / 2251799813685248)]⟩ := by
  have e1 : stepFIFO64 State.init
      ⟨"ACME", "20240102", "20240102;093000", round64 (25 / 10000000000), -1, 0, "O",
        "ExchTrade"⟩ =
      ⟨[("ACME", [⟨round64 (25 / 10000000000), 400000000, false⟩])], []⟩ := by
    rw [stepFIFO64_open_long _ _ (by decide) (by decide!)
      (by intro l rest h; simp [State.init, lotsOf_nil] at h)]
    simp only [State.init, lotsOf_nil, mapSet, List.nil_append]
    exact congrArg₂ State.mk (by decide!) rfl
  have e2 : stepFIFO64 ⟨[("ACME", [⟨round64 (25 / 10000000000), 400000000, false⟩])], []⟩
      ⟨"ACME", "20240103", "20240103;093000", -round64 (15 / 10000000000), 1, 0, "C",
        "ExchTrade"⟩ =
      ⟨[("ACME", [⟨eps64, 400000000, false⟩])],
        [("ACME", 900719925474099 / 2251799813685248)]⟩ := by
    simp only [stepFIFO64, lotsOf, mapGet?, if_true, Option.getD_some]
    rw [if_neg (by decide), if_neg (by decide!), if_pos (by decide!)]
    rw [closeLoop64_keep _ _ _ _ _ _ (by constructor; decide!; rfl) (by decide!)]
    rw [closeLoop64_stop _ _ _ _ _ _ (by rw [not_and]; intro h; exact absurd h (by decide!))]
    rw [if_neg (by decide!)]
    simp only [mapSet, writeBack, if_true, Option.getD_none]
    exact congrArg₂ State.mk (by decide!) (by decide!)
  simp only [runFIFO64, exLotAtEps, List.foldl_cons, List.foldl_nil, e1, e2]

theorem runFIFO64_exBigPosition :
    runFIFO64 exBigPosition =
      ⟨[("ACME", [⟨9007199254740991, 1, false⟩])], [("ACME", 0)]⟩ := by
  have e1 : stepFIFO64 State.init
      ⟨"ACME", "20240102", "20240102;093000", 9007199254740994, -9007199254740994, 0, "O",
        "ExchTrade"⟩ =
      ⟨[("ACME", [⟨9007199254740994, 1, false⟩])], []⟩ := by
    rw [stepFIFO64_open_long _ _ (by decide) (by decide!)
      (by intro l rest h; simp [State.init, lotsOf_nil] at h)]
    simp only [State.init, lotsOf_nil, mapSet, List.nil_append]
    exact congrArg₂ State.mk (by decide!) rfl
  have e2 : stepFIFO64 ⟨[("ACME", [⟨9007199254740994, 1, false⟩])], []⟩
      ⟨"ACME", "20240103", "20240103;093000", -1, 1, 0, "C", "ExchTrade"⟩ =
      ⟨[("ACME", [⟨9007199254740992, 1, false⟩])], [("ACME", 0)]⟩ := by
    simp only [stepFIFO64, lotsOf, mapGet?, if_true, Option.getD_some]
    rw [if_neg (by decide), if_neg (by norm_num), if_pos (by norm_num)]
    rw [closeLoop64_keep _ _ _ _ _ _ (by constructor; decide!; rfl) (by decide!)]
    rw [closeLoop64_stop _ _ _ _ _ _ (by rw [not_and]; intro h; exact absurd h (by decide!))]
    rw [if_neg (by decide!)]
    simp only [mapSet, writeBack, if_true, Option.getD_none]
    exact congrArg₂ State.mk (by decide!) (by decide!)
  have e3 : stepFIFO64 ⟨[("ACME", [⟨9007199254740992, 1, false⟩])], [("ACME", 0)]⟩
      ⟨"ACME", "20240104", "20240104;093000", -1, 1, 0, "C", "ExchTrade"⟩ =
      ⟨[("ACME", [⟨9007199254740991, 1, false⟩])], [("ACME", 0)]⟩ := by
    simp only [stepFIFO64, lotsOf, mapGet?, if_true, Option.getD_some]
    rw [if_neg (by decide), if_neg (by norm_num), if_pos (by norm_num)]
    rw [closeLoop64_keep _ _ _ _ _ _ (by constructor; decide!; rfl) (by decide!)]
    rw [closeLoop64_stop _ _ _ _ _ _ (by rw [not_and]; intro h; exact absurd h (by decide!))]
    rw [if_neg (by decide!)]
    simp only [mapSet, writeBack, if_true, Option.getD_some]
    exact congrArg₂ State.mk (by decide!) (by decide!)
  simp only [runFIFO64, exBigPosition, List.foldl_cons, List.foldl_nil, e1, e2, e3]

/-- The long round trip of the specification in `float64`: exactly 198. -/
theorem runFIFO64_exLong :
    runFIFO64 [exLongBuy, exLongSell] = ⟨[("ACME", [])], [("ACME", 198)]⟩ := by
  have e1 : stepFIFO64 State.init exLongBuy =
      ⟨[("ACME", [⟨100, 5635129033747333 / 562949953421312, false⟩])], []⟩ := by
    rw [stepFIFO64_open_long _ _ (by decide) (by decide!)
      (by intro l rest h; simp [State.init, lotsOf_nil] at h)]
    simp only [State.init, lotsOf_nil, mapSet, List.nil_append, exLongBuy]
    exact congrArg₂ State.mk (by decide!) rfl
  have e2 : stepFIFO64 ⟨[("ACME", [⟨100, 5635129033747333 / 562949953421312, false⟩])], []⟩
      exLongSell = ⟨[("ACME", [])], [("ACME", 198)]⟩ := by
    simp only [stepFIFO64, exLongSell, lotsOf, mapGet?, if_true, Option.getD_some]
    rw [if_neg (by decide), if_neg (by norm_num), if_pos (by norm_num)]
    rw [closeLoop64_drop _ _ _ _ _ _ (by constructor; decide!; rfl) (by decide!)]
    simp only [closeLoop64_nil]
    rw [if_neg (by decide!)]
    simp only [mapSet, writeBack, if_true, Option.getD_none]
    exact congrArg₂ State.mk (by decide!) (by decide!)
  simp only [runFIFO64, List.foldl_cons, List.foldl_nil, e1, e2]

/-- The short round trip of the specification in `float64`: exactly 248. -/
theorem runFIFO64_exShort :
    runFIFO64 [exShortSell, exShortBuy] = ⟨[("ACME", [])], [("ACME", 248)]⟩ := by
  have e1 : stepFIFO64 State.init exShortSell =
      ⟨[("ACME", [⟨50, 5623870034678907 / 281474976710656, true⟩])], []⟩ := by
    rw [stepFIFO64_open_short _ _ (by decide) (by decide!)
      (by intro l rest h; simp [State.init, lotsOf_nil] at h)]
    simp only [State.init, lotsOf_nil, mapSet, List.nil_append, exShortSell]
    exact congrArg₂ State.mk (by decide!) rfl
  have e2 : stepFIFO64 ⟨[("ACME", [⟨50, 5623870034678907 / 281474976710656, true⟩])], []⟩
      exShortBuy = ⟨[("ACME", [])], [("ACME", 248)]⟩ := by
    simp only [stepFIFO64, exShortBuy, lotsOf, mapGet?, if_true, Option.getD_some]
    rw [if_neg (by decide), if_pos (by norm_num)]
    rw [closeLoop64_drop _ _ _ _ _ _ (by constructor; decide!; rfl) (by decide!)]
    simp only [closeLoop64_nil]
    rw [if_neg (by decide!)]
    simp only [mapSet, writeBack, if_true, Option.getD_none]
    exact congrArg₂ State.mk (by decide!) (by decide!)
  simp only [runFIFO64, List.foldl_cons, List.foldl_nil, e1, e2]

/-! ## Where `float64` rounding shows (C2, C3, C4, C6, C7, C8, C12, C20) -/

theorem insertionSortByDateTime_pair49 :
    insertionSortByDateTime [exBuy49, exSell49] = [exBuy49, exSell49] := by
  apply insertionSortByDateTime_eq_of_increasing
  simp [exBuy49, exSell49, String.lt_iff_toList_lt]
  decide

theorem insertionSortByDateTime_short49 :
    insertionSortByDateTime [exShort49, exCover49] = [exShort49, exCover49] := by
  apply insertionSortByDateTime_eq_of_increasing
  simp [exShort49, exCover49, String.lt_iff_toList_lt]
  decide

theorem insertionSortByDateTime_exFifoRound :
    insertionSortByDateTime exFifoRound = exFifoRound := by
  apply insertionSortByDateTime_eq_of_increasing
  simp [exFifoRound, String.lt_iff_toList_lt]
  decide

theorem insertionSortByDateTime_exLotAtEps :
    insertionSortByDateTime exLotAtEps = exLotAtEps := by
  apply insertionSortByDateTime_eq_of_increasing
  simp [exLotAtEps, String.lt_iff_toList_lt]
  decide

theorem insertionSortByDateTime_exBigPosition :
    insertionSortByDateTime exBigPosition = exBigPosition := by
  apply insertionSortByDateTime_eq_of_increasing
  simp [exBigPosition, String.lt_iff_toList_lt]
  decide

/-- C2 (as stated, refuted): buy 49 units for 2, sell them a day later for 1.
All amounts are `float64` values, `ns + nb = -1`, and `computeFIFOPnL` in
`float64` arithmetic returns `-(1 - 2^-53)`: the unit cost `2/49` and the unit
proceeds `1/49` are rounded before they are multiplied by 49 again. -/
theorem long_round_trip_counterexample :
    exBuy49.DateTime < exSell49.DateTime ∧
      computeFIFOPnL64 insertionSortByDateTime [exBuy49, exSell49] =
        [("ACME", -9007199254740991 / 9007199254740992)] ∧
      (exSell49.Proceeds + exSell49.Commission) + (exBuy49.Proceeds + exBuy49.Commission)
        = -1 ∧
      add64 (add64 exSell49.Proceeds exSell49.Commission)
        (add64 exBuy49.Proceeds exBuy49.Commission) = -1 ∧
      pnlOf (computeFIFOPnL64 insertionSortByDateTime [exBuy49, exSell49]) "ACME" ≠ -1 := by
  have h : computeFIFOPnL64 insertionSortByDateTime [exBuy49, exSell49] =
      [("ACME", -9007199254740991 / 9007199254740992)] := by
    rw [computeFIFOPnL64, insertionSortByDateTime_pair49, runFIFO64_ex49]
  refine ⟨by rw [String.lt_iff_toList_lt]; decide, h, by norm_num [exBuy49, exSell49],
    by decide!, ?_⟩
  rw [h]
  norm_num [pnlOf, mapGet?]

/-- C3 (as stated, refuted): sell 49 units short for 1, buy them back a day
later for 2.  All amounts are `float64` values, `ns + nb = -1`, and
`computeFIFOPnL` in `float64` arithmetic returns `-(1 - 2^-53)`. -/
theorem short_round_trip_counterexample :
    exShort49.DateTime < exCover49.DateTime ∧
      computeFIFOPnL64 insertionSortByDateTime [exShort49, exCover49] =
        [("ACME", -9007199254740991 / 9007199254740992)] ∧
      (exShort49.Proceeds + exShort49.Commission) + (exCover49.Proceeds + exCover49.Commission)
        = -1 ∧
      add64 (add64 exShort49.Proceeds exShort49.Commission)
        (add64 exCover49.Proceeds exCover49.Commission) = -1 ∧
      pnlOf (computeFIFOPnL64 insertionSortByDateTime [exShort49, exCover49]) "ACME" ≠ -1 := by
  have h : computeFIFOPnL64 insertionSortByDateTime [exShort49, exCover49] =
      [("ACME", -9007199254740991 / 9007199254740992)] := by
    rw [computeFIFOPnL64, insertionSortByDateTime_short49, runFIFO64_short49]
  refine ⟨by rw [String.lt_iff_toList_lt]; decide, h, by norm_num [exShort49, exCover49],
    by decide!, ?_⟩
  rw [h]
  norm_num [pnlOf, mapGet?]

/-- C6 (as stated, refuted): long lots of `2^23 + 2^-29`, `2^24` and
`1 + 2^-29` units, each above `1e-9`, and an expiration whose quantity is their
exact total (a `float64` value).  In `float64` arithmetic `remaining` loses
`2^-29` when the first lot is subtracted, so the loop ends with a lot of
`2^-29 > 1e-9` units still in the ledger. -/
theorem over_closing_truncates_counterexample :
    lotsOf (runFIFO64 (exOverRound.take 3)).openLots "OPT" =
        [⟨8388608 + 1 / 536870912, 1, false⟩, ⟨16777216, 1, false⟩,
          ⟨1 + 1 / 536870912, 1, false⟩] ∧
      (∀ l ∈ lotsOf (runFIFO64 (exOverRound.take 3)).openLots "OPT", eps < l.qty) ∧
      totalQty (lotsOf (runFIFO64 (exOverRound.take 3)).openLots "OPT") =
        25165825 + 1 / 268435456 ∧
      round64 (25165825 + 1 / 268435456) = 25165825 + 1 / 268435456 ∧
      exOverRound.drop 3 =
        [⟨"OPT", "20240105", "20240105;093000", 25165825 + 1 / 268435456, 0, 0, "C",
          "BookTrade"⟩] ∧
      lotsOf (runFIFO64 exOverRound).openLots "OPT" = [⟨1 / 536870912, 1, false⟩] ∧
      lotsOf (runFIFO64 exOverRound).openLots "OPT" ≠ [] := by
  have hl : lotsOf (runFIFO64 (exOverRound.take 3)).openLots "OPT" =
      [⟨8388608 + 1 / 536870912, 1, false⟩, ⟨16777216, 1, false⟩,
        ⟨1 + 1 / 536870912, 1, false⟩] := by
    rw [runFIFO64_exOverRound_buys]
    simp [lotsOf, mapGet?]
  have h2 : lotsOf (runFIFO64 exOverRound).openLots "OPT" = [⟨1 / 536870912, 1, false⟩] := by
    rw [runFIFO64_exOverRound]
    simp [lotsOf, mapGet?]
  refine ⟨hl, ?_, ?_, by decide!, rfl, h2, by rw [h2]; simp⟩
  · rw [hl]
    intro l h
    simp only [List.mem_cons, List.mem_singleton, List.not_mem_nil, or_false] at h
    rcases h with h | h | h <;> subst h <;> norm_num [eps]
  · rw [hl]
    norm_num [totalQty]

/-- C7 (as stated, refuted): short lots of `2^23 + 2^-29` and `2^24` units and
a normal buy of `q = 2^24 + 2^23 + 2^-28` units, so `q - S = 2^-29 > 1e-9`.
In `float64` arithmetic `remaining` is `2^24` after the first lot and `0`
after the second: no long lot is opened and the ledger ends empty. -/
theorem acquisition_flip_counterexample :
    exFlipRoundBuy.TransactionType ≠ "BookTrade" ∧ exFlipRoundBuy.Quantity > 0 ∧
      round64 exFlipRoundBuy.Quantity = exFlipRoundBuy.Quantity ∧
      (∀ l ∈ lotsOf (runFIFO64 exFlipRoundPre).openLots "ACME", l.isShort = true) ∧
      exFlipRoundBuy.Quantity - totalQty (lotsOf (runFIFO64 exFlipRoundPre).openLots "ACME")
        = 1 / 536870912 ∧
      eps < (1 / 536870912 : ℚ) ∧
      lotsOf (stepFIFO64 (runFIFO64 exFlipRoundPre) exFlipRoundBuy).openLots "ACME" = [] := by
  have hl : lotsOf (runFIFO64 exFlipRoundPre).openLots "ACME" =
      [⟨8388608 + 1 / 536870912, 1, true⟩, ⟨16777216, 1, true⟩] := by
    rw [runFIFO64_exFlipRoundPre]
    simp [lotsOf, mapGet?]
  refine ⟨by decide, by norm_num [exFlipRoundBuy], by decide!, ?_, ?_, by norm_num [eps], ?_⟩
  · rw [hl]
    intro l h
    simp only [List.mem_cons, List.mem_singleton, List.not_mem_nil, or_false] at h
    rcases h with h | h <;> subst h <;> rfl
  · rw [hl]
    norm_num [totalQty, exFlipRoundBuy]
  · rw [stepFIFO64_exFlipRoundBuy]
    simp [lotsOf, mapGet?]

/-- C20 (as stated, refuted): buy `2^53 + 2` units, then sell 1 unit twice;
all quantities are integers and `float64` values.  In `float64` arithmetic the
first sale leaves `2^53` in the lot (`2^53 + 1` is not representable), the
second `2^53 - 1`, while the signed trade quantities sum to `2^53`. -/
theorem signed_position_conservation_counterexample :
    (∀ t ∈ exBigPosition, t.TransactionType ≠ "BookTrade") ∧
      (∀ t ∈ exBigPosition, ∃ n : ℤ, t.Quantity = n) ∧
      (∀ t ∈ exBigPosition, round64 t.Quantity = t.Quantity) ∧
      signedOpen (lotsOf (runFIFO64 (insertionSortByDateTime exBigPosition)).openLots "ACME")
        = 9007199254740991 ∧
      netQty "ACME" exBigPosition = 9007199254740992 := by
  refine ⟨?_, ?_, ?_, ?_, ?_⟩
  · intro t ht
    simp only [exBigPosition, List.mem_cons, List.mem_singleton, List.not_mem_nil,
      or_false] at ht
    rcases ht with ht | ht | ht <;> subst ht <;> decide
  · intro t ht
    simp only [exBigPosition, List.mem_cons, List.mem_singleton, List.not_mem_nil,
      or_false] at ht
    rcases ht with ht | ht | ht <;> subst ht
    · exact ⟨9007199254740994, by norm_num⟩
    · exact ⟨-1, by norm_num⟩
    · exact ⟨-1, by norm_num⟩
  · intro t ht
    simp only [exBigPosition, List.mem_cons, List.mem_singleton, List.not_mem_nil,
      or_false] at ht
    rcases ht with ht | ht | ht <;> subst ht <;> decide!
  · rw [insertionSortByDateTime_exBigPosition, runFIFO64_exBigPosition]
    simp [lotsOf, mapGet?, signedOpen]
  · norm_num [netQty, exBigPosition]

/-- C12 (as stated, refuted): buy `2.5e-9` units and sell `1.5e-9` of them
(both `float64` values).  The `float64` difference is exactly the constant
`1e-9` of the source, the test `l.qty < 1e-9` fails, and the lot stays in the
ledger with a quantity that is not greater than `1e-9`. -/
theorem lot_quantity_counterexample :
    (∀ t ∈ exLotAtEps, round64 t.Quantity = t.Quantity) ∧
      lotsOf (runFIFO64 (insertionSortByDateTime exLotAtEps)).openLots "ACME" =
        [⟨eps64, 400000000, false⟩] ∧
      ∃ l ∈ lotsOf (runFIFO64 (insertionSortByDateTime exLotAtEps)).openLots "ACME",
        ¬ (l.qty > eps64) := by
  have hl : lotsOf (runFIFO64 (insertionSortByDateTime exLotAtEps)).openLots "ACME" =
      [⟨eps64, 400000000, false⟩] := by
    rw [insertionSortByDateTime_exLotAtEps, runFIFO64_exLotAtEps]
    simp [lotsOf, mapGet?]
  refine ⟨?_, hl, ⟨eps64, 400000000, false⟩, by rw [hl]; simp, lt_irrefl _⟩
  intro t ht
  simp only [exLotAtEps, List.mem_cons, List.mem_singleton, List.not_mem_nil, or_false] at ht
  rcases ht with ht | ht <;> subst ht <;> decide!

/-- C4 (as stated, refuted), in two ways.  (1) With a second buy of half of
`1e-9` units the ledger after buy 10 at 10, buy, sell 4 at 15 holds the rest of
the first lot only; no second lot with the quantity of the second buy is left.
(2) In `float64` arithmetic, after buy 10 for 101.5, buy 10 for 120, sell 3 for
33.3 the realized P&L is `2.8499999999999945`; that is neither
`s * (p - c1)` taken exactly, nor its nearest `float64`, nor the `float64`
evaluation of `s * (p - c1)`: the source computes `match*p - match*c1`. -/
theorem fifo_ordering_counterexample :
    (lotsOf (runFIFO (insertionSortByDateTime exFifoDust)).openLots "ACME"
        = [⟨6, 10, false⟩] ∧
      ¬ (∃ l ∈ lotsOf (runFIFO (insertionSortByDateTime exFifoDust)).openLots "ACME",
          l.qty = 1 / 2000000000)) ∧
      computeFIFOPnL64 insertionSortByDateTime exFifoRound =
        [("ACME", 100275460453171 / 35184372088832)] ∧
      (100275460453171 / 35184372088832 : ℚ) ≠ 3 * (round64 (333 / 10) / 3 - (203 / 2) / 10) ∧
      (100275460453171 / 35184372088832 : ℚ) ≠
        round64 (3 * (round64 (333 / 10) / 3 - (203 / 2) / 10)) ∧
      (100275460453171 / 35184372088832 : ℚ) ≠
        mul64 3 (sub64 (div64 (round64 (333 / 10)) 3) (div64 (203 / 2) 10)) := by
  refine ⟨runFIFO_exFifoDust_no_second_lot, ?_, by decide!, by decide!, by decide!⟩
  rw [computeFIFOPnL64, insertionSortByDateTime_exFifoRound, runFIFO64_exFifoRound]

/-- C8 (as stated, refuted), in two ways.  (1) Against long lots of 1 unit at
10 and 1 unit at 12, a normal sell of `s = 1 + 5e-10` units at 15 per unit
meets the premises (`s > 1e-9`, long lots only), the oldest-first matched
quantities that sum to `min s L` are `1` and `5e-10`, yet the realized P&L
grows by 5 and not by `1 * (15 - 10) + 5e-10 * (15 - 12)`.  (2) In `float64`
arithmetic, against long lots of `2^23 + 2^-29` and `2^24` units a normal sell
of `s = 2^24 + 2^23 + 2^-28` units has `s - L = 2^-29 > 1e-9`, yet `remaining`
is `0` after the second lot: no short lot is opened and the ledger ends
empty. -/
theorem disposal_rule_counterexample :
    (exSellDust.TransactionType ≠ "BookTrade" ∧ -exSellDust.Quantity > eps ∧
      (∀ l ∈ lotsOf (runFIFO exSellPre).openLots "ACME", l.isShort = false) ∧
      (matchedOldestFirst (lotsOf (runFIFO exSellPre).openLots "ACME")
          (-exSellDust.Quantity)).sum
        = min (-exSellDust.Quantity) (totalQty (lotsOf (runFIFO exSellPre).openLots "ACME")) ∧
      pnlOf (stepFIFO (runFIFO exSellPre) exSellDust).pnl "ACME" ≠
        pnlOf (runFIFO exSellPre).pnl "ACME" +
          (List.zipWith
            (fun m l => m * ((exSellDust.Proceeds + exSellDust.Commission)
              / (-exSellDust.Quantity) - l.unitCost))
            (matchedOldestFirst (lotsOf (runFIFO exSellPre).openLots "ACME")
              (-exSellDust.Quantity))
            (lotsOf (runFIFO exSellPre).openLots "ACME")).sum) ∧
      exSellRoundSell.TransactionType ≠ "BookTrade" ∧ -exSellRoundSell.Quantity > eps ∧
      round64 exSellRoundSell.Quantity = exSellRoundSell.Quantity ∧
      (∀ l ∈ lotsOf (runFIFO64 exSellRoundPre).openLots "ACME", l.isShort = false) ∧
      -exSellRoundSell.Quantity -
          totalQty (lotsOf (runFIFO64 exSellRoundPre).openLots "ACME") = 1 / 536870912 ∧
      eps < (1 / 536870912 : ℚ) ∧
      lotsOf (stepFIFO64 (runFIFO64 exSellRoundPre) exSellRoundSell).openLots "ACME" = [] := by
  have hl : lotsOf (runFIFO64 exSellRoundPre).openLots "ACME" =
      [⟨8388608 + 1 / 536870912, 1, false⟩, ⟨16777216, 1, false⟩] := by
    rw [runFIFO64_exSellRoundPre]
    simp [lotsOf, mapGet?]
  refine ⟨stepFIFO_exSellDust_unmatched, by decide, by norm_num [exSellRoundSell, eps],
    by decide!, ?_, ?_, by norm_num [eps], ?_⟩
  · rw [hl]
    intro l h
    simp only [List.mem_cons, List.mem_singleton, List.not_mem_nil, or_false] at h
    rcases h with h | h <;> subst h <;> rfl
  · rw [hl]
    norm_num [totalQty, exSellRoundSell]
  · rw [stepFIFO64_exSellRoundSell]
    simp [lotsOf, mapGet?]

/-! ## The lot-quantity bound in `float64` arithmetic -/

/-- When the front lot is kept, the whole of `remaining` was matched and the
loop ends with the next test. -/
theorem closeLoop64_keep_result (canClose : fifoLot → Bool) (upd : ℚ → fifoLot → ℚ → ℚ)
    (l : fifoLot) (rest : List fifoLot) (r : ℚ) (acc : Option ℚ)
    (h : r > eps64 ∧ canClose l = true) (hq : ¬ sub64 l.qty (min l.qty r) < eps64) :
    closeLoop64 canClose upd (l :: rest) r acc =
      ({ l with qty := sub64 l.qty (min l.qty r) } :: rest, sub64 r (min l.qty r),
        some (upd (acc.getD 0) l (min l.qty r))) := by
  have hm : min l.qty r = r := by
    rcases le_total l.qty r with h' | h'
    · rw [min_eq_left h', sub64_self] at hq
      exact absurd eps64_pos hq
    · exact min_eq_right h'
  rw [closeLoop64_keep _ _ _ _ _ _ h hq, closeLoop64_stop]
  rw [hm, sub64_self]
  intro h0
  exact absurd h0.1 (not_lt.mpr eps64_pos.le)

theorem closeLoop64_lots_ge (canClose : fifoLot → Bool) (upd : ℚ → fifoLot → ℚ → ℚ) :
    ∀ (lots : List fifoLot) (r : ℚ) (acc : Option ℚ), (∀ l ∈ lots, eps64 ≤ l.qty) →
      ∀ l ∈ (closeLoop64 canClose upd lots r acc).1, eps64 ≤ l.qty := by
  intro lots
  induction lots with
  | nil => intro r acc h; rw [closeLoop64_nil]; exact h
  | cons l rest ih =>
    intro r acc h
    have hrest : ∀ x ∈ rest, eps64 ≤ x.qty := fun x hx => h x (List.mem_cons_of_mem _ hx)
    by_cases hc : r > eps64 ∧ canClose l = true
    · by_cases hq : sub64 l.qty (min l.qty r) < eps64
      · rw [closeLoop64_drop _ _ _ _ _ _ hc hq]
        exact ih _ _ hrest
      · rw [closeLoop64_keep_result _ _ _ _ _ _ hc hq]
        intro x hx
        rcases List.mem_cons.mp hx with hx | hx
        · subst hx; exact not_lt.mp hq
        · exact hrest x hx
    · rw [closeLoop64_stop _ _ _ _ _ _ hc]
      exact h

theorem stepFIFO64_lots_ge (s : State) (t : Trade)
    (hs : ∀ sym, ∀ l ∈ lotsOf s.openLots sym, eps64 ≤ l.qty) :
    ∀ sym, ∀ l ∈ lotsOf (stepFIFO64 s t).openLots sym, eps64 ≤ l.qty := by
  have happ : ∀ (lots : List fifoLot) (q c : ℚ) (b : Bool), (∀ l ∈ lots, eps64 ≤ l.qty) →
      ∀ l ∈ (if q > eps64 then lots ++ [⟨q, c, b⟩] else lots), eps64 ≤ l.qty := by
    intro lots q c b hl l hmem
    split_ifs at hmem with hq
    · rcases List.mem_append.mp hmem with hm | hm
      · exact hl l hm
      · simp only [List.mem_singleton] at hm
        subst hm
        exact hq.le
    · exact hl l hmem
  have hset : ∀ (lots : List fifoLot), (∀ l ∈ lots, eps64 ≤ l.qty) →
      ∀ sym, ∀ l ∈ lotsOf (mapSet s.openLots t.Symbol lots) sym, eps64 ≤ l.qty := by
    intro lots hl sym l hmem
    by_cases hsym : sym = t.Symbol
    · rw [hsym, lotsOf_mapSet_same] at hmem
      exact hl l hmem
    · rw [lotsOf_mapSet_other _ _ _ _ hsym] at hmem
      exact hs sym l hmem
  by_cases hb : t.TransactionType = "BookTrade"
  · simp only [stepFIFO64, if_pos hb]
    exact hset _ (closeLoop64_lots_ge _ _ _ _ _ (hs t.Symbol))
  · by_cases hpos : t.Quantity > 0
    · simp only [stepFIFO64, if_neg hb, if_pos hpos]
      exact hset _ (happ _ _ _ _ (closeLoop64_lots_ge _ _ _ _ _ (hs t.Symbol)))
    · by_cases hneg : t.Quantity < 0
      · simp only [stepFIFO64, if_neg hb, if_neg hpos, if_pos hneg]
        exact hset _ (happ _ _ _ _ (closeLoop64_lots_ge _ _ _ _ _ (hs t.Symbol)))
      · simp only [stepFIFO64, if_neg hb, if_neg hpos, if_neg hneg]
        exact hs

/-- The amended lot-quantity bound holds of the `float64` pass as well: after
any list of trades every lot in every ledger holds at least the `float64`
constant `1e-9`. -/
theorem runFIFO64_lots_ge (pre : List Trade) (sym : String) :
    ∀ l ∈ lotsOf (runFIFO64 pre).openLots sym, eps64 ≤ l.qty := by
  have h : ∀ (trades : List Trade) (s : State),
      (∀ sym, ∀ l ∈ lotsOf s.openLots sym, eps64 ≤ l.qty) →
      ∀ sym, ∀ l ∈ lotsOf (trades.foldl stepFIFO64 s).openLots sym, eps64 ≤ l.qty := by
    intro trades
    induction trades with
    | nil => intro s hs; exact hs
    | cons t rest ih =>
      intro s hs
      rw [List.foldl_cons]
      exact ih _ (stepFIFO64_lots_ge s t hs)
  exact h pre State.init (by intro sym l hl; simp [State.init, lotsOf_nil] at hl) sym

/-! ## Dates that are not ASCII (C18) -/

theorem goBytes_ascii_example : goBytes "2024-02-20" = "2024-02-20" := by decide

theorem goBytes_exByteDate : goBytes "20240é1" = "20240\xC3\xA91" := by decide

/-- The date `2024é` is six bytes long, and its month key is the whole
six-byte string, as `nd[:6]` is in the source. -/
theorem monthKey_six_bytes : monthKey (goBytes "2024é") = goBytes "2024é" := by decide

/-- The month key of `20240é1` is its first six bytes, which end inside `é`. -/
theorem monthKey_exByteDate : monthKey "20240\xC3\xA91" = "20240\xC3" := by decide

/-- The first six characters of `20240é1` are `20240é`, seven bytes. -/
theorem six_characters_exByteDate :
    goBytes (String.mk ("20240é1".data.take 6)) = "20240\xC3\xA9" := by decide

theorem filteredTrades_exByteDate :
    filteredTrades exByteDate "" "" =
      [⟨"ACME", "20240\xC3\xA91", "20240102;093000", 1, -10, 0, "O", "ExchTrade"⟩,
       ⟨"ACME", "20240\xC3\xA91", "20240103;093000", -1, 15, 0, "C", "ExchTrade"⟩] := by
  simp [filteredTrades, exByteDate, inDateRange]

theorem computeFIFOPnL_exByteDate :
    computeFIFOPnL insertionSortByDateTime (filteredTrades exByteDate "" "") =
      [("ACME", 5)] := by
  have hs : insertionSortByDateTime
      [⟨"ACME", "20240\xC3\xA91", "20240102;093000", 1, -10, 0, "O", "ExchTrade"⟩,
       ⟨"ACME", "20240\xC3\xA91", "20240103;093000", -1, 15, 0, "C", "ExchTrade"⟩] =
      [⟨"ACME", "20240\xC3\xA91", "20240102;093000", 1, -10, 0, "O", "ExchTrade"⟩,
       ⟨"ACME", "20240\xC3\xA91", "20240103;093000", -1, 15, 0, "C", "ExchTrade"⟩] := by
    apply insertionSortByDateTime_eq_of_increasing
    simp [String.lt_iff_toList_lt]
    decide
  have hr := runFIFO_long_round_trip
    ⟨"ACME", "20240\xC3\xA91", "20240102;093000", 1, -10, 0, "O", "ExchTrade"⟩
    ⟨"ACME", "20240\xC3\xA91", "20240103;093000", -1, 15, 0, "C", "ExchTrade"⟩ 1
    (by norm_num [eps]) rfl (by decide) (by decide) rfl rfl
  rw [filteredTrades_exByteDate]
  unfold computeFIFOPnL
  rw [hs, hr]
  norm_num [netCash]

theorem ByMonth_exByteDate :
    (AnalyzePnL insertionSortByDateTime id id id exByteDate "" "").ByMonth =
      [⟨"20240\xC3", 5, 1, 0⟩] := by
  simp only [AnalyzePnL, analyzeLoops, computeFIFOPnL_exByteDate, id]
  rw [filteredTrades_exByteDate]
  simp [tradeLoopStep, pnlLoopStep, firstClosingMonth, monthKey_exByteDate, mapGet?, mapSet]
  norm_num

theorem firstQualifying_exByteDate :
    firstQualifying (filteredTrades exByteDate "" "") "ACME" =
      some ⟨"ACME", "20240\xC3\xA91", "20240103;093000", -1, 15, 0, "C", "ExchTrade"⟩ := by
  rw [filteredTrades_exByteDate]
  simp [firstQualifying, List.filter_cons]

/-- C18 (as stated, refuted), in two ways.  (1) In `exShortDate` the symbol
ACME is reported with a realized P&L of 5, its first qualifying trade in the
filtered list is the sale, and the first six characters of that trade's
normalized `TradeDate` are `"2024"`; no bucket of the report has that `Period`,
the P&L is in the bucket with the empty `Period` (guard `len(nd) >= 6`).
(2) In `exByteDate` the trade date is the text `20240é1`, whose first six
characters are `20240é`; no bucket has that `Period`, the P&L of 5 is in the
bucket whose `Period` is the first six bytes of the date (`nd[:6]`), which
end inside `é`. -/
theorem month_bucketing_counterexample :
    (computeFIFOPnL insertionSortByDateTime (filteredTrades exShortDate "" "") =
        [("ACME", 5)] ∧
      ¬ (|(5 : ℚ)| < 1 / 1000000) ∧
      firstQualifying (filteredTrades exShortDate "" "") "ACME" =
        some ⟨"ACME", "2024", "20240103;093000", -1, 15, 0, "C", "ExchTrade"⟩ ∧
      String.mk ((normalizeDate "2024").data.take 6) = "2024" ∧
      (∀ mp ∈ (AnalyzePnL insertionSortByDateTime id id id exShortDate "" "").ByMonth,
        mp.Period ≠ String.mk ((normalizeDate "2024").data.take 6)) ∧
      bucketPnL (AnalyzePnL insertionSortByDateTime id id id exShortDate "" "").ByMonth
        (String.mk ((normalizeDate "2024").data.take 6)) = 0 ∧
      bucketPnL (AnalyzePnL insertionSortByDateTime id id id exShortDate "" "").ByMonth "" = 5) ∧
      computeFIFOPnL insertionSortByDateTime (filteredTrades exByteDate "" "") =
        [("ACME", 5)] ∧
      firstQualifying (filteredTrades exByteDate "" "") "ACME" =
        some ⟨"ACME", goBytes "20240é1", "20240103;093000", -1, 15, 0, "C", "ExchTrade"⟩ ∧
      normalizeDate (goBytes "20240é1") = goBytes "20240é1" ∧
      (∀ mp ∈ (AnalyzePnL insertionSortByDateTime id id id exByteDate "" "").ByMonth,
        mp.Period ≠ goBytes (String.mk ("20240é1".data.take 6))) ∧
      bucketPnL (AnalyzePnL insertionSortByDateTime id id id exByteDate "" "").ByMonth
        (goBytes (String.mk ("20240é1".data.take 6))) = 0 ∧
      bucketPnL (AnalyzePnL insertionSortByDateTime id id id exByteDate "" "").ByMonth
        "20240\xC3" = 5 := by
  refine ⟨AnalyzePnL_exShortDate_bucket, computeFIFOPnL_exByteDate, ?_, by decide, ?_, ?_, ?_⟩
  · rw [goBytes_exByteDate]
    exact firstQualifying_exByteDate
  · rw [ByMonth_exByteDate, six_characters_exByteDate]
    intro mp hmp
    simp only [List.mem_singleton] at hmp
    rw [hmp]
    decide
  · rw [ByMonth_exByteDate, six_characters_exByteDate]
    simp [bucketPnL]
  · rw [ByMonth_exByteDate]
    simp [bucketPnL]

/-! ## `sort.Slice` sorts

The functions of `zsortfunc.go` rearrange the slice inside the range they are
given and leave that range in order, for every `less` that is a strict weak
order and whatever `breakPatterns_func` draws. -/

namespace sort

variable {α : Type}

/-! ### The order -/

theorem StrictWeak.asymm {less : α → α → Bool} (hw : StrictWeak less) {a b : α}
    (h : less a b = true) : less b a = false := by
  cases hb : less b a with
  | false => rfl
  | true =>
    have := hw.trans a b a h hb
    rw [hw.irrefl] at this
    exact absurd this (by simp)

theorem StrictWeak.lt_of_lt_of_not {less : α → α → Bool} (hw : StrictWeak less) {a b c : α}
    (h1 : less a b = true) (h2 : less c b = false) : less a c = true := by
  cases hc : less a c with
  | true => rfl
  | false =>
    have := hw.negTrans a c b hc h2
    rw [h1] at this
    exact absurd this (by simp)

theorem StrictWeak.lt_of_not_of_lt {less : α → α → Bool} (hw : StrictWeak less) {a b c : α}
    (h1 : less b a = false) (h2 : less b c = true) : less a c = true := by
  cases hc : less a c with
  | true => rfl
  | false =>
    have := hw.negTrans b a c h1 hc
    rw [h2] at this
    exact absurd this (by simp)

variable [Inhabited α]

/-! ### Reads and swaps -/

theorem length_Swap (d : List α) (i j : ℕ) : (Swap d i j).length = d.length := by
  simp [Swap]

theorem elem_of_lt (d : List α) (k : ℕ) (h : k < d.length) : elem d k = d[k] := by
  simp [elem, List.getD_eq_getElem?_getD, List.getElem?_eq_getElem h]

theorem elem_Swap (d : List α) (i j k : ℕ) (hi : i < d.length) (hj : j < d.length) :
    elem (Swap d i j) k = if k = j then elem d i else if k = i then elem d j else elem d k := by
  unfold Swap elem
  simp only [List.getD_eq_getElem?_getD, List.getElem?_set]
  by_cases h1 : k = j
  · subst h1
    simp [hj]
  · by_cases h2 : k = i
    · subst h2
      have : ¬ j = k := fun h => h1 h.symm
      simp [this, hi, h1]
    · have h3 : ¬ j = k := fun h => h1 h.symm
      have h4 : ¬ i = k := fun h => h2 h.symm
      simp [h1, h2, h3, h4]

theorem PermOn.refl (a b : ℕ) (d : List α) : PermOn a b d d :=
  ⟨rfl, Equiv.refl ℕ, fun _ _ => rfl, fun _ => rfl⟩

theorem PermOn.trans {a b : ℕ} {d d' d'' : List α} (h1 : PermOn a b d d')
    (h2 : PermOn a b d' d'') : PermOn a b d d'' := by
  obtain ⟨l1, σ1, f1, e1⟩ := h1
  obtain ⟨l2, σ2, f2, e2⟩ := h2
  refine ⟨l2.trans l1, σ2.trans σ1, ?_, ?_⟩
  · intro k hk
    simp only [Equiv.trans_apply]
    rw [f2 k hk, f1 k hk]
  · intro k
    simp only [Equiv.trans_apply]
    rw [e2, e1]

theorem PermOn.mono {a b a' b' : ℕ} {d d' : List α} (h : PermOn a' b' d d') (ha : a ≤ a')
    (hb : b' ≤ b) : PermOn a b d d' := by
  obtain ⟨l1, σ1, f1, e1⟩ := h
  refine ⟨l1, σ1, ?_, e1⟩
  intro k hk
  apply f1
  rcases hk with hk | hk
  · exact Or.inl (by omega)
  · exact Or.inr (by omega)

theorem PermOn.length {a b : ℕ} {d d' : List α} (h : PermOn a b d d') :
    d'.length = d.length := h.1

theorem PermOn_Swap (a b : ℕ) (d : List α) (i j : ℕ) (hai : a ≤ i) (hib : i < b)
    (haj : a ≤ j) (hjb : j < b) (hb : b ≤ d.length) : PermOn a b d (Swap d i j) := by
  refine ⟨length_Swap d i j, Equiv.swap i j, ?_, ?_⟩
  · intro k hk
    apply Equiv.swap_apply_of_ne_of_ne <;> omega
  · intro k
    rw [elem_Swap d i j k (by omega) (by omega)]
    by_cases h1 : k = j
    · subst h1
      simp
    · by_cases h2 : k = i
      · subst h2
        simp [h1]
      · rw [if_neg h1, if_neg h2, Equiv.swap_apply_of_ne_of_ne h2 h1]

theorem PermOn.elem_out {a b : ℕ} {d d' : List α} (h : PermOn a b d d') (k : ℕ)
    (hk : k < a ∨ b ≤ k) : elem d' k = elem d k := by
  obtain ⟨_, σ, f, e⟩ := h
  rw [e, f k hk]

theorem PermOn.exists_in {a b : ℕ} {d d' : List α} (h : PermOn a b d d') (k : ℕ)
    (hak : a ≤ k) (hkb : k < b) : ∃ m, a ≤ m ∧ m < b ∧ elem d' k = elem d m := by
  obtain ⟨_, σ, f, e⟩ := h
  refine ⟨σ k, ?_, ?_, e k⟩
  · by_contra hlt
    have h1 := f (σ k) (Or.inl (by omega))
    have h2 := σ.injective h1
    omega
  · by_contra hge
    have h1 := f (σ k) (Or.inr (by omega))
    have h2 := σ.injective h1
    omega

theorem PermOn.forall_in {a b : ℕ} {d d' : List α} (h : PermOn a b d d') (P : α → Prop)
    (hP : ∀ k, a ≤ k → k < b → P (elem d k)) : ∀ k, a ≤ k → k < b → P (elem d' k) := by
  intro k hak hkb
  obtain ⟨m, hm1, hm2, hm3⟩ := h.exists_in k hak hkb
  rw [hm3]
  exact hP m hm1 hm2

theorem map_elem_range (d : List α) : (List.range d.length).map (elem d) = d := by
  apply List.ext_getElem
  · simp
  · intro n h1 h2
    simp [elem_of_lt d n h2]

theorem PermOn.perm {b : ℕ} {d d' : List α} (h : PermOn 0 b d d') (hb : b ≤ d.length) :
    d'.Perm d := by
  obtain ⟨hl, σ, f, e⟩ := h
  have h1 : d' = ((List.range d.length).map σ).map (elem d) := by
    conv_lhs => rw [← map_elem_range d', hl]
    rw [List.map_map]
    apply List.map_congr_left
    intro k _
    exact e k
  have h2 : ((List.range d.length).map σ).Perm (List.range d.length) := by
    apply (List.perm_ext_iff_of_nodup ?_ (List.nodup_range _)).mpr
    · intro k
      simp only [List.mem_map, List.mem_range]
      constructor
      · rintro ⟨m, hm, rfl⟩
        by_contra hge
        have h1 := f (σ m) (Or.inr (by omega))
        have h2 := σ.injective h1
        omega
      · intro hk
        refine ⟨σ.symm k, ?_, by simp⟩
        by_contra hge
        have h1 := f (σ.symm k) (Or.inr (by omega))
        rw [Equiv.apply_symm_apply] at h1
        omega
    · exact (List.nodup_range _).map σ.injective
  conv_rhs => rw [← map_elem_range d]
  rw [h1]
  exact h2.map _

theorem SortedOn_of_adjacent {less : α → α → Bool} (hw : StrictWeak less) (a b : ℕ)
    (d : List α) (h : ∀ k, a < k → k < b → less (elem d k) (elem d (k - 1)) = false) :
    SortedOn less a b d := by
  intro i j hai hij hjb
  induction j with
  | zero => omega
  | succ j ih =>
    by_cases hj : i = j
    · subst hj
      exact h (i + 1) (by omega) hjb
    · have h1 := ih (by omega) (by omega)
      have h2 := h (j + 1) (by omega) hjb
      simp only [Nat.add_sub_cancel] at h2
      exact hw.negTrans _ _ _ h2 h1

theorem SortedOn_perm_out {less : α → α → Bool} {a b a' b' : ℕ} {d d' : List α}
    (h : SortedOn less a b d) (hp : PermOn a' b' d d') (hd : b ≤ a' ∨ b' ≤ a) :
    SortedOn less a b d' := by
  intro i j hai hij hjb
  rw [hp.elem_out i (by omega), hp.elem_out j (by omega)]
  exact h i j hai hij hjb

/-! ### `insertionSort_func` -/

theorem insertionInner_spec {less : α → α → Bool} (hw : StrictWeak less) (a i : ℕ) :
    ∀ (j : ℕ) (d : List α), a ≤ j → j ≤ i → i < d.length →
      (∀ p q, a ≤ p → p < q → q ≤ i → p ≠ j → q ≠ j → less (elem d q) (elem d p) = false) →
      (∀ q, j < q → q ≤ i → less (elem d q) (elem d j) = false) →
      PermOn a (i + 1) d (insertionInner less a j d) ∧
        SortedOn less a (i + 1) (insertionInner less a j d) := by
  intro j
  induction j with
  | zero =>
    intro d ha _ _ hE hL
    have ha0 : a = 0 := by omega
    subst ha0
    refine ⟨PermOn.refl _ _ _, ?_⟩
    intro p q _ hpq hq
    simp only [insertionInner]
    by_cases hp : p = 0
    · subst hp
      exact hL q hpq (by omega)
    · exact hE p q (by omega) hpq (by omega) hp (by omega)
  | succ j ih =>
    intro d ha hji hil hE hL
    by_cases hc : j + 1 > a ∧ less (elem d (j + 1)) (elem d j) = true
    · have hstep : insertionInner less a (j + 1) d =
          insertionInner less a j (Swap d (j + 1) j) := by
        rw [insertionInner, if_pos hc]
      have hsw : ∀ k, elem (Swap d (j + 1) j) k =
          if k = j then elem d (j + 1) else if k = j + 1 then elem d j else elem d k :=
        fun k => elem_Swap d (j + 1) j k (by omega) (by omega)
      have hperm : PermOn a (i + 1) d (Swap d (j + 1) j) :=
        PermOn_Swap a (i + 1) d (j + 1) j (by omega) (by omega) (by omega) (by omega) (by omega)
      have hrec := ih (Swap d (j + 1) j) (by omega) (by omega)
        (by rw [length_Swap]; exact hil)
        (by
          intro p q hap hpq hqi hpj hqj
          rw [hsw p, hsw q, if_neg hpj, if_neg hqj]
          by_cases hq1 : q = j + 1
          · subst hq1
            rw [if_pos rfl]
            have hp1 : p ≠ j + 1 := by omega
            rw [if_neg hp1]
            exact hE p j hap (by omega) (by omega) (by omega) (by omega)
          · rw [if_neg hq1]
            by_cases hp1 : p = j + 1
            · subst hp1
              rw [if_pos rfl]
              exact hE j q (by omega) (by omega) hqi (by omega) hq1
            · rw [if_neg hp1]
              exact hE p q hap hpq hqi hp1 hq1)
        (by
          intro q hjq hqi
          rw [hsw q, hsw j, if_pos rfl, if_neg (by omega)]
          by_cases hq1 : q = j + 1
          · subst hq1
            rw [if_pos rfl]
            exact hw.asymm hc.2
          · rw [if_neg hq1]
            exact hL q (by omega) hqi)
      rw [hstep]
      exact ⟨hperm.trans hrec.1, hrec.2⟩
    · have hstep : insertionInner less a (j + 1) d = d := by
        rw [insertionInner, if_neg hc]
      rw [hstep]
      refine ⟨PermOn.refl _ _ _, ?_⟩
      intro p q hap hpq hqi
      by_cases hq1 : q = j + 1
      · subst hq1
        have hja : j + 1 > a := by omega
        have hlt : less (elem d (j + 1)) (elem d j) = false := by
          cases hl : less (elem d (j + 1)) (elem d j) with
          | false => rfl
          | true => exact absurd ⟨hja, hl⟩ hc
        by_cases hpj : p = j
        · subst hpj
          exact hlt
        · have := hE p j hap (by omega) (by omega) (by omega) (by omega)
          exact hw.negTrans _ _ _ hlt this
      · by_cases hp1 : p = j + 1
        · subst hp1
          exact hL q hpq (by omega)
        · exact hE p q hap hpq (by omega) hp1 hq1

theorem insertionSort_range_spec {less : α → α → Bool} (hw : StrictWeak less) (a b : ℕ) :
    ∀ (n i : ℕ) (d : List α), a < i → i + n = b → b ≤ d.length → SortedOn less a i d →
      PermOn a b d ((List.range' i n).foldl (fun d i => insertionInner less a i d) d) ∧
        SortedOn less a b
          ((List.range' i n).foldl (fun d i => insertionInner less a i d) d) := by
  intro n
  induction n with
  | zero =>
    intro i d _ hin _ hs
    simp only [List.range'_zero, List.foldl_nil]
    have : i = b := by omega
    subst this
    exact ⟨PermOn.refl _ _ _, hs⟩
  | succ n ih =>
    intro i d hai hin hb hs
    rw [List.range'_succ, List.foldl_cons]
    have h1 := insertionInner_spec hw a i i d (by omega) (le_refl _) (by omega)
      (by
        intro p q hap hpq hqi _ hqne
        exact hs p q hap hpq (by omega))
      (by intro q hq1 hq2; omega)
    have h2 := ih (i + 1) (insertionInner less a i d) (by omega) (by omega)
      (by rw [h1.1.length]; exact hb) h1.2
    exact ⟨(h1.1.mono (le_refl _) (by omega)).trans h2.1, h2.2⟩

theorem insertionSort_func_spec {less : α → α → Bool} (hw : StrictWeak less) (d : List α)
    (a b : ℕ) (hb : b ≤ d.length) :
    PermOn a b d (insertionSort_func less d a b) ∧
      SortedOn less a b (insertionSort_func less d a b) := by
  unfold insertionSort_func
  by_cases hab : a + 1 ≤ b
  · exact insertionSort_range_spec hw a b (b - (a + 1)) (a + 1) d (by omega) (by omega) hb
      (by intro i j h1 h2 h3; omega)
  · have : b - (a + 1) = 0 := by omega
    rw [this]
    simp only [List.range'_zero, List.foldl_nil]
    exact ⟨PermOn.refl _ _ _, by intro i j h1 h2 h3; omega⟩

/-! ### The scanning loops -/

theorem scanUp_spec (p : ℕ → Bool) (j : ℕ) :
    ∀ (steps i : ℕ), i ≤ j + 1 → j + 1 - i ≤ steps →
      i ≤ scanUp p j steps i ∧ scanUp p j steps i ≤ j + 1 ∧
        (∀ k, i ≤ k → k < scanUp p j steps i → p k = true) ∧
        (scanUp p j steps i ≤ j → p (scanUp p j steps i) = false) := by
  intro steps
  induction steps with
  | zero =>
    intro i h1 h2
    simp only [scanUp]
    exact ⟨le_refl _, h1, by intro k h3 h4; omega, by intro h; omega⟩
  | succ steps ih =>
    intro i h1 h2
    by_cases hc : i ≤ j ∧ p i = true
    · have hstep : scanUp p j (steps + 1) i = scanUp p j steps (i + 1) := by
        rw [scanUp, if_pos hc]
      rw [hstep]
      obtain ⟨r1, r2, r3, r4⟩ := ih (i + 1) (by omega) (by omega)
      refine ⟨by omega, r2, ?_, r4⟩
      intro k hk1 hk2
      by_cases hki : k = i
      · subst hki; exact hc.2
      · exact r3 k (by omega) hk2
    · have hstep : scanUp p j (steps + 1) i = i := by
        rw [scanUp, if_neg hc]
      rw [hstep]
      refine ⟨le_refl _, h1, by intro k h3 h4; omega, ?_⟩
      intro hij
      cases hp : p i with
      | false => rfl
      | true => exact absurd ⟨hij, hp⟩ hc

theorem scanDown_spec (p : ℕ → Bool) (i : ℕ) (hi : 1 ≤ i) :
    ∀ (j : ℕ), i ≤ j + 1 →
      scanDown p i j ≤ j ∧ i ≤ scanDown p i j + 1 ∧
        (∀ k, scanDown p i j < k → k ≤ j → p k = true) ∧
        (i ≤ scanDown p i j → p (scanDown p i j) = false) := by
  intro j
  induction j with
  | zero =>
    intro h1
    simp only [scanDown]
    exact ⟨le_refl _, h1, by intro k h3 h4; omega, by intro h; omega⟩
  | succ j ih =>
    intro h1
    by_cases hc : i ≤ j + 1 ∧ p (j + 1) = true
    · have hstep : scanDown p i (j + 1) = scanDown p i j := by
        rw [scanDown, if_pos hc]
      rw [hstep]
      obtain ⟨r1, r2, r3, r4⟩ := ih hc.1
      refine ⟨by omega, r2, ?_, r4⟩
      intro k hk1 hk2
      by_cases hkj : k = j + 1
      · subst hkj; exact hc.2
      · exact r3 k hk1 (by omega)
    · have hstep : scanDown p i (j + 1) = j + 1 := by
        rw [scanDown, if_neg hc]
      rw [hstep]
      refine ⟨le_refl _, by omega, by intro k h3 h4; omega, ?_⟩
      intro hij
      cases hp : p (j + 1) with
      | false => rfl
      | true => exact absurd ⟨hij, hp⟩ hc

/-! ### `partition_func` -/

theorem partitionLoop_spec (less : α → α → Bool) (a b : ℕ) :
    ∀ (steps : ℕ) (d : List α) (i j : ℕ), a < i → i ≤ j + 1 → j < b → b ≤ d.length →
      j + 1 - i ≤ steps →
      (∀ k, a < k → k < i → less (elem d k) (elem d a) = true) →
      (∀ k, j < k → k < b → less (elem d k) (elem d a) = false) →
      PermOn (a + 1) b d (partitionLoop less a steps d i j).1 ∧
        a ≤ (partitionLoop less a steps d i j).2 ∧ (partitionLoop less a steps d i j).2 < b ∧
        (∀ k, a < k → k ≤ (partitionLoop less a steps d i j).2 →
          less (elem (partitionLoop less a steps d i j).1 k) (elem d a) = true) ∧
        (∀ k, (partitionLoop less a steps d i j).2 < k → k < b →
          less (elem (partitionLoop less a steps d i j).1 k) (elem d a) = false) := by
  intro steps
  induction steps with
  | zero =>
    intro d i j hai hij hjb hb hst hL hR
    simp only [partitionLoop]
    exact ⟨PermOn.refl _ _ _, by omega, hjb, fun k h1 h2 => hL k h1 (by omega), hR⟩
  | succ steps ih =>
    intro d i j hai hij hjb hb hst hL hR
    obtain ⟨u1, u2, u3, u4⟩ := scanUp_spec (fun i => less (elem d i) (elem d a)) j (j + 1) i
      hij (by omega)
    obtain ⟨v1, v2, v3, v4⟩ := scanDown_spec (fun j => !less (elem d j) (elem d a))
      (scanUp (fun i => less (elem d i) (elem d a)) j (j + 1) i) (by omega) j u2
    generalize hi' : scanUp (fun i => less (elem d i) (elem d a)) j (j + 1) i = i' at *
    generalize hj' : scanDown (fun j => !less (elem d j) (elem d a)) i' j = j' at *
    have hL' : ∀ k, a < k → k < i' → less (elem d k) (elem d a) = true := by
      intro k h1 h2
      by_cases hk : k < i
      · exact hL k h1 hk
      · exact u3 k (by omega) h2
    have hR' : ∀ k, j' < k → k < b → less (elem d k) (elem d a) = false := by
      intro k h1 h2
      by_cases hk : j < k
      · exact hR k hk h2
      · have := v3 k h1 (by omega)
        simpa using this
    by_cases hc : i' > j'
    · have hstep : partitionLoop less a (steps + 1) d i j = (d, j') := by
        rw [partitionLoop]
        simp only [hi', hj', if_pos hc]
      rw [hstep]
      exact ⟨PermOn.refl _ _ _, by omega, by omega, fun k h1 h2 => hL' k h1 (by omega), hR'⟩
    · have hstep : partitionLoop less a (steps + 1) d i j =
          partitionLoop less a steps (Swap d i' j') (i' + 1) (j' - 1) := by
        rw [partitionLoop]
        simp only [hi', hj', if_neg hc]
      have hle : i' ≤ j' := by omega
      have hi'f : less (elem d i') (elem d a) = false := u4 (by omega)
      have hj'f : less (elem d j') (elem d a) = true := by
        have := v4 hle
        simpa using this
      have hne : i' ≠ j' := by
        intro h
        rw [h, hj'f] at hi'f
        exact absurd hi'f (by simp)
      have hsw : ∀ k, elem (Swap d i' j') k =
          if k = j' then elem d i' else if k = i' then elem d j' else elem d k :=
        fun k => elem_Swap d i' j' k (by omega) (by omega)
      have hswa : elem (Swap d i' j') a = elem d a := by
        rw [hsw a, if_neg (by omega), if_neg (by omega)]
      have hperm : PermOn (a + 1) b d (Swap d i' j') :=
        PermOn_Swap (a + 1) b d i' j' (by omega) (by omega) (by omega) (by omega) hb
      obtain ⟨r1, r2, r3, r4, r5⟩ := ih (Swap d i' j') (i' + 1) (j' - 1) (by omega) (by omega)
        (by omega) (by rw [length_Swap]; exact hb) (by omega)
        (by
          intro k h1 h2
          rw [hswa, hsw k, if_neg (by omega)]
          by_cases hk : k = i'
          · rw [if_pos hk]; exact hj'f
          · rw [if_neg hk]; exact hL' k h1 (by omega))
        (by
          intro k h1 h2
          rw [hswa, hsw k]
          by_cases hk : k = j'
          · rw [if_pos hk]; exact hi'f
          · rw [if_neg hk, if_neg (by omega)]
            exact hR' k (by omega) h2)
      rw [hstep]
      rw [hswa] at r4 r5
      exact ⟨hperm.trans r1, r2, r3, r4, r5⟩

theorem partition_func_spec {less : α → α → Bool} (hw : StrictWeak less) (d : List α)
    (a b pivot : ℕ) (hap : a ≤ pivot) (hpb : pivot < b) (hb : b ≤ d.length) :
    PermOn a b d (partition_func less d a b pivot).1 ∧
      a ≤ (partition_func less d a b pivot).2.1 ∧ (partition_func less d a b pivot).2.1 < b ∧
      elem (partition_func less d a b pivot).1 (partition_func less d a b pivot).2.1 =
        elem d pivot ∧
      (∀ k, a ≤ k → k < (partition_func less d a b pivot).2.1 →
        less (elem (partition_func less d a b pivot).1 k) (elem d pivot) = true) ∧
      (∀ k, (partition_func less d a b pivot).2.1 < k → k < b →
        less (elem (partition_func less d a b pivot).1 k) (elem d pivot) = false) := by
  have hp0 : PermOn a b d (Swap d a pivot) :=
    PermOn_Swap a b d a pivot (le_refl _) (by omega) hap hpb hb
  have hl0 : (Swap d a pivot).length = d.length := length_Swap _ _ _
  have hpv : elem (Swap d a pivot) a = elem d pivot := by
    rw [elem_Swap d a pivot a (by omega) (by omega)]
    by_cases h : a = pivot
    · rw [if_pos h, h]
    · rw [if_neg h, if_pos rfl]
  generalize hd0 : Swap d a pivot = d0 at *
  obtain ⟨u1, u2, u3, u4⟩ := scanUp_spec (fun i => less (elem d0 i) (elem d0 a)) (b - 1) b
    (a + 1) (by omega) (by omega)
  obtain ⟨v1, v2, v3, v4⟩ := scanDown_spec (fun j => !less (elem d0 j) (elem d0 a))
    (scanUp (fun i => less (elem d0 i) (elem d0 a)) (b - 1) b (a + 1)) (by omega) (b - 1) u2
  generalize hi' : scanUp (fun i => less (elem d0 i) (elem d0 a)) (b - 1) b (a + 1) = i at *
  generalize hj' : scanDown (fun j => !less (elem d0 j) (elem d0 a)) i (b - 1) = j at *
  have hL : ∀ k, a < k → k < i → less (elem d0 k) (elem d0 a) = true :=
    fun k h1 h2 => u3 k (by omega) h2
  have hR : ∀ k, j < k → k < b → less (elem d0 k) (elem d0 a) = false := by
    intro k h1 h2
    have := v3 k h1 (by omega)
    simpa using this
  have hfin : ∀ (e : List α) (m : ℕ), PermOn (a + 1) b d0 e → a ≤ m → m < b →
      (∀ k, a < k → k ≤ m → less (elem e k) (elem d0 a) = true) →
      (∀ k, m < k → k < b → less (elem e k) (elem d0 a) = false) →
      PermOn a b d (Swap e m a) ∧ elem (Swap e m a) m = elem d pivot ∧
        (∀ k, a ≤ k → k < m → less (elem (Swap e m a) k) (elem d pivot) = true) ∧
        (∀ k, m < k → k < b → less (elem (Swap e m a) k) (elem d pivot) = false) := by
    intro e m hpe ham hmb hl hr
    have hel : e.length = d.length := hpe.length.trans hl0
    have hea : elem e a = elem d pivot := by
      rw [hpe.elem_out a (Or.inl (by omega)), hpv]
    have hsw : ∀ k, elem (Swap e m a) k =
        if k = a then elem e m else if k = m then elem e a else elem e k :=
      fun k => elem_Swap e m a k (by omega) (by omega)
    refine ⟨(hp0.trans (hpe.mono (by omega) (le_refl _))).trans
      (PermOn_Swap a b e m a ham hmb (le_refl _) (by omega) (by omega)), ?_, ?_, ?_⟩
    · rw [hsw m]
      by_cases h : m = a
      · rw [if_pos h, h, hea]
      · rw [if_neg h, if_pos rfl, hea]
    · intro k h1 h2
      rw [hsw k, ← hpv]
      by_cases hk : k = a
      · rw [if_pos hk]
        exact hl m (by omega) (le_refl _)
      · rw [if_neg hk, if_neg (by omega)]
        exact hl k (by omega) (by omega)
    · intro k h1 h2
      rw [hsw k, if_neg (by omega), if_neg (by omega), ← hpv]
      exact hr k h1 h2
  by_cases hc : i > j
  · have hres : partition_func less d a b pivot = (Swap d0 j a, j, true) := by
      unfold partition_func
      simp only [hd0, hi', hj', if_pos hc]
    rw [hres]
    obtain ⟨f1, f2, f3, f4⟩ := hfin d0 j (PermOn.refl _ _ _) (by omega) (by omega)
      (fun k h1 h2 => hL k h1 (by omega)) hR
    exact ⟨f1, show a ≤ j by omega, show j < b by omega, f2, f3, f4⟩
  · have hres : partition_func less d a b pivot =
        (Swap (partitionLoop less a (b - a) (Swap d0 i j) (i + 1) (j - 1)).1
            (partitionLoop less a (b - a) (Swap d0 i j) (i + 1) (j - 1)).2 a,
          (partitionLoop less a (b - a) (Swap d0 i j) (i + 1) (j - 1)).2, false) := by
      unfold partition_func
      simp only [hd0, hi', hj', if_neg hc]
    have hle : i ≤ j := by omega
    have hif : less (elem d0 i) (elem d0 a) = false := u4 (by omega)
    have hjf : less (elem d0 j) (elem d0 a) = true := by
      have := v4 hle
      simpa using this
    have hne : i ≠ j := by
      intro h
      rw [h, hjf] at hif
      exact absurd hif (by simp)
    have hsw : ∀ k, elem (Swap d0 i j) k =
        if k = j then elem d0 i else if k = i then elem d0 j else elem d0 k :=
      fun k => elem_Swap d0 i j k (by omega) (by omega)
    have hswa : elem (Swap d0 i j) a = elem d0 a := by
      rw [hsw a, if_neg (by omega), if_neg (by omega)]
    have hperm : PermOn (a + 1) b d0 (Swap d0 i j) :=
      PermOn_Swap (a + 1) b d0 i j (by omega) (by omega) (by omega) (by omega) (by omega)
    obtain ⟨r1, r2, r3, r4, r5⟩ := partitionLoop_spec less a b (b - a) (Swap d0 i j) (i + 1)
      (j - 1) (by omega) (by omega) (by omega) (by rw [length_Swap]; omega) (by omega)
      (by
        intro k h1 h2
        rw [hswa, hsw k, if_neg (by omega)]
        by_cases hk : k = i
        · rw [if_pos hk]; exact hjf
        · rw [if_neg hk]; exact hL k h1 (by omega))
      (by
        intro k h1 h2
        rw [hswa, hsw k]
        by_cases hk : k = j
        · rw [if_pos hk]; exact hif
        · rw [if_neg hk, if_neg (by omega)]
          exact hR k (by omega) h2)
    rw [hres]
    rw [hswa] at r4 r5
    obtain ⟨f1, f2, f3, f4⟩ := hfin _ _ (hperm.trans r1) r2 r3 r4 r5
    exact ⟨f1, r2, r3, f2, f3, f4⟩

/-! ### `partitionEqual_func` -/

theorem partitionEqualLoop_spec (less : α → α → Bool) (a b : ℕ) :
    ∀ (steps : ℕ) (d : List α) (i j : ℕ), a < i → i ≤ j + 1 → j < b → b ≤ d.length →
      j + 1 - i ≤ steps →
      (∀ k, a < k → k < i → less (elem d a) (elem d k) = false) →
      (∀ k, j < k → k < b → less (elem d a) (elem d k) = true) →
      PermOn (a + 1) b d (partitionEqualLoop less a steps d i j).1 ∧
        a < (partitionEqualLoop less a steps d i j).2 ∧
        (partitionEqualLoop less a steps d i j).2 ≤ b ∧
        (∀ k, a < k → k < (partitionEqualLoop less a steps d i j).2 →
          less (elem d a) (elem (partitionEqualLoop less a steps d i j).1 k) = false) ∧
        (∀ k, (partitionEqualLoop less a steps d i j).2 ≤ k → k < b →
          less (elem d a) (elem (partitionEqualLoop less a steps d i j).1 k) = true) := by
  intro steps
  induction steps with
  | zero =>
    intro d i j hai hij hjb hb hst hL hR
    simp only [partitionEqualLoop]
    exact ⟨PermOn.refl _ _ _, hai, by omega, hL, fun k h1 h2 => hR k (by omega) h2⟩
  | succ steps ih =>
    intro d i j hai hij hjb hb hst hL hR
    obtain ⟨u1, u2, u3, u4⟩ := scanUp_spec (fun i => !less (elem d a) (elem d i)) j (j + 1) i
      hij (by omega)
    obtain ⟨v1, v2, v3, v4⟩ := scanDown_spec (fun j => less (elem d a) (elem d j))
      (scanUp (fun i => !less (elem d a) (elem d i)) j (j + 1) i) (by omega) j u2
    generalize hi' : scanUp (fun i => !less (elem d a) (elem d i)) j (j + 1) i = i' at *
    generalize hj' : scanDown (fun j => less (elem d a) (elem d j)) i' j = j' at *
    have hL' : ∀ k, a < k → k < i' → less (elem d a) (elem d k) = false := by
      intro k h1 h2
      by_cases hk : k < i
      · exact hL k h1 hk
      · have := u3 k (by omega) h2
        simpa using this
    have hR' : ∀ k, j' < k → k < b → less (elem d a) (elem d k) = true := by
      intro k h1 h2
      by_cases hk : j < k
      · exact hR k hk h2
      · exact v3 k h1 (by omega)
    by_cases hc : i' > j'
    · have hstep : partitionEqualLoop less a (steps + 1) d i j = (d, i') := by
        rw [partitionEqualLoop]
        simp only [hi', hj', if_pos hc]
      rw [hstep]
      exact ⟨PermOn.refl _ _ _, show a < i' by omega, show i' ≤ b by omega, hL',
        fun k h1 h2 => hR' k (by omega) h2⟩
    · have hstep : partitionEqualLoop less a (steps + 1) d i j =
          partitionEqualLoop less a steps (Swap d i' j') (i' + 1) (j' - 1) := by
        rw [partitionEqualLoop]
        simp only [hi', hj', if_neg hc]
      have hle : i' ≤ j' := by omega
      have hi'f : less (elem d a) (elem d i') = true := by
        have := u4 (by omega)
        simpa using this
      have hj'f : less (elem d a) (elem d j') = false := v4 hle
      have hne : i' ≠ j' := by
        intro h
        rw [h, hj'f] at hi'f
        exact absurd hi'f (by simp)
      have hsw : ∀ k, elem (Swap d i' j') k =
          if k = j' then elem d i' else if k = i' then elem d j' else elem d k :=
        fun k => elem_Swap d i' j' k (by omega) (by omega)
      have hswa : elem (Swap d i' j') a = elem d a := by
        rw [hsw a, if_neg (by omega), if_neg (by omega)]
      have hperm : PermOn (a + 1) b d (Swap d i' j') :=
        PermOn_Swap (a + 1) b d i' j' (by omega) (by omega) (by omega) (by omega) hb
      obtain ⟨r1, r2, r3, r4, r5⟩ := ih (Swap d i' j') (i' + 1) (j' - 1) (by omega) (by omega)
        (by omega) (by rw [length_Swap]; exact hb) (by omega)
        (by
          intro k h1 h2
          rw [hswa, hsw k, if_neg (by omega)]
          by_cases hk : k = i'
          · rw [if_pos hk]; exact hj'f
          · rw [if_neg hk]; exact hL' k h1 (by omega))
        (by
          intro k h1 h2
          rw [hswa, hsw k]
          by_cases hk : k = j'
          · rw [if_pos hk]; exact hi'f
          · rw [if_neg hk, if_neg (by omega)]
            exact hR' k (by omega) h2)
      rw [hstep]
      rw [hswa] at r4 r5
      exact ⟨hperm.trans r1, r2, r3, r4, r5⟩

theorem partitionEqual_func_spec {less : α → α → Bool} (hw : StrictWeak less) (d : List α)
    (a b pivot : ℕ) (hap : a ≤ pivot) (hpb : pivot < b) (hb : b ≤ d.length) :
    PermOn a b d (partitionEqual_func less d a b pivot).1 ∧
      a < (partitionEqual_func less d a b pivot).2 ∧
      (partitionEqual_func less d a b pivot).2 ≤ b ∧
      (∀ k, a ≤ k → k < (partitionEqual_func less d a b pivot).2 →
        less (elem d pivot) (elem (partitionEqual_func less d a b pivot).1 k) = false) ∧
      (∀ k, (partitionEqual_func less d a b pivot).2 ≤ k → k < b →
        less (elem d pivot) (elem (partitionEqual_func less d a b pivot).1 k) = true) := by
  have hp0 : PermOn a b d (Swap d a pivot) :=
    PermOn_Swap a b d a pivot (le_refl _) (by omega) hap hpb hb
  have hpv : elem (Swap d a pivot) a = elem d pivot := by
    rw [elem_Swap d a pivot a (by omega) (by omega)]
    by_cases h : a = pivot
    · rw [if_pos h, h]
    · rw [if_neg h, if_pos rfl]
  obtain ⟨r1, r2, r3, r4, r5⟩ := partitionEqualLoop_spec less a b (b - a + 1) (Swap d a pivot)
    (a + 1) (b - 1) (by omega) (by omega) (by omega) (by rw [length_Swap]; exact hb) (by omega)
    (by intro k h1 h2; omega) (by intro k h1 h2; omega)
  unfold partitionEqual_func
  rw [hpv] at r4 r5
  refine ⟨hp0.trans (r1.mono (by omega) (le_refl _)), r2, r3, ?_, r5⟩
  intro k h1 h2
  by_cases hk : k = a
  · rw [hk, r1.elem_out a (Or.inl (by omega)), hpv]
    exact hw.irrefl _
  · exact r4 k (by omega) h2

/-! ### `choosePivot_func`, `reverseRange_func`, `breakPatterns_func` -/

theorem order2_func_mem (less : α → α → Bool) (d : List α) (a b s : ℕ) :
    ((order2_func less d a b s).1 = a ∧ (order2_func less d a b s).2.1 = b) ∨
      ((order2_func less d a b s).1 = b ∧ (order2_func less d a b s).2.1 = a) := by
  unfold order2_func
  split_ifs
  · exact Or.inr ⟨rfl, rfl⟩
  · exact Or.inl ⟨rfl, rfl⟩

theorem median_func_mem (less : α → α → Bool) (d : List α) (a b c s : ℕ) :
    (median_func less d a b c s).1 = a ∨ (median_func less d a b c s).1 = b ∨
      (median_func less d a b c s).1 = c := by
  unfold median_func
  simp only []
  rcases order2_func_mem less d a b s with ⟨h1, h2⟩ | ⟨h1, h2⟩ <;>
    rcases order2_func_mem less d (order2_func less d a b s).2.1 c
      (order2_func less d a b s).2.2 with ⟨h3, h4⟩ | ⟨h3, h4⟩ <;>
    rcases order2_func_mem less d (order2_func less d a b s).1
      (order2_func less d (order2_func less d a b s).2.1 c (order2_func less d a b s).2.2).1
      (order2_func less d (order2_func less d a b s).2.1 c
        (order2_func less d a b s).2.2).2.2 with ⟨h5, h6⟩ | ⟨h5, h6⟩ <;>
    simp_all

theorem choosePivot_func_range (less : α → α → Bool) (d : List α) (a b : ℕ) (hab : a < b) :
    a ≤ (choosePivot_func less d a b).1 ∧ (choosePivot_func less d a b).1 < b := by
  have hr : ∀ r : ℕ × ℕ, (a ≤ r.1 ∧ r.1 < b) →
      a ≤ (if r.2 = 0 then (r.1, sortedHint.increasingHint)
        else if r.2 = 12 then (r.1, sortedHint.decreasingHint)
        else (r.1, sortedHint.unknownHint)).1 ∧
      (if r.2 = 0 then (r.1, sortedHint.increasingHint)
        else if r.2 = 12 then (r.1, sortedHint.decreasingHint)
        else (r.1, sortedHint.unknownHint)).1 < b := by
    intro r h
    split_ifs <;> exact h
  unfold choosePivot_func
  simp only []
  apply hr
  by_cases h8 : b - a ≥ 8
  · rw [if_pos h8]
    by_cases h50 : b - a ≥ 50
    · rw [if_pos h50]
      simp only [medianAdjacent_func]
      have m1 := median_func_mem less d (a + (b - a) / 4 * 1 - 1) (a + (b - a) / 4 * 1)
        (a + (b - a) / 4 * 1 + 1) 0
      generalize (median_func less d (a + (b - a) / 4 * 1 - 1) (a + (b - a) / 4 * 1)
        (a + (b - a) / 4 * 1 + 1) 0) = ri at *
      have m2 := median_func_mem less d (a + (b - a) / 4 * 2 - 1) (a + (b - a) / 4 * 2)
        (a + (b - a) / 4 * 2 + 1) ri.2
      generalize (median_func less d (a + (b - a) / 4 * 2 - 1) (a + (b - a) / 4 * 2)
        (a + (b - a) / 4 * 2 + 1) ri.2) = rj at *
      have m3 := median_func_mem less d (a + (b - a) / 4 * 3 - 1) (a + (b - a) / 4 * 3)
        (a + (b - a) / 4 * 3 + 1) rj.2
      generalize (median_func less d (a + (b - a) / 4 * 3 - 1) (a + (b - a) / 4 * 3)
        (a + (b - a) / 4 * 3 + 1) rj.2) = rk at *
      have m4 := median_func_mem less d ri.1 rj.1 rk.1 rk.2
      omega
    · rw [if_neg h50]
      have m := median_func_mem less d (a + (b - a) / 4 * 1) (a + (b - a) / 4 * 2)
        (a + (b - a) / 4 * 3) 0
      omega
  · rw [if_neg h8]
    simp only []
    omega

theorem reverseRange_func_perm (a b : ℕ) :
    ∀ (steps : ℕ) (d : List α) (i j : ℕ), a ≤ i → j < b → b ≤ d.length →
      PermOn a b d (reverseRange_func steps d i j) := by
  intro steps
  induction steps with
  | zero => intro d i j _ _ _; exact PermOn.refl _ _ _
  | succ steps ih =>
    intro d i j hai hjb hb
    by_cases hc : i < j
    · have hstep : reverseRange_func (steps + 1) d i j =
          reverseRange_func steps (Swap d i j) (i + 1) (j - 1) := by
        rw [reverseRange_func, if_pos hc]
      rw [hstep]
      exact (PermOn_Swap a b d i j hai (by omega) (by omega) hjb hb).trans
        (ih _ _ _ (by omega) (by omega) (by rw [length_Swap]; exact hb))
    · have hstep : reverseRange_func (steps + 1) d i j = d := by
        rw [reverseRange_func, if_neg hc]
      rw [hstep]
      exact PermOn.refl _ _ _

theorem pow_log2Nat_le : ∀ (fuel n : ℕ), 1 ≤ n → 2 ^ log2Nat fuel n ≤ n := by
  intro fuel
  induction fuel with
  | zero => intro n hn; simpa [log2Nat] using hn
  | succ fuel ih =>
    intro n hn
    by_cases h2 : n < 2
    · simp only [log2Nat, if_pos h2]
      simpa using hn
    · simp only [log2Nat, if_neg h2]
      have := ih (n / 2) (by omega)
      rw [pow_succ]
      omega

theorem pow_bitsLen_le (n : ℕ) (hn : 1 ≤ n) : 2 ^ bitsLen n ≤ 2 * n := by
  unfold bitsLen
  rw [if_neg (by omega), pow_succ]
  have := pow_log2Nat_le n n hn
  omega

theorem breakPatterns_func_perm (random : ℕ → ℕ → ℕ) (d : List α) (a b : ℕ)
    (hb : b ≤ d.length) : PermOn a b d (breakPatterns_func random d a b) := by
  unfold breakPatterns_func
  simp only []
  by_cases h8 : b - a ≥ 8
  · rw [if_pos h8]
    have hm := pow_bitsLen_le (b - a) (by omega)
    have hother : ∀ i, (if random (b - a) i % 2 ^ bitsLen (b - a) ≥ b - a
        then random (b - a) i % 2 ^ bitsLen (b - a) - (b - a)
        else random (b - a) i % 2 ^ bitsLen (b - a)) < b - a := by
      intro i
      have h1 : random (b - a) i % 2 ^ bitsLen (b - a) < 2 ^ bitsLen (b - a) :=
        Nat.mod_lt _ (by positivity)
      split_ifs with h
      · omega
      · omega
    have hsw : ∀ (e : List α) (i : ℕ), i < 3 → e.length = d.length →
        PermOn a b e (Swap e (a + (b - a) / 4 * 2 - 1 - 1 + i)
          (a + (if random (b - a) i % 2 ^ bitsLen (b - a) ≥ b - a
            then random (b - a) i % 2 ^ bitsLen (b - a) - (b - a)
            else random (b - a) i % 2 ^ bitsLen (b - a)))) := by
      intro e i hi he
      have := hother i
      exact PermOn_Swap a b e _ _ (by omega) (by omega) (by omega) (by omega) (by omega)
    have e3 : List.range 3 = [0, 1, 2] := by decide
    rw [e3]
    simp only [List.foldl_cons, List.foldl_nil]
    have p0 := hsw d 0 (by omega) rfl
    have p1 := hsw _ 1 (by omega) p0.length
    have p2 := hsw _ 2 (by omega) (p1.length.trans p0.length)
    exact (p0.trans p1).trans p2
  · rw [if_neg h8]
    exact PermOn.refl _ _ _

/-! ### `partialInsertionSort_func` -/

theorem LeftBound.of_perm {less : α → α → Bool} {a b : ℕ} {d d' : List α}
    (h : LeftBound less a b d) (hp : PermOn a b d d') : LeftBound less a b d' := by
  by_cases ha : a = 0
  · exact Or.inl ha
  rcases h with h | h
  · exact Or.inl h
  · right
    intro k h1 h2
    rw [hp.elem_out (a - 1) (Or.inl (by omega))]
    exact hp.forall_in (fun x => less x (elem d (a - 1)) = false) h k h1 h2

theorem shiftLeft_eq_insertionInner (less : α → α → Bool) (a b : ℕ) :
    ∀ (j : ℕ) (d : List α), a ≤ j → j < b → b ≤ d.length → LeftBound less a b d →
      shiftLeft less j d = insertionInner less a j d := by
  intro j
  induction j with
  | zero => intro d _ _ _ _; rfl
  | succ j ih =>
    intro d haj hjb hb hlb
    by_cases ha : a = j + 1
    · have h1 : less (elem d (j + 1)) (elem d j) = false := by
        rcases hlb with h | h
        · omega
        · have := h (j + 1) (by omega) hjb
          rw [ha] at this
          simpa using this
      rw [shiftLeft, insertionInner, if_neg (by rw [h1]; simp), if_neg (by omega)]
    · by_cases hl : less (elem d (j + 1)) (elem d j) = true
      · rw [shiftLeft, insertionInner, if_pos hl, if_pos ⟨by omega, hl⟩]
        apply ih _ (by omega) (by omega) (by rw [length_Swap]; exact hb)
        exact hlb.of_perm (PermOn_Swap a b d (j + 1) j (by omega) hjb (by omega) (by omega) hb)
      · rw [shiftLeft, insertionInner, if_neg hl, if_neg (fun h => hl h.2)]

theorem shiftRight_perm (less : α → α → Bool) (a b : ℕ) :
    ∀ (steps j : ℕ) (d : List α), a < j → b ≤ d.length →
      PermOn (j - 1) b d (shiftRight less b steps j d) := by
  intro steps
  induction steps with
  | zero => intro j d _ _; exact PermOn.refl _ _ _
  | succ steps ih =>
    intro j d haj hb
    by_cases hc : j < b ∧ less (elem d j) (elem d (j - 1)) = true
    · have hstep : shiftRight less b (steps + 1) j d =
          shiftRight less b steps (j + 1) (Swap d j (j - 1)) := by
        rw [shiftRight, if_pos hc]
      rw [hstep]
      have h1 := PermOn_Swap (j - 1) b d j (j - 1) (by omega) hc.1 (le_refl _) (by omega) hb
      have h2 := ih (j + 1) (Swap d j (j - 1)) (by omega) (by rw [length_Swap]; exact hb)
      exact h1.trans (h2.mono (by omega) (le_refl _))
    · have hstep : shiftRight less b (steps + 1) j d = d := by
        rw [shiftRight, if_neg hc]
      rw [hstep]
      exact PermOn.refl _ _ _

theorem insertionInner_self (less : α → α → Bool) (a : ℕ) (d : List α) :
    insertionInner less a a d = d := by
  cases a with
  | zero => rfl
  | succ a => rw [insertionInner, if_neg (by omega)]

theorem partialInsertionLoop_spec {less : α → α → Bool} (hw : StrictWeak less) (a b : ℕ) :
    ∀ (steps i : ℕ) (d : List α), a < i → i ≤ b → b ≤ d.length → LeftBound less a b d →
      (∀ k, a < k → k < i → less (elem d k) (elem d (k - 1)) = false) →
      PermOn a b d (partialInsertionLoop less a b steps i d).1 ∧
        ((partialInsertionLoop less a b steps i d).2 = true →
          SortedOn less a b (partialInsertionLoop less a b steps i d).1) := by
  intro steps
  induction steps with
  | zero =>
    intro i d _ _ _ _ _
    simp only [partialInsertionLoop]
    exact ⟨PermOn.refl _ _ _, by intro h; exact absurd h (by simp)⟩
  | succ steps ih =>
    intro i d hai hib hb hlb hadj
    obtain ⟨u1, u2, u3, u4⟩ := scanUp_spec (fun i => !less (elem d i) (elem d (i - 1)))
      (b - 1) b i (by omega) (by omega)
    generalize hi' : scanUp (fun i => !less (elem d i) (elem d (i - 1))) (b - 1) b i = i' at *
    have hadj' : ∀ k, a < k → k < i' → less (elem d k) (elem d (k - 1)) = false := by
      intro k h1 h2
      by_cases hk : k < i
      · exact hadj k h1 hk
      · have := u3 k (by omega) h2
        simpa using this
    by_cases hc1 : i' = b
    · have hstep : partialInsertionLoop less a b (steps + 1) i d = (d, true) := by
        rw [partialInsertionLoop]
        simp only [hi', if_pos hc1]
      rw [hstep]
      refine ⟨PermOn.refl _ _ _, fun _ => ?_⟩
      apply SortedOn_of_adjacent hw
      intro k h1 h2
      exact hadj' k h1 (by omega)
    · by_cases hc2 : b - a < 50
      · have hstep : partialInsertionLoop less a b (steps + 1) i d = (d, false) := by
          rw [partialInsertionLoop]
          simp only [hi', if_neg hc1, if_pos hc2]
        rw [hstep]
        exact ⟨PermOn.refl _ _ _, by intro h; exact absurd h (by simp)⟩
      · have hi'b : i' < b := by omega
        have hstep : partialInsertionLoop less a b (steps + 1) i d =
            partialInsertionLoop less a b steps i'
              (if b - i' ≥ 2 then
                shiftRight less b b (i' + 1)
                  (if i' - a ≥ 2 then shiftLeft less (i' - 1) (Swap d i' (i' - 1))
                    else Swap d i' (i' - 1))
              else (if i' - a ≥ 2 then shiftLeft less (i' - 1) (Swap d i' (i' - 1))
                    else Swap d i' (i' - 1))) := by
          rw [partialInsertionLoop]
          simp only [hi', if_neg hc1, if_neg hc2]
        have hp1 : PermOn a b d (Swap d i' (i' - 1)) :=
          PermOn_Swap a b d i' (i' - 1) (by omega) hi'b (by omega) (by omega) hb
        have hl1 : (Swap d i' (i' - 1)).length = d.length := length_Swap _ _ _
        have hlb1 := hlb.of_perm hp1
        have hd2 : (if i' - a ≥ 2 then shiftLeft less (i' - 1) (Swap d i' (i' - 1))
            else Swap d i' (i' - 1)) = insertionInner less a (i' - 1) (Swap d i' (i' - 1)) := by
          split_ifs with h
          · exact shiftLeft_eq_insertionInner less a b (i' - 1) _ (by omega) (by omega)
              (by omega) hlb1
          · have : i' - 1 = a := by omega
            rw [this, insertionInner_self]
        have hsorted : SortedOn less a (i' - 1) d := by
          apply SortedOn_of_adjacent hw
          intro k h1 h2
          exact hadj' k h1 (by omega)
        have hins := insertionInner_spec hw a (i' - 1) (i' - 1) (Swap d i' (i' - 1)) (by omega)
          (le_refl _) (by omega)
          (by
            intro p q hap hpq hq hp1' hq1'
            rw [elem_Swap d i' (i' - 1) p (by omega) (by omega),
              elem_Swap d i' (i' - 1) q (by omega) (by omega),
              if_neg hp1', if_neg hq1', if_neg (by omega), if_neg (by omega)]
            exact hsorted p q hap hpq (by omega))
          (by intro q h1 h2; omega)
        rw [hd2] at hstep
        generalize hd2' : insertionInner less a (i' - 1) (Swap d i' (i' - 1)) = d2 at *
        have hi1 : i' - 1 + 1 = i' := by omega
        rw [hi1] at hins
        have hp2 : PermOn a b d d2 := hp1.trans (hins.1.mono (le_refl _) (by omega))
        have hl2 : d2.length = d.length := hp2.length
        have hp3 : PermOn i' b d2
            (if b - i' ≥ 2 then shiftRight less b b (i' + 1) d2 else d2) := by
          split_ifs with h
          · have := shiftRight_perm less a b b (i' + 1) d2 (by omega) (by omega)
            simpa using this
          · exact PermOn.refl _ _ _
        generalize hd3' : (if b - i' ≥ 2 then shiftRight less b b (i' + 1) d2 else d2) = d3 at *
        have hs3 : SortedOn less a i' d3 := SortedOn_perm_out hins.2 hp3 (Or.inl (le_refl _))
        have hp3' : PermOn a b d d3 := hp2.trans (hp3.mono (by omega) (le_refl _))
        obtain ⟨r1, r2⟩ := ih i' d3 (by omega) (by omega) (by rw [hp3'.length]; exact hb)
          (hlb.of_perm hp3')
          (by
            intro k h1 h2
            exact hs3 (k - 1) k (by omega) (by omega) h2)
        rw [hstep]
        exact ⟨hp3'.trans r1, r2⟩

theorem partialInsertionSort_func_spec {less : α → α → Bool} (hw : StrictWeak less)
    (d : List α) (a b : ℕ) (hab : a < b) (hb : b ≤ d.length) (hlb : LeftBound less a b d) :
    PermOn a b d (partialInsertionSort_func less d a b).1 ∧
      ((partialInsertionSort_func less d a b).2 = true →
        SortedOn less a b (partialInsertionSort_func less d a b).1) := by
  unfold partialInsertionSort_func
  exact partialInsertionLoop_spec hw a b 5 (a + 1) d (by omega) (by omega) hb hlb
    (by intro k h1 h2; omega)

/-! ### `heapSort_func` -/

theorem siftDown_func_spec {less : α → α → Bool} (hw : StrictWeak less) (first lo hi : ℕ) :
    ∀ (steps root : ℕ) (d : List α), hi ≤ root + steps → lo ≤ root → first + hi ≤ d.length →
      HeapExcept less first lo hi root d →
      (∀ c, 1 ≤ c → c < hi → (c - 1) / 2 = root → 1 ≤ root → lo ≤ (root - 1) / 2 →
        less (elem d (first + (root - 1) / 2)) (elem d (first + c)) = false) →
      HeapExcept less first lo hi hi (siftDown_func less hi first steps root d) ∧
        PermOn first (first + hi) d (siftDown_func less hi first steps root d) := by
  intro steps
  induction steps with
  | zero =>
    intro root d hst _ _ hH _
    simp only [siftDown_func]
    refine ⟨?_, PermOn.refl _ _ _⟩
    intro c h1 h2 h3 _
    exact hH c h1 h2 h3 (by omega)
  | succ steps ih =>
    intro root d hst hlo hlen hH hG
    by_cases hc1 : 2 * root + 1 ≥ hi
    · have hstep : siftDown_func less hi first (steps + 1) root d = d := by
        rw [siftDown_func, if_pos hc1]
      rw [hstep]
      refine ⟨?_, PermOn.refl _ _ _⟩
      intro c h1 h2 h3 _
      exact hH c h1 h2 h3 (by omega)
    · have hex : ∃ child, (child = 2 * root + 1 ∨ child = 2 * root + 2) ∧ child < hi ∧
          (∀ c, 1 ≤ c → c < hi → (c - 1) / 2 = root →
            less (elem d (first + child)) (elem d (first + c)) = false) ∧
          siftDown_func less hi first (steps + 1) root d =
            if less (elem d (first + root)) (elem d (first + child)) = true then
              siftDown_func less hi first steps child
                (Swap d (first + root) (first + child))
            else d := by
        by_cases hc2 : 2 * root + 1 + 1 < hi ∧
            less (elem d (first + (2 * root + 1))) (elem d (first + (2 * root + 1) + 1)) = true
        · refine ⟨2 * root + 2, Or.inr rfl, hc2.1, ?_, ?_⟩
          · intro c h1 h2 h3
            have hcc : c = 2 * root + 1 ∨ c = 2 * root + 2 := by omega
            rcases hcc with hcc | hcc
            · subst hcc
              exact hw.asymm hc2.2
            · subst hcc
              exact hw.irrefl _
          · rw [siftDown_func, if_neg hc1]
            simp only [if_pos hc2]
        · refine ⟨2 * root + 1, Or.inl rfl, by omega, ?_, ?_⟩
          · intro c h1 h2 h3
            have hcc : c = 2 * root + 1 ∨ c = 2 * root + 2 := by omega
            rcases hcc with hcc | hcc
            · subst hcc
              exact hw.irrefl _
            · subst hcc
              cases hl : less (elem d (first + (2 * root + 1)))
                  (elem d (first + (2 * root + 2))) with
              | false => rfl
              | true => exact absurd ⟨h2, hl⟩ hc2
          · rw [siftDown_func, if_neg hc1]
            simp only [if_neg hc2]
      obtain ⟨child, hch, hchi, hbig, hstep⟩ := hex
      rw [hstep]
      by_cases hl : less (elem d (first + root)) (elem d (first + child)) = true
      · rw [if_pos hl]
        have hsw : ∀ k, elem (Swap d (first + root) (first + child)) k =
            if k = first + child then elem d (first + root)
            else if k = first + root then elem d (first + child) else elem d k :=
          fun k => elem_Swap d (first + root) (first + child) k (by omega) (by omega)
        have hperm : PermOn first (first + hi) d (Swap d (first + root) (first + child)) :=
          PermOn_Swap first (first + hi) d _ _ (by omega) (by omega) (by omega) (by omega) hlen
        obtain ⟨r1, r2⟩ := ih child (Swap d (first + root) (first + child)) (by omega)
          (by omega) (by rw [length_Swap]; exact hlen)
          (by
            intro c h1 h2 h3 h4
            rw [hsw, hsw]
            by_cases hp : (c - 1) / 2 = root
            · rw [if_neg (by omega), if_pos (by rw [hp])]
              by_cases hcc : c = child
              · rw [if_pos (by rw [hcc])]
                exact hw.asymm hl
              · rw [if_neg (by omega), if_neg (by omega)]
                exact hbig c h1 h2 hp
            · rw [if_neg (by omega), if_neg (by omega)]
              by_cases hcr : c = root
              · rw [if_neg (by omega), if_pos (by rw [hcr])]
                have := hG child (by omega) hchi (by omega) (by omega) (by rw [← hcr]; exact h3)
                rw [hcr]
                exact this
              · rw [if_neg (by omega), if_neg (by omega)]
                exact hH c h1 h2 h3 hp)
          (by
            intro c h1 h2 h3 _ _
            rw [hsw, hsw]
            have hpr : (child - 1) / 2 = root := by omega
            rw [hpr, if_neg (by omega), if_pos rfl, if_neg (by omega), if_neg (by omega)]
            have := hH c h1 h2 (by omega) (by omega)
            rw [h3] at this
            exact this)
        exact ⟨r1, hperm.trans r2⟩
      · rw [if_neg hl]
        refine ⟨?_, PermOn.refl _ _ _⟩
        intro c h1 h2 h3 _
        by_cases hp : (c - 1) / 2 = root
        · have hl' : less (elem d (first + root)) (elem d (first + child)) = false := by
            cases h : less (elem d (first + root)) (elem d (first + child)) with
            | false => rfl
            | true => exact absurd h hl
          rw [hp]
          exact hw.negTrans _ _ _ hl' (hbig c h1 h2 hp)
        · exact hH c h1 h2 h3 hp

theorem heap_root_max {less : α → α → Bool} (hw : StrictWeak less) (first n : ℕ) (d : List α)
    (hH : HeapExcept less first 0 n n d) :
    ∀ k, k < n → less (elem d (first + 0)) (elem d (first + k)) = false := by
  intro k
  induction k using Nat.strong_induction_on with
  | _ k ih =>
    intro hk
    by_cases h0 : k = 0
    · subst h0
      exact hw.irrefl _
    · have h1 := ih ((k - 1) / 2) (by omega) (by omega)
      have h2 := hH k (by omega) hk (by omega) (by omega)
      exact hw.negTrans _ _ _ h1 h2

theorem heapBuild_spec {less : α → α → Bool} (hw : StrictWeak less) (first hi : ℕ) :
    ∀ (n : ℕ) (d : List α), first + hi ≤ d.length → HeapExcept less first n hi hi d →
      HeapExcept less first 0 hi hi
          ((List.range n).reverse.foldl (fun d i => siftDown_func less hi first hi i d) d) ∧
        PermOn first (first + hi) d
          ((List.range n).reverse.foldl (fun d i => siftDown_func less hi first hi i d) d) := by
  intro n
  induction n with
  | zero =>
    intro d _ hH
    simp only [List.range_zero, List.reverse_nil, List.foldl_nil]
    exact ⟨hH, PermOn.refl _ _ _⟩
  | succ n ih =>
    intro d hlen hH
    rw [List.range_succ, List.reverse_append, List.reverse_singleton, List.singleton_append,
      List.foldl_cons]
    obtain ⟨s1, s2⟩ := siftDown_func_spec hw first n hi hi n d (by omega) (le_refl _) hlen
      (by
        intro c h1 h2 h3 h4
        exact hH c h1 h2 (by omega) (by omega))
      (by intro c h1 h2 h3 h4 h5; omega)
    obtain ⟨r1, r2⟩ := ih _ (by rw [s2.length]; exact hlen) s1
    exact ⟨r1, s2.trans r2⟩

theorem heapPop_spec {less : α → α → Bool} (hw : StrictWeak less) (first hi : ℕ) :
    ∀ (n : ℕ) (d : List α), n ≤ hi → first + hi ≤ d.length →
      HeapExcept less first 0 n n d → SortedOn less (first + n) (first + hi) d →
      (∀ k m, k < n → n ≤ m → m < hi →
        less (elem d (first + m)) (elem d (first + k)) = false) →
      SortedOn less first (first + hi)
          ((List.range n).reverse.foldl
            (fun d i => siftDown_func less i first hi 0 (Swap d first (first + i))) d) ∧
        PermOn first (first + hi) d
          ((List.range n).reverse.foldl
            (fun d i => siftDown_func less i first hi 0 (Swap d first (first + i))) d) := by
  intro n
  induction n with
  | zero =>
    intro d _ _ _ hS _
    simp only [List.range_zero, List.reverse_nil, List.foldl_nil]
    exact ⟨by simpa using hS, PermOn.refl _ _ _⟩
  | succ n ih =>
    intro d hn hlen hH hS hB
    rw [List.range_succ, List.reverse_append, List.reverse_singleton, List.singleton_append,
      List.foldl_cons]
    have hmax := heap_root_max hw first (n + 1) d hH
    have hsw : ∀ k, elem (Swap d first (first + n)) k =
        if k = first + n then elem d first
        else if k = first then elem d (first + n) else elem d k :=
      fun k => elem_Swap d first (first + n) k (by omega) (by omega)
    have hp1 : PermOn first (first + hi) d (Swap d first (first + n)) :=
      PermOn_Swap first (first + hi) d _ _ (le_refl _) (by omega) (by omega) (by omega) hlen
    obtain ⟨s1, s2⟩ := siftDown_func_spec hw first 0 n hi 0 (Swap d first (first + n))
      (by omega) (le_refl _) (by rw [length_Swap]; omega)
      (by
        intro c h1 h2 h3 h4
        rw [hsw, hsw, if_neg (by omega), if_neg (by omega), if_neg (by omega), if_neg (by omega)]
        exact hH c h1 (by omega) h3 (by omega))
      (by intro c h1 h2 h3 h4 h5; omega)
    generalize hd2 : siftDown_func less n first hi 0 (Swap d first (first + n)) = d2 at *
    have hout : ∀ m, n ≤ m → elem d2 (first + m) = elem (Swap d first (first + n)) (first + m) :=
      fun m hm => s2.elem_out (first + m) (Or.inr (by omega))
    have hin : ∀ k, k < n → ∃ k', k' < n + 1 ∧ elem d2 (first + k) = elem d (first + k') := by
      intro k hk
      obtain ⟨m, hm1, hm2, hm3⟩ := s2.exists_in (first + k) (by omega) (by omega)
      rw [hm3, hsw, if_neg (by omega)]
      by_cases hmf : m = first
      · rw [if_pos hmf]
        exact ⟨n, by omega, rfl⟩
      · rw [if_neg hmf]
        exact ⟨m - first, by omega, by congr 1; omega⟩
    obtain ⟨r1, r2⟩ := ih d2 (by omega) (by rw [s2.length, length_Swap]; exact hlen) s1
      (by
        intro i j h1 h2 h3
        have ej : elem d2 j = elem d j := by
          have := hout (j - first) (by omega)
          rw [show first + (j - first) = j by omega] at this
          rw [this, hsw, if_neg (by omega), if_neg (by omega)]
        by_cases hin' : i = first + n
        · have ei : elem d2 i = elem d first := by
            have := hout n (le_refl _)
            rw [hin', this, hsw, if_pos rfl]
          rw [ej, ei]
          have := hB 0 (j - first) (by omega) (by omega) (by omega)
          rw [show first + (j - first) = j by omega] at this
          simpa using this
        · have ei : elem d2 i = elem d i := by
            have := hout (i - first) (by omega)
            rw [show first + (i - first) = i by omega] at this
            rw [this, hsw, if_neg (by omega), if_neg (by omega)]
          rw [ej, ei]
          exact hS i j (by omega) h2 h3)
      (by
        intro k m hk hm1 hm2
        obtain ⟨k', hk', he⟩ := hin k hk
        rw [he, hout m hm1, hsw]
        by_cases hmn : m = n
        · rw [if_pos (by rw [hmn])]
          have := hmax k' hk'
          simpa using this
        · rw [if_neg (by omega), if_neg (by omega)]
          exact hB k' m hk' (by omega) hm2)
    exact ⟨r1, (hp1.trans (s2.mono (le_refl _) (by omega))).trans r2⟩

theorem heapSort_func_spec {less : α → α → Bool} (hw : StrictWeak less) (d : List α)
    (a b : ℕ) (hab : a ≤ b) (hb : b ≤ d.length) :
    PermOn a b d (heapSort_func less d a b) ∧ SortedOn less a b (heapSort_func less d a b) := by
  unfold heapSort_func
  simp only []
  obtain ⟨b1, b2⟩ := heapBuild_spec hw a (b - a) ((b - a - 1) / 2 + 1) d (by omega)
    (by intro c h1 h2 h3 h4; omega)
  obtain ⟨p1, p2⟩ := heapPop_spec hw a (b - a) (b - a) _ (le_refl _)
    (by rw [b2.length]; omega) b1 (by intro i j h1 h2 h3; omega)
    (by intro k m h1 h2 h3; omega)
  have hab' : a + (b - a) = b := by omega
  rw [hab'] at b2 p1 p2
  exact ⟨b2.trans p2, p1⟩

/-! ### `pdqsort_func` -/

theorem LeftBound.shrink {less : α → α → Bool} {a b b' : ℕ} {d : List α}
    (h : LeftBound less a b d) (hb : b' ≤ b) : LeftBound less a b' d := by
  rcases h with h | h
  · exact Or.inl h
  · exact Or.inr (fun k h1 h2 => h k h1 (by omega))

/-- Two sorted halves around a pivot form a sorted range. -/
theorem SortedOn_of_partition {less : α → α → Bool} (hw : StrictWeak less) (a b mid : ℕ)
    (d : List α) (pv : α) (hmid : elem d mid = pv)
    (hL : ∀ k, a ≤ k → k < mid → less (elem d k) pv = true)
    (hR : ∀ k, mid < k → k < b → less (elem d k) pv = false)
    (hS1 : SortedOn less a mid d) (hS2 : SortedOn less (mid + 1) b d) :
    SortedOn less a b d := by
  intro i j hai hij hjb
  by_cases hj : j < mid
  · exact hS1 i j hai hij hj
  · by_cases hi : mid < i
    · exact hS2 i j (by omega) hij hjb
    · by_cases hjm : j = mid
      · rw [hjm, hmid]
        exact hw.asymm (hL i hai (by omega))
      · by_cases him : i = mid
        · rw [him, hmid]
          exact hR j (by omega) hjb
        · have h1 := hL i hai (by omega)
          have h2 := hR j (by omega) hjb
          cases h : less (elem d j) (elem d i) with
          | false => rfl
          | true =>
            have := hw.trans _ _ _ h h1
            rw [h2] at this
            exact absurd this (by simp)

/-- Elements equal to the pivot followed by a sorted range of greater ones
form a sorted range. -/
theorem SortedOn_of_partitionEqual {less : α → α → Bool} (hw : StrictWeak less)
    (a b mid : ℕ) (d : List α) (pv : α)
    (hGE : ∀ k, a ≤ k → k < b → less (elem d k) pv = false)
    (hL : ∀ k, a ≤ k → k < mid → less pv (elem d k) = false)
    (hR : ∀ k, mid ≤ k → k < b → less pv (elem d k) = true)
    (hS : SortedOn less mid b d) : SortedOn less a b d := by
  intro i j hai hij hjb
  by_cases hi : mid ≤ i
  · exact hS i j hi hij hjb
  · by_cases hj : j < mid
    · exact hw.negTrans _ _ _ (hGE j (by omega) hjb) (hL i hai (by omega))
    · have h1 := hL i hai (by omega)
      have h2 := hR j (by omega) hjb
      cases h : less (elem d j) (elem d i) with
      | false => rfl
      | true =>
        have := hw.trans _ _ _ h2 h
        rw [h1] at this
        exact absurd this (by simp)

theorem pdqsort_func_spec {less : α → α → Bool} (hw : StrictWeak less)
    (random : ℕ → ℕ → ℕ) :
    ∀ (steps : ℕ) (d : List α) (a b limit : ℕ) (wb wp : Bool), a ≤ b → b ≤ d.length →
      b - a < steps → LeftBound less a b d →
      PermOn a b d (pdqsort_func less random steps d a b limit wb wp) ∧
        SortedOn less a b (pdqsort_func less random steps d a b limit wb wp) := by
  intro steps
  induction steps with
  | zero => intro d a b limit wb wp _ _ h _; omega
  | succ steps ih =>
    intro d a b limit wb wp hab hb hst hlb
    rw [pdqsort_func]
    simp only []
    by_cases h12 : b - a ≤ 12
    · rw [if_pos h12]
      exact insertionSort_func_spec hw d a b hb
    rw [if_neg h12]
    by_cases hlim : limit = 0
    · rw [if_pos hlim]
      exact heapSort_func_spec hw d a b hab hb
    rw [if_neg hlim]
    have hp1 : PermOn a b d (if wb = false then breakPatterns_func random d a b else d) := by
      split_ifs
      · exact breakPatterns_func_perm random d a b hb
      · exact PermOn.refl _ _ _
    generalize (if wb = false then breakPatterns_func random d a b else d) = d1 at *
    generalize (if wb = false then limit - 1 else limit) = limit1 at *
    have hcr := choosePivot_func_range less d1 a b (by omega)
    generalize choosePivot_func less d1 a b = c at *
    have hp2 : PermOn a b d1
        (if c.2 = sortedHint.decreasingHint then reverseRange_func (b - a) d1 a (b - 1)
          else d1) := by
      split_ifs
      · exact reverseRange_func_perm a b (b - a) d1 a (b - 1) (le_refl _) (by omega)
          (by rw [hp1.length]; exact hb)
      · exact PermOn.refl _ _ _
    generalize (if c.2 = sortedHint.decreasingHint then reverseRange_func (b - a) d1 a (b - 1)
      else d1) = d2 at *
    have hpv : a ≤ (if c.2 = sortedHint.decreasingHint then b - 1 - (c.1 - a) else c.1) ∧
        (if c.2 = sortedHint.decreasingHint then b - 1 - (c.1 - a) else c.1) < b := by
      split_ifs <;> omega
    generalize (if c.2 = sortedHint.decreasingHint then b - 1 - (c.1 - a) else c.1) = pivot at *
    generalize (if c.2 = sortedHint.decreasingHint then sortedHint.increasingHint else c.2) =
      hint at *
    have hp12 : PermOn a b d d2 := hp1.trans hp2
    have hl2 : d2.length = d.length := hp12.length
    have hlb2 : LeftBound less a b d2 := hlb.of_perm hp12
    obtain ⟨hp3, hs3⟩ := partialInsertionSort_func_spec hw d2 a b (by omega) (by omega) hlb2
    generalize partialInsertionSort_func less d2 a b = p at *
    by_cases htry : (wb = true ∧ wp = true ∧ hint = sortedHint.increasingHint) ∧ p.2 = true
    · rw [if_pos htry]
      exact ⟨hp12.trans hp3, hs3 htry.2⟩
    rw [if_neg htry]
    have hp4 : PermOn a b d2
        (if wb = true ∧ wp = true ∧ hint = sortedHint.increasingHint then p.1 else d2) := by
      split_ifs
      · exact hp3
      · exact PermOn.refl _ _ _
    generalize (if wb = true ∧ wp = true ∧ hint = sortedHint.increasingHint then p.1 else d2) =
      d3 at *
    have hp13 : PermOn a b d d3 := hp12.trans hp4
    have hl3 : d3.length = d.length := hp13.length
    have hlb3 : LeftBound less a b d3 := hlb.of_perm hp13
    by_cases heq : a > 0 ∧ less (elem d3 (a - 1)) (elem d3 pivot) = false
    · rw [if_pos heq]
      obtain ⟨e1, e2, e3, e4, e5⟩ := partitionEqual_func_spec hw d3 a b pivot hpv.1 hpv.2
        (by omega)
      generalize partitionEqual_func less d3 a b pivot = e at *
      have hge3 : ∀ k, a ≤ k → k < b → less (elem d3 k) (elem d3 pivot) = false := by
        intro k h1 h2
        rcases hlb3 with h | h
        · omega
        · exact hw.negTrans _ _ _ (h k h1 h2) heq.2
      have hge : ∀ k, a ≤ k → k < b → less (elem e.1 k) (elem d3 pivot) = false :=
        e1.forall_in (fun x => less x (elem d3 pivot) = false) hge3
      have hlbe : LeftBound less e.2 b e.1 := by
        right
        intro k h1 h2
        have hx := e4 (e.2 - 1) (by omega) (by omega)
        have hk := e5 k h1 h2
        cases h : less (elem e.1 k) (elem e.1 (e.2 - 1)) with
        | false => rfl
        | true =>
          have := hw.trans _ _ _ hk h
          rw [hx] at this
          exact absurd this (by simp)
      obtain ⟨r1, r2⟩ := ih e.1 e.2 b limit1 wb wp e3 (by rw [e1.length]; omega) (by omega) hlbe
      generalize pdqsort_func less random steps e.1 e.2 b limit1 wb wp = res at *
      refine ⟨(hp13.trans e1).trans (r1.mono (by omega) (le_refl _)), ?_⟩
      apply SortedOn_of_partitionEqual hw a b e.2 res (elem d3 pivot)
      · exact (r1.mono (by omega) (le_refl _)).forall_in
          (fun x => less x (elem d3 pivot) = false) hge
      · intro k h1 h2
        rw [r1.elem_out k (Or.inl h2)]
        exact e4 k h1 h2
      · exact r1.forall_in (fun x => less (elem d3 pivot) x = true) e5
      · exact r2
    rw [if_neg heq]
    obtain ⟨q1, q2, q3, q4, q5, q6⟩ := partition_func_spec hw d3 a b pivot hpv.1 hpv.2 (by omega)
    generalize partition_func less d3 a b pivot = q at *
    have hlq : q.1.length = d.length := q1.length.trans hl3
    have hlbq : LeftBound less a b q.1 := hlb3.of_perm q1
    by_cases hlr : q.2.1 - a < b - q.2.1
    · rw [if_pos hlr]
      obtain ⟨l1, l2⟩ := ih q.1 a q.2.1 limit1 true true q2 (by omega) (by omega)
        (hlbq.shrink (by omega))
      generalize pdqsort_func less random steps q.1 a q.2.1 limit1 true true = A at *
      have hAmid : elem A q.2.1 = elem d3 pivot := by
        rw [l1.elem_out _ (Or.inr (le_refl _))]; exact q4
      have hAR : ∀ k, q.2.1 < k → k < b → less (elem A k) (elem d3 pivot) = false := by
        intro k h1 h2
        rw [l1.elem_out _ (Or.inr (by omega))]
        exact q6 k h1 h2
      have hlbA : LeftBound less (q.2.1 + 1) b A := by
        right
        intro k h1 h2
        have : q.2.1 + 1 - 1 = q.2.1 := by omega
        rw [this, hAmid]
        exact hAR k (by omega) h2
      obtain ⟨r1, r2⟩ := ih A (q.2.1 + 1) b limit1 (decide (q.2.1 - a ≥ (b - a) / 8)) q.2.2
        (by omega) (by rw [l1.length]; omega) (by omega) hlbA
      generalize pdqsort_func less random steps A (q.2.1 + 1) b limit1
        (decide (q.2.1 - a ≥ (b - a) / 8)) q.2.2 = res at *
      refine ⟨((hp13.trans q1).trans (l1.mono (le_refl _) (by omega))).trans
        (r1.mono (by omega) (le_refl _)), ?_⟩
      apply SortedOn_of_partition hw a b q.2.1 res (elem d3 pivot)
      · rw [r1.elem_out _ (Or.inl (by omega))]; exact hAmid
      · intro k h1 h2
        rw [r1.elem_out _ (Or.inl (by omega))]
        exact l1.forall_in (fun x => less x (elem d3 pivot) = true) q5 k h1 h2
      · intro k h1 h2
        exact r1.forall_in (fun x => less x (elem d3 pivot) = false)
          (fun k h1 h2 => hAR k (by omega) h2) k (by omega) h2
      · exact SortedOn_perm_out l2 r1 (Or.inl (by omega))
      · exact r2
    · rw [if_neg hlr]
      have hlbR : LeftBound less (q.2.1 + 1) b q.1 := by
        right
        intro k h1 h2
        have : q.2.1 + 1 - 1 = q.2.1 := by omega
        rw [this, q4]
        exact q6 k (by omega) h2
      obtain ⟨r1, r2⟩ := ih q.1 (q.2.1 + 1) b limit1 true true (by omega) (by omega)
        (by omega) hlbR
      generalize pdqsort_func less random steps q.1 (q.2.1 + 1) b limit1 true true = A at *
      have hAmid : elem A q.2.1 = elem d3 pivot := by
        rw [r1.elem_out _ (Or.inl (by omega))]; exact q4
      have hAL : ∀ k, a ≤ k → k < q.2.1 → less (elem A k) (elem d3 pivot) = true := by
        intro k h1 h2
        rw [r1.elem_out _ (Or.inl (by omega))]
        exact q5 k h1 h2
      have hlbA : LeftBound less a q.2.1 A :=
        (hlbq.of_perm (r1.mono (by omega) (le_refl _))).shrink (by omega)
      obtain ⟨l1, l2⟩ := ih A a q.2.1 limit1 (decide (b - q.2.1 ≥ (b - a) / 8)) q.2.2
        q2 (by rw [r1.length]; omega) (by omega) hlbA
      generalize pdqsort_func less random steps A a q.2.1 limit1
        (decide (b - q.2.1 ≥ (b - a) / 8)) q.2.2 = res at *
      refine ⟨((hp13.trans q1).trans (r1.mono (by omega) (le_refl _))).trans
        (l1.mono (le_refl _) (by omega)), ?_⟩
      apply SortedOn_of_partition hw a b q.2.1 res (elem d3 pivot)
      · rw [l1.elem_out _ (Or.inr (le_refl _))]; exact hAmid
      · exact l1.forall_in (fun x => less x (elem d3 pivot) = true) hAL
      · intro k h1 h2
        rw [l1.elem_out _ (Or.inr (by omega))]
        exact r1.forall_in (fun x => less x (elem d3 pivot) = false)
          (fun k h1 h2 => q6 k (by omega) h2) k (by omega) h2
      · exact l2
      · exact SortedOn_perm_out r2 l1 (Or.inr (by omega))

/-! ### `sort.Slice` -/

theorem Slice_spec {less : α → α → Bool} (hw : StrictWeak less) (random : ℕ → ℕ → ℕ)
    (x : List α) :
    PermOn 0 x.length x (Slice less random x) ∧ SortedOn less 0 x.length (Slice less random x) :=
  pdqsort_func_spec hw random (x.length + 1) x 0 x.length (bitsLen x.length) true true
    (Nat.zero_le _) (le_refl _) (by omega) (Or.inl rfl)

/-- The result of `sort.Slice` is a rearrangement of the slice. -/
theorem Slice_perm {less : α → α → Bool} (hw : StrictWeak less) (random : ℕ → ℕ → ℕ)
    (x : List α) : (Slice less random x).Perm x :=
  (Slice_spec hw random x).1.perm (le_refl _)

/-- In the result of `sort.Slice` no element is `less` than an earlier one. -/
theorem Slice_sorted {less : α → α → Bool} (hw : StrictWeak less) (random : ℕ → ℕ → ℕ)
    (x : List α) : (Slice less random x).Pairwise (fun p q => less q p = false) := by
  obtain ⟨h1, h2⟩ := Slice_spec hw random x
  rw [List.pairwise_iff_getElem]
  intro i j hi hj hij
  have := h2 i j (Nat.zero_le _) hij (by rw [← h1.length]; exact hj)
  rw [elem_of_lt _ i hi, elem_of_lt _ j hj] at this
  exact this

theorem pdqsort_func_short (less : α → α → Bool) (random : ℕ → ℕ → ℕ) (steps : ℕ)
    (d : List α) (a b limit : ℕ) (wb wp : Bool) (h : b - a ≤ 12) :
    pdqsort_func less random (steps + 1) d a b limit wb wp = insertionSort_func less d a b := by
  rw [pdqsort_func]
  simp only [if_pos h]

/-- A slice of at most 12 elements is sorted by insertion. -/
theorem Slice_short (less : α → α → Bool) (random : ℕ → ℕ → ℕ) (x : List α)
    (h : x.length ≤ 12) : Slice less random x = insertionSort_func less x 0 x.length := by
  unfold Slice
  exact pdqsort_func_short less random _ x 0 x.length _ true true (by omega)

/-! ### Insertion keeps the input order of ties -/

theorem Swap_adjacent (d : List α) (j : ℕ) (h : j + 1 < d.length) :
    Swap d (j + 1) j = d.take j ++ elem d (j + 1) :: elem d j :: d.drop (j + 2) := by
  apply List.ext_getElem
  · simp only [length_Swap, List.length_append, List.length_take, List.length_cons,
      List.length_drop]
    omega
  · intro n h1 h2
    rw [← elem_of_lt _ n h1, elem_Swap d (j + 1) j n h (by omega)]
    rw [length_Swap] at h1
    by_cases hn : n < j
    · rw [if_neg (by omega), if_neg (by omega), List.getElem_append_left (by simp; omega),
        List.getElem_take, elem_of_lt d n h1]
    · rw [List.getElem_append_right (by simp; omega)]
      have hlt : (d.take j).length = j := by simp; omega
      simp only [hlt]
      by_cases hn0 : n = j
      · subst hn0
        simp
      · rw [if_neg hn0]
        by_cases hn1 : n = j + 1
        · subst hn1
          simp
        · rw [if_neg hn1]
          have : n - j = (n - j - 2) + 2 := by omega
          rw [List.getElem_cons, dif_neg (by omega), List.getElem_cons, dif_neg (by omega)]
          rw [List.getElem_drop, elem_of_lt d n h1]
          congr 1
          omega

theorem self_adjacent (d : List α) (j : ℕ) (h : j + 1 < d.length) :
    d = d.take j ++ elem d j :: elem d (j + 1) :: d.drop (j + 2) := by
  apply List.ext_getElem
  · simp only [List.length_append, List.length_take, List.length_cons, List.length_drop]
    omega
  · intro n h1 h2
    by_cases hn : n < j
    · rw [List.getElem_append_left (by simp; omega), List.getElem_take]
    · rw [List.getElem_append_right (by simp; omega)]
      have hlt : (d.take j).length = j := by simp; omega
      simp only [hlt]
      by_cases hn0 : n = j
      · subst hn0
        simp [elem_of_lt d n h1]
      · by_cases hn1 : n = j + 1
        · subst hn1
          simp [elem_of_lt d (j + 1) h1]
        · rw [List.getElem_cons, dif_neg (by omega), List.getElem_cons, dif_neg (by omega)]
          rw [List.getElem_drop]
          congr 1
          omega

theorem filter_Swap_adjacent (p : α → Bool) (d : List α) (j : ℕ) (h : j + 1 < d.length)
    (hp : ¬ (p (elem d (j + 1)) = true ∧ p (elem d j) = true)) :
    (Swap d (j + 1) j).filter p = d.filter p := by
  rw [Swap_adjacent d j h]
  conv_rhs => rw [self_adjacent d j h]
  simp only [List.filter_append, List.filter_cons]
  cases h1 : p (elem d (j + 1)) <;> cases h2 : p (elem d j) <;> simp_all

theorem insertionInner_filter (less : α → α → Bool) (p : α → Bool)
    (hcompat : ∀ x y, less x y = true → ¬ (p x = true ∧ p y = true)) (a : ℕ) :
    ∀ (j : ℕ) (d : List α), j < d.length → (insertionInner less a j d).filter p = d.filter p := by
  intro j
  induction j with
  | zero => intro d _; rfl
  | succ j ih =>
    intro d hj
    by_cases hc : j + 1 > a ∧ less (elem d (j + 1)) (elem d j) = true
    · rw [insertionInner, if_pos hc, ih _ (by rw [length_Swap]; omega)]
      exact filter_Swap_adjacent p d j hj (hcompat _ _ hc.2)
    · rw [insertionInner, if_neg hc]

theorem insertionSort_func_filter (less : α → α → Bool) (p : α → Bool)
    (hcompat : ∀ x y, less x y = true → ¬ (p x = true ∧ p y = true)) (d : List α) (a b : ℕ)
    (hb : b ≤ d.length) : (insertionSort_func less d a b).filter p = d.filter p := by
  unfold insertionSort_func
  have key : ∀ (n i : ℕ) (e : List α), i + n ≤ e.length →
      ((List.range' i n).foldl (fun d i => insertionInner less a i d) e).filter p =
        e.filter p := by
    intro n
    induction n with
    | zero => intro i e _; rfl
    | succ n ih =>
      intro i e h
      rw [List.range'_succ, List.foldl_cons]
      have h1 := insertionInner_filter less p hcompat a i e (by omega)
      have hl : (insertionInner less a i e).length = e.length := by
        have hsw : ∀ (j : ℕ) (e : List α), (insertionInner less a j e).length = e.length := by
          intro j
          induction j with
          | zero => intro e; rfl
          | succ j ihj =>
            intro e
            rw [insertionInner]
            split_ifs
            · rw [ihj, length_Swap]
            · rfl
        exact hsw i e
      rw [ih (i + 1) _ (by rw [hl]; omega), h1]
  by_cases hab : a + 1 ≤ b
  · exact key _ _ d (by omega)
  · have : b - (a + 1) = 0 := by omega
    rw [this]
    rfl

/-- On a slice of at most 12 elements `sort.Slice` keeps the input order of
the elements that satisfy `p`, when no two of them are `less` than one
another. -/
theorem Slice_short_filter (less : α → α → Bool) (random : ℕ → ℕ → ℕ) (p : α → Bool)
    (hcompat : ∀ x y, less x y = true → ¬ (p x = true ∧ p y = true)) (x : List α)
    (h : x.length ≤ 12) : (Slice less random x).filter p = x.filter p := by
  rw [Slice_short less random x h]
  exact insertionSort_func_filter less p hcompat x 0 x.length (le_refl _)

end sort

/-! ## Chronological normalization (C14) -/

/-- The comparison of `DateTime`s is a strict weak order. -/
theorem lessByDateTime_strictWeak : sort.StrictWeak lessByDateTime where
  irrefl := fun a => by simp [lessByDateTime]
  trans := fun a b c h1 h2 => by
    simp only [lessByDateTime, decide_eq_true_eq] at *
    exact lt_trans h1 h2
  negTrans := fun a b c h1 h2 => by
    simp only [lessByDateTime, decide_eq_false_iff_not, not_lt] at *
    exact le_trans h2 h1

/-- The sort of the two entry points meets the contract `SortsByDateTime`,
whatever `breakPatterns_func` draws. -/
theorem sortByDateTime_sorts (random : ℕ → ℕ → ℕ) : SortsByDateTime (sortByDateTime random) := by
  intro l
  refine ⟨sort.Slice_perm lessByDateTime_strictWeak random l, ?_⟩
  refine (sort.Slice_sorted lessByDateTime_strictWeak random l).imp ?_
  intro a b h
  simpa [lessByDateTime] using h

/-- On at most 12 trades the sort keeps the input order of the trades of one
`DateTime`. -/
theorem sortByDateTime_filter_short (random : ℕ → ℕ → ℕ) (l : List Trade) (h : l.length ≤ 12)
    (dt : String) :
    (sortByDateTime random l).filter (fun t => t.DateTime = dt) =
      l.filter (fun t => t.DateTime = dt) := by
  apply sort.Slice_short_filter lessByDateTime random _ _ l h
  intro x y hxy hp
  simp only [lessByDateTime, decide_eq_true_eq] at hxy hp
  rw [hp.1, hp.2] at hxy
  exact lt_irrefl _ hxy

/-- Two slices in `DateTime` order that hold, for every `DateTime`, the same
trades in the same order are equal. -/
theorem eq_of_sorted_of_filter_eq :
    ∀ l₁ l₂ : List Trade, l₁.Pairwise (fun a b => a.DateTime ≤ b.DateTime) →
      l₂.Pairwise (fun a b => a.DateTime ≤ b.DateTime) →
      (∀ dt : String, l₁.filter (fun t => t.DateTime = dt) =
        l₂.filter (fun t => t.DateTime = dt)) → l₁ = l₂ := by
  intro l₁
  induction l₁ with
  | nil =>
    intro l₂ _ _ h
    cases l₂ with
    | nil => rfl
    | cons b r₂ =>
      have := h b.DateTime
      simp at this
  | cons a r₁ ih =>
    intro l₂ h₁ h₂ h
    cases l₂ with
    | nil =>
      have := h a.DateTime
      simp at this
    | cons b r₂ =>
      rw [List.pairwise_cons] at h₁ h₂
      have ha : a ∈ (b :: r₂).filter (fun t => t.DateTime = a.DateTime) := by
        rw [← h a.DateTime]; simp
      have hb : b ∈ (a :: r₁).filter (fun t => t.DateTime = b.DateTime) := by
        rw [h b.DateTime]; simp
      have ha' : a ∈ b :: r₂ := (List.mem_filter.mp ha).1
      have hb' : b ∈ a :: r₁ := (List.mem_filter.mp hb).1
      have hab : a.DateTime ≤ b.DateTime := by
        rcases List.mem_cons.mp hb' with e | e
        · rw [e]
        · exact h₁.1 b e
      have hba : b.DateTime ≤ a.DateTime := by
        rcases List.mem_cons.mp ha' with e | e
        · rw [e]
        · exact h₂.1 a e
      have hdt : a.DateTime = b.DateTime := le_antisymm hab hba
      have h0 := h a.DateTime
      rw [List.filter_cons_of_pos (by simp), List.filter_cons_of_pos (by simp [hdt])] at h0
      have hab' : a = b := (List.cons.inj h0).1
      subst hab'
      congr 1
      apply ih r₂ h₁.2 h₂.2
      intro dt
      have hd := h dt
      by_cases hc : a.DateTime = dt
      · rw [List.filter_cons_of_pos (by simp [hc]), List.filter_cons_of_pos (by simp [hc])] at hd
        exact (List.cons.inj hd).2
      · rw [List.filter_cons_of_neg (by simp [hc]), List.filter_cons_of_neg (by simp [hc])] at hd
        exact hd

theorem filter_orderedInsert_byDateTime (dt : String) (a : Trade) :
    ∀ l : List Trade,
      (l.orderedInsert (fun a b => ¬ b.DateTime < a.DateTime) a).filter
          (fun t => t.DateTime = dt) =
        (a :: l).filter (fun t => t.DateTime = dt) := by
  intro l
  induction l with
  | nil => simp
  | cons b l ih =>
    rw [List.orderedInsert]
    by_cases hlt : b.DateTime < a.DateTime
    · rw [if_neg (not_not.mpr hlt), List.filter_cons, ih]
      by_cases hb : b.DateTime = dt
      · have ha : ¬ a.DateTime = dt := fun h => by rw [h, hb] at hlt; exact lt_irrefl _ hlt
        simp [List.filter_cons, hb, ha]
      · simp [List.filter_cons, hb]
    · rw [if_pos hlt]

/-- The stable sort keeps the input order of the trades of one `DateTime`. -/
theorem insertionSortByDateTime_filter (dt : String) (l : List Trade) :
    (insertionSortByDateTime l).filter (fun t => t.DateTime = dt) =
      l.filter (fun t => t.DateTime = dt) := by
  unfold insertionSortByDateTime
  induction l with
  | nil => rfl
  | cons a l ih =>
    rw [List.insertionSort, filter_orderedInsert_byDateTime, List.filter_cons, List.filter_cons, ih]

theorem SortsByDateTime.pairwise_le {sortSlice : List Trade → List Trade}
    (hsort : SortsByDateTime sortSlice) (l : List Trade) :
    (sortSlice l).Pairwise (fun a b => a.DateTime ≤ b.DateTime) :=
  (hsort l).2.imp (fun h => not_lt.mp h)

/-- A sort within the contract that keeps the input order of the trades of
each `DateTime` is the stable sort. -/
theorem sortSlice_eq_insertionSort_of_filter (sortSlice : List Trade → List Trade)
    (hsort : SortsByDateTime sortSlice) (l : List Trade)
    (h : ∀ dt : String, (sortSlice l).filter (fun t => t.DateTime = dt) =
      l.filter (fun t => t.DateTime = dt)) :
    sortSlice l = insertionSortByDateTime l := by
  apply eq_of_sorted_of_filter_eq _ _ (hsort.pairwise_le l)
    (insertionSortByDateTime_sorts.pairwise_le l)
  intro dt
  rw [h dt, insertionSortByDateTime_filter]

/-- With pairwise distinct `DateTime`s every sort within the contract is the
stable sort. -/
theorem sortSlice_eq_insertionSort_of_nodup (sortSlice : List Trade → List Trade)
    (hsort : SortsByDateTime sortSlice) (l : List Trade)
    (hnd : (l.map Trade.DateTime).Nodup) : sortSlice l = insertionSortByDateTime l := by
  obtain ⟨hp, hs⟩ := insertionSortByDateTime_sorts l
  apply sortSlice_eq_of_increasing sortSlice hsort _ l _ hp.symm
  have hnd' : ((insertionSortByDateTime l).map Trade.DateTime).Nodup :=
    (hp.map _).nodup_iff.mpr hnd
  rw [List.Nodup, List.pairwise_map] at hnd'
  exact (hs.and hnd').imp (fun h => lt_of_le_of_ne (not_lt.mp h.1) h.2)

/-- On at most 12 trades, or on trades of pairwise distinct `DateTime`s,
`sort.Slice` keeps the input order of the trades of each `DateTime`. -/
theorem sortByDateTime_filter (random : ℕ → ℕ → ℕ) (l : List Trade)
    (h : l.length ≤ 12 ∨ (l.map Trade.DateTime).Nodup) (dt : String) :
    (sortByDateTime random l).filter (fun t => t.DateTime = dt) =
      l.filter (fun t => t.DateTime = dt) := by
  rcases h with h | h
  · exact sortByDateTime_filter_short random l h dt
  · rw [sortSlice_eq_insertionSort_of_nodup _ (sortByDateTime_sorts random) l h,
      insertionSortByDateTime_filter]

/-- On at most 12 trades, or on trades of pairwise distinct `DateTime`s,
`sort.Slice` is the stable sort. -/
theorem sortByDateTime_eq_insertionSort (random : ℕ → ℕ → ℕ) (l : List Trade)
    (h : l.length ≤ 12 ∨ (l.map Trade.DateTime).Nodup) :
    sortByDateTime random l = insertionSortByDateTime l :=
  sortSlice_eq_insertionSort_of_filter _ (sortByDateTime_sorts random) l
    (sortByDateTime_filter random l h)

theorem choosePivot_exTieThirteen :
    sort.choosePivot_func lessByDateTime exTieThirteen 0 13 =
      (6, sort.sortedHint.increasingHint) := by decide!

theorem partialInsertionSort_exTieThirteen :
    sort.partialInsertionSort_func lessByDateTime exTieThirteen 0 13 =
      (exTieThirteen, false) := by decide!

theorem partition_exTieThirteen :
    sort.partition_func lessByDateTime exTieThirteen 0 13 6 =
      ([exTieBuyB, exTieBuyA, exTieOther, exTieOther, exTieOther, exTieOther, exTieSell,
        exTieOther, exTieOther, exTieOther, exTieOther, exTieOther, exTieOther], 0, true) := by
  decide!

theorem insertionSort_exTieThirteen :
    sort.insertionSort_func lessByDateTime
      (sort.insertionSort_func lessByDateTime
        [exTieBuyB, exTieBuyA, exTieOther, exTieOther, exTieOther, exTieOther, exTieSell,
        exTieOther, exTieOther, exTieOther, exTieOther, exTieOther, exTieOther] 0 0) 1 13 =
      [exTieBuyB, exTieBuyA, exTieOther, exTieOther, exTieOther, exTieOther,
        exTieOther, exTieOther, exTieOther, exTieOther, exTieOther, exTieOther, exTieSell] := by
  decide!

/-- The sort of the thirteen trades, whatever `breakPatterns_func` draws: the
pivot `exTieBuyB` is swapped to the front, ahead of `exTieBuyA`. -/
theorem sortByDateTime_exTieThirteen (random : ℕ → ℕ → ℕ) :
    sortByDateTime random exTieThirteen =
      [exTieBuyB, exTieBuyA, exTieOther, exTieOther, exTieOther, exTieOther,
        exTieOther, exTieOther, exTieOther, exTieOther, exTieOther, exTieOther, exTieSell] := by
  have hl : sort.bitsLen 13 = 4 := by decide
  show sort.pdqsort_func lessByDateTime random (13 + 1) exTieThirteen 0 13 (sort.bitsLen 13)
    true true = _
  rw [sort.pdqsort_func, hl]
  simp only [show ¬ (13 - 0 ≤ 12) by decide, show ¬ (4 = 0) by decide, if_false,
    Bool.true_eq_false, choosePivot_exTieThirteen,
    show ¬ (sort.sortedHint.increasingHint = sort.sortedHint.decreasingHint) by decide,
    partialInsertionSort_exTieThirteen, Bool.false_eq_true, and_false, true_and, and_true, if_true,
    show ¬ (0 > 0) by decide, false_and, partition_exTieThirteen,
    show (0 - 0 < 13 - 0) by decide]
  rw [sort.pdqsort_func_short lessByDateTime random 12 _ 0 0 4 true true (by decide),
    sort.pdqsort_func_short lessByDateTime random 12 _ (0 + 1) 13 4 _ true (by decide)]
  exact insertionSort_exTieThirteen

/-- C14 (as stated, refuted): on thirteen trades, twelve of them at one
`DateTime`, `sort.Slice` moves the seventh trade of the input (`exTieBuyB`,
the pivot of the first partition) ahead of the second (`exTieBuyA`), so the
trades of that `DateTime` are not processed in their input order. -/
theorem chronological_order_counterexample :
    exTieThirteen.length = 13 ∧ exTieBuyA.DateTime = exTieBuyB.DateTime ∧
      exTieThirteen.filter (fun t => decide (t = exTieBuyA ∨ t = exTieBuyB)) =
        [exTieBuyA, exTieBuyB] ∧
      (∀ random : ℕ → ℕ → ℕ, sortByDateTime random exTieThirteen =
        [exTieBuyB, exTieBuyA, exTieOther, exTieOther, exTieOther, exTieOther,
          exTieOther, exTieOther, exTieOther, exTieOther, exTieOther, exTieOther, exTieSell]) ∧
      (∀ random : ℕ → ℕ → ℕ,
        (sortByDateTime random exTieThirteen).filter
            (fun t => decide (t = exTieBuyA ∨ t = exTieBuyB)) =
          [exTieBuyB, exTieBuyA]) ∧
      ∀ random : ℕ → ℕ → ℕ,
        (sortByDateTime random exTieThirteen).filter
            (fun t => t.DateTime = "20240102;093000") ≠
          exTieThirteen.filter (fun t => t.DateTime = "20240102;093000") := by
  refine ⟨rfl, rfl, by decide, sortByDateTime_exTieThirteen, ?_, ?_⟩
  · intro random
    rw [sortByDateTime_exTieThirteen]
    decide
  · intro random
    rw [sortByDateTime_exTieThirteen]
    decide

/-- C14 (as amended): the trades that `computeFIFOPnL` and
`computeCostBasisFromTrades` process, in the order in which they process them,
are a rearrangement of the input trades, none altered, with non-decreasing
`DateTime`; when the input has at most 12 trades, or its `DateTime`s are
pairwise distinct, the trades of each `DateTime` keep their input order and
the order is the one of the stable sort. -/
theorem chronological_order (random : ℕ → ℕ → ℕ) (trades : List Trade)
    (statements : List FlexStatement) :
    (computeFIFOPnL (sortByDateTime random) trades =
          ((sortByDateTime random trades).foldl stepFIFO State.init).pnl ∧
        (sortByDateTime random trades).Perm trades ∧
        (sortByDateTime random trades).Pairwise (fun a b => a.DateTime ≤ b.DateTime) ∧
        (trades.length ≤ 12 ∨ (trades.map Trade.DateTime).Nodup →
          (∀ dt : String, (sortByDateTime random trades).filter (fun t => t.DateTime = dt) =
            trades.filter (fun t => t.DateTime = dt)) ∧
          sortByDateTime random trades = insertionSortByDateTime trades)) ∧
      (computeCostBasisFromTrades (sortByDateTime random) statements =
          costBasisResult
            ((sortByDateTime random (allTrades statements)).foldl stepCostBasis []) ∧
        (sortByDateTime random (allTrades statements)).Perm
          ((statements.map FlexStatement.Trades).flatten) ∧
        (sortByDateTime random (allTrades statements)).Pairwise
          (fun a b => a.DateTime ≤ b.DateTime) ∧
        ((allTrades statements).length ≤ 12 ∨
            ((allTrades statements).map Trade.DateTime).Nodup →
          (∀ dt : String,
            (sortByDateTime random (allTrades statements)).filter (fun t => t.DateTime = dt) =
              (allTrades statements).filter (fun t => t.DateTime = dt)) ∧
          sortByDateTime random (allTrades statements) =
            insertionSortByDateTime (allTrades statements))) := by
  have hsort := sortByDateTime_sorts random
  refine ⟨⟨rfl, (hsort trades).1, hsort.pairwise_le trades, fun h =>
      ⟨sortByDateTime_filter random trades h, sortByDateTime_eq_insertionSort random trades h⟩⟩,
    ⟨rfl, ?_, hsort.pairwise_le _, fun h =>
      ⟨sortByDateTime_filter random _ h, sortByDateTime_eq_insertionSort random _ h⟩⟩⟩
  rw [← allTrades_eq]
  exact (hsort _).1

/-- C14 (as amended) on an example: two trades given in the reverse of their
`DateTime` order are processed in the order of the stable sort. -/
theorem chronological_order_witness :
    [exLongSell, exLongBuy].length ≤ 12 ∧
      (sortByDateTime (fun _ _ => 0) [exLongSell, exLongBuy]).Perm [exLongSell, exLongBuy] ∧
      (sortByDateTime (fun _ _ => 0) [exLongSell, exLongBuy]).Pairwise
        (fun a b => a.DateTime ≤ b.DateTime) ∧
      (∀ dt : String,
        (sortByDateTime (fun _ _ => 0) [exLongSell, exLongBuy]).filter
            (fun t => t.DateTime = dt) =
          [exLongSell, exLongBuy].filter (fun t => t.DateTime = dt)) ∧
      sortByDateTime (fun _ _ => 0) [exLongSell, exLongBuy] =
        insertionSortByDateTime [exLongSell, exLongBuy] ∧
      sortByDateTime (fun _ _ => 0) [exLongSell, exLongBuy] = [exLongBuy, exLongSell] := by
  have h := chronological_order (fun _ _ => 0) [exLongSell, exLongBuy] []
  have hlen : [exLongSell, exLongBuy].length ≤ 12 := by decide
  exact ⟨hlen, h.1.2.1, h.1.2.2.1, (h.1.2.2.2 (Or.inl hlen)).1, (h.1.2.2.2 (Or.inl hlen)).2,
    by decide!⟩

/-! ## Symbol independence (C15) -/

/-- The trades of one symbol, sorted alone, come in the order they have in
the sort of the whole list, when the list has at most 12 trades or the trades
of the symbol have pairwise distinct `DateTime`s. -/
theorem sortByDateTime_filter_symbol (random : ℕ → ℕ → ℕ) (trades : List Trade) (sym : String)
    (hd : trades.length ≤ 12 ∨
      ((trades.filter (fun t => t.Symbol = sym)).map Trade.DateTime).Nodup) :
    sortByDateTime random (trades.filter (fun t => t.Symbol = sym)) =
      (sortByDateTime random trades).filter (fun t => t.Symbol = sym) := by
  rcases hd with hd | hd
  · have hsort := sortByDateTime_sorts random
    apply eq_of_sorted_of_filter_eq _ _ (hsort.pairwise_le _)
      ((hsort.pairwise_le trades).sublist (List.filter_sublist _))
    intro dt
    have hlen : (trades.filter (fun t => t.Symbol = sym)).length ≤ 12 :=
      le_trans (List.length_filter_le _ _) hd
    rw [sortByDateTime_filter_short random _ hlen dt,
      List.filter_comm _ _ (sortByDateTime random trades),
      sortByDateTime_filter_short random trades hd dt, List.filter_comm]
  · exact sortSlice_filter _ (sortByDateTime_sorts random) trades sym hd

/-- C15 (as stated, refuted): on the thirteen trades of `exTieThirteen` the
realized P&L of `ACME` is 30, and on the three trades of `ACME` alone it is 50:
the sort of the whole list puts the purchase at 12 ahead of the purchase at
10, the sort of the three trades keeps their input order. -/
theorem symbol_independence_counterexample :
    exTieThirteen.filter (fun t => t.Symbol = "ACME") = [exTieSell, exTieBuyA, exTieBuyB] ∧
      (∀ random : ℕ → ℕ → ℕ,
        mapGet? (computeFIFOPnL (sortByDateTime random) exTieThirteen) "ACME" = some 30) ∧
      ∀ random : ℕ → ℕ → ℕ,
        mapGet? (computeFIFOPnL (sortByDateTime random)
          (exTieThirteen.filter (fun t => t.Symbol = "ACME"))) "ACME" = some 50 := by
  have hf : exTieThirteen.filter (fun t => t.Symbol = "ACME") =
      [exTieSell, exTieBuyA, exTieBuyB] := by decide
  refine ⟨hf, ?_, ?_⟩
  · intro random
    have hs : ([exTieBuyB, exTieBuyA, exTieOther, exTieOther, exTieOther, exTieOther,
        exTieOther, exTieOther, exTieOther, exTieOther, exTieOther, exTieOther,
        exTieSell].filter (fun t => t.Symbol = "ACME")) = [exTieBuyB, exTieBuyA, exTieSell] := by
      decide
    rw [computeFIFOPnL, sortByDateTime_exTieThirteen, (runFIFO_filter "ACME" _).2, hs,
      runFIFO_two_buys_sell exTieBuyB exTieBuyA exTieSell 10 10 10 (by norm_num [eps])
        (by norm_num) (by norm_num [eps]) rfl rfl (by decide) (by decide) (by decide)
        rfl rfl rfl]
    norm_num [mapGet?, exTieBuyB, exTieSell, netCash]
  · intro random
    have hs : sortByDateTime random [exTieSell, exTieBuyA, exTieBuyB] =
        [exTieBuyA, exTieBuyB, exTieSell] := by
      rw [sortByDateTime_eq_insertionSort random _ (Or.inl (by decide))]
      decide!
    rw [hf, computeFIFOPnL, hs,
      runFIFO_two_buys_sell exTieBuyA exTieBuyB exTieSell 10 10 10 (by norm_num [eps])
        (by norm_num) (by norm_num [eps]) rfl rfl (by decide) (by decide) (by decide)
        rfl rfl rfl]
    norm_num [mapGet?, exTieBuyA, exTieSell, netCash]

/-- C15 (as amended): for every trade list of at most 12 trades, and for every
trade list and symbol `sym` whose trades have pairwise distinct `DateTime`s,
the realized P&L entry that `computeFIFOPnL` returns for `sym` on the whole
list is the one it returns when given only the trades of `sym`; and in every
processing order the trades of other symbols never affect the ledger or the
P&L of `sym`. -/
theorem symbol_independence (random : ℕ → ℕ → ℕ) (trades : List Trade) (sym : String)
    (hd : trades.length ≤ 12 ∨
      ((trades.filter (fun t => t.Symbol = sym)).map Trade.DateTime).Nodup) :
    mapGet? (computeFIFOPnL (sortByDateTime random) trades) sym =
        mapGet? (computeFIFOPnL (sortByDateTime random)
          (trades.filter (fun t => t.Symbol = sym))) sym ∧
      ∀ processed : List Trade,
        lotsOf (runFIFO processed).openLots sym =
            lotsOf (runFIFO (processed.filter (fun t => t.Symbol = sym))).openLots sym ∧
          mapGet? (runFIFO processed).pnl sym =
            mapGet? (runFIFO (processed.filter (fun t => t.Symbol = sym))).pnl sym := by
  refine ⟨?_, fun processed => runFIFO_filter sym processed⟩
  unfold computeFIFOPnL
  rw [(runFIFO_filter sym (sortByDateTime random trades)).2,
    sortByDateTime_filter_symbol random trades sym hd]

/-- C15 (as amended) on an example: two purchases of `ACME` at one `DateTime`
with a trade of another symbol between them, then the sale; the P&L of `ACME`
is 50 on the four trades and on the three trades of `ACME` alone. -/
theorem symbol_independence_witness :
    [exTieBuyA, exTieOther, exTieBuyB, exTieSell].length ≤ 12 ∧
      mapGet? (computeFIFOPnL (sortByDateTime (fun _ _ => 0))
          [exTieBuyA, exTieOther, exTieBuyB, exTieSell]) "ACME" =
        mapGet? (computeFIFOPnL (sortByDateTime (fun _ _ => 0))
          ([exTieBuyA, exTieOther, exTieBuyB, exTieSell].filter
            (fun t => t.Symbol = "ACME"))) "ACME" ∧
      mapGet? (computeFIFOPnL (sortByDateTime (fun _ _ => 0))
          ([exTieBuyA, exTieOther, exTieBuyB, exTieSell].filter
            (fun t => t.Symbol = "ACME"))) "ACME" = some 50 := by
  have hlen : [exTieBuyA, exTieOther, exTieBuyB, exTieSell].length ≤ 12 := by decide
  refine ⟨hlen,
    (symbol_independence (fun _ _ => 0) [exTieBuyA, exTieOther, exTieBuyB, exTieSell] "ACME"
      (Or.inl hlen)).1, ?_⟩
  have hf : [exTieBuyA, exTieOther, exTieBuyB, exTieSell].filter (fun t => t.Symbol = "ACME") =
      [exTieBuyA, exTieBuyB, exTieSell] := by decide
  have hs : sortByDateTime (fun _ _ => 0) [exTieBuyA, exTieBuyB, exTieSell] =
      [exTieBuyA, exTieBuyB, exTieSell] := by decide!
  rw [hf, computeFIFOPnL, hs,
    runFIFO_two_buys_sell exTieBuyA exTieBuyB exTieSell 10 10 10 (by norm_num [eps])
      (by norm_num) (by norm_num [eps]) rfl rfl (by decide) (by decide) (by decide)
      rfl rfl rfl]
  norm_num [mapGet?, exTieBuyA, exTieSell, netCash]

end analysis
